import Mathlib

/-!
# types_splitter_plugin: span extraction, bracket scanning, routing and moves

A shallow embedding of `types.go`, `config.go`, and of the moves of
`types_splitter_plugin.go` with the buffers of `sources.go`.

* A Go `string` is a sequence of bytes; it is embedded as `List Char`, one
  `Char` per byte, and a Go `rune` as a `Char`.
* A Go `int` is embedded as `Int` (offsets never come near the 64-bit bounds,
  being bounded by the length of a string held in memory).
* A function that can hit a run-time panic (index or slice out of range)
  returns `Option`; `none` is the panic.  Loops are driven by a fuel argument
  which the callers set to the length of the text plus one; the `_isSome` and
  `_spec` theorems show that this fuel is never exhausted.
* The regular expressions of `removeExtraLines` are embedded as scans that
  follow the leftmost, greedy, non-overlapping matches of the Go standard
  library's `regexp`.
* The plugin works on shared objects through pointers; its state keeps each
  kind of object in a list and a pointer is an index into the list.
-/

set_option linter.dupNamespace false

namespace TypesSplitter

/-! ## Definitions -/

/-! ### `types.go` -/

/-- A Go string: its bytes in order. -/
abbrev GoString := List Char

/-- The double-quote character. -/
def dquote : Char := Char.ofNat 34

/-- The single-quote character. -/
def squote : Char := Char.ofNat 39

/-- The backslash character. -/
def backslash : Char := Char.ofNat 92

/-- The newline character. -/
def newline : Char := Char.ofNat 10

/-- The tab character. -/
def tab : Char := Char.ofNat 9

/-- The space character. -/
def space : Char := Char.ofNat 32

/-- The three-byte doc-comment delimiter. -/
def tripleQuote : GoString := [dquote, dquote, dquote]

/-- Go `len(s)`. -/
def len (s : GoString) : Int := (s.length : Int)

/-- Go `s[i]`: `none` when the index is out of range. -/
def byteAt (s : GoString) (i : Int) : Option Char :=
  if 0 ≤ i then s[i.toNat]? else none

/-- Go `s[a:b]`: `none` when the bounds are out of range. -/
def slice (s : GoString) (a b : Int) : Option GoString :=
  if 0 ≤ a ∧ a ≤ b ∧ b ≤ len s then some ((s.drop a.toNat).take (b - a).toNat) else none

/-- The expression `len(input) >= i+3 && input[i:i+3] == tripleQuote`. -/
def tripleAt (input : GoString) (i : Int) : Option Bool :=
  if len input ≥ i + 3 then
    match slice input i (i + 3) with
    | none => none
    | some s => some (s == tripleQuote)
  else some false

def OpenParen : Char := '('

def CloseParen : Char := ')'

def OpenBrace : Char := '{'

def CloseBrace : Char := '}'

def OpenSqBracket : Char := '['

def CloseSqBracket : Char := ']'

/-- Source `closingBracket`: the closing partner of a bracket, rune 0 otherwise. -/
def closingBracket (bracket : Char) : Char :=
  if bracket = OpenParen then CloseParen
  else if bracket = OpenBrace then CloseBrace
  else if bracket = OpenSqBracket then CloseSqBracket
  else Char.ofNat 0

/-- The condition of the first `if` in the loop of `findClosingBracket`:
`inComment && len(input) >= i+3 && input[i:i+3] != tripleQuote ||
 inQuote && rune(input[i]) != quote && rune(input[i-1]) != backslash`,
evaluated left to right with short-circuiting. -/
def skipCond (input : GoString) (i : Int) (inQuote : Bool) (quote : Char)
    (inComment : Bool) : Option Bool :=
  let second : Option Bool :=
    if inQuote then
      match byteAt input i with
      | none => none
      | some c =>
        if c ≠ quote then
          match byteAt input (i - 1) with
          | none => none
          | some p => some (decide (p ≠ backslash))
        else some false
    else some false
  if inComment ∧ len input ≥ i + 3 then
    match slice input i (i + 3) with
    | none => none
    | some s => if s ≠ tripleQuote then some true else second
  else second

/-- The loop of `findClosingBracket`, one iteration per unit of fuel. The
arguments after the fuel are the loop variables `i`, `brackets`, `inQuote`,
`quote`, `inComment`. -/
def findClosingBracketLoop (openBracket closeBracket : Char) (input : GoString) :
    Nat → Int → Int → Bool → Char → Bool → Option (Int × Bool)
  | 0, _, _, _, _, _ => none
  | fuel + 1, i, brackets, inQuote, quote, inComment =>
    if i < len input then
      match skipCond input i inQuote quote inComment with
      | none => none
      | some true =>
        findClosingBracketLoop openBracket closeBracket input fuel (i + 1) brackets inQuote quote inComment
      | some false =>
        match tripleAt input i with
        | none => none
        | some true =>
          findClosingBracketLoop openBracket closeBracket input fuel (i + 2 + 1) brackets inQuote quote
            (!inComment)
        | some false =>
          match byteAt input i with
          | none => none
          | some c =>
            if c = closeBracket ∧ inQuote = false ∧ inComment = false then
              if brackets = 0 then some (i, true)
              else
                findClosingBracketLoop openBracket closeBracket input fuel (i + 1) (brackets - 1) inQuote
                  quote inComment
            else if c = openBracket ∧ inQuote = false ∧ inComment = false then
              findClosingBracketLoop openBracket closeBracket input fuel (i + 1) (brackets + 1) inQuote quote
                inComment
            else if c = squote ∨ c = dquote then
              if inQuote = false then
                findClosingBracketLoop openBracket closeBracket input fuel (i + 1) brackets true c inComment
              else if quote = c then
                match byteAt input (i - 1) with
                | none => none
                | some p =>
                  if p ≠ backslash then
                    findClosingBracketLoop openBracket closeBracket input fuel (i + 1) brackets false quote
                      inComment
                  else
                    findClosingBracketLoop openBracket closeBracket input fuel (i + 1) brackets inQuote quote
                      inComment
              else
                findClosingBracketLoop openBracket closeBracket input fuel (i + 1) brackets inQuote quote
                  inComment
            else if c = dquote ∧ inQuote = false then
              findClosingBracketLoop openBracket closeBracket input fuel (i + 1) brackets (!inQuote) quote
                inComment
            else
              findClosingBracketLoop openBracket closeBracket input fuel (i + 1) brackets inQuote quote
                inComment
    else some (len input, false)

/-- Source `findClosingBracket`. -/
def findClosingBracket (openBracket : Char) (input : GoString) (start : Int)
    (startInsideScope : Bool) : Option (Int × Bool) :=
  findClosingBracketLoop openBracket (closingBracket openBracket) input (input.length + 1) start
    (if startInsideScope then 0 else -1) false dquote false

/-- The loop of `findPrevLineOffset`; `i` is the loop variable. -/
def findPrevLineOffsetLoop (input : GoString) (start : Int) : Nat → Int → Option Int
  | 0, _ => none
  | fuel + 1, i =>
    if i ≥ 0 then
      match byteAt input i with
      | none => none
      | some c => if c = newline then some i else findPrevLineOffsetLoop input start fuel (i - 1)
    else some start

/-- Source `findPrevLineOffset`. -/
def findPrevLineOffset (input : GoString) (start : Int) : Option Int :=
  findPrevLineOffsetLoop input start (input.length + 1) (start - 1)

/-- The loop of `findNextLineOffset`; `i` is the loop variable. -/
def findNextLineOffsetLoop (input : GoString) (start : Int) : Nat → Int → Option Int
  | 0, _ => none
  | fuel + 1, i =>
    if i < len input then
      match byteAt input i with
      | none => none
      | some c => if c = newline then some i else findNextLineOffsetLoop input start fuel (i + 1)
    else some start

/-- Source `findNextLineOffset`. -/
def findNextLineOffset (input : GoString) (start : Int) : Option Int :=
  findNextLineOffsetLoop input start (input.length + 1) start

/-- The expression `input[i] == dquote && i-2 >= 0 && input[i-1] == dquote &&
input[i-2] == dquote` of `findCommentStart`, given the byte `c = input[i]`. -/
def tripleEndsAt (input : GoString) (i : Int) (c : Char) : Option Bool :=
  if c = dquote ∧ i - 2 ≥ 0 then
    match byteAt input (i - 1) with
    | none => none
    | some p =>
      if p = dquote then
        match byteAt input (i - 2) with
        | none => none
        | some q => some (decide (q = dquote))
      else some false
  else some false

/-- The loop of `findCommentStart`; the loop variables are `i`, `lines` and
`enteredComment`; `startPos` is the value after its reassignment. -/
def findCommentStartLoop (input : GoString) (startPos : Int) :
    Nat → Int → Int → Bool → Option (Int × Int)
  | 0, _, _, _ => none
  | fuel + 1, i, lines, enteredComment =>
    if i ≥ 0 then
      match byteAt input i with
      | none => none
      | some c =>
        if c = newline then findCommentStartLoop input startPos fuel (i - 1) (lines + 1) enteredComment
        else
          match tripleEndsAt input i c with
          | none => none
          | some true =>
            if enteredComment then
              match findPrevLineOffset input i with
              | none => none
              | some p => some (lines, p + 1)
            else findCommentStartLoop input startPos fuel (i - 2 - 1) lines true
          | some false =>
            if c ≠ space ∧ c ≠ newline ∧ c ≠ tab then
              if enteredComment = false then some (lines, startPos + 1)
              else findCommentStartLoop input startPos fuel (i - 1) lines enteredComment
            else findCommentStartLoop input startPos fuel (i - 1) lines enteredComment
    else
      match findPrevLineOffset input startPos with
      | none => none
      | some p => some (0, p + 1)

/-- Source `findCommentStart`. The early `return 0, start` returns the named
result `start`, which still holds its zero value. -/
def findCommentStart (input : GoString) (startPos : Int) : Option (Int × Int) :=
  match findPrevLineOffset input startPos with
  | none => none
  | some startPos =>
    match tripleAt input startPos with
    | none => none
    | some true => some (0, 0)
    | some false => findCommentStartLoop input startPos (input.length + 1) (startPos - 1) 1 false

/-- The expression `input[i] == dquote && i+2 < len(input) && input[i+1] == dquote &&
input[i+2] == dquote` of `findCommentEnd`, given the byte `c = input[i]`. -/
def tripleStartsAt (input : GoString) (i : Int) (c : Char) : Option Bool :=
  if c = dquote ∧ i + 2 < len input then
    match byteAt input (i + 1) with
    | none => none
    | some p =>
      if p = dquote then
        match byteAt input (i + 2) with
        | none => none
        | some q => some (decide (q = dquote))
      else some false
  else some false

/-- The loop of `findCommentEnd`; the loop variables are `i` and `enteredComment`. -/
def findCommentEndLoop (input : GoString) (originalStartPos : Int) :
    Nat → Int → Bool → Option Int
  | 0, _, _ => none
  | fuel + 1, i, enteredComment =>
    if i < len input then
      match byteAt input i with
      | none => none
      | some c =>
        match tripleStartsAt input i c with
        | none => none
        | some true =>
          if enteredComment then some (i + 3)
          else findCommentEndLoop input originalStartPos fuel (i + 2 + 1) true
        | some false =>
          if c ≠ space ∧ c ≠ newline ∧ c ≠ tab then
            if enteredComment = false then some originalStartPos
            else findCommentEndLoop input originalStartPos fuel (i + 1) enteredComment
          else findCommentEndLoop input originalStartPos fuel (i + 1) enteredComment
    else some originalStartPos

/-- Source `findCommentEnd`. -/
def findCommentEnd (input : GoString) (startPos : Int) : Option Int :=
  findCommentEndLoop input startPos (input.length + 1) startPos false

/-- The loop of `findLeftOverDirectives`; the loop variables are `i` and `spaces`. -/
def findLeftOverDirectivesLoop (input : GoString) (start : Int) :
    Nat → Int → Int → Option (GoString × Int)
  | 0, _, _ => none
  | fuel + 1, i, spaces =>
    if i < len input then
      match byteAt input i with
      | none => none
      | some c =>
        if c = space ∨ c = newline ∨ c = tab then
          findLeftOverDirectivesLoop input start fuel (i + 1) (spaces + 1)
        else if c ≠ Char.ofNat 64 then
          match slice input start (i - spaces) with
          | none => none
          | some s => some (s, i - spaces - 1)
        else
          match findNextLineOffset input i with
          | none => none
          | some j => findLeftOverDirectivesLoop input start fuel (j + 1) 0
    else some ([], start)

/-- Source `findLeftOverDirectives`. -/
def findLeftOverDirectives (input : GoString) (start : Int) : Option (GoString × Int) :=
  findLeftOverDirectivesLoop input start (input.length + 1) start 0

/-- The loop of `findNextOpenBracket`; `i` is the loop variable. -/
def findNextOpenBracketLoop (bracket : Char) (input : GoString) (start : Int) (multiLine : Bool) :
    Nat → Int → Option (Int × Bool)
  | 0, _ => none
  | fuel + 1, i =>
    if i < len input then
      match byteAt input i with
      | none => none
      | some c =>
        if c = newline ∧ multiLine = false then some (start, false)
        else if c = bracket then some (i, true)
        else findNextOpenBracketLoop bracket input start multiLine fuel (i + 1)
    else some (start, false)

/-- Source `findNextOpenBracket`. -/
def findNextOpenBracket (bracket : Char) (input : GoString) (start : Int) (multiLine : Bool) :
    Option (Int × Bool) :=
  findNextOpenBracketLoop bracket input start multiLine (input.length + 1) start

/-- The first loop of `trimNewLines`: the value of `linesBefore` after it. -/
def trimLeadingLoop (input : GoString) : Nat → Int → Option Int
  | 0, _ => none
  | fuel + 1, i =>
    if i < len input then
      match byteAt input i with
      | none => none
      | some c => if c = newline then trimLeadingLoop input fuel (i + 1) else some i
    else some 0

/-- The second loop of `trimNewLines`: the values of `linesAfter` and
`spacesAfter` after it. -/
def trimTrailingLoop (input : GoString) : Nat → Int → Int → Int → Option (Int × Int)
  | 0, _, _, _ => none
  | fuel + 1, i, linesAfter, spacesAfter =>
    if i ≥ 0 then
      match byteAt input i with
      | none => none
      | some c =>
        if c = newline then trimTrailingLoop input fuel (i - 1) (linesAfter + 1) (spacesAfter + 1)
        else if c = space ∨ c = tab then some (linesAfter, spacesAfter + 1)
        else some (linesAfter, spacesAfter)
    else some (linesAfter, spacesAfter)

/-- Source `trimNewLines`: `(str, linesBefore, linesAfter, spacesAfter)`. -/
def trimNewLines (input : GoString) : Option (GoString × Int × Int × Int) :=
  match trimLeadingLoop input (input.length + 1) 0 with
  | none => none
  | some linesBefore =>
    match trimTrailingLoop input (input.length + 1) (len input - 1) 0 0 with
    | none => none
    | some (linesAfter, spacesAfter) =>
      match slice input linesBefore (len input - spacesAfter) with
      | none => none
      | some str => some (str, linesBefore, linesAfter, spacesAfter)

/-- The parser's `ast.Source`: a named buffer. -/
structure Source where
  Name : GoString
  Input : GoString
deriving DecidableEq, Repr

/-- The parser's `ast.Position`; `Src` is a pointer and may be nil. -/
structure Position where
  Start : Int
  End : Int
  Line : Int
  Src : Option Source
deriving DecidableEq, Repr

/-- The parser's `ast.FieldDefinition`, reduced to the members this package reads. -/
structure AstFieldDefinition where
  Name : GoString
  Position : Option Position
deriving DecidableEq, Repr

/-- The parser's `ast.Definition`, reduced to the members this package reads. -/
structure AstDefinition where
  Kind : GoString
  Name : GoString
  Fields : List AstFieldDefinition
  Position : Option Position
deriving DecidableEq, Repr

/-- Source `DefObjectType`. -/
inductive DefObjectType where
  | DefQueryObject
  | DefMutationObject
  | DefSubscriptionObject
  | DefTypeObject
  | DefInputObject
  | DefScalar
deriving DecidableEq, Repr

/-- Source `FieldDefType`. -/
inductive FieldDefType where
  | DefQueryField
  | DefMutationField
  | DefSubscriptionField
  | DefObjectField
deriving DecidableEq, Repr

/-- White space of Go `strings.TrimSpace` among the ASCII bytes. -/
def isSpaceByte (c : Char) : Bool :=
  c = tab || c = newline || c = Char.ofNat 11 || c = Char.ofNat 12 || c = Char.ofNat 13 || c = space

/-- Go `strings.TrimSpace`, on ASCII white space. -/
def TrimSpace (s : GoString) : GoString :=
  ((s.dropWhile isSpaceByte).reverse.dropWhile isSpaceByte).reverse

/-- The statements of `extractFieldDefContent` that absorb an argument list:
`_, found := findNextOpenBracket(OpenParen, input, end, false)` followed by
`if found { if newEnd, ok := findClosingBracket(OpenParen, input, end, false); ok { end = newEnd } }`.
The result is the value of `end` after them. -/
def absorbArguments (input : GoString) (end1 : Int) : Option Int :=
  match findNextOpenBracket OpenParen input end1 false with
  | none => none
  | some (_, found) =>
    if found then
      match findClosingBracket OpenParen input end1 false with
      | none => none
      | some (newEnd, ok) => some (if ok then newEnd else end1)
    else some end1

/-- The statements of `extractFieldDefContent` that absorb trailing directives:
`directives, newEnd := findLeftOverDirectives(input, end)` followed by
`if strings.TrimSpace(directives) != "" { end = newEnd }`.
The result is the value of `end` after them. -/
def absorbDirectives (input : GoString) (end3 : Int) : Option Int :=
  match findLeftOverDirectives input end3 with
  | none => none
  | some (directives, newEnd) => some (if TrimSpace directives ≠ [] then newEnd else end3)

/-- The body of `extractFieldDefContent` after `input` and `start` are read
from the field. The raw `End` is read into `end` and overwritten before any
use, so it is not an argument. -/
def extractFieldDefContentAt (input : GoString) (start : Int) :
    Option (GoString × Int × Int × Int) := do
  let (linesAbove, offsetBefore) ← findCommentStart input start
  let commentEnd ← findCommentEnd input offsetBefore
  let end2 ← absorbArguments input (commentEnd + 1)
  let end3 ← findNextLineOffset input end2
  let end4 ← absorbDirectives input end3
  let whole ← slice input offsetBefore (end4 + 1)
  let (content, nBefore, _, spacesAfter) ← trimNewLines whole
  pure (content, offsetBefore + nBefore, end4 - spacesAfter, linesAbove - nBefore)

/-- Source `extractFieldDefContent`:
`(extracted, actualStart, actualEnd, abvLinesFound)`. -/
def extractFieldDefContent (fd : AstFieldDefinition) : Option (GoString × Int × Int × Int) :=
  match fd.Position with
  | none => none
  | some pos =>
    match pos.Src with
    | none => none
    | some src => extractFieldDefContentAt src.Input pos.Start

/-- The statements of `extractDefContent` that absorb a brace body:
`if typ != DefScalar { if newEnd, found := findClosingBracket(OpenBrace, input, start, false); found { end = newEnd } }`.
The result is the value of `end` after them. -/
def absorbBody (typ : DefObjectType) (input : GoString) (start end0 : Int) : Option Int :=
  if typ ≠ DefObjectType.DefScalar then
    match findClosingBracket OpenBrace input start false with
    | none => none
    | some (newEnd, found) => some (if found then newEnd else end0)
  else some end0

/-- The body of `extractDefContent` after `input`, `start` and `end` are read
from the declaration. -/
def extractDefContentAt (typ : DefObjectType) (input : GoString) (start end0 : Int) :
    Option (GoString × Int × Int × Int) := do
  let (linesAbove, offsetBefore) ← findCommentStart input start
  let end1 ← absorbBody typ input start end0
  let end2 ← findNextLineOffset input end1
  let whole ← slice input offsetBefore (end2 + 1)
  let (content, nBefore, _, spacesAfter) ← trimNewLines whole
  pure (content, offsetBefore + nBefore, end2 - spacesAfter, linesAbove)

/-- Source `extractDefContent`:
`(extracted, actualStart, actualEnd, abvLinesFound)`. -/
def extractDefContent (typ : DefObjectType) (d : AstDefinition) :
    Option (GoString × Int × Int × Int) :=
  match d.Position with
  | none => none
  | some pos =>
    match pos.Src with
    | none => none
    | some src => extractDefContentAt typ src.Input pos.Start pos.End

/-- How a call that may panic ends: with a value, with a run-time panic (index
or slice out of range, nil dereference), or with the explicit panic of the
consistency check. -/
inductive Outcome (α : Type) where
  | ok : α → Outcome α
  | fault : Outcome α
  | inconsistent : Outcome α
deriving DecidableEq, Repr

/-- Source `FieldDefinition`: the wrapper around `ast.FieldDefinition`. -/
structure FieldDefinition where
  FieldDefinition : AstFieldDefinition
  typ : FieldDefType
  Content : GoString
  ActualPosition : Position
deriving DecidableEq, Repr

/-- Source `Definition`: the wrapper around `ast.Definition`. -/
structure Definition where
  Definition : AstDefinition
  typ : DefObjectType
  Content : GoString
  Fields : List FieldDefinition
  ActualPosition : Position
deriving DecidableEq, Repr

/-- Source `WrapDefinition`. -/
def WrapDefinition (d : AstDefinition) (typ : DefObjectType) : Outcome Definition :=
  match extractDefContent typ d with
  | none => .fault
  | some (content, start, endPos, linesAbove) =>
    match d.Position with
    | none => .fault
    | some dpos =>
      let pos : Position := { Src := none, Start := start, End := endPos, Line := dpos.Line - linesAbove }
      match dpos.Src with
      | none => .fault
      | some src =>
        match slice src.Input start (endPos + 1) with
        | none => .fault
        | some s =>
          if s ≠ content then .inconsistent
          else .ok { Definition := d, Content := content, typ := typ, Fields := [], ActualPosition := pos }

/-- Source `WrapFieldDefinition`. -/
def WrapFieldDefinition (field : AstFieldDefinition) (typ : FieldDefType) : Outcome FieldDefinition :=
  match extractFieldDefContent field with
  | none => .fault
  | some (content, start, endPos, linesAbove) =>
    match field.Position with
    | none => .fault
    | some fpos =>
      let pos : Position := { Src := none, Start := start, End := endPos, Line := fpos.Line - linesAbove }
      match fpos.Src with
      | none => .fault
      | some src =>
        match slice src.Input start (endPos + 1) with
        | none => .fault
        | some s =>
          if s ≠ content then .inconsistent
          else .ok { FieldDefinition := field, typ := typ, Content := content, ActualPosition := pos }

/-! ### Proof devices and specification-side notions -/

/-- What a result `(off, found)` of a scan that started at `i` satisfies. -/
def ScanPost (cb : Char) (input : GoString) (i off : Int) (found : Bool) : Prop :=
  (found = false → off = len input) ∧
  (found = true → i ≤ off ∧ off < len input ∧ byteAt input off = some cb)

/-- How one iteration of a scanning loop ends. -/
inductive ScanStep where
  | fault : ScanStep
  | ret : Int → Bool → ScanStep
  | next : Int → Int → Bool → Char → Bool → ScanStep

/-- One iteration of the loop of `findClosingBracket`, entered with `i < len(input)`. -/
def findClosingBracketStep (openBracket closeBracket : Char) (input : GoString)
    (i brackets : Int) (inQuote : Bool) (quote : Char) (inComment : Bool) : ScanStep :=
  match skipCond input i inQuote quote inComment with
  | none => .fault
  | some true => .next (i + 1) brackets inQuote quote inComment
  | some false =>
    match tripleAt input i with
    | none => .fault
    | some true => .next (i + 2 + 1) brackets inQuote quote (!inComment)
    | some false =>
      match byteAt input i with
      | none => .fault
      | some c =>
        if c = closeBracket ∧ inQuote = false ∧ inComment = false then
          if brackets = 0 then .ret i true
          else .next (i + 1) (brackets - 1) inQuote quote inComment
        else if c = openBracket ∧ inQuote = false ∧ inComment = false then
          .next (i + 1) (brackets + 1) inQuote quote inComment
        else if c = squote ∨ c = dquote then
          if inQuote = false then .next (i + 1) brackets true c inComment
          else if quote = c then
            match byteAt input (i - 1) with
            | none => .fault
            | some p =>
              if p ≠ backslash then .next (i + 1) brackets false quote inComment
              else .next (i + 1) brackets inQuote quote inComment
          else .next (i + 1) brackets inQuote quote inComment
        else if c = dquote ∧ inQuote = false then
          .next (i + 1) brackets (!inQuote) quote inComment
        else .next (i + 1) brackets inQuote quote inComment

/-- Moving the offsets of a step outcome by `d`. -/
def ScanStep.shift (d : Int) : ScanStep → ScanStep
  | .fault => .fault
  | .ret off found => .ret (off + d) found
  | .next i b q qc c => .next (i + d) b q qc c

/-- The number of occurrences of `c` in `input` at the offsets `a ≤ k < b`. -/
def countBetween (c : Char) (input : GoString) (a b : Nat) : Nat :=
  ((input.take b).drop a).count c

/-- The specification's balancing closer of the opening delimiter at `start`:
the least `i > start` holding the closer such that openers and closers strictly
between `start` and `i` are equal in number. -/
def IsBalancingCloser (ob cb : Char) (input : GoString) (start i : Nat) : Prop :=
  start < i ∧ input[i]? = some cb ∧
    countBetween ob input (start + 1) i = countBetween cb input (start + 1) i ∧
    ∀ j, j < i → start < j → input[j]? = some cb →
      countBetween ob input (start + 1) j ≠ countBetween cb input (start + 1) j

instance (ob cb : Char) (input : GoString) (start i : Nat) :
    Decidable (IsBalancingCloser ob cb input start i) := by
  unfold IsBalancingCloser; infer_instance

/-! ### Sample inputs -/

/-- A buffer named `schema.graphql` holding the given text. -/
def sourceOf (input : String) : Source :=
  { Name := "schema.graphql".toList, Input := input.toList }

/-- A parsed field located at the raw span `(start, stop, line)` of a buffer
holding the given text. -/
def fieldAt (input : String) (start stop line : Int) : AstFieldDefinition :=
  { Name := [], Position := some { Start := start, End := stop, Line := line, Src := some (sourceOf input) } }

/-- A parsed declaration located at the raw span `(start, stop, line)` of a
buffer holding the given text. -/
def definitionAt (input : String) (start stop line : Int) : AstDefinition :=
  { Kind := [], Name := [], Fields := [],
    Position := some { Start := start, End := stop, Line := line, Src := some (sourceOf input) } }

/-! ### `config.go` -/

/-- Source `QuerySplitConfig`. `R` stands for the compiled pattern type
`*regexp.Regexp` of the Go standard library; the member `compiled` is the
source's unexported member `matches`. -/
structure QuerySplitConfig (R : Type) where
  ResolverPrefix : GoString
  Matches : List GoString
  compiled : List R

/-- Source `QuerySplitConfigs`. -/
abbrev QuerySplitConfigs (R : Type) := List (QuerySplitConfig R)

/-- Source `QuerySplitConfigs.FindResolverPrefix`. `MatchString` stands for the
method `(*regexp.Regexp).MatchString` of the Go standard library. -/
def QuerySplitConfigs.FindResolverPrefix {R : Type} (MatchString : R → GoString → Bool) :
    QuerySplitConfigs R → GoString → GoString × Bool
  | [], _ => ([], false)
  | q :: qs, queryName =>
    if q.compiled.any (fun m => MatchString m queryName) then (q.ResolverPrefix, true)
    else QuerySplitConfigs.FindResolverPrefix MatchString qs queryName

/-- The 1-based line of an offset: one more than the number of newlines
before it. -/
def lineOf (input : GoString) (offset : Int) : Int :=
  1 + ((input.take offset.toNat).count newline : Int)

/-- Source `TypeSplitConfig`. -/
structure TypeSplitConfig where
  Name : GoString
  ResolverPrefix : GoString
deriving DecidableEq, Repr

/-- Source `TypeSplitConfigs`. -/
abbrev TypeSplitConfigs := List TypeSplitConfig

/-- Source `TypeSplitConfigs.FindResolverPrefix`. -/
def TypeSplitConfigs.FindResolverPrefix : TypeSplitConfigs → GoString → GoString × Bool
  | [], _ => ([], false)
  | t :: ts, typeName =>
    if t.Name = typeName then (t.ResolverPrefix, true)
    else TypeSplitConfigs.FindResolverPrefix ts typeName

/-- Source `SplitterConfig`. -/
structure SplitterConfig (R : Type) where
  QueryConfig : QuerySplitConfigs R
  TypeConfig : TypeSplitConfigs

/-- The errors `compileMatches` returns, by the `fmt.Errorf` call that builds
them; the arguments are the values formatted into the message (the match and
the resolver prefix). -/
inductive CompileError where
  | noMatches : GoString → CompileError
  | emptyMatch : GoString → GoString → CompileError
  | invalidMatch : GoString → GoString → CompileError
deriving DecidableEq, Repr

/-- The text `(?i)` that `compileMatches` puts before every pattern. -/
def caseInsensitiveFlag : GoString := "(?i)".toList

/-- The inner loop of `compileMatches` over the patterns still to compile of
the group `q`, which is `c.QueryConfig[qi]`. `trim` stands for
`strings.TrimSpace` and `Compile` for `regexp.Compile` of the Go standard
library (`none` is its error). -/
def compilePatterns {R : Type} (trim : GoString → GoString) (Compile : GoString → Option R) :
    QuerySplitConfig R → List GoString → QuerySplitConfig R × Option CompileError
  | q, [] => (q, none)
  | q, m :: ms =>
    if trim m = [] then (q, some (.emptyMatch m q.ResolverPrefix))
    else
      match Compile (caseInsensitiveFlag ++ m) with
      | none => (q, some (.invalidMatch m q.ResolverPrefix))
      | some cmp => compilePatterns trim Compile { q with compiled := q.compiled ++ [cmp] } ms

/-- The outer loop of `compileMatches` over the groups still to visit: the
groups as the loop leaves them, and the error it returns. -/
def compileGroups {R : Type} (trim : GoString → GoString) (Compile : GoString → Option R) :
    List (QuerySplitConfig R) → List (QuerySplitConfig R) × Option CompileError
  | [] => ([], none)
  | q :: qs =>
    if q.Matches.length = 0 then (q :: qs, some (.noMatches q.ResolverPrefix))
    else
      match compilePatterns trim Compile q q.Matches with
      | (q', some e) => (q' :: qs, some e)
      | (q', none) =>
        match compileGroups trim Compile qs with
        | (qs', e) => (q' :: qs', e)

/-- Source `SplitterConfig.compileMatches`: the configuration as the call
leaves it, and the error it returns (`none` is `nil`). -/
def SplitterConfig.compileMatches {R : Type} (trim : GoString → GoString)
    (Compile : GoString → Option R) (c : SplitterConfig R) :
    SplitterConfig R × Option CompileError :=
  match compileGroups trim Compile c.QueryConfig with
  | (qs, e) => ({ c with QueryConfig := qs }, e)

/-! ### `types_splitter_plugin.go`: `removeExtraLines` -/

/-- The closing brace. -/
def rbrace : Char := Char.ofNat 125

/-- The regular-expression class `\s` of the Go standard library's `regexp`:
tab, newline, form feed, carriage return and space. -/
def isRegexSpace (c : Char) : Bool :=
  c = tab || c = newline || c = Char.ofNat 12 || c = Char.ofNat 13 || c = space

/-- The text a pending run of `run` newlines is replaced by under
`manyLinesRegex`: a run of two or more becomes two newlines. -/
def flushRun (run : Nat) : GoString :=
  if run ≥ 2 then [newline, newline] else List.replicate run newline

/-- The scan of `manyLinesRegex.ReplaceAllString(str, "\n\n")` with `run`
newlines read and not yet written. -/
def replaceManyLinesGo : Nat → GoString → GoString
  | run, [] => flushRun run
  | run, c :: rest =>
    if c = newline then replaceManyLinesGo (run + 1) rest
    else flushRun run ++ c :: replaceManyLinesGo 0 rest

/-- The statement `str = manyLinesRegex.ReplaceAllString(str, "\n\n")`, the
pattern being `\n{2,}`: every maximal run of two or more newlines (the
leftmost, greedy, non-overlapping matches) is replaced by two newlines. -/
def replaceManyLines (str : GoString) : GoString := replaceManyLinesGo 0 str

/-- The statement `str = startLineRegex.ReplaceAllString(str, "")`, the pattern
being `^\n+`: the newlines at the start of the text are removed. -/
def replaceStartLine (str : GoString) : GoString := str.dropWhile (fun c => c = newline)

/-- Whether, after the white space at the head of the text, a closing brace
comes: the text matches `\s*}` at its start. -/
def closureAhead (str : GoString) : Bool :=
  (str.dropWhile isRegexSpace).head? = some rbrace

/-- Where the scan of `linesToClosureRegex` stands: outside a match, inside the
newlines `\n{2,}` of a match, or inside its group `(\s*})`. -/
inductive ClosureMode where
  | outside
  | newlines
  | group
deriving DecidableEq, Repr

/-- The scan of `linesToClosureRegex.ReplaceAllString(str, "\n$1")`. Outside a
match, a match starts at a newline that is followed by a newline and then by
`\s*}`; the replacement writes one newline, drops the maximal run of newlines
(the greedy `\n{2,}`) and copies the group, which ends at the closing brace. -/
def replaceLinesToClosureGo : ClosureMode → GoString → GoString
  | _, [] => []
  | .outside, c :: rest =>
    if c = newline ∧ rest.head? = some newline ∧ closureAhead rest = true then
      newline :: replaceLinesToClosureGo .newlines rest
    else c :: replaceLinesToClosureGo .outside rest
  | .newlines, c :: rest =>
    if c = newline then replaceLinesToClosureGo .newlines rest
    else if c = rbrace then c :: replaceLinesToClosureGo .outside rest
    else c :: replaceLinesToClosureGo .group rest
  | .group, c :: rest =>
    if c = rbrace then c :: replaceLinesToClosureGo .outside rest
    else c :: replaceLinesToClosureGo .group rest

/-- The statement `str = linesToClosureRegex.ReplaceAllString(str, "\n$1")`,
the pattern being `\n{2,}(\s*})`. -/
def replaceLinesToClosure (str : GoString) : GoString :=
  replaceLinesToClosureGo .outside str

/-- The statement `str = endLineRegex.ReplaceAllString(str, "\n")`, the pattern
being `\n+$`: the newlines at the end of the text, when there are any, are
replaced by one newline. -/
def replaceEndLine (str : GoString) : GoString :=
  if str.getLast? = some newline then
    (str.reverse.dropWhile (fun c => c = newline)).reverse ++ [newline]
  else str

/-- Source `removeExtraLines`. -/
def removeExtraLines (str : GoString) : GoString :=
  replaceEndLine (replaceLinesToClosure (replaceStartLine (replaceManyLines str)))

/-! ### Specification-side notions for `removeExtraLines` -/

/-- The number of newlines at the head of a text. -/
def leadingNewlines : GoString → Nat
  | [] => 0
  | c :: rest => if c = newline then leadingNewlines rest + 1 else 0

/-- No three consecutive newlines, stated along the text: at every position at
most two newlines follow one another. -/
def NoTripleNewline : GoString → Prop
  | [] => True
  | c :: rest => leadingNewlines (c :: rest) ≤ 2 ∧ NoTripleNewline rest

/-- The text ends with exactly one trailing newline: with a newline that no
newline precedes. -/
def EndsWithOneNewline (s : GoString) : Prop :=
  ∃ p, s = p ++ [newline] ∧ p.getLast? ≠ some newline

/-- A byte of the class `\s` other than the newline: tab, form feed, carriage
return or space. -/
def isBlankByte (c : Char) : Bool := isRegexSpace c && !decide (c = newline)

/-- The text opens with a white-space-only line: one or more bytes of `\s`
other than the newline, and then a newline. -/
def blankLineAhead : GoString → Bool
  | [] => false
  | c :: rest => isBlankByte c && decide ((rest.dropWhile isBlankByte).head? = some newline)

/-- No white-space-only line opens after a newline of the text: no newline is
followed by one or more bytes of `\s` other than the newline and then by a
newline. -/
def NoWhitespaceOnlyLine : GoString → Prop
  | [] => True
  | c :: rest => (c = newline → blankLineAhead rest = false) ∧ NoWhitespaceOnlyLine rest

instance NoWhitespaceOnlyLine.decidable : (s : GoString) → Decidable (NoWhitespaceOnlyLine s)
  | [] => isTrue trivial
  | c :: rest =>
    have := NoWhitespaceOnlyLine.decidable rest
    inferInstanceAs
      (Decidable ((c = newline → blankLineAhead rest = false) ∧ NoWhitespaceOnlyLine rest))

/-- No match of `linesToClosureRegex` starts in the text: at no position do two
newlines come that `\s*}` follows. -/
def NoClosureMatch : GoString → Prop
  | [] => True
  | c :: rest =>
    ¬ (c = newline ∧ rest.head? = some newline ∧ closureAhead rest = true) ∧ NoClosureMatch rest

/-! ### `types_splitter_plugin.go` and `sources.go`: the plugin and the memory
it works on

The plugin reaches its entities through pointers: a parsed field is shared by
the schema and by every wrapper made of it, a buffer is shared by every
position that names it. The state below keeps each kind of object in a list,
and a pointer is the index of the object in its list. Looking up an index that
is not there, like dereferencing nil, ends the call (`none`). -/

/-- Source `SourceType`. -/
inductive SourceType where
  | OriginalSource
  | SourceQueryExtended
  | SourceMutationExtended
  | SourceSubscriptionExtended
  | SourceObject
  | SourceInput
deriving DecidableEq, Repr

/-- The parser's `ast.Position` as an object in memory: `Src` is a pointer to a
buffer of `TypesSplitterPlugin.astSources`, or nil. -/
structure PositionRef where
  Start : Int
  End : Int
  Line : Int
  Src : Option Nat
deriving DecidableEq, Repr

/-- The parser's `ast.FieldDefinition` as an object in memory; the node owns
its position. -/
structure AstFieldNode where
  Name : GoString
  Position : Option PositionRef
deriving DecidableEq, Repr

/-- The parser's `ast.Definition` as an object in memory; `Fields` points to
the nodes of `TypesSplitterPlugin.astFields`. -/
structure AstDefinitionNode where
  Kind : GoString
  Name : GoString
  Fields : List Nat
  Position : Option PositionRef
deriving DecidableEq, Repr

/-- Source `FieldDefinition` as an object in memory: the embedded
`*ast.FieldDefinition` is a pointer to a node of
`TypesSplitterPlugin.astFields`. -/
structure FieldDefinitionCell where
  FieldDefinition : Nat
  typ : FieldDefType
  Content : GoString
  ActualPosition : PositionRef
deriving DecidableEq, Repr

/-- Source `Definition` as an object in memory: the embedded `*ast.Definition`
is a pointer to a node of `TypesSplitterPlugin.astDefinitions`, `Fields`
points to the wrappers of `TypesSplitterPlugin.fieldDefinitions`. -/
structure DefinitionCell where
  Definition : Nat
  typ : DefObjectType
  Content : GoString
  Fields : List Nat
  ActualPosition : PositionRef
deriving DecidableEq, Repr

/-- Source `Source` of `sources.go` as an object in memory: the embedded
`*ast.Source` is a pointer to a buffer of `TypesSplitterPlugin.astSources`. -/
structure SourceCell where
  Source : Nat
  typ : SourceType
  Fields : List Nat
  Types : List Nat
  isMainQuery : Bool
deriving DecidableEq, Repr

/-- Source `TypesSplitterPlugin`, with the memory its members point into and
the members of `genCfg` it reads and writes (`genCfg.Sources`,
`genCfg.Schema.Query`, `.Mutation`, `.Subscription`). A Go map is a list of
pairs with distinct keys. -/
structure TypesSplitterPlugin where
  astSources : List Source
  astFields : List AstFieldNode
  astDefinitions : List AstDefinitionNode
  fieldDefinitions : List FieldDefinitionCell
  definitions : List DefinitionCell
  sourceCells : List SourceCell
  genCfgSources : List Nat
  schemaQuery : Option Nat
  schemaMutation : Option Nat
  schemaSubscription : Option Nat
  sources : List (GoString × Nat)
  sourcesDefs : List (GoString × List Nat)
  sourcesFields : List (GoString × List Nat)
  newSources : List (GoString × Nat)
deriving DecidableEq, Repr

/-- Source `(*FieldDefinition).Pos`, dereferenced: the raw position of the
wrapped field. -/
def FieldDefinitionPos (s : TypesSplitterPlugin) (fd : Nat) : Option PositionRef :=
  match s.fieldDefinitions[fd]? with
  | none => none
  | some c =>
    match s.astFields[c.FieldDefinition]? with
    | none => none
    | some node => node.Position

/-- Source `(*Definition).Pos`, dereferenced: the raw position of the wrapped
declaration. -/
def DefinitionPos (s : TypesSplitterPlugin) (d : Nat) : Option PositionRef :=
  match s.definitions[d]? with
  | none => none
  | some c =>
    match s.astDefinitions[c.Definition]? with
    | none => none
    | some node => node.Position

/-- Source `FieldDefinitions.PosAfter`: the wrappers whose raw start is greater
than `offset`, in the order of the list. -/
def FieldDefinitionsPosAfter (s : TypesSplitterPlugin) (offset : Int) :
    List Nat → Option (List Nat)
  | [] => some []
  | d :: ds =>
    match FieldDefinitionPos s d with
    | none => none
    | some p =>
      match FieldDefinitionsPosAfter s offset ds with
      | none => none
      | some rest => some (if p.Start > offset then d :: rest else rest)

/-- Source `Definitions.PosAfter`. -/
def DefinitionsPosAfter (s : TypesSplitterPlugin) (offset : Int) :
    List Nat → Option (List Nat)
  | [] => some []
  | d :: ds =>
    match DefinitionPos s d with
    | none => none
    | some p =>
      match DefinitionsPosAfter s offset ds with
      | none => none
      | some rest => some (if p.Start > offset then d :: rest else rest)

/-- The call `sort.Slice(sorted, func(i, j) ...Position.Start < ...Position.Start)`
on a list whose raw starts are given by `key`. Go leaves the order among
entries of equal raw start open; here the order of the list is kept, which is
what the insertion sort of `sort.Slice` does on fewer than twelve entries. -/
def sortByStart (key : Nat → Int) (l : List Nat) : List Nat :=
  l.insertionSort (fun a b => key a ≤ key b)

/-- The raw start of a field wrapper, as the comparison of `sort.Slice` reads
it. -/
def fieldStartKey (s : TypesSplitterPlugin) (fd : Nat) : Int :=
  match FieldDefinitionPos s fd with
  | none => 0
  | some p => p.Start

/-- The raw start of a declaration wrapper, as the comparison of `sort.Slice`
reads it. -/
def definitionStartKey (s : TypesSplitterPlugin) (d : Nat) : Int :=
  match DefinitionPos s d with
  | none => 0
  | some p => p.Start

/-- Source `countLines`: `strings.Count(s, "\n")`. -/
def countLines (s : GoString) : Int := (s.count newline : Nat)

/-- The three assignments of `shiftOffset` to one position. -/
def shiftPosition (p : PositionRef) (offset lines : Int) : PositionRef :=
  { p with Line := p.Line - lines, Start := p.Start - offset, End := p.End - offset }

/-- Source `shiftOffset` at a field wrapper (`(*FieldDefinition).ShiftOffset`):
the raw position of the wrapped node and the actual position of the wrapper
both move back. -/
def shiftOffsetField (s : TypesSplitterPlugin) (fd : Nat) (offset lines : Int) :
    Option TypesSplitterPlugin :=
  match s.fieldDefinitions[fd]? with
  | none => none
  | some c =>
    match s.astFields[c.FieldDefinition]? with
    | none => none
    | some node =>
      match node.Position with
      | none => none
      | some p =>
        some { s with
          astFields := s.astFields.set c.FieldDefinition
            { node with Position := some (shiftPosition p offset lines) }
          fieldDefinitions := s.fieldDefinitions.set fd
            { c with ActualPosition := shiftPosition c.ActualPosition offset lines } }

/-- Source `shiftOffset` at a declaration wrapper (`(*Definition).ShiftOffset`). -/
def shiftOffsetDefinition (s : TypesSplitterPlugin) (d : Nat) (offset lines : Int) :
    Option TypesSplitterPlugin :=
  match s.definitions[d]? with
  | none => none
  | some c =>
    match s.astDefinitions[c.Definition]? with
    | none => none
    | some node =>
      match node.Position with
      | none => none
      | some p =>
        some { s with
          astDefinitions := s.astDefinitions.set c.Definition
            { node with Position := some (shiftPosition p offset lines) }
          definitions := s.definitions.set d
            { c with ActualPosition := shiftPosition c.ActualPosition offset lines } }

/-- Source `FieldDefinitions.ShiftOffset`. -/
def FieldDefinitionsShiftOffset (offset lines : Int) :
    TypesSplitterPlugin → List Nat → Option TypesSplitterPlugin
  | s, [] => some s
  | s, d :: ds =>
    match shiftOffsetField s d offset lines with
    | none => none
    | some s1 => FieldDefinitionsShiftOffset offset lines s1 ds

/-- The loop of `moveType` over the declarations that follow: each is shifted,
and then each of its fields. -/
def shiftTypes (offset lines : Int) :
    TypesSplitterPlugin → List Nat → Option TypesSplitterPlugin
  | s, [] => some s
  | s, d :: ds =>
    match shiftOffsetDefinition s d offset lines with
    | none => none
    | some s1 =>
      match s1.definitions[d]? with
      | none => none
      | some c =>
        match FieldDefinitionsShiftOffset offset lines s1 c.Fields with
        | none => none
        | some s2 => shiftTypes offset lines s2 ds

/-- The text left when the bytes `[start, next)` are cut out of the buffer, with
the number of bytes and of newlines cut: the branch of `moveQueryField` and of
`moveType` taken when an entity follows,
`Input[:start] + Input[next:]`. -/
def exciseToNext (input : GoString) (start next : Int) : Option (GoString × Int × Int) :=
  match slice input start next with
  | none => none
  | some removed =>
    match slice input 0 start, slice input next (len input) with
    | some before, some after => some (before ++ after, next - start, countLines removed)
    | _, _ => none

/-- The name of the buffer the raw position of a field wrapper points to:
`field.Position.Src.Name`. -/
def fieldSourceName (s : TypesSplitterPlugin) (fd : Nat) : Option GoString :=
  match FieldDefinitionPos s fd with
  | none => none
  | some p =>
    match p.Src with
    | none => none
    | some a =>
      match s.astSources[a]? with
      | none => none
      | some src => some src.Name

/-- The loop of `moveQueryField` that looks for a field still pointing to the
buffer: `some true` at the first field whose raw position names the buffer,
`some false` when there is none. -/
def stillReferenced (s : TypesSplitterPlugin) (name : GoString) : List Nat → Option Bool
  | [] => some false
  | fd :: rest =>
    match fieldSourceName s fd with
    | none => none
    | some n => if n = name then some true else stillReferenced s name rest

/-- The loop of `moveQueryField` that removes from `genCfg.Sources` the first
buffer of the given name. -/
def removeSource (s : TypesSplitterPlugin) (name : GoString) : List Nat → Option (List Nat)
  | [] => some []
  | a :: rest =>
    match s.astSources[a]? with
    | none => none
    | some src =>
      if src.Name = name then some rest
      else
        match removeSource s name rest with
        | none => none
        | some l => some (a :: l)

/-- The error `moveQueryField` returns. -/
inductive MoveError where
  | unknownFieldType (typ : FieldDefType)
deriving DecidableEq, Repr

/-- The assignment `s.genCfg.Schema.X.Position.Src = src` to the root operation
type the pointer `root` stands for. -/
def setRootSource (s : TypesSplitterPlugin) (root : Option Nat) (src : Option Nat) :
    Option TypesSplitterPlugin :=
  match root with
  | none => none
  | some d =>
    match s.astDefinitions[d]? with
    | none => none
    | some node =>
      match node.Position with
      | none => none
      | some p =>
        some { s with
          astDefinitions := s.astDefinitions.set d { node with Position := some { p with Src := src } } }

/-- The end of `moveQueryField`, from the check for an emptied buffer on
(lines 447-486): when no field recorded for the buffer points to it any more
the buffer is taken out of `genCfg.Sources`, the new buffer of the first field
recorded becomes the main one of its root operation type, and the record of
the buffer is deleted. -/
def dropEmptySource (s : TypesSplitterPlugin) (name : GoString) :
    Option (TypesSplitterPlugin × Bool × Option MoveError) :=
  let recorded := (s.sourcesFields.lookup name).getD []
  match stillReferenced s name recorded with
  | none => none
  | some true => some (s, false, none)
  | some false =>
    match removeSource s name s.genCfgSources with
    | none => none
    | some kept =>
      let s1 := { s with genCfgSources := kept }
      match recorded.head? with
      | none => none
      | some firstField =>
        match s1.fieldDefinitions[firstField]?, FieldDefinitionPos s1 firstField,
            fieldSourceName s1 firstField with
        | some first, some firstPos, some firstName =>
          match s1.newSources.lookup firstName with
          | none => none
          | some w =>
            match s1.sourceCells[w]? with
            | none => none
            | some cell =>
              let s2 := { s1 with
                sourceCells := s1.sourceCells.set w { cell with isMainQuery := true } }
              let root : Option (Option Nat) :=
                match first.typ with
                | .DefQueryField => some s2.schemaQuery
                | .DefMutationField => some s2.schemaMutation
                | .DefSubscriptionField => some s2.schemaSubscription
                | .DefObjectField => none
              match root with
              | none => some (s2, false, some (.unknownFieldType first.typ))
              | some r =>
                match setRootSource s2 r firstPos.Src with
                | none => none
                | some s3 =>
                  some ({ s3 with sourcesFields := s3.sourcesFields.filter (fun e => e.1 ≠ name) },
                    true, none)
        | _, _, _ => none

/-- The statements of `moveQueryField` that cut the moved field out of the text
of its buffer (lines 396-425); the result is the new text with `offset` and
`offsetLine`. When a field follows, the bytes from the actual start of the
moved field up to the actual start of the first field that follows are cut;
otherwise the actual span of the moved field is cut, the blank lines of the
whole text are normalised and the offsets are zero. -/
def cutField (s : TypesSplitterPlugin) (input : GoString) (moved : PositionRef)
    (sortedFields : List Nat) : Option (GoString × Int × Int) :=
  match sortedFields.head? with
  | some next =>
    match s.fieldDefinitions[next]? with
    | none => none
    | some nextCell => exciseToNext input moved.Start nextCell.ActualPosition.Start
  | none =>
    match slice input moved.Start (moved.End + 1), slice input 0 moved.Start,
        slice input (moved.End + 1) (len input) with
    | some _, some before, some after => some (removeExtraLines (before ++ after), 0, 0)
    | _, _, _ => none

/-- The body of `moveQueryField` at the field to move (lines 387-445): the
fields recorded for the buffer that start after the moved field are shifted by
the bytes cut out, the moved field takes the new buffer as its source. -/
def exciseQueryField (s : TypesSplitterPlugin) (fieldToMove : Nat) (cfgSrc : Nat) :
    Option TypesSplitterPlugin :=
  match s.astSources[cfgSrc]?, s.fieldDefinitions[fieldToMove]? with
  | some src, some moved =>
    match FieldDefinitionsPosAfter s moved.ActualPosition.End
        ((s.sourcesFields.lookup src.Name).getD []) with
    | none => none
    | some fields =>
      let sortedFields := sortByStart (fieldStartKey s) fields
      match cutField s src.Input moved.ActualPosition sortedFields with
      | none => none
      | some (input, offset, offsetLine) =>
        let s1 := { s with astSources := s.astSources.set cfgSrc { src with Input := input } }
        match FieldDefinitionsShiftOffset offset offsetLine s1 sortedFields with
        | none => none
        | some s2 =>
          match s2.fieldDefinitions[fieldToMove]? with
          | none => none
          | some moved2 =>
            match s2.astFields[moved2.FieldDefinition]? with
            | none => none
            | some node =>
              match node.Position with
              | none => none
              | some p =>
                some { s2 with
                  astFields := s2.astFields.set moved2.FieldDefinition
                    { node with Position := some { p with Src := moved2.ActualPosition.Src } } }
  | _, _ => none

/-- The loop of `moveQueryField` over the fields of the root operation type. -/
def moveQueryFieldLoop (s : TypesSplitterPlugin) (fieldToMove : Nat) :
    List Nat → Option (TypesSplitterPlugin × Bool × Option MoveError)
  | [] => some (s, false, none)
  | q :: rest =>
    match s.astFields[q]? with
    | none => none
    | some cfgQField =>
      if "__".toList <+: cfgQField.Name ∨ cfgQField.Position = none then
        moveQueryFieldLoop s fieldToMove rest
      else
        match s.fieldDefinitions[fieldToMove]? with
        | none => none
        | some moved =>
          match FieldDefinitionPos s fieldToMove with
          | none => none
          | some pos =>
            if q = moved.FieldDefinition then
              match pos.Src with
              | none => none
              | some cfgSrc =>
                match s.astSources[cfgSrc]? with
                | none => none
                | some src =>
                  match exciseQueryField s fieldToMove cfgSrc with
                  | none => none
                  | some s1 => dropEmptySource s1 src.Name
            else moveQueryFieldLoop s fieldToMove rest

/-- Source `moveQueryField`: the plugin after the call, the flag and the error
returned; `none` when the call panics. -/
def moveQueryField (s : TypesSplitterPlugin) (fromOriginalDef : Option Nat) (fieldToMove : Nat) :
    Option (TypesSplitterPlugin × Bool × Option MoveError) :=
  match fromOriginalDef with
  | none => none
  | some d =>
    match s.astDefinitions[d]? with
    | none => none
    | some node => moveQueryFieldLoop s fieldToMove node.Fields

/-- The loop of `moveType` that gives the fields of the moved declaration its
new buffer: `field.Position.Src = typeToMove.Position.Src`. -/
def setFieldSources (src : Option Nat) :
    TypesSplitterPlugin → List Nat → Option TypesSplitterPlugin
  | s, [] => some s
  | s, fd :: rest =>
    match s.fieldDefinitions[fd]? with
    | none => none
    | some c =>
      match s.astFields[c.FieldDefinition]? with
      | none => none
      | some node =>
        match node.Position with
        | none => none
        | some p =>
          setFieldSources src
            { s with
              astFields := s.astFields.set c.FieldDefinition
                { node with Position := some { p with Src := src } } }
            rest

/-- The statements of `moveType` that cut the moved declaration out of the text
of its buffer (lines 241-262), as `cutField` does for a field. -/
def cutType (s : TypesSplitterPlugin) (input : GoString) (moved : PositionRef)
    (sortedTypes : List Nat) : Option (GoString × Int × Int) :=
  match sortedTypes.head? with
  | some next =>
    match s.definitions[next]? with
    | none => none
    | some nextCell => exciseToNext input moved.Start nextCell.ActualPosition.Start
  | none =>
    match slice input moved.Start (len input), slice input 0 moved.Start,
        slice input (moved.End + 1) (len input) with
    | some _, some before, some after => some (removeExtraLines (before ++ after), 0, 0)
    | _, _, _ => none

/-- The body of `moveType` at the declaration to move (lines 228-297): the
declarations recorded for the buffer that start after the moved one are
shifted with their fields by the bytes cut out, the moved declaration and its
fields take the new buffer as their source. -/
def exciseType (s : TypesSplitterPlugin) (typeToMove : Nat) (cfgSrc : Nat) :
    Option TypesSplitterPlugin :=
  match s.astSources[cfgSrc]?, s.definitions[typeToMove]? with
  | some src, some moved =>
    match DefinitionsPosAfter s moved.ActualPosition.End
        ((s.sourcesDefs.lookup src.Name).getD []) with
    | none => none
    | some types =>
      let sortedTypes := sortByStart (definitionStartKey s) types
      match cutType s src.Input moved.ActualPosition sortedTypes with
      | none => none
      | some (input, offset, offsetLine) =>
        let s1 := { s with astSources := s.astSources.set cfgSrc { src with Input := input } }
        match shiftTypes offset offsetLine s1 sortedTypes with
        | none => none
        | some s2 =>
          match s2.definitions[typeToMove]? with
          | none => none
          | some moved2 =>
            match s2.astDefinitions[moved2.Definition]? with
            | none => none
            | some node =>
              match node.Position with
              | none => none
              | some p =>
                setFieldSources moved2.ActualPosition.Src
                  { s2 with
                    astDefinitions := s2.astDefinitions.set moved2.Definition
                      { node with Position := some { p with Src := moved2.ActualPosition.Src } } }
                  moved2.Fields
  | _, _ => none

/-- The name of a declaration wrapper: the `Name` of the wrapped node. -/
def definitionName (s : TypesSplitterPlugin) (d : Nat) : Option GoString :=
  match s.definitions[d]? with
  | none => none
  | some c =>
    match s.astDefinitions[c.Definition]? with
    | none => none
    | some node => some node.Name

/-- The loop of `moveType` over the declarations of the buffer. -/
def moveTypeLoop (s : TypesSplitterPlugin) (typeToMove : Nat) :
    List Nat → Option TypesSplitterPlugin
  | [] => some s
  | cfgType :: rest =>
    match definitionName s cfgType, definitionName s typeToMove with
    | some n, some m =>
      if n = m then
        match DefinitionPos s typeToMove with
        | none => none
        | some pos =>
          match pos.Src with
          | none => none
          | some cfgSrc => exciseType s typeToMove cfgSrc
      else moveTypeLoop s typeToMove rest
    | _, _ => none

/-- Source `moveType`; the error it returns is always nil, `none` is a panic. -/
def moveType (s : TypesSplitterPlugin) (fromSource : Option Nat) (typeToMove : Nat) :
    Option TypesSplitterPlugin :=
  match fromSource with
  | none => none
  | some w =>
    match s.sourceCells[w]? with
    | none => none
    | some cell => moveTypeLoop s typeToMove cell.Types

/-- The statements of `mutateQueryTypes` that hand a field to its new buffer
(lines 341-352): the buffer named `newSrcName` is looked up in `newSources`
and created when it is not there, the field is appended to its `Fields`, and
the actual position of the field takes the new buffer as its source.
`generated` is the text `NewSource` renders for a buffer without fields. -/
def addFieldToNewSource (generated : GoString) (s : TypesSplitterPlugin)
    (newSrcName : GoString) (sourceType : SourceType) (field : Nat) :
    Option TypesSplitterPlugin :=
  let (s1, w) : TypesSplitterPlugin × Nat :=
    match s.newSources.lookup newSrcName with
    | some w => (s, w)
    | none =>
      ({ s with
          astSources := s.astSources ++ [{ Name := newSrcName, Input := generated }]
          sourceCells := s.sourceCells ++
            [{ Source := s.astSources.length, typ := sourceType, Fields := [], Types := [],
               isMainQuery := false }]
          newSources := s.newSources ++ [(newSrcName, s.sourceCells.length)] },
        s.sourceCells.length)
  match s1.sourceCells[w]?, s1.fieldDefinitions[field]? with
  | some cell, some c =>
    some { s1 with
      sourceCells := s1.sourceCells.set w { cell with Fields := cell.Fields ++ [field] }
      fieldDefinitions := s1.fieldDefinitions.set field
        { c with ActualPosition := { c.ActualPosition with Src := some cell.Source } } }
  | _, _ => none

/-- The value of a position in memory: the pointer to the buffer replaced by
the buffer. -/
def resolvePosition (s : TypesSplitterPlugin) (p : PositionRef) : Option Position :=
  match p.Src with
  | none => some { Start := p.Start, End := p.End, Line := p.Line, Src := none }
  | some a =>
    match s.astSources[a]? with
    | none => none
    | some src => some { Start := p.Start, End := p.End, Line := p.Line, Src := some src }

/-- The value of a field node in memory. -/
def resolveField (s : TypesSplitterPlugin) (node : Nat) : Option AstFieldDefinition :=
  match s.astFields[node]? with
  | none => none
  | some f =>
    match f.Position with
    | none => some { Name := f.Name, Position := none }
    | some p =>
      match resolvePosition s p with
      | none => none
      | some pos => some { Name := f.Name, Position := some pos }

/-- Source `WrapFieldDefinition` on a field node in memory: the wrapper keeps
the pointer to the node. -/
def WrapFieldDefinitionAt (s : TypesSplitterPlugin) (node : Nat) (typ : FieldDefType) :
    Outcome FieldDefinitionCell :=
  match resolveField s node with
  | none => .fault
  | some f =>
    match WrapFieldDefinition f typ with
    | .fault => .fault
    | .inconsistent => .inconsistent
    | .ok v =>
      .ok { FieldDefinition := node, typ := v.typ, Content := v.Content,
            ActualPosition := { Start := v.ActualPosition.Start, End := v.ActualPosition.End,
                                Line := v.ActualPosition.Line, Src := none } }

/-- The value of a declaration node in memory; its fields are not resolved, the
extraction does not read them. -/
def resolveDefinition (s : TypesSplitterPlugin) (node : Nat) : Option AstDefinition :=
  match s.astDefinitions[node]? with
  | none => none
  | some d =>
    match d.Position with
    | none => some { Kind := d.Kind, Name := d.Name, Fields := [], Position := none }
    | some p =>
      match resolvePosition s p with
      | none => none
      | some pos => some { Kind := d.Kind, Name := d.Name, Fields := [], Position := some pos }

/-- Source `WrapDefinition` on a declaration node in memory: the wrapper keeps
the pointer to the node and has no fields yet. -/
def WrapDefinitionAt (s : TypesSplitterPlugin) (node : Nat) (typ : DefObjectType) :
    Outcome DefinitionCell :=
  match resolveDefinition s node with
  | none => .fault
  | some d =>
    match WrapDefinition d typ with
    | .fault => .fault
    | .inconsistent => .inconsistent
    | .ok v =>
      .ok { Definition := node, typ := v.typ, Content := v.Content, Fields := [],
            ActualPosition := { Start := v.ActualPosition.Start, End := v.ActualPosition.End,
                                Line := v.ActualPosition.Line, Src := none } }

/-- A field wrapper after one `shiftOffset`. -/
def shiftFieldCell (offset lines : Int) (c : FieldDefinitionCell) : FieldDefinitionCell :=
  { c with ActualPosition := shiftPosition c.ActualPosition offset lines }

/-- A declaration wrapper after one `shiftOffset`. -/
def shiftDefinitionCell (offset lines : Int) (c : DefinitionCell) : DefinitionCell :=
  { c with ActualPosition := shiftPosition c.ActualPosition offset lines }

/-- The statements of `mutateObjectTypes` that hand a declaration to its new
buffer (lines 202-212): the buffer named `newSrcName` is looked up in
`newSources` and created with type `SourceObject` when it is not there, the
declaration is appended to its `Types`, and the actual position of the
declaration takes the new buffer as its source. `generated` is the text
`NewSource` renders for a buffer without declarations. -/
def addTypeToNewSource (generated : GoString) (s : TypesSplitterPlugin)
    (newSrcName : GoString) (definition : Nat) : Option TypesSplitterPlugin :=
  let (s1, w) : TypesSplitterPlugin × Nat :=
    match s.newSources.lookup newSrcName with
    | some w => (s, w)
    | none =>
      ({ s with
          astSources := s.astSources ++ [{ Name := newSrcName, Input := generated }]
          sourceCells := s.sourceCells ++
            [{ Source := s.astSources.length, typ := .SourceObject, Fields := [], Types := [],
               isMainQuery := false }]
          newSources := s.newSources ++ [(newSrcName, s.sourceCells.length)] },
        s.sourceCells.length)
  match s1.sourceCells[w]?, s1.definitions[definition]? with
  | some cell, some c =>
    some { s1 with
      sourceCells := s1.sourceCells.set w { cell with Types := cell.Types ++ [definition] }
      definitions := s1.definitions.set definition
        { c with ActualPosition := { c.ActualPosition with Src := some cell.Source } } }
  | _, _ => none

/-! ### Specification-side notions for the moves -/

/-- The text of the buffer of a field wrapper at the actual span of the wrapper:
`Input[ActualPosition.Start : ActualPosition.End+1]` of the buffer its raw
position points to. -/
def fieldSpanText (s : TypesSplitterPlugin) (fd : Nat) : Option GoString :=
  match s.fieldDefinitions[fd]?, FieldDefinitionPos s fd with
  | some c, some p =>
    match p.Src with
    | none => none
    | some a =>
      match s.astSources[a]? with
      | none => none
      | some src => slice src.Input c.ActualPosition.Start (c.ActualPosition.End + 1)
  | _, _ => none

/-- The text of the buffer of a declaration wrapper at the actual span of the
wrapper. -/
def definitionSpanText (s : TypesSplitterPlugin) (d : Nat) : Option GoString :=
  match s.definitions[d]?, DefinitionPos s d with
  | some c, some p =>
    match p.Src with
    | none => none
    | some a =>
      match s.astSources[a]? with
      | none => none
      | some src => slice src.Input c.ActualPosition.Start (c.ActualPosition.End + 1)
  | _, _ => none

/-- The content of the field wrapper is the text of its buffer at its actual
span. -/
def FieldContentHolds (s : TypesSplitterPlugin) (fd : Nat) : Prop :=
  match s.fieldDefinitions[fd]? with
  | none => False
  | some c => fieldSpanText s fd = some c.Content

instance (s : TypesSplitterPlugin) (fd : Nat) : Decidable (FieldContentHolds s fd) := by
  unfold FieldContentHolds; split <;> infer_instance

/-- The content of the declaration wrapper is the text of its buffer at its
actual span. -/
def DefinitionContentHolds (s : TypesSplitterPlugin) (d : Nat) : Prop :=
  match s.definitions[d]? with
  | none => False
  | some c => definitionSpanText s d = some c.Content

instance (s : TypesSplitterPlugin) (d : Nat) : Decidable (DefinitionContentHolds s d) := by
  unfold DefinitionContentHolds; split <;> infer_instance

/-- The field wrappers of the declaration wrappers of a list, in the order the
loop of `moveType` shifts them. -/
def fieldsOfTypes (s : TypesSplitterPlugin) : List Nat → List Nat
  | [] => []
  | d :: ds =>
    (match s.definitions[d]? with
      | none => []
      | some c => c.Fields) ++ fieldsOfTypes s ds

/-! ### Sample plugins

Each sample is the plugin as `initSources` leaves it for one buffer named
`schema.graphql`: the wrappers of the object types and of their fields come
first, those of the root operation types and of their fields after them. The
raw position of a node is the span of its name. -/

/-- The buffer `type Query {a, b}` followed by `type T {x}`. Field wrappers:
0 is `x`, 1 is `a`, 2 is `b`; declaration wrappers: 0 is `T`, 1 is `Query`. -/
def pluginQT : TypesSplitterPlugin :=
  { astSources :=
      [{ Name := "schema.graphql".toList,
         Input := "type Query \x7b\n  a: Int\n  b: Int\n\x7d\n\ntype T \x7b\n  x: Int\n\x7d\n".toList }]
    astFields := [
      { Name := "a".toList, Position := some { Start := 15, End := 16, Line := 2, Src := some 0 } },
      { Name := "b".toList, Position := some { Start := 24, End := 25, Line := 3, Src := some 0 } },
      { Name := "x".toList, Position := some { Start := 45, End := 46, Line := 7, Src := some 0 } }]
    astDefinitions := [
      { Kind := "OBJECT".toList, Name := "Query".toList, Fields := [0, 1],
        Position := some { Start := 5, End := 10, Line := 1, Src := some 0 } },
      { Kind := "OBJECT".toList, Name := "T".toList, Fields := [2],
        Position := some { Start := 39, End := 40, Line := 6, Src := some 0 } }]
    fieldDefinitions := [
      { FieldDefinition := 2, typ := .DefObjectField, Content := "  x: Int".toList,
        ActualPosition := { Start := 43, End := 50, Line := 6, Src := none } },
      { FieldDefinition := 0, typ := .DefQueryField, Content := "  a: Int".toList,
        ActualPosition := { Start := 13, End := 20, Line := 1, Src := none } },
      { FieldDefinition := 1, typ := .DefQueryField, Content := "  b: Int".toList,
        ActualPosition := { Start := 22, End := 29, Line := 2, Src := none } }]
    definitions := [
      { Definition := 1, typ := .DefTypeObject, Content := "type T \x7b\n  x: Int\n\x7d".toList,
        Fields := [0], ActualPosition := { Start := 34, End := 52, Line := 4, Src := none } },
      { Definition := 0, typ := .DefQueryObject,
        Content := "uery \x7b\n  a: Int\n  b: Int\n\x7d".toList,
        Fields := [1, 2], ActualPosition := { Start := 6, End := 31, Line := 0, Src := none } }]
    sourceCells :=
      [{ Source := 0, typ := .OriginalSource, Fields := [], Types := [0], isMainQuery := false }]
    genCfgSources := [0]
    schemaQuery := some 0
    schemaMutation := none
    schemaSubscription := none
    sources := [("schema.graphql".toList, 0)]
    sourcesDefs := [("schema.graphql".toList, [0, 1])]
    sourcesFields := [("schema.graphql".toList, [0, 1, 2])]
    newSources := [] }

/-- The plugin `pluginQT` once `mutateQueryTypes` has handed field `a` to the
new buffer `q.schema.graphql`, before it calls `moveQueryField`. -/
def pluginQTReady : TypesSplitterPlugin :=
  (addFieldToNewSource [] pluginQT "q.schema.graphql".toList .SourceQueryExtended 1).getD pluginQT

/-- The call of `moveQueryField` that moves field `a` of `pluginQT` to
`q.schema.graphql`. -/
def pluginQTMoved : Option (TypesSplitterPlugin × Bool × Option MoveError) :=
  moveQueryField pluginQTReady pluginQTReady.schemaQuery 1

/-- The plugin `pluginQT` after field `a` is moved. -/
def pluginQTAfter : TypesSplitterPlugin :=
  (pluginQTMoved.map (fun r => r.1)).getD pluginQT

/-- The buffer `type Query {a, b}` with two blank lines between the fields.
Field wrappers: 0 is `a`, 1 is `b`; declaration wrapper 0 is `Query`. -/
def pluginBlank : TypesSplitterPlugin :=
  { astSources :=
      [{ Name := "schema.graphql".toList,
         Input := "type Query \x7b\n  a: Int\n\n\n  b: Int\n\x7d\n".toList }]
    astFields := [
      { Name := "a".toList, Position := some { Start := 15, End := 16, Line := 2, Src := some 0 } },
      { Name := "b".toList, Position := some { Start := 26, End := 27, Line := 5, Src := some 0 } }]
    astDefinitions := [
      { Kind := "OBJECT".toList, Name := "Query".toList, Fields := [0, 1],
        Position := some { Start := 5, End := 10, Line := 1, Src := some 0 } }]
    fieldDefinitions := [
      { FieldDefinition := 0, typ := .DefQueryField, Content := "  a: Int".toList,
        ActualPosition := { Start := 13, End := 20, Line := 1, Src := none } },
      { FieldDefinition := 1, typ := .DefQueryField, Content := "  b: Int".toList,
        ActualPosition := { Start := 24, End := 31, Line := 2, Src := none } }]
    definitions := [
      { Definition := 0, typ := .DefQueryObject,
        Content := "uery \x7b\n  a: Int\n\n\n  b: Int\n\x7d".toList,
        Fields := [0, 1], ActualPosition := { Start := 6, End := 33, Line := 0, Src := none } }]
    sourceCells :=
      [{ Source := 0, typ := .OriginalSource, Fields := [], Types := [], isMainQuery := false }]
    genCfgSources := [0]
    schemaQuery := some 0
    schemaMutation := none
    schemaSubscription := none
    sources := [("schema.graphql".toList, 0)]
    sourcesDefs := [("schema.graphql".toList, [0])]
    sourcesFields := [("schema.graphql".toList, [0, 1])]
    newSources := [] }

/-- The plugin `pluginBlank` once field `a` is handed to the new buffer
`q.schema.graphql`. -/
def pluginBlankReady : TypesSplitterPlugin :=
  (addFieldToNewSource [] pluginBlank "q.schema.graphql".toList .SourceQueryExtended 0).getD
    pluginBlank

/-- The call of `moveQueryField` that moves field `a` of `pluginBlank`. -/
def pluginBlankMoved : Option (TypesSplitterPlugin × Bool × Option MoveError) :=
  moveQueryField pluginBlankReady pluginBlankReady.schemaQuery 0

/-- The plugin `pluginBlank` after field `a` is moved. -/
def pluginBlankAfter : TypesSplitterPlugin :=
  (pluginBlankMoved.map (fun r => r.1)).getD pluginBlank

/-- The buffer `type Query {a}` followed by `type Mutation {m}`. Field
wrappers: 0 is `a`, 1 is `m`; declaration wrappers: 0 is `Query`, 1 is
`Mutation`. -/
def pluginQM : TypesSplitterPlugin :=
  { astSources :=
      [{ Name := "schema.graphql".toList,
         Input := "type Query \x7b\n  a: Int\n\x7d\n\ntype Mutation \x7b\n  m: Int\n\x7d\n".toList }]
    astFields := [
      { Name := "a".toList, Position := some { Start := 15, End := 16, Line := 2, Src := some 0 } },
      { Name := "m".toList, Position := some { Start := 43, End := 44, Line := 6, Src := some 0 } }]
    astDefinitions := [
      { Kind := "OBJECT".toList, Name := "Query".toList, Fields := [0],
        Position := some { Start := 5, End := 10, Line := 1, Src := some 0 } },
      { Kind := "OBJECT".toList, Name := "Mutation".toList, Fields := [1],
        Position := some { Start := 30, End := 38, Line := 5, Src := some 0 } }]
    fieldDefinitions := [
      { FieldDefinition := 0, typ := .DefQueryField, Content := "  a: Int".toList,
        ActualPosition := { Start := 13, End := 20, Line := 1, Src := none } },
      { FieldDefinition := 1, typ := .DefMutationField, Content := "  m: Int".toList,
        ActualPosition := { Start := 41, End := 48, Line := 5, Src := none } }]
    definitions := [
      { Definition := 0, typ := .DefQueryObject, Content := "uery \x7b\n  a: Int\n\x7d".toList,
        Fields := [0], ActualPosition := { Start := 6, End := 22, Line := 0, Src := none } },
      { Definition := 1, typ := .DefMutationObject,
        Content := "type Mutation \x7b\n  m: Int\n\x7d".toList,
        Fields := [1], ActualPosition := { Start := 25, End := 50, Line := 3, Src := none } }]
    sourceCells :=
      [{ Source := 0, typ := .OriginalSource, Fields := [], Types := [], isMainQuery := false }]
    genCfgSources := [0]
    schemaQuery := some 0
    schemaMutation := some 1
    schemaSubscription := none
    sources := [("schema.graphql".toList, 0)]
    sourcesDefs := [("schema.graphql".toList, [0, 1])]
    sourcesFields := [("schema.graphql".toList, [0, 1])]
    newSources := [] }

/-- The plugin `pluginQM` once field `a` is handed to the new buffer
`q.schema.graphql`. -/
def pluginQMReady : TypesSplitterPlugin :=
  (addFieldToNewSource [] pluginQM "q.schema.graphql".toList .SourceQueryExtended 0).getD
    pluginQM

/-- The call of `moveQueryField` that moves field `a` of `pluginQM`. -/
def pluginQMFirst : Option (TypesSplitterPlugin × Bool × Option MoveError) :=
  moveQueryField pluginQMReady pluginQMReady.schemaQuery 0

/-- The plugin `pluginQM` after field `a` is moved and field `m` is handed to
the new buffer `m.schema.graphql`. -/
def pluginQMNext : TypesSplitterPlugin :=
  ((pluginQMFirst.bind (fun r =>
    addFieldToNewSource [] r.1 "m.schema.graphql".toList .SourceMutationExtended 1))).getD
    pluginQM

/-- The call of `moveQueryField` that then moves field `m` of `pluginQM`. -/
def pluginQMSecond : Option (TypesSplitterPlugin × Bool × Option MoveError) :=
  moveQueryField pluginQMNext pluginQMNext.schemaMutation 1

/-- The plugin `pluginQM` after both fields are moved. -/
def pluginQMAfter : TypesSplitterPlugin :=
  (pluginQMSecond.map (fun r => r.1)).getD pluginQM

/-- The buffer `type A {x}`, `type B {y}`, `type C {z}`. Field wrappers: 0 is
`x`, 1 is `y`, 2 is `z`; declaration wrappers: 0 is `A`, 1 is `B`, 2 is `C`. -/
def pluginABC : TypesSplitterPlugin :=
  { astSources :=
      [{ Name := "schema.graphql".toList,
         Input := ("type A \x7b\n  x: Int\n\x7d\n\ntype B \x7b\n  y: Int\n\x7d\n\n" ++
           "type C \x7b\n  z: Int\n\x7d\n").toList }]
    astFields := [
      { Name := "x".toList, Position := some { Start := 11, End := 12, Line := 2, Src := some 0 } },
      { Name := "y".toList, Position := some { Start := 32, End := 33, Line := 6, Src := some 0 } },
      { Name := "z".toList, Position := some { Start := 53, End := 54, Line := 10, Src := some 0 } }]
    astDefinitions := [
      { Kind := "OBJECT".toList, Name := "A".toList, Fields := [0],
        Position := some { Start := 5, End := 6, Line := 1, Src := some 0 } },
      { Kind := "OBJECT".toList, Name := "B".toList, Fields := [1],
        Position := some { Start := 26, End := 27, Line := 5, Src := some 0 } },
      { Kind := "OBJECT".toList, Name := "C".toList, Fields := [2],
        Position := some { Start := 47, End := 48, Line := 9, Src := some 0 } }]
    fieldDefinitions := [
      { FieldDefinition := 0, typ := .DefObjectField, Content := "  x: Int".toList,
        ActualPosition := { Start := 9, End := 16, Line := 1, Src := none } },
      { FieldDefinition := 1, typ := .DefObjectField, Content := "  y: Int".toList,
        ActualPosition := { Start := 30, End := 37, Line := 5, Src := none } },
      { FieldDefinition := 2, typ := .DefObjectField, Content := "  z: Int".toList,
        ActualPosition := { Start := 51, End := 58, Line := 9, Src := none } }]
    definitions := [
      { Definition := 0, typ := .DefTypeObject, Content := " \x7b\n  x: Int\n\x7d".toList,
        Fields := [0], ActualPosition := { Start := 6, End := 18, Line := 0, Src := none } },
      { Definition := 1, typ := .DefTypeObject, Content := "type B \x7b\n  y: Int\n\x7d".toList,
        Fields := [1], ActualPosition := { Start := 21, End := 39, Line := 3, Src := none } },
      { Definition := 2, typ := .DefTypeObject, Content := "type C \x7b\n  z: Int\n\x7d".toList,
        Fields := [2], ActualPosition := { Start := 42, End := 60, Line := 7, Src := none } }]
    sourceCells :=
      [{ Source := 0, typ := .OriginalSource, Fields := [], Types := [0, 1, 2],
         isMainQuery := false }]
    genCfgSources := [0]
    schemaQuery := none
    schemaMutation := none
    schemaSubscription := none
    sources := [("schema.graphql".toList, 0)]
    sourcesDefs := [("schema.graphql".toList, [0, 1, 2])]
    sourcesFields := [("schema.graphql".toList, [0, 1, 2])]
    newSources := [] }

/-- The plugin `pluginABC` once `mutateObjectTypes` has handed declaration `B`
to the new buffer `b.graphql`, before it calls `moveType`. -/
def pluginABCReady : TypesSplitterPlugin :=
  (addTypeToNewSource [] pluginABC "b.graphql".toList 1).getD pluginABC

/-- The call of `moveType` that moves declaration `B` of `pluginABC`. -/
def pluginABCMoved : Option TypesSplitterPlugin :=
  moveType pluginABCReady (pluginABCReady.sources.lookup "schema.graphql".toList) 1

/-- The plugin `pluginABC` after declaration `B` is moved. -/
def pluginABCAfter : TypesSplitterPlugin := pluginABCMoved.getD pluginABC

/-! ### Spec-side notions for the lines of a field -/

/-- Every byte at the offsets `a ≤ k < b` is a space, a newline or a tab. -/
def BlankBetween (input : GoString) (a b : Nat) : Prop :=
  ∀ k, k < b → a ≤ k →
    input[k]? = some space ∨ input[k]? = some newline ∨ input[k]? = some tab

instance (input : GoString) (a b : Nat) : Decidable (BlankBetween input a b) := by
  unfold BlankBetween; infer_instance

/-- The offset `n` holds the first newline at or after `a`. -/
def FirstNewlineFrom (input : GoString) (a n : Nat) : Prop :=
  a ≤ n ∧ input[n]? = some newline ∧ ∀ k, k < n → a ≤ k → input[k]? ≠ some newline

instance (input : GoString) (a n : Nat) : Decidable (FirstNewlineFrom input a n) := by
  unfold FirstNewlineFrom; infer_instance

/-- From the offset `i` on, the text holds one or more lines whose first
non-blank byte is `@`, the newline that ends the last of them stands at `m`,
and the first non-blank byte after `m` exists and is not `@`. -/
inductive DirectiveLines (input : GoString) : Nat → Nat → Prop
  | last (i a m j : Nat) (c : Char) :
      i ≤ a → BlankBetween input i a → input[a]? = some (Char.ofNat 64) →
      FirstNewlineFrom input a m →
      m + 1 ≤ j → BlankBetween input (m + 1) j → input[j]? = some c →
      c ≠ space → c ≠ newline → c ≠ tab → c ≠ Char.ofNat 64 →
      DirectiveLines input i m
  | more (i a nl m : Nat) :
      i ≤ a → BlankBetween input i a → input[a]? = some (Char.ofNat 64) →
      FirstNewlineFrom input a nl →
      DirectiveLines input (nl + 1) m →
      DirectiveLines input i m

/-! ### `types_splitter_plugin.go`: `getSourceDefs`, `initSources`, the two passes
and `MutateConfig`

What the package takes from outside is a parameter: the compiled patterns and
`MatchString`, `path/filepath`, the templates of `sources.go` (embedded files),
and the order in which the Go runtime enumerates a map. -/

/-- Source `isQueryDef`. -/
def isQueryDef (node : AstDefinitionNode) : Bool :=
  node.Name = "Query".toList || node.Name = "Mutation".toList ||
    node.Name = "Subscription".toList

/-- Source `isQueryTypeField`. -/
def isQueryTypeField (c : FieldDefinitionCell) : Bool :=
  c.typ = .DefQueryField || c.typ = .DefMutationField || c.typ = .DefSubscriptionField

/-- The `switch typ` at the head of `getSourceDefs`. For a category without a
case `fieldTyp` keeps its zero value, which is `DefQueryField`. -/
def fieldTypOf : DefObjectType → FieldDefType
  | .DefTypeObject => .DefObjectField
  | .DefQueryObject => .DefQueryField
  | .DefMutationObject => .DefMutationField
  | .DefSubscriptionObject => .DefSubscriptionField
  | .DefInputObject => .DefQueryField
  | .DefScalar => .DefQueryField

/-- The inner loop of `getSourceDefs` over `srcDef.Fields`: every field with a
position is wrapped, unless `typ` is `DefScalar`; the new wrappers are put at
the end of the memory. The result is the memory and the wrappers made. -/
def wrapSourceFields (typ : DefObjectType) (fieldTyp : FieldDefType) :
    TypesSplitterPlugin → List Nat → Option (TypesSplitterPlugin × List Nat)
  | s, [] => some (s, [])
  | s, f :: rest =>
    match s.astFields[f]? with
    | none => none
    | some node =>
      if node.Position = none ∨ typ = .DefScalar then wrapSourceFields typ fieldTyp s rest
      else
        match WrapFieldDefinitionAt s f fieldTyp with
        | .ok c =>
          match wrapSourceFields typ fieldTyp
              { s with fieldDefinitions := s.fieldDefinitions ++ [c] } rest with
          | none => none
          | some (s1, l) => some (s1, s.fieldDefinitions.length :: l)
        | _ => none

/-- The assignment to `typ` inside the loop of `getSourceDefs`:
`if typ == DefTypeObject && srcDef.Kind == "INPUT_OBJECT"` the variable becomes
`DefInputObject` (the `else if` on `SCALAR` inside that block is never
reached). -/
def retag (typ : DefObjectType) (node : AstDefinitionNode) : DefObjectType :=
  if typ = .DefTypeObject ∧ node.Kind = "INPUT_OBJECT".toList then
    if node.Kind = "INPUT_OBJECT".toList then .DefInputObject
    else if node.Kind = "SCALAR".toList then .DefScalar
    else typ
  else typ

/-- The loop of `getSourceDefs` over `srcDefs`; `typ` is the parameter of the
function, which the loop assigns to, so its value is carried from one
declaration to the next. `src` is the buffer `src.Source`. A nil entry of
`srcDefs` is `none`. The result is the memory, `defs` and `fields`. -/
def getSourceDefsLoop (src : Nat) (fieldTyp : FieldDefType) :
    TypesSplitterPlugin → DefObjectType → List (Option Nat) →
      Option (TypesSplitterPlugin × List Nat × List Nat)
  | s, _, [] => some (s, [], [])
  | s, typ, none :: rest => getSourceDefsLoop src fieldTyp s typ rest
  | s, typ, some d :: rest =>
    match s.astDefinitions[d]? with
    | none => none
    | some node =>
      match node.Position with
      | none => getSourceDefsLoop src fieldTyp s typ rest
      | some p =>
        if p.Src ≠ some src then getSourceDefsLoop src fieldTyp s typ rest
        else if typ = .DefTypeObject ∧ isQueryDef node = true then
          getSourceDefsLoop src fieldTyp s typ rest
        else
          let typ1 := retag typ node
          match WrapDefinitionAt s d typ1 with
          | .ok c =>
            let di := s.definitions.length
            match wrapSourceFields typ1 fieldTyp
                { s with definitions := s.definitions ++ [c] } node.Fields with
            | none => none
            | some (s1, defFields) =>
              match s1.definitions[di]? with
              | none => none
              | some c1 =>
                match getSourceDefsLoop src fieldTyp
                    { s1 with definitions :=
                        s1.definitions.set di { c1 with Fields := c1.Fields ++ defFields } }
                    typ1 rest with
                | none => none
                | some (s2, defs, fields) => some (s2, di :: defs, defFields ++ fields)
          | _ => none

/-- Source `getSourceDefs`; `src` points to the wrapper of the buffer. -/
def getSourceDefs (s : TypesSplitterPlugin) (src : Nat) (srcDefs : List (Option Nat))
    (typ : DefObjectType) : Option (TypesSplitterPlugin × List Nat × List Nat) :=
  match s.sourceCells[src]? with
  | none => none
  | some cell => getSourceDefsLoop cell.Source (fieldTypOf typ) s typ srcDefs

/-- The assignment `m[k] = v` to a Go map. -/
def mapSet {α : Type} (m : List (GoString × α)) (k : GoString) (v : α) : List (GoString × α) :=
  if m.any (fun e => e.1 = k) then m.map (fun e => if e.1 = k then (k, v) else e)
  else m ++ [(k, v)]

/-- The two statements of `initSources` that record the result of one call of
`getSourceDefs`: `s.sourcesFields[name] = append(s.sourcesFields[name], fields...)`
and the same for `s.sourcesDefs`. -/
def recordSourceDefs (s : TypesSplitterPlugin) (name : GoString) (defs fields : List Nat) :
    TypesSplitterPlugin :=
  { s with
    sourcesFields := mapSet s.sourcesFields name ((s.sourcesFields.lookup name).getD [] ++ fields)
    sourcesDefs := mapSet s.sourcesDefs name ((s.sourcesDefs.lookup name).getD [] ++ defs) }

/-- The body of the loop of `initSources` for the buffer `cfgSource` of
`genCfg.Sources`; `types` is `mapToList(genCfg.Schema.Types)` as this
iteration gets it. -/
def initSource (types : List Nat) (s : TypesSplitterPlugin) (cfgSource : Nat) :
    Option TypesSplitterPlugin :=
  match s.astSources[cfgSource]? with
  | none => none
  | some buffer =>
    let w := s.sourceCells.length
    let s0 := { s with
      sourceCells := s.sourceCells ++
        [{ Source := cfgSource, typ := .OriginalSource, Fields := [], Types := [],
           isMainQuery := false }]
      sources := mapSet s.sources buffer.Name w }
    match getSourceDefs s0 w (types.map some) .DefTypeObject with
    | none => none
    | some (s1, srcTypes, srcTypesFields) =>
      match s1.sourceCells[w]? with
      | none => none
      | some cell =>
        let s2 := recordSourceDefs
          { s1 with sourceCells := s1.sourceCells.set w { cell with Types := cell.Types ++ srcTypes } }
          buffer.Name srcTypes srcTypesFields
        match getSourceDefs s2 w [s2.schemaQuery] .DefQueryObject with
        | none => none
        | some (s3, srcQueries, srcQueriesFields) =>
          let s4 := recordSourceDefs s3 buffer.Name srcQueries srcQueriesFields
          match getSourceDefs s4 w [s4.schemaMutation] .DefMutationObject with
          | none => none
          | some (s5, srcMutations, srcMutationsFields) =>
            let s6 := recordSourceDefs s5 buffer.Name srcMutations srcMutationsFields
            match getSourceDefs s6 w [s6.schemaSubscription] .DefSubscriptionObject with
            | none => none
            | some (s7, srcSubscriptions, srcSubscriptionsFields) =>
              some (recordSourceDefs s7 buffer.Name srcSubscriptions srcSubscriptionsFields)

/-- The loop of `initSources` over `genCfg.Sources`. `mapToList` gives, for
each buffer, the values of `genCfg.Schema.Types` in the order the runtime
enumerates the map in that iteration. -/
def initSourcesLoop (mapToList : Nat → List Nat) :
    TypesSplitterPlugin → List Nat → Option TypesSplitterPlugin
  | s, [] => some s
  | s, cfgSource :: rest =>
    match initSource (mapToList cfgSource) s cfgSource with
    | none => none
    | some s1 => initSourcesLoop mapToList s1 rest

/-- Source `initSources`. -/
def initSources (mapToList : Nat → List Nat) (s : TypesSplitterPlugin) :
    Option TypesSplitterPlugin :=
  initSourcesLoop mapToList { s with sources := [], sourcesDefs := [], sourcesFields := [] }
    s.genCfgSources

/-- Source `init`, on the members kept here. -/
def init (mapToList : Nat → List Nat) (s : TypesSplitterPlugin) : Option TypesSplitterPlugin :=
  initSources mapToList { s with newSources := [] }

/-- The three templates `sources.go` embeds. -/
inductive Template where
  | tmplQueryExtended
  | tmplQuery
  | tmplObject
deriving DecidableEq, Repr

/-- Parsing and executing a template of `sources.go` on its view data, the
name of the root operation type and the ordered list of fields
(`QueryViewData`) or the ordered list of declarations (`TypeViewData`);
`none` is an error of the template. -/
abbrev Renderer := Template → TypesSplitterPlugin → GoString → List Nat → Option GoString

/-- The functions of `path/filepath` the package calls. -/
structure PathOps where
  Dir : GoString → GoString
  Base : GoString → GoString
  Ext : GoString → GoString
  Join : GoString → GoString → GoString

/-- What the package takes from outside. `rangeSourcesFields`,
`rangeSourcesDefs` and `rangeNewSources` give the order in which a `range`
over the map with the given keys enumerates them. -/
structure Runtime (R : Type) where
  MatchString : R → GoString → Bool
  paths : PathOps
  render : Renderer
  mapToList : Nat → List Nat
  rangeSourcesFields : List GoString → List GoString
  rangeSourcesDefs : List GoString → List GoString
  rangeNewSources : List GoString → List GoString

/-- The errors `MutateConfig` returns, without the text put before them. -/
inductive MutateError where
  | move (e : MoveError)
  | originalSource
  | template
deriving DecidableEq, Repr

/-- The template and the name `GenerateInput` picks for a buffer that is not
an original one. -/
def templateOf (cell : SourceCell) : Template × GoString × List Nat :=
  let tmpl := if cell.isMainQuery then Template.tmplQuery else Template.tmplQueryExtended
  match cell.typ with
  | .SourceQueryExtended => (tmpl, "Query".toList, cell.Fields)
  | .SourceMutationExtended => (tmpl, "Mutation".toList, cell.Fields)
  | .SourceSubscriptionExtended => (tmpl, "Subscription".toList, cell.Fields)
  | _ => (.tmplObject, [], cell.Types)

/-- Source `(*Source).GenerateInput`: the text rendered becomes the text of the
buffer. -/
def GenerateInput (render : Renderer) (s : TypesSplitterPlugin) (w : Nat) :
    Option (TypesSplitterPlugin × Option MutateError) :=
  match s.sourceCells[w]? with
  | none => none
  | some cell =>
    if cell.typ = .OriginalSource then some (s, some .originalSource)
    else
      match render (templateOf cell).1 s (templateOf cell).2.1 (templateOf cell).2.2 with
      | none => some (s, some .template)
      | some text =>
        match s.astSources[cell.Source]? with
        | none => none
        | some buffer =>
          some ({ s with astSources := s.astSources.set cell.Source { buffer with Input := text } },
            none)

/-- The text `NewSource` renders for a buffer of the given type, which has no
fields and no declarations yet; `none` is the error of `NewSource`. -/
def newSourceText (render : Renderer) (s : TypesSplitterPlugin) (sourceType : SourceType) :
    Option GoString :=
  if sourceType = .OriginalSource then none
  else
    let cell : SourceCell :=
      { Source := 0, typ := sourceType, Fields := [], Types := [], isMainQuery := false }
    render (templateOf cell).1 s (templateOf cell).2.1 (templateOf cell).2.2

/-- The body of the inner loop of `mutateQueryTypes` for one field recorded
under `sourceName`. -/
def mutateQueryField {R : Type} (rt : Runtime R) (cfg : SplitterConfig R)
    (s : TypesSplitterPlugin) (sourceName : GoString) (field : Nat) :
    Option (TypesSplitterPlugin × Option MutateError) :=
  match s.fieldDefinitions[field]? with
  | none => none
  | some c =>
    match s.astFields[c.FieldDefinition]? with
    | none => none
    | some node =>
      if isQueryTypeField c = false then some (s, none)
      else
        match QuerySplitConfigs.FindResolverPrefix rt.MatchString cfg.QueryConfig node.Name with
        | (_, false) => some (s, none)
        | (resolverPrefix, true) =>
          let (origQuery, sourceType) : Option Nat × SourceType :=
            match c.typ with
            | .DefQueryField => (s.schemaQuery, .SourceQueryExtended)
            | .DefMutationField => (s.schemaMutation, .SourceMutationExtended)
            | .DefSubscriptionField => (s.schemaSubscription, .SourceSubscriptionExtended)
            | .DefObjectField => (none, .OriginalSource)
          let newSrcName := rt.paths.Join (rt.paths.Dir sourceName)
            (resolverPrefix ++ ".".toList ++ rt.paths.Base sourceName)
          if sourceName = newSrcName then some (s, none)
          else
            let generated : Option GoString :=
              match s.newSources.lookup newSrcName with
              | some _ => some []
              | none => newSourceText rt.render s sourceType
            match generated with
            | none => some (s, some .template)
            | some text =>
              match addFieldToNewSource text s newSrcName sourceType field with
              | none => none
              | some s1 =>
                match moveQueryField s1 origQuery field with
                | none => none
                | some (s2, _, some e) => some (s2, some (.move e))
                | some (s2, _, none) => some (s2, none)

/-- The inner loop of `mutateQueryTypes` over the fields recorded for one
buffer. -/
def mutateQueryFields {R : Type} (rt : Runtime R) (cfg : SplitterConfig R)
    (sourceName : GoString) :
    TypesSplitterPlugin → List Nat → Option (TypesSplitterPlugin × Option MutateError)
  | s, [] => some (s, none)
  | s, field :: rest =>
    match mutateQueryField rt cfg s sourceName field with
    | none => none
    | some (s1, some e) => some (s1, some e)
    | some (s1, none) => mutateQueryFields rt cfg sourceName s1 rest

/-- The outer loop of `mutateQueryTypes` over the keys of `sourcesFields` still
to enumerate; a key deleted before it is reached is not visited. -/
def mutateQueryTypesLoop {R : Type} (rt : Runtime R) (cfg : SplitterConfig R) :
    TypesSplitterPlugin → List GoString → Option (TypesSplitterPlugin × Option MutateError)
  | s, [] => some (s, none)
  | s, sourceName :: rest =>
    match s.sourcesFields.lookup sourceName with
    | none => mutateQueryTypesLoop rt cfg s rest
    | some fields =>
      match mutateQueryFields rt cfg sourceName s fields with
      | none => none
      | some (s1, some e) => some (s1, some e)
      | some (s1, none) => mutateQueryTypesLoop rt cfg s1 rest

/-- Source `mutateQueryTypes`. -/
def mutateQueryTypes {R : Type} (rt : Runtime R) (cfg : SplitterConfig R)
    (s : TypesSplitterPlugin) : Option (TypesSplitterPlugin × Option MutateError) :=
  mutateQueryTypesLoop rt cfg s (rt.rangeSourcesFields (s.sourcesFields.map (fun e => e.1)))

/-- The body of the inner loop of `mutateObjectTypes` for one declaration
recorded under `sourceName`. -/
def mutateObjectType {R : Type} (rt : Runtime R) (cfg : SplitterConfig R)
    (s : TypesSplitterPlugin) (sourceName : GoString) (definition : Nat) :
    Option (TypesSplitterPlugin × Option MutateError) :=
  match s.definitions[definition]?, definitionName s definition with
  | some c, some name =>
    if c.typ ≠ .DefTypeObject then some (s, none)
    else
      match TypeSplitConfigs.FindResolverPrefix cfg.TypeConfig name with
      | (_, false) => some (s, none)
      | (resolverPrefix, true) =>
        let newSrcName := rt.paths.Join (rt.paths.Dir sourceName)
          (resolverPrefix ++ rt.paths.Ext sourceName)
        if sourceName = newSrcName then some (s, none)
        else
          let generated : Option GoString :=
            match s.newSources.lookup newSrcName with
            | some _ => some []
            | none => newSourceText rt.render s .SourceObject
          match generated with
          | none => some (s, some .template)
          | some text =>
            match addTypeToNewSource text s newSrcName definition with
            | none => none
            | some s1 =>
              match moveType s1 (s1.sources.lookup sourceName) definition with
              | none => none
              | some s2 => some (s2, none)
  | _, _ => none

/-- The inner loop of `mutateObjectTypes` over the declarations recorded for
one buffer. -/
def mutateObjectTypesOf {R : Type} (rt : Runtime R) (cfg : SplitterConfig R)
    (sourceName : GoString) :
    TypesSplitterPlugin → List Nat → Option (TypesSplitterPlugin × Option MutateError)
  | s, [] => some (s, none)
  | s, definition :: rest =>
    match mutateObjectType rt cfg s sourceName definition with
    | none => none
    | some (s1, some e) => some (s1, some e)
    | some (s1, none) => mutateObjectTypesOf rt cfg sourceName s1 rest

/-- The outer loop of `mutateObjectTypes` over the keys of `sourcesDefs`. -/
def mutateObjectTypesLoop {R : Type} (rt : Runtime R) (cfg : SplitterConfig R) :
    TypesSplitterPlugin → List GoString → Option (TypesSplitterPlugin × Option MutateError)
  | s, [] => some (s, none)
  | s, sourceName :: rest =>
    match s.sourcesDefs.lookup sourceName with
    | none => mutateObjectTypesLoop rt cfg s rest
    | some definitions =>
      match mutateObjectTypesOf rt cfg sourceName s definitions with
      | none => none
      | some (s1, some e) => some (s1, some e)
      | some (s1, none) => mutateObjectTypesLoop rt cfg s1 rest

/-- Source `mutateObjectTypes`. -/
def mutateObjectTypes {R : Type} (rt : Runtime R) (cfg : SplitterConfig R)
    (s : TypesSplitterPlugin) : Option (TypesSplitterPlugin × Option MutateError) :=
  mutateObjectTypesLoop rt cfg s (rt.rangeSourcesDefs (s.sourcesDefs.map (fun e => e.1)))

/-- The loop of `MutateConfig` over the new buffers still to enumerate: the
text of each is rendered and normalised, and the buffer is appended to
`genCfg.Sources`. -/
def appendNewSources (render : Renderer) :
    TypesSplitterPlugin → List Nat → Option (TypesSplitterPlugin × Option MutateError)
  | s, [] => some (s, none)
  | s, w :: rest =>
    match GenerateInput render s w with
    | none => none
    | some (s1, some e) => some (s1, some e)
    | some (s1, none) =>
      match s1.sourceCells[w]? with
      | none => none
      | some cell =>
        match s1.astSources[cell.Source]? with
        | none => none
        | some buffer =>
          appendNewSources render
            { s1 with
              astSources := s1.astSources.set cell.Source
                { buffer with Input := removeExtraLines buffer.Input }
              genCfgSources := s1.genCfgSources ++ [cell.Source] }
            rest

/-- Go's `<` on strings: the bytes are compared from the first one on, and a
proper prefix is smaller. -/
def stringLt : GoString → GoString → Bool
  | _, [] => false
  | [], _ :: _ => true
  | a :: as, b :: bs => decide (a.toNat < b.toNat) || (decide (a = b) && stringLt as bs)

/-- The name of a buffer of the memory, as the comparison of `sort.Slice`
reads it. -/
def sourceNameKey (s : TypesSplitterPlugin) (a : Nat) : GoString :=
  match s.astSources[a]? with
  | none => []
  | some buffer => buffer.Name

/-- The call `sort.Slice(genCfg.Sources, func(i, j) ...Name < ...Name)`. Go
leaves the order among buffers of equal name open; here the order of the list
is kept. -/
def sortByName (s : TypesSplitterPlugin) (l : List Nat) : List Nat :=
  l.insertionSort (fun a b => stringLt (sourceNameKey s b) (sourceNameKey s a) = false)

/-- The wrappers a `range` over `newSources` produces, for the order `keys` of
its keys. -/
def newSourcesInOrder (s : TypesSplitterPlugin) (keys : List GoString) : List Nat :=
  keys.filterMap (fun k => s.newSources.lookup k)

/-- The statements of `MutateConfig` after the two passes: the new buffers are
rendered and appended, and `genCfg.Sources` is sorted by name. -/
def finishConfig {R : Type} (rt : Runtime R) (s : TypesSplitterPlugin) :
    Option (TypesSplitterPlugin × Option MutateError) :=
  match appendNewSources rt.render s
      (newSourcesInOrder s (rt.rangeNewSources (s.newSources.map (fun e => e.1)))) with
  | none => none
  | some (s1, some e) => some (s1, some e)
  | some (s1, none) => some ({ s1 with genCfgSources := sortByName s1 s1.genCfgSources }, none)

/-- The two passes of `MutateConfig`, each run when its part of the routing
configuration is not empty. -/
def mutatePasses {R : Type} (rt : Runtime R) (cfg : SplitterConfig R)
    (s : TypesSplitterPlugin) : Option (TypesSplitterPlugin × Option MutateError) :=
  match (if cfg.QueryConfig.length > 0 then mutateQueryTypes rt cfg s else some (s, none)) with
  | none => none
  | some (s1, some e) => some (s1, some e)
  | some (s1, none) =>
    if cfg.TypeConfig.length > 0 then mutateObjectTypes rt cfg s1 else some (s1, none)

/-- Source `MutateConfig`: the plugin after the call, with `genCfg.Sources` in
`genCfgSources`, and the error returned; `none` when the call panics. -/
def MutateConfig {R : Type} (rt : Runtime R) (cfg : SplitterConfig R)
    (s : TypesSplitterPlugin) : Option (TypesSplitterPlugin × Option MutateError) :=
  match init rt.mapToList s with
  | none => none
  | some s0 =>
    match mutatePasses rt cfg s0 with
    | none => none
    | some (s1, some e) => some (s1, some e)
    | some (s1, none) => finishConfig rt s1

/-! ### Sample runs of `MutateConfig` -/

/-- Go's `path/filepath` on names that hold no separator: `Dir` is `.`, `Base`
is the name, `Ext` is the text from the last dot on, and `Join` of `.` and a
name is the name. -/
def flatPaths : PathOps :=
  { Dir := fun _ => ".".toList
    Base := fun name => name
    Ext := fun name =>
      if '.' ∈ name then '.' :: (name.reverse.takeWhile (fun c => c ≠ '.')).reverse else []
    Join := fun dir name => if dir = ".".toList then name else dir ++ "/".toList ++ name }

/-- The content of the wrappers of a list, one per line. -/
def contentLines (contents : List (Option GoString)) : GoString :=
  (contents.map (fun c => c.getD [] ++ [newline])).flatten

/-- Modelled from the spec: the templates are embedded files that are not part
of the sources read here, and the specification has them consume an ordered
list of declarations or fields. This renderer writes the contents of the
list in its order, the fields of a root operation type between the braces of
`type` (the main buffer) or `extend type`. -/
def listRenderer : Renderer := fun tmpl s typeName items =>
  match tmpl with
  | .tmplObject =>
    some (contentLines (items.map (fun d => (s.definitions[d]?).map (fun c => c.Content))))
  | .tmplQuery =>
    some ("type ".toList ++ typeName ++ " \x7b\n".toList ++
      contentLines (items.map (fun f => (s.fieldDefinitions[f]?).map (fun c => c.Content))) ++
      "\x7d\n".toList)
  | .tmplQueryExtended =>
    some ("extend type ".toList ++ typeName ++ " \x7b\n".toList ++
      contentLines (items.map (fun f => (s.fieldDefinitions[f]?).map (fun c => c.Content))) ++
      "\x7d\n".toList)

/-- A runtime for the samples: a pattern matches the name equal to it, the
type map is enumerated in the order `types`, and the other maps in the order
their keys were put in. -/
def sampleRuntime (types : List Nat) : Runtime GoString :=
  { MatchString := fun p n => decide (p = n)
    paths := flatPaths
    render := listRenderer
    mapToList := fun _ => types
    rangeSourcesFields := fun keys => keys
    rangeSourcesDefs := fun keys => keys
    rangeNewSources := fun keys => keys }

/-- The names and texts of `genCfg.Sources` after a run that returned without
an error. -/
def outputBuffers (r : Option (TypesSplitterPlugin × Option MutateError)) :
    Option (List (GoString × GoString)) :=
  match r with
  | some (s, none) =>
    some (s.genCfgSources.map (fun a =>
      match s.astSources[a]? with
      | none => ([], [])
      | some buffer => (buffer.Name, buffer.Input)))
  | _ => none

/-- The parse of a schema before `init`: the plugin without wrappers and
records. -/
def parsed (astSources : List Source) (astFields : List AstFieldNode)
    (astDefinitions : List AstDefinitionNode) (genCfgSources : List Nat)
    (schemaQuery schemaMutation schemaSubscription : Option Nat) : TypesSplitterPlugin :=
  { astSources := astSources, astFields := astFields, astDefinitions := astDefinitions,
    fieldDefinitions := [], definitions := [], sourceCells := [],
    genCfgSources := genCfgSources, schemaQuery := schemaQuery,
    schemaMutation := schemaMutation, schemaSubscription := schemaSubscription,
    sources := [], sourcesDefs := [], sourcesFields := [], newSources := [] }

/-- The parse of one buffer with `type Query {q}`, `input I {x}` and
`type A {y}`. Declarations: 0 is `Query`, 1 is `I`, 2 is `A`. -/
def parsedQIA : TypesSplitterPlugin :=
  parsed
    [{ Name := "schema.graphql".toList,
       Input := ("type Query \x7b\n  q: Int\n\x7d\n\ninput I \x7b\n  x: Int\n\x7d\n\n" ++
         "type A \x7b\n  y: Int\n\x7d\n").toList }]
    [{ Name := "q".toList, Position := some { Start := 15, End := 16, Line := 2, Src := some 0 } },
     { Name := "x".toList, Position := some { Start := 37, End := 38, Line := 6, Src := some 0 } },
     { Name := "y".toList, Position := some { Start := 58, End := 59, Line := 10, Src := some 0 } }]
    [{ Kind := "OBJECT".toList, Name := "Query".toList, Fields := [0],
       Position := some { Start := 5, End := 10, Line := 1, Src := some 0 } },
     { Kind := "INPUT_OBJECT".toList, Name := "I".toList, Fields := [1],
       Position := some { Start := 31, End := 32, Line := 5, Src := some 0 } },
     { Kind := "OBJECT".toList, Name := "A".toList, Fields := [2],
       Position := some { Start := 52, End := 53, Line := 9, Src := some 0 } }]
    [0] (some 0) none none

/-- The routing of type `A` to the prefix `a`. -/
def routeA : SplitterConfig GoString :=
  { QueryConfig := [], TypeConfig := [{ Name := "A".toList, ResolverPrefix := "a".toList }] }

/-- The routing of the root field `a` to the prefix `q`. -/
def routeQueryA : SplitterConfig GoString :=
  { QueryConfig := [{ ResolverPrefix := "q".toList, Matches := ["a".toList],
                      compiled := ["a".toList] }],
    TypeConfig := [] }

/-- The parse of one buffer with `enum E {X}` and `type Query {a}`.
Declarations: 0 is `E`, 1 is `Query`. -/
def parsedEQ : TypesSplitterPlugin :=
  parsed
    [{ Name := "schema.graphql".toList,
       Input := "enum E \x7b\n  X\n\x7d\n\ntype Query \x7b\n  a: Int\n\x7d\n".toList }]
    [{ Name := "a".toList, Position := some { Start := 31, End := 32, Line := 6, Src := some 0 } }]
    [{ Kind := "ENUM".toList, Name := "E".toList, Fields := [],
       Position := some { Start := 5, End := 6, Line := 1, Src := some 0 } },
     { Kind := "OBJECT".toList, Name := "Query".toList, Fields := [0],
       Position := some { Start := 21, End := 26, Line := 5, Src := some 0 } }]
    [0] (some 1) none none

/-- The parse of two buffers: `schema.graphql` with `type T` and
`type Query {a}`, and `q.schema.graphql` with `extend type T {t}`; the parser
puts the field `t` of the extension into the declaration `T`. Fields: 0 is
`t`, 1 is `a`; declarations: 0 is `T`, 1 is `Query`. -/
def parsedTQ (second : String) : TypesSplitterPlugin :=
  parsed
    [{ Name := "schema.graphql".toList,
       Input := "type T\n\ntype Query \x7b\n  a: Int\n\x7d\n".toList },
     { Name := second.toList, Input := "extend type T \x7b\n  t: Int\n\x7d\n".toList }]
    [{ Name := "t".toList, Position := some { Start := 18, End := 19, Line := 2, Src := some 1 } },
     { Name := "a".toList, Position := some { Start := 23, End := 24, Line := 4, Src := some 0 } }]
    [{ Kind := "OBJECT".toList, Name := "T".toList, Fields := [0],
       Position := some { Start := 5, End := 6, Line := 1, Src := some 0 } },
     { Kind := "OBJECT".toList, Name := "Query".toList, Fields := [1],
       Position := some { Start := 13, End := 18, Line := 3, Src := some 0 } }]
    [0, 1] (some 1) none none

/-- The plugin after `init` of `parsedQIA`, before the first call of
`getSourceDefs`: the buffer has its wrapper and nothing else is recorded. -/
def wrappedQIA : TypesSplitterPlugin :=
  { parsedQIA with
    sourceCells :=
      [{ Source := 0, typ := .OriginalSource, Fields := [], Types := [], isMainQuery := false }]
    sources := [("schema.graphql".toList, 0)] }

/-- The plugin after `init` of `parsedEQ`. -/
def pluginEQ : TypesSplitterPlugin := (init (fun _ => [0, 1]) parsedEQ).getD parsedEQ

/-- The plugin `pluginEQ` once `mutateQueryTypes` has handed field `a` to the
new buffer `q.schema.graphql`, before it calls `moveQueryField`. -/
def pluginEQReady : TypesSplitterPlugin :=
  (addFieldToNewSource [] pluginEQ "q.schema.graphql".toList .SourceQueryExtended 0).getD pluginEQ

/-- The call of `moveQueryField` that moves field `a` of `pluginEQ`. -/
def pluginEQMoved : Option (TypesSplitterPlugin × Bool × Option MoveError) :=
  moveQueryField pluginEQReady pluginEQReady.schemaQuery 0

/-- The parse of the buffer of `pluginQT`: `type Query {a, b}` followed by
`type T {x}`. -/
def parsedQT : TypesSplitterPlugin :=
  parsed pluginQT.astSources pluginQT.astFields pluginQT.astDefinitions [0] (some 0) none none

/-- The plugin after the run of `MutateConfig` on `parsedQT` that routes the
root field `a` to the prefix `q`. -/
def pluginQTConfigured : TypesSplitterPlugin :=
  ((MutateConfig (sampleRuntime [0, 1]) routeQueryA parsedQT).map (fun r => r.1)).getD parsedQT

/-- Specification side: the list `l` of buffers without the first buffer of
each name of `names`, taken out one name after the other as the loop of
`moveQueryField` over `genCfg.Sources` does; `key` gives the name of a buffer. -/
def withoutDropped (key : Nat → GoString) (names : List GoString) (l : List Nat) : List Nat :=
  names.foldl (fun acc n => acc.eraseP (fun a => decide (key a = n))) l

/-- Specification side: the names of the buffers a run of `MutateConfig`
dropped, read off the plugin before the run (`s`) and after it (`t`): the
names of the buffers `genCfg.Sources` held before the run, each name once,
that have no record in `sourcesFields` after it. `initSources` records every
buffer of `genCfg.Sources` under its name, and `moveQueryField` deletes the
record of a name when it has taken the buffer of that name out of
`genCfg.Sources` and returns true (lines 459-486); nothing else deletes a
record. -/
def droppedNames (s t : TypesSplitterPlugin) : List GoString :=
  ((s.genCfgSources.map (sourceNameKey s)).dedup).filter
    (fun n => decide (n ∉ t.sourcesFields.map (fun e => e.1)))

/-- Specification side: the buffers of the memory of `s` are buffers of the
memory of `t`, under the same name. -/
def NamesKept (s t : TypesSplitterPlugin) : Prop :=
  ∀ (a : Nat) (n : GoString), (s.astSources[a]?).map (fun (b : Source) => b.Name) = some n →
    (t.astSources[a]?).map (fun (b : Source) => b.Name) = some n

/-- Specification side: from `s` to `t` no buffer is dropped: `genCfg.Sources`
and the records of `sourcesFields` are as before and the buffers keep their
names. -/
def SourcesFrame (s t : TypesSplitterPlugin) : Prop :=
  t.genCfgSources = s.genCfgSources ∧ t.sourcesFields = s.sourcesFields ∧ NamesKept s t

/-- Specification side: from `s` to `t` the buffers of the distinct recorded
names `names` are dropped, in this order: their records are deleted from
`sourcesFields`, and the first buffer of each name is taken out of
`genCfg.Sources`; `key` is any naming of the buffers that agrees with the
memory of `t`. -/
def SourcesDropped (s t : TypesSplitterPlugin) (names : List GoString) : Prop :=
  names.Nodup ∧ (∀ n ∈ names, n ∈ s.sourcesFields.map (fun e => e.1)) ∧
    t.sourcesFields.map (fun e => e.1) =
      (s.sourcesFields.map (fun e => e.1)).filter (fun n => decide (n ∉ names)) ∧
    NamesKept s t ∧
    ∀ key : Nat → GoString,
      (∀ (a : Nat) (n : GoString),
        (t.astSources[a]?).map (fun (b : Source) => b.Name) = some n → key a = n) →
      t.genCfgSources = withoutDropped key names s.genCfgSources

/-- The parse of two buffers: `schema.graphql` with `type Query {a}` and
`types.graphql` with `type T {x}`. Fields: 0 is `a`, 1 is `x`; declarations:
0 is `Query`, 1 is `T`. -/
def parsedTwoBuffers : TypesSplitterPlugin :=
  parsed
    [{ Name := "schema.graphql".toList, Input := "type Query \x7b\n  a: Int\n\x7d\n".toList },
     { Name := "types.graphql".toList, Input := "type T \x7b\n  x: Int\n\x7d\n".toList }]
    [{ Name := "a".toList, Position := some { Start := 15, End := 16, Line := 2, Src := some 0 } },
     { Name := "x".toList, Position := some { Start := 11, End := 12, Line := 2, Src := some 1 } }]
    [{ Kind := "OBJECT".toList, Name := "Query".toList, Fields := [0],
       Position := some { Start := 5, End := 10, Line := 1, Src := some 0 } },
     { Kind := "OBJECT".toList, Name := "T".toList, Fields := [1],
       Position := some { Start := 5, End := 6, Line := 1, Src := some 1 } }]
    [0, 1] (some 0) none none

/-- The plugin after the run of `MutateConfig` on `parsedTwoBuffers` that
routes the root field `a` to the prefix `q`: `schema.graphql` is dropped. -/
def pluginTwoBuffersConfigured : TypesSplitterPlugin :=
  ((MutateConfig (sampleRuntime [0, 1]) routeQueryA parsedTwoBuffers).map
    (fun r => r.1)).getD parsedTwoBuffers

/-! ## Theorems -/

theorem len_nonneg (s : GoString) : 0 ≤ len s := by
  unfold len; omega

theorem byteAt_natCast (s : GoString) (n : Nat) : byteAt s (n : Int) = s[n]? := by
  simp [byteAt]

theorem byteAt_eq_some {s : GoString} {i : Int} {c : Char} (h : byteAt s i = some c) :
    0 ≤ i ∧ i < len s ∧ s[i.toNat]? = some c := by
  unfold byteAt at h
  split at h
  · refine ⟨by assumption, ?_, h⟩
    have := (List.getElem?_eq_some_iff.mp h).1
    unfold len; omega
  · cases h

theorem byteAt_isSome {s : GoString} {i : Int} (h0 : 0 ≤ i) (h1 : i < len s) :
    ∃ c, byteAt s i = some c := by
  unfold len at h1
  have hlt : i.toNat < s.length := by omega
  exact ⟨s[i.toNat], by simp [byteAt, h0, List.getElem?_eq_getElem hlt]⟩

theorem ScanPost.mono {cb : Char} {input : GoString} {i j off : Int} {found : Bool}
    (h : ScanPost cb input j off found) (hij : i ≤ j) : ScanPost cb input i off found :=
  ⟨h.1, fun hf => ⟨le_trans hij (h.2 hf).1, (h.2 hf).2⟩⟩

theorem findClosingBracketLoop_post (ob cb : Char) (input : GoString) :
    ∀ (fuel : Nat) (i b : Int) (q : Bool) (qc : Char) (c : Bool) (off : Int) (found : Bool),
      findClosingBracketLoop ob cb input fuel i b q qc c = some (off, found) →
      ScanPost cb input i off found := by
  intro fuel
  induction fuel with
  | zero => intro i b q qc c off found h; simp [findClosingBracketLoop] at h
  | succ n ih =>
    intro i b q qc c off found h
    rw [findClosingBracketLoop] at h
    split at h
    · split at h
      · cases h
      · exact (ih _ _ _ _ _ _ _ h).mono (by omega)
      · split at h
        · cases h
        · exact (ih _ _ _ _ _ _ _ h).mono (by omega)
        · split at h
          · cases h
          · rename_i ch hch
            split at h
            · rename_i hc
              split at h
              · simp only [Option.some.injEq, Prod.mk.injEq] at h
                obtain ⟨rfl, rfl⟩ := h
                refine ⟨by simp, fun _ => ⟨le_refl _, by assumption, ?_⟩⟩
                rw [hch, hc.1]
              · exact (ih _ _ _ _ _ _ _ h).mono (by omega)
            · split at h
              · exact (ih _ _ _ _ _ _ _ h).mono (by omega)
              · split at h
                · split at h
                  · exact (ih _ _ _ _ _ _ _ h).mono (by omega)
                  · split at h
                    · split at h
                      · cases h
                      · split at h
                        · exact (ih _ _ _ _ _ _ _ h).mono (by omega)
                        · exact (ih _ _ _ _ _ _ _ h).mono (by omega)
                    · exact (ih _ _ _ _ _ _ _ h).mono (by omega)
                · split at h
                  · exact (ih _ _ _ _ _ _ _ h).mono (by omega)
                  · exact (ih _ _ _ _ _ _ _ h).mono (by omega)
    · simp only [Option.some.injEq, Prod.mk.injEq] at h
      obtain ⟨rfl, rfl⟩ := h
      exact ⟨fun _ => rfl, by simp⟩

theorem slice_isSome {s : GoString} {a b : Int} (h0 : 0 ≤ a) (h1 : a ≤ b) (h2 : b ≤ len s) :
    ∃ w, slice s a b = some w := by
  refine ⟨(s.drop a.toNat).take (b - a).toNat, ?_⟩
  unfold slice
  rw [if_pos ⟨h0, h1, h2⟩]

theorem tripleAt_isSome (input : GoString) {i : Int} (h0 : 0 ≤ i) :
    ∃ t, tripleAt input i = some t := by
  unfold tripleAt
  split
  · obtain ⟨w, hw⟩ := slice_isSome (s := input) (a := i) (b := i + 3) h0 (by omega) (by omega)
    rw [hw]; exact ⟨_, rfl⟩
  · exact ⟨_, rfl⟩

theorem tripleAt_true_le {input : GoString} {i : Int} (h : tripleAt input i = some true) :
    i + 3 ≤ len input := by
  unfold tripleAt at h
  split at h
  · omega
  · cases h

theorem skipCond_isSome {input : GoString} {i : Int} {q : Bool} (qc : Char) (c : Bool)
    (h0 : 0 ≤ i) (h1 : i < len input) (hq : q = true → 1 ≤ i) :
    ∃ t, skipCond input i q qc c = some t := by
  have hsecond : ∃ t, (if q = true then
      match byteAt input i with
      | none => none
      | some c =>
        if c ≠ qc then
          match byteAt input (i - 1) with
          | none => none
          | some p => some (decide (p ≠ backslash))
        else some false
    else some false) = some t := by
    split
    · rename_i hqt
      obtain ⟨ch, hch⟩ := byteAt_isSome h0 h1
      obtain ⟨p, hp⟩ := byteAt_isSome (s := input) (i := i - 1) (by have := hq hqt; omega) (by omega)
      rw [hch, hp]
      simp only []
      split <;> exact ⟨_, rfl⟩
    · exact ⟨_, rfl⟩
  unfold skipCond
  simp only []
  split
  · rename_i hc
    obtain ⟨w, hw⟩ := slice_isSome (s := input) (a := i) (b := i + 3) h0 (by omega) (by omega)
    rw [hw]
    simp only []
    split
    · exact ⟨_, rfl⟩
    · exact hsecond
  · exact hsecond

theorem findClosingBracketLoop_isSome (ob cb : Char) (input : GoString) :
    ∀ (fuel : Nat) (i b : Int) (q : Bool) (qc : Char) (c : Bool),
      0 ≤ i → (q = true → 1 ≤ i) → len input - i < fuel → 0 < fuel →
      ∃ r, findClosingBracketLoop ob cb input fuel i b q qc c = some r := by
  intro fuel
  induction fuel with
  | zero => intro i b q qc c _ _ _ hf; omega
  | succ n ih =>
    intro i b q qc c h0 hq hf _
    rw [findClosingBracketLoop]
    split
    · rename_i hlt
      obtain ⟨t, ht⟩ := skipCond_isSome qc c h0 hlt hq
      obtain ⟨t3, ht3⟩ := tripleAt_isSome input h0
      obtain ⟨ch, hch⟩ := byteAt_isSome h0 hlt
      have hrec : ∀ (j b' : Int) (q' : Bool) (qc' : Char) (c' : Bool), i < j → j ≤ len input →
          ∃ r, findClosingBracketLoop ob cb input n j b' q' qc' c' = some r :=
        fun j b' q' qc' c' hj hjl =>
          ih j b' q' qc' c' (by omega) (fun _ => by omega) (by omega) (by omega)
      rw [ht]
      cases t
      · simp only []
        rw [ht3]
        cases t3
        · simp only []
          rw [hch]
          simp only []
          split
          · split
            · exact ⟨_, rfl⟩
            · exact hrec _ _ _ _ _ (by omega) (by omega)
          · split
            · exact hrec _ _ _ _ _ (by omega) (by omega)
            · split
              · split
                · exact hrec _ _ _ _ _ (by omega) (by omega)
                · rename_i hqf
                  split
                  · obtain ⟨p, hp⟩ := byteAt_isSome (s := input) (i := i - 1)
                      (by have := hq (by simpa using hqf); omega) (by omega)
                    rw [hp]
                    simp only []
                    split <;> exact hrec _ _ _ _ _ (by omega) (by omega)
                  · exact hrec _ _ _ _ _ (by omega) (by omega)
              · split <;> exact hrec _ _ _ _ _ (by omega) (by omega)
        · have := tripleAt_true_le ht3
          exact hrec _ _ _ _ _ (by omega) (by omega)
      · exact hrec _ _ _ _ _ (by omega) (by omega)
    · exact ⟨_, rfl⟩

theorem findClosingBracketLoop_succ (ob cb : Char) (input : GoString) (fuel : Nat)
    (i b : Int) (q : Bool) (qc : Char) (c : Bool) :
    findClosingBracketLoop ob cb input (fuel + 1) i b q qc c =
      if i < len input then
        match findClosingBracketStep ob cb input i b q qc c with
        | .fault => none
        | .ret off found => some (off, found)
        | .next i' b' q' qc' c' => findClosingBracketLoop ob cb input fuel i' b' q' qc' c'
      else some (len input, false) := by
  rw [findClosingBracketLoop]
  unfold findClosingBracketStep
  repeat' (first | rfl | split)

theorem findClosingBracketLoop_fuel_succ (ob cb : Char) (input : GoString) :
    ∀ (fuel : Nat) (i b : Int) (q : Bool) (qc : Char) (c : Bool) (r : Int × Bool),
      findClosingBracketLoop ob cb input fuel i b q qc c = some r →
      findClosingBracketLoop ob cb input (fuel + 1) i b q qc c = some r := by
  intro fuel
  induction fuel with
  | zero => intro i b q qc c r h; simp [findClosingBracketLoop] at h
  | succ n ih =>
    intro i b q qc c r h
    rw [findClosingBracketLoop_succ] at h ⊢
    split
    · rename_i hlt
      rw [if_pos hlt] at h
      split
      · rename_i hs; rw [hs] at h; exact h
      · rename_i hs; rw [hs] at h; exact h
      · rename_i hs; rw [hs] at h; exact ih _ _ _ _ _ _ h
    · rename_i hlt
      rw [if_neg hlt] at h; exact h

theorem findClosingBracketLoop_fuel_add (ob cb : Char) (input : GoString)
    (fuel k : Nat) (i b : Int) (q : Bool) (qc : Char) (c : Bool) (r : Int × Bool)
    (h : findClosingBracketLoop ob cb input fuel i b q qc c = some r) :
    findClosingBracketLoop ob cb input (fuel + k) i b q qc c = some r := by
  induction k with
  | zero => exact h
  | succ k ih => exact findClosingBracketLoop_fuel_succ _ _ _ _ _ _ _ _ _ _ ih

theorem len_append (pre r : GoString) : len (pre ++ r) = len r + pre.length := by
  unfold len; simp; omega

theorem byteAt_append_right (pre r : GoString) {j : Int} (h0 : 0 ≤ j) :
    byteAt (pre ++ r) (j + pre.length) = byteAt r j := by
  unfold byteAt
  rw [if_pos (by omega), if_pos h0]
  have : (j + (pre.length : Int)).toNat = j.toNat + pre.length := by omega
  rw [this, List.getElem?_append_right (by omega)]
  simp

theorem slice_append_right (pre r : GoString) {a b : Int} (h0 : 0 ≤ a) :
    slice (pre ++ r) (a + pre.length) (b + pre.length) = slice r a b := by
  unfold slice
  by_cases h : 0 ≤ a ∧ a ≤ b ∧ b ≤ len r
  · rw [if_pos h, if_pos (by rw [len_append]; omega)]
    have h1 : (a + (pre.length : Int)).toNat = pre.length + a.toNat := by omega
    have h2 : (b + (pre.length : Int) - (a + (pre.length : Int))).toNat = (b - a).toNat := by
      congr 1; omega
    rw [h1, h2, List.drop_append]
  · rw [if_neg h, if_neg (by rw [len_append]; omega)]

theorem tripleAt_append_right (pre r : GoString) {j : Int} (h0 : 0 ≤ j) :
    tripleAt (pre ++ r) (j + pre.length) = tripleAt r j := by
  unfold tripleAt
  have h3 : j + (pre.length : Int) + 3 = (j + 3) + pre.length := by omega
  rw [h3, slice_append_right pre r h0, len_append]
  by_cases h : len r ≥ j + 3
  · rw [if_pos h, if_pos (by omega)]
  · rw [if_neg h, if_neg (by omega)]

theorem skipCond_append_right (pre r : GoString) {j : Int} (q : Bool) (qc : Char) (c : Bool)
    (h0 : 0 ≤ j) (hq : q = true → 1 ≤ j) :
    skipCond (pre ++ r) (j + pre.length) q qc c = skipCond r j q qc c := by
  unfold skipCond
  have h3 : j + (pre.length : Int) + 3 = (j + 3) + pre.length := by omega
  have h1 : j + (pre.length : Int) - 1 = (j - 1) + pre.length := by omega
  rw [h3, slice_append_right pre r h0, len_append, byteAt_append_right pre r h0, h1]
  have hc : (c = true ∧ len r + (pre.length : Int) ≥ j + 3 + pre.length) ↔ (c = true ∧ len r ≥ j + 3) := by
    constructor <;> (rintro ⟨a, b⟩; exact ⟨a, by omega⟩)
  simp only [hc]
  cases q
  · simp
  · rw [byteAt_append_right pre r (by have := hq rfl; omega)]

theorem findClosingBracketStep_append_right (ob cb : Char) (pre r : GoString) {j : Int} (b : Int)
    (q : Bool) (qc : Char) (c : Bool) (h0 : 0 ≤ j) (hq : q = true → 1 ≤ j) :
    findClosingBracketStep ob cb (pre ++ r) (j + pre.length) b q qc c =
      (findClosingBracketStep ob cb r j b q qc c).shift pre.length := by
  have h1 : j + (pre.length : Int) - 1 = (j - 1) + pre.length := by omega
  unfold findClosingBracketStep
  rw [skipCond_append_right pre r q qc c h0 hq, tripleAt_append_right pre r h0,
    byteAt_append_right pre r h0]
  cases q with
  | false =>
    repeat' first
      | (simp only [ScanStep.shift]; done)
      | (simp only [ScanStep.shift]; congr 1; omega)
      | contradiction
      | split
  | true =>
    rw [h1, byteAt_append_right pre r (by have := hq rfl; omega)]
    repeat' first
      | (simp only [ScanStep.shift]; done)
      | (simp only [ScanStep.shift]; congr 1; omega)
      | contradiction
      | split

theorem findClosingBracketStep_next_lt {ob cb : Char} {input : GoString} {i b : Int} {q : Bool}
    {qc : Char} {c : Bool} {i' b' : Int} {q' : Bool} {qc' : Char} {c' : Bool}
    (h : findClosingBracketStep ob cb input i b q qc c = .next i' b' q' qc' c') : i < i' := by
  unfold findClosingBracketStep at h
  repeat' first
    | (cases h; done)
    | (simp only [ScanStep.next.injEq] at h; omega)
    | split at h

theorem findClosingBracketLoop_append_right (ob cb : Char) (pre r : GoString) :
    ∀ (fuel : Nat) (j b : Int) (q : Bool) (qc : Char) (c : Bool),
      0 ≤ j → (q = true → 1 ≤ j) →
      findClosingBracketLoop ob cb (pre ++ r) fuel (j + pre.length) b q qc c =
        (findClosingBracketLoop ob cb r fuel j b q qc c).map
          (fun p => (p.1 + (pre.length : Int), p.2)) := by
  intro fuel
  induction fuel with
  | zero => intro j b q qc c _ _; simp [findClosingBracketLoop]
  | succ n ih =>
    intro j b q qc c h0 hq
    rw [findClosingBracketLoop_succ, findClosingBracketLoop_succ,
      findClosingBracketStep_append_right ob cb pre r b q qc c h0 hq, len_append]
    by_cases hlt : j < len r
    · rw [if_pos hlt, if_pos (by omega)]
      cases hs : findClosingBracketStep ob cb r j b q qc c with
      | fault => simp [ScanStep.shift]
      | ret off found => simp [ScanStep.shift]
      | next i' b' q' qc' c' =>
        simp only [ScanStep.shift]
        have hlt' := findClosingBracketStep_next_lt hs
        exact ih i' b' q' qc' c' (by omega) (fun _ => by omega)
    · rw [if_neg hlt, if_neg (by omega)]
      simp

theorem slice_getElem? {s : GoString} {a b : Int} {w : GoString} (h : slice s a b = some w)
    (k : Nat) (hk : (k : Int) < b - a) : w[k]? = byteAt s (a + k) := by
  unfold slice at h
  split at h
  · rename_i hc
    simp only [Option.some.injEq] at h
    subst h
    unfold byteAt
    rw [if_pos (by omega), List.getElem?_take_of_lt (by omega), List.getElem?_drop]
    congr 1
    omega
  · cases h

theorem tripleAt_true_head {input : GoString} {i : Int} (h : tripleAt input i = some true) :
    byteAt input i = some dquote ∧ byteAt input (i + 1) = some dquote := by
  unfold tripleAt at h
  split at h
  · split at h
    · cases h
    · rename_i w hw
      simp only [Option.some.injEq, beq_iff_eq] at h
      subst h
      have h0 := slice_getElem? hw 0 (by omega)
      have h1 := slice_getElem? hw 1 (by omega)
      simp only [tripleQuote] at h0 h1
      simp only [Nat.cast_zero, add_zero, Nat.cast_one] at h0 h1
      exact ⟨h0.symm, h1.symm⟩
  · cases h

theorem tripleAt_false_of_head {input : GoString} {i : Int} {ch : Char} (h0 : 0 ≤ i)
    (h : byteAt input i = some ch) (hne : ch ≠ dquote) : tripleAt input i = some false := by
  obtain ⟨t, ht⟩ := tripleAt_isSome input h0
  cases t
  · exact ht
  · have := (tripleAt_true_head ht).1
    rw [h] at this
    exact absurd (Option.some.inj this) hne

theorem tripleAt_false_of_next {input : GoString} {i : Int} (h0 : 0 ≤ i)
    (h : byteAt input (i + 1) ≠ some dquote) : tripleAt input i = some false := by
  obtain ⟨t, ht⟩ := tripleAt_isSome input h0
  cases t
  · exact ht
  · exact absurd (tripleAt_true_head ht).2 h

theorem skipCond_false_false (input : GoString) (i : Int) (qc : Char) :
    skipCond input i false qc false = some false := by
  simp [skipCond]

theorem skipCond_noQuote (input : GoString) (i : Int) (qc qc' : Char) (c : Bool) :
    skipCond input i false qc c = skipCond input i false qc' c := by
  simp [skipCond]

/-- While no quoted run is open the value of `quote` is never read. -/
theorem findClosingBracketLoop_quote_irrel (ob cb : Char) (input : GoString) (qc' : Char) :
    ∀ (fuel : Nat) (i b : Int) (qc : Char) (c : Bool),
      findClosingBracketLoop ob cb input fuel i b false qc c =
        findClosingBracketLoop ob cb input fuel i b false qc' c := by
  intro fuel
  induction fuel with
  | zero => intro i b qc c; simp [findClosingBracketLoop]
  | succ n ih =>
    intro i b qc c
    rw [findClosingBracketLoop, findClosingBracketLoop, skipCond_noQuote input i qc qc' c]
    repeat' first
      | rfl
      | exact ih _ _ _ _
      | contradiction
      | (exfalso; tauto)
      | split

theorem closingBracket_ne_quote (ob : Char) :
    closingBracket ob ≠ squote ∧ closingBracket ob ≠ dquote := by
  unfold closingBracket
  split
  · decide
  · split
    · decide
    · split <;> decide

/-- Inside a quoted run a byte that is not the quote and does not follow a
backslash is skipped. -/
theorem findClosingBracketStep_inQuote (ob cb : Char) (input : GoString) (i b : Int) (qc : Char)
    {ch p : Char} (hch : byteAt input i = some ch) (hne : ch ≠ qc)
    (hp : byteAt input (i - 1) = some p) (hpb : p ≠ backslash) :
    findClosingBracketStep ob cb input i b true qc false = .next (i + 1) b true qc false := by
  have : skipCond input i true qc false = some true := by
    simp [skipCond, hch, hp, hne, hpb]
  unfold findClosingBracketStep
  rw [this]

theorem findClosingBracketLoop_skip_quoted (ob cb : Char) (input : GoString) (a b : Int) (qc : Char)
    (fuel : Nat) :
    ∀ (n : Nat), a + n ≤ len input →
      (∀ k : Nat, k < n → ∃ ch p, byteAt input (a + k) = some ch ∧ ch ≠ qc ∧
        byteAt input (a + k - 1) = some p ∧ p ≠ backslash) →
      findClosingBracketLoop ob cb input (fuel + n) a b true qc false =
        findClosingBracketLoop ob cb input fuel (a + n) b true qc false := by
  intro n
  induction n generalizing a with
  | zero => intro _ _; simp
  | succ n ih =>
    intro hlen h
    obtain ⟨ch, p, hch, hne, hp, hpb⟩ := h 0 (by omega)
    simp only [Nat.cast_zero, add_zero] at hch hp
    have hfu : fuel + (n + 1) = (fuel + n) + 1 := by omega
    rw [hfu, findClosingBracketLoop_succ, if_pos (by push_cast at hlen; omega),
      findClosingBracketStep_inQuote ob cb input a b qc hch hne hp hpb]
    simp only []
    rw [ih (a + 1) (by push_cast at hlen ⊢; omega)]
    · congr 1; push_cast; omega
    · intro k hk
      obtain ⟨ch, p, h1, h2, h3, h4⟩ := h (k + 1) (by omega)
      refine ⟨ch, p, ?_, h2, ?_, h4⟩
      · rw [← h1]; congr 1; push_cast; omega
      · rw [← h3]; congr 1; push_cast; omega

/-- Inside a doc comment a position that does not open the delimiter is skipped. -/
theorem findClosingBracketStep_inComment (ob cb : Char) (input : GoString) (i b : Int) (qc : Char)
    {ch : Char} (h0 : 0 ≤ i) (hlen : i + 3 ≤ len input) (hch : byteAt input i = some ch)
    (hne : ch ≠ dquote) :
    findClosingBracketStep ob cb input i b false qc true = .next (i + 1) b false qc true := by
  have : skipCond input i false qc true = some true := by
    obtain ⟨w, hw⟩ := slice_isSome (s := input) (a := i) (b := i + 3) h0 (by omega) hlen
    have hw0 := slice_getElem? hw 0 (by omega)
    simp only [Nat.cast_zero, add_zero, hch] at hw0
    have hwne : w ≠ tripleQuote := by
      intro heq
      rw [heq] at hw0
      simp only [tripleQuote] at hw0
      exact hne (Option.some.inj hw0).symm
    unfold skipCond
    simp only []
    rw [if_pos ⟨trivial, by omega⟩, hw]
    simp only []
    rw [if_pos hwne]
  unfold findClosingBracketStep
  rw [this]

theorem findClosingBracketLoop_skip_comment (ob cb : Char) (input : GoString) (a b : Int) (qc : Char)
    (fuel : Nat) :
    ∀ (n : Nat), 0 ≤ a → a + n + 3 ≤ len input + 1 →
      (∀ k : Nat, k < n → ∃ ch, byteAt input (a + k) = some ch ∧ ch ≠ dquote) →
      findClosingBracketLoop ob cb input (fuel + n) a b false qc true =
        findClosingBracketLoop ob cb input fuel (a + n) b false qc true := by
  intro n
  induction n generalizing a with
  | zero => intro _ _ _; simp
  | succ n ih =>
    intro h0 hlen h
    obtain ⟨ch, hch, hne⟩ := h 0 (by omega)
    simp only [Nat.cast_zero, add_zero] at hch
    have hfu : fuel + (n + 1) = (fuel + n) + 1 := by omega
    rw [hfu, findClosingBracketLoop_succ, if_pos (by push_cast at hlen; omega),
      findClosingBracketStep_inComment ob cb input a b qc h0 (by push_cast at hlen; omega) hch hne]
    simp only []
    rw [ih (a + 1) (by omega) (by push_cast at hlen ⊢; omega)]
    · congr 1; push_cast; omega
    · intro k hk
      obtain ⟨ch, h1, h2⟩ := h (k + 1) (by omega)
      refine ⟨ch, ?_, h2⟩
      rw [← h1]; congr 1; push_cast; omega

/-- C7: for every delimiter, text, start offset and scope flag:
`findClosingBracket` returns a result whenever the start offset is not negative;
a result with `found = false` carries the length of the text as its offset; a
result with `found = true` carries an offset that is at least `start`, below
the length of the text, and at which the closing delimiter stands. -/
theorem findClosingBracket_result (openBracket : Char) (input : GoString) (start : Int)
    (startInsideScope : Bool) :
    (0 ≤ start → ∃ off found,
      findClosingBracket openBracket input start startInsideScope = some (off, found)) ∧
    (∀ off, findClosingBracket openBracket input start startInsideScope = some (off, false) →
      off = len input) ∧
    (∀ off, findClosingBracket openBracket input start startInsideScope = some (off, true) →
      start ≤ off ∧ off < len input ∧ byteAt input off = some (closingBracket openBracket)) := by
  refine ⟨fun h0 => ?_, fun off h => ?_, fun off h => ?_⟩
  · obtain ⟨r, hr⟩ := findClosingBracketLoop_isSome openBracket (closingBracket openBracket) input
      (input.length + 1) start (if startInsideScope then 0 else -1) false dquote false h0
      (fun h => by cases h) (by unfold len; push_cast; omega) (by omega)
    exact ⟨r.1, r.2, hr⟩
  · exact (findClosingBracketLoop_post _ _ _ _ _ _ _ _ _ _ _ h).1 rfl
  · exact (findClosingBracketLoop_post _ _ _ _ _ _ _ _ _ _ _ h).2 rfl

theorem findClosingBracket_result_witness :
    findClosingBracket OpenParen "((hello) (world))".toList 1 false = some (7, true) ∧
    (1 : Int) ≤ 7 ∧ (7 : Int) < len "((hello) (world))".toList ∧
    byteAt "((hello) (world))".toList 7 = some (closingBracket OpenParen) :=
  ⟨by decide,
    (findClosingBracket_result OpenParen "((hello) (world))".toList 1 false).2.2 7 (by decide)⟩

theorem tripleAt_true_bytes {input : GoString} {i : Int} (h : tripleAt input i = some true) :
    byteAt input i = some dquote ∧ byteAt input (i + 1) = some dquote ∧
      byteAt input (i + 2) = some dquote := by
  unfold tripleAt at h
  split at h
  · split at h
    · cases h
    · rename_i w hw
      simp only [Option.some.injEq, beq_iff_eq] at h
      subst h
      have h0 := slice_getElem? hw 0 (by omega)
      have h1 := slice_getElem? hw 1 (by omega)
      have h2 := slice_getElem? hw 2 (by omega)
      simp only [tripleQuote] at h0 h1 h2
      simp only [Nat.cast_zero, add_zero, Nat.cast_one, Nat.cast_ofNat] at h0 h1 h2
      exact ⟨h0.symm, h1.symm, h2.symm⟩
  · cases h

theorem findClosingBracketStep_openQuote (ob cb : Char) (input : GoString) (i b : Int)
    (qc0 : Char) {q : Char} (hch : byteAt input i = some q) (hq : q = squote ∨ q = dquote)
    (hcb : cb ≠ q) (hob : ob ≠ q) (ht : tripleAt input i = some false) :
    findClosingBracketStep ob cb input i b false qc0 false = .next (i + 1) b true q false := by
  unfold findClosingBracketStep
  rw [skipCond_false_false, ht, hch]
  simp only []
  rw [if_neg (fun h => hcb h.1.symm), if_neg (fun h => hob h.1.symm), if_pos hq, if_pos trivial]

theorem findClosingBracketStep_closeQuote (ob cb : Char) (input : GoString) (i b : Int)
    {q p : Char} (hch : byteAt input i = some q) (hq : q = squote ∨ q = dquote)
    (hp : byteAt input (i - 1) = some p) (hpb : p ≠ backslash)
    (ht : tripleAt input i = some false) :
    findClosingBracketStep ob cb input i b true q false = .next (i + 1) b false q false := by
  have hs : skipCond input i true q false = some false := by
    simp [skipCond, hch]
  unfold findClosingBracketStep
  rw [hs, ht, hch]
  simp only []
  rw [if_neg (fun h => by simp at h), if_neg (fun h => by simp at h), if_pos hq,
    if_neg (by simp), if_pos trivial, hp]
  simp only []
  rw [if_pos hpb]

theorem byteAt_zero_cons (a : Char) (l : GoString) : byteAt (a :: l) 0 = some a := by
  simp [byteAt]

theorem byteAt_cons_succ (a : Char) (l : GoString) {i : Int} (h0 : 0 ≤ i) :
    byteAt (a :: l) (i + 1) = byteAt l i := by
  have := byteAt_append_right [a] l h0
  simpa using this

theorem byteAt_append_left (pre r : GoString) {i : Int} (h : i < pre.length) :
    byteAt (pre ++ r) i = byteAt pre i := by
  unfold byteAt
  split
  · rw [List.getElem?_append_left (by omega)]
  · rfl

theorem byteAt_mem {s : GoString} {i : Int} {c : Char} (h : byteAt s i = some c) : c ∈ s := by
  have := (byteAt_eq_some h).2.2
  obtain ⟨hlt, heq⟩ := List.getElem?_eq_some_iff.mp this
  exact heq ▸ List.getElem_mem hlt

/-- The scan of `q ++ s ++ q ++ r` from offset 0 reaches the first byte of `r`
with the state it started in (apart from the value of `quote`). -/
theorem findClosingBracketLoop_quoted_run (ob cb q : Char) (s r : GoString) (b : Int)
    (fuel : Nat)
    (hob : ob ≠ q) (hcb : cb ≠ q) (hq : q = squote ∨ q = dquote)
    (hs : ∀ c ∈ s, c ≠ squote ∧ c ≠ dquote ∧ c ≠ backslash) (hr : r.head? ≠ some dquote) :
    findClosingBracketLoop ob cb (q :: (s ++ q :: r)) (fuel + (s.length + 2)) 0 b false dquote false =
      findClosingBracketLoop ob cb (q :: (s ++ q :: r)) fuel (s.length + 2) b false q false := by
  have hqb : q ≠ backslash := by rcases hq with h | h <;> (rw [h]; decide)
  have hlen : len (q :: (s ++ q :: r)) = s.length + r.length + 2 := by
    unfold len; simp; omega
  have hb0 : byteAt (q :: (s ++ q :: r)) 0 = some q := byteAt_zero_cons _ _
  have hbs : ∀ k : Nat, k < s.length →
      ∃ ch, byteAt (q :: (s ++ q :: r)) ((k : Int) + 1) = some ch ∧ ch ∈ s := by
    intro k hk
    rw [byteAt_cons_succ _ _ (by omega), byteAt_append_left _ _ (by omega), byteAt_natCast]
    exact ⟨s[k], List.getElem?_eq_getElem hk, List.getElem_mem hk⟩
  have hbq : byteAt (q :: (s ++ q :: r)) ((s.length : Int) + 1) = some q := by
    rw [byteAt_cons_succ _ _ (by omega)]
    have := byteAt_append_right s (q :: r) (j := 0) (le_refl _)
    rw [zero_add] at this
    rw [this]; exact byteAt_zero_cons _ _
  have hbr : byteAt (q :: (s ++ q :: r)) ((s.length : Int) + 2) = r.head? := by
    have h1 : (s.length : Int) + 2 = ((s.length : Int) + 1) + 1 := by omega
    rw [h1, byteAt_cons_succ _ _ (by omega)]
    have := byteAt_append_right s (q :: r) (j := 1) (by omega)
    rw [add_comm] at this
    rw [this]
    have := byteAt_cons_succ q r (i := 0) (le_refl _)
    rw [zero_add] at this
    rw [this]
    cases r <;> simp [byteAt]
  -- the byte before position `k + 1` is not a backslash, for `k ≤ s.length`
  have hprev : ∀ k : Nat, k ≤ s.length →
      ∃ p, byteAt (q :: (s ++ q :: r)) ((k : Int) + 1 - 1) = some p ∧ p ≠ backslash := by
    intro k hk
    cases k with
    | zero => exact ⟨q, by simpa using hb0, hqb⟩
    | succ k =>
      obtain ⟨ch, h1, h2⟩ := hbs k (by omega)
      refine ⟨ch, ?_, (hs ch h2).2.2⟩
      rw [← h1]; congr 1; push_cast; omega
  -- position 0 opens the quoted run
  have ht0 : tripleAt (q :: (s ++ q :: r)) 0 = some false := by
    obtain ⟨t, ht⟩ := tripleAt_isSome (q :: (s ++ q :: r)) (i := 0) (le_refl _)
    cases t
    · exact ht
    · exfalso
      obtain ⟨_, h1, h2⟩ := tripleAt_true_bytes ht
      cases hsl : s.length with
      | zero =>
        have : (0 : Int) + 2 = (s.length : Int) + 2 := by rw [hsl]; rfl
        rw [this, hbr] at h2
        exact hr h2
      | succ n =>
        obtain ⟨ch, h3, h4⟩ := hbs 0 (by omega)
        simp only [Nat.cast_zero] at h3
        rw [h1] at h3
        exact (hs ch h4).2.1 (Option.some.inj h3).symm
  have hfu : fuel + (s.length + 2) = (fuel + 1 + s.length) + 1 := by omega
  rw [hfu, findClosingBracketLoop_succ, if_pos (by rw [hlen]; omega),
    findClosingBracketStep_openQuote ob cb _ 0 b dquote hb0 hq hcb hob ht0]
  simp only []
  -- the bytes of `s` are skipped
  rw [findClosingBracketLoop_skip_quoted ob cb _ (0 + 1) b q (fuel + 1) s.length
    (by rw [hlen]; omega)]
  swap
  · intro k hk
    obtain ⟨ch, h1, h2⟩ := hbs k hk
    obtain ⟨p, h3, h4⟩ := hprev k (by omega)
    refine ⟨ch, p, ?_, ?_, ?_, h4⟩
    · rw [← h1]; congr 1; omega
    · intro h; rw [h] at h2
      rcases hq with h' | h'
      · exact (hs q h2).1 h'
      · exact (hs q h2).2.1 h'
    · rw [← h3]; congr 1; omega
  -- the closing quote ends the run
  have hi : (0 : Int) + 1 + s.length = (s.length : Int) + 1 := by omega
  have htq : tripleAt (q :: (s ++ q :: r)) ((s.length : Int) + 1) = some false := by
    apply tripleAt_false_of_next (by omega)
    have : (s.length : Int) + 1 + 1 = (s.length : Int) + 2 := by omega
    rw [this, hbr]; exact hr
  obtain ⟨p, hp1, hp2⟩ := hprev s.length (le_refl _)
  rw [hi, findClosingBracketLoop_succ, if_pos (by rw [hlen]; omega),
    findClosingBracketStep_closeQuote ob cb _ _ b hbq hq hp1 hp2 htq]
  simp only []
  congr 1

/-- C8: delimiters inside a quoted run are inert. For an opening delimiter
that is not itself a quote character, a quote character `q`, a text `s` free of
quote characters and backslashes and a text `r` that does not begin with a
double quote, `findClosingBracket` on `q ++ s ++ q ++ r` from offset 0 gives the
result of `findClosingBracket` on `r` from offset 0 with the offset moved by
`len(s) + 2` and the same found flag; on `q ++ s ++ q` alone it reports not
found. -/
theorem findClosingBracket_quoted_inert (openBracket q : Char) (s r : GoString)
    (startInsideScope : Bool)
    (hopen : openBracket ≠ squote ∧ openBracket ≠ dquote)
    (hq : q = squote ∨ q = dquote)
    (hs : ∀ c ∈ s, c ≠ squote ∧ c ≠ dquote ∧ c ≠ backslash)
    (hr : r.head? ≠ some dquote) :
    findClosingBracket openBracket (q :: (s ++ q :: r)) 0 startInsideScope =
        (findClosingBracket openBracket r 0 startInsideScope).map
          (fun p => (p.1 + (len s + 2), p.2)) ∧
      findClosingBracket openBracket (q :: (s ++ [q])) 0 startInsideScope =
        some (len s + 2, false) := by
  have hob : openBracket ≠ q := by
    rcases hq with h | h <;> (rw [h]; first | exact hopen.1 | exact hopen.2)
  have hcb : closingBracket openBracket ≠ q := by
    rcases hq with h | h <;> rw [h]
    · exact (closingBracket_ne_quote _).1
    · exact (closingBracket_ne_quote _).2
  have main : ∀ r : GoString, r.head? ≠ some dquote →
      findClosingBracket openBracket (q :: (s ++ q :: r)) 0 startInsideScope =
        (findClosingBracket openBracket r 0 startInsideScope).map
          (fun p => (p.1 + (len s + 2), p.2)) := by
    intro r hr
    unfold findClosingBracket
    have hfu : (q :: (s ++ q :: r)).length + 1 = (r.length + 1) + (s.length + 2) := by
      simp; omega
    rw [hfu, findClosingBracketLoop_quoted_run openBracket _ q s r _ _ hob hcb hq hs hr]
    have hin : q :: (s ++ q :: r) = (q :: (s ++ [q])) ++ r := by simp
    have hl : ((s.length : Int) + 2) = 0 + ((q :: (s ++ [q])).length : Int) := by
      simp; omega
    rw [hin, hl, findClosingBracketLoop_append_right _ _ _ _ _ _ _ _ _ _ (le_refl _)
      (fun h => by cases h),
      findClosingBracketLoop_quote_irrel _ _ _ dquote]
    congr 1
    funext p
    simp [len]; omega
  refine ⟨main r hr, ?_⟩
  have := main [] (by simp)
  rw [this]
  simp [findClosingBracket, findClosingBracketLoop, len]

theorem findClosingBracket_quoted_inert_witness :
    findClosingBracket OpenParen (dquote :: ("(a".toList ++ dquote :: "(b)".toList)) 0 false =
        (findClosingBracket OpenParen "(b)".toList 0 false).map
          (fun p => (p.1 + (len "(a".toList + 2), p.2)) ∧
      findClosingBracket OpenParen (dquote :: ("(a".toList ++ [dquote])) 0 false =
        some (len "(a".toList + 2, false) :=
  findClosingBracket_quoted_inert OpenParen dquote "(a".toList "(b)".toList false
    (by decide) (by decide) (by decide) (by decide)

theorem slice_length {s : GoString} {a b : Int} {w : GoString} (h : slice s a b = some w) :
    (w.length : Int) = b - a := by
  unfold slice at h
  split at h
  · rename_i hc
    simp only [Option.some.injEq] at h
    subst h
    unfold len at hc
    rw [List.length_take, List.length_drop]
    omega
  · cases h

theorem tripleAt_true_of_bytes {input : GoString} {i : Int}
    (h0 : byteAt input i = some dquote) (h1 : byteAt input (i + 1) = some dquote)
    (h2 : byteAt input (i + 2) = some dquote) : tripleAt input i = some true := by
  have hi := (byteAt_eq_some h0).1
  have hl := (byteAt_eq_some h2).2.1
  obtain ⟨w, hw⟩ := slice_isSome (s := input) (a := i) (b := i + 3) hi (by omega) (by omega)
  have hwl := slice_length hw
  have e0 := slice_getElem? hw 0 (by omega)
  have e1 := slice_getElem? hw 1 (by omega)
  have e2 := slice_getElem? hw 2 (by omega)
  simp only [Nat.cast_zero, add_zero, Nat.cast_one, Nat.cast_ofNat, h0, h1, h2] at e0 e1 e2
  have hw3 : w = tripleQuote := by
    match w, hwl, e0, e1, e2 with
    | [x, y, z], _, e0, e1, e2 =>
      simp only [List.getElem?_cons_zero, List.getElem?_cons_succ, Option.some.injEq] at e0 e1 e2
      rw [e0, e1, e2]; rfl
    | [], hwl, _, _, _ => simp at hwl
    | [_], hwl, _, _, _ => simp at hwl
    | [_, _], hwl, _, _, _ => simp at hwl
    | _ :: _ :: _ :: _ :: _, hwl, _, _, _ => simp at hwl; omega
  unfold tripleAt
  rw [if_pos (by omega), hw, hw3]
  simp

theorem skipCond_of_tripleAt {input : GoString} {i : Int} (qc : Char) (c : Bool)
    (h : tripleAt input i = some true) : skipCond input i false qc c = some false := by
  unfold tripleAt at h
  split at h
  · rename_i hlen
    split at h
    · cases h
    · rename_i w hw
      simp only [Option.some.injEq, beq_iff_eq] at h
      unfold skipCond
      simp only []
      split
      · rw [hw]
        simp only []
        rw [if_neg (by simpa using h)]
        simp
      · simp
  · cases h

theorem findClosingBracketStep_triple (ob cb : Char) (input : GoString) (i b : Int) (qc : Char)
    (c : Bool) (h : tripleAt input i = some true) :
    findClosingBracketStep ob cb input i b false qc c = .next (i + 2 + 1) b false qc (!c) := by
  unfold findClosingBracketStep
  rw [skipCond_of_tripleAt qc c h, h]

/-- C9: delimiters inside a triple-quoted block are inert. For every text `s`
without a double-quote character and every text `r`, `findClosingBracket` on
the block `tripleQuote ++ s ++ tripleQuote` followed by `r`, from offset 0,
gives the result of `findClosingBracket` on `r` from offset 0 with the offset
moved by `len(s) + 6` and the same found flag. -/
theorem findClosingBracket_comment_inert (openBracket : Char) (s r : GoString)
    (startInsideScope : Bool) (hs : ∀ c ∈ s, c ≠ dquote) :
    findClosingBracket openBracket (tripleQuote ++ s ++ tripleQuote ++ r) 0 startInsideScope =
      (findClosingBracket openBracket r 0 startInsideScope).map
        (fun p => (p.1 + (len s + 6), p.2)) := by
  -- bytes of the text
  have hin : tripleQuote ++ s ++ tripleQuote ++ r =
      dquote :: dquote :: dquote :: (s ++ dquote :: dquote :: dquote :: r) := by
    simp [tripleQuote]
  have hlen : len (tripleQuote ++ s ++ tripleQuote ++ r) = s.length + r.length + 6 := by
    unfold len; simp [tripleQuote]; omega
  have hpre : ∀ (j : Int), 0 ≤ j →
      byteAt (tripleQuote ++ s ++ tripleQuote ++ r) (j + 3) =
        byteAt (s ++ dquote :: dquote :: dquote :: r) j := by
    intro j hj
    have := byteAt_append_right tripleQuote (s ++ dquote :: dquote :: dquote :: r) hj
    rw [← this]; simp [tripleQuote]
  have hb0 : tripleAt (tripleQuote ++ s ++ tripleQuote ++ r) 0 = some true := by
    rw [hin]
    apply tripleAt_true_of_bytes <;> simp [byteAt]
  have hbs : ∀ k : Nat, k < s.length →
      ∃ ch, byteAt (tripleQuote ++ s ++ tripleQuote ++ r) ((0 + 2 + 1 : Int) + k) = some ch ∧
        ch ≠ dquote := by
    intro k hk
    have e : (0 + 2 + 1 : Int) + k = (k : Int) + 3 := by omega
    rw [e, hpre _ (by omega), byteAt_append_left _ _ (by omega), byteAt_natCast]
    exact ⟨s[k], List.getElem?_eq_getElem hk, hs _ (List.getElem_mem hk)⟩
  have hclose : tripleAt (tripleQuote ++ s ++ tripleQuote ++ r) ((0 + 2 + 1 : Int) + s.length) =
      some true := by
    have hsuf : ∀ (j : Int), 0 ≤ j →
        byteAt (tripleQuote ++ s ++ tripleQuote ++ r) ((0 + 2 + 1 : Int) + s.length + j) =
          byteAt (dquote :: dquote :: dquote :: r) j := by
      intro j hj
      have e : (0 + 2 + 1 : Int) + s.length + j = (j + s.length) + 3 := by omega
      rw [e, hpre _ (by omega), byteAt_append_right s _ hj]
    apply tripleAt_true_of_bytes
    · have := hsuf 0 (le_refl _); rw [add_zero] at this; rw [this]; simp [byteAt]
    · rw [hsuf 1 (by omega)]; simp [byteAt]
    · rw [hsuf 2 (by omega)]; simp [byteAt]
  -- the scan of the text
  obtain ⟨x, hx⟩ := findClosingBracketLoop_isSome openBracket (closingBracket openBracket) r
    (r.length + 1) 0 (if startInsideScope then 0 else -1) false dquote false (le_refl _)
    (fun h => by cases h) (by unfold len; push_cast; omega) (by omega)
  have hfu : (tripleQuote ++ s ++ tripleQuote ++ r).length + 1 =
      ((r.length + 1 + 4) + 1 + s.length) + 1 := by
    simp [tripleQuote]; omega
  unfold findClosingBracket
  rw [hx, hfu, findClosingBracketLoop_succ, if_pos (by rw [hlen]; omega),
    findClosingBracketStep_triple _ _ _ _ _ _ _ hb0]
  simp only [Bool.not_false]
  rw [findClosingBracketLoop_skip_comment _ _ _ _ _ _ _ s.length (by omega)
    (by rw [hlen]; omega) hbs,
    findClosingBracketLoop_succ, if_pos (by rw [hlen]; omega),
    findClosingBracketStep_triple _ _ _ _ _ _ _ hclose]
  simp only [Bool.not_true]
  have hsplit : tripleQuote ++ s ++ tripleQuote ++ r = (tripleQuote ++ s ++ tripleQuote) ++ r := by
    simp
  have hidx : (0 + 2 + 1 : Int) + s.length + 2 + 1 =
      0 + ((tripleQuote ++ s ++ tripleQuote).length : Int) := by
    simp [tripleQuote]; omega
  rw [hidx, hsplit, findClosingBracketLoop_append_right _ _ _ _ _ _ _ _ _ _ (le_refl _)
    (fun h => by cases h)]
  rw [findClosingBracketLoop_fuel_add _ _ _ _ 4 _ _ _ _ _ _ hx]
  simp [tripleQuote, len]
  omega

theorem findClosingBracket_comment_inert_witness :
    findClosingBracket OpenBrace (tripleQuote ++ "a\x7d".toList ++ tripleQuote ++ "\x7bb\x7d".toList) 0
        false =
      (findClosingBracket OpenBrace "\x7bb\x7d".toList 0 false).map
        (fun p => (p.1 + (len "a\x7d".toList + 6), p.2)) :=
  findClosingBracket_comment_inert OpenBrace "a\x7d".toList "\x7bb\x7d".toList false (by decide)

theorem countBetween_self (c : Char) (input : GoString) (a : Nat) : countBetween c input a a = 0 := by
  unfold countBetween
  have : (input.take a).drop a = [] := by
    apply List.drop_eq_nil_of_le
    rw [List.length_take]; omega
  rw [this]; rfl

theorem countBetween_step (c : Char) (input : GoString) {a b : Nat} {ch : Char} (hab : a < b)
    (hch : input[a]? = some ch) :
    countBetween c input a b = (if ch = c then 1 else 0) + countBetween c input (a + 1) b := by
  obtain ⟨hlt, heq⟩ := List.getElem?_eq_some_iff.mp hch
  unfold countBetween
  have hl : a < (input.take b).length := by rw [List.length_take]; omega
  rw [List.drop_eq_getElem_cons hl, List.count_cons, List.getElem_take]
  rw [heq]
  simp only [beq_iff_eq]
  omega

theorem closingBracket_ne_of_bracket {ob : Char}
    (h : ob = OpenParen ∨ ob = OpenBrace ∨ ob = OpenSqBracket) : ob ≠ closingBracket ob := by
  rcases h with h | h | h <;> (rw [h]; decide)

/-- One iteration on a byte that is not a quote character, outside quoted runs
and comments. -/
theorem findClosingBracketStep_plain (ob cb : Char) (input : GoString) (i b : Int) (qc : Char)
    {ch : Char} (hch : byteAt input i = some ch) (hq : ch ≠ squote ∧ ch ≠ dquote) :
    findClosingBracketStep ob cb input i b false qc false =
      if ch = cb then (if b = 0 then .ret i true else .next (i + 1) (b - 1) false qc false)
      else if ch = ob then .next (i + 1) (b + 1) false qc false
      else .next (i + 1) b false qc false := by
  unfold findClosingBracketStep
  rw [skipCond_false_false, tripleAt_false_of_head (byteAt_eq_some hch).1 hch hq.2, hch]
  simp only []
  by_cases h1 : ch = cb
  · simp [h1]
  · by_cases h2 : ch = ob
    · simp [h1, h2]
    · simp [h1, h2, hq.1, hq.2]

/-- The scan of a stretch free of quote characters stops at the first closer
that meets a nesting counter of zero. -/
theorem findClosingBracketLoop_scan (ob cb : Char) (input : GoString) (hne : ob ≠ cb) (i : Nat)
    (hi : input[i]? = some cb) :
    ∀ (n j : Nat) (b : Int) (fuel : Nat) (qc : Char), j + n = i → n < fuel →
      (∀ k, j ≤ k → k ≤ i → ∀ ch, input[k]? = some ch → ch ≠ squote ∧ ch ≠ dquote) →
      b + countBetween ob input j i - countBetween cb input j i = 0 →
      (∀ k, j ≤ k → k < i → input[k]? = some cb →
        b + countBetween ob input j k - countBetween cb input j k ≠ 0) →
      findClosingBracketLoop ob cb input fuel (j : Int) b false qc false = some ((i : Int), true) := by
  have hilt : i < input.length := (List.getElem?_eq_some_iff.mp hi).1
  intro n
  induction n with
  | zero =>
    intro j b fuel qc hj hf hq hb _
    have hji : j = i := by omega
    subst hji
    obtain ⟨f, rfl⟩ : ∃ f, fuel = f + 1 := ⟨fuel - 1, by omega⟩
    rw [countBetween_self, countBetween_self] at hb
    have hb0 : b = 0 := by omega
    have hch : byteAt input (j : Int) = some cb := by rw [byteAt_natCast]; exact hi
    rw [findClosingBracketLoop_succ, if_pos (by unfold len; omega),
      findClosingBracketStep_plain ob cb input _ b qc hch (hq j (le_refl _) (le_refl _) cb hi)]
    simp [hb0]
  | succ n ih =>
    intro j b fuel qc hj hf hq hb hk
    obtain ⟨f, rfl⟩ : ∃ f, fuel = f + 1 := ⟨fuel - 1, by omega⟩
    have hjlt : j < input.length := by omega
    have hget : input[j]? = some input[j] := List.getElem?_eq_getElem hjlt
    have hch : byteAt input (j : Int) = some input[j] := by rw [byteAt_natCast]; exact hget
    have hcast : (j : Int) + 1 = ((j + 1 : Nat) : Int) := by push_cast; rfl
    have hq' : ∀ k, j + 1 ≤ k → k ≤ i → ∀ ch, input[k]? = some ch → ch ≠ squote ∧ ch ≠ dquote :=
      fun k h1 h2 => hq k (by omega) h2
    have hstep : ∀ c k, j < k → countBetween c input j k =
        (if input[j] = c then 1 else 0) + countBetween c input (j + 1) k :=
      fun c k hk => countBetween_step c input hk hget
    rw [findClosingBracketLoop_succ, if_pos (by unfold len; omega),
      findClosingBracketStep_plain ob cb input _ b qc hch (hq j (le_refl _) (by omega) _ hget)]
    by_cases h1 : input[j] = cb
    · have hbj := hk j (le_refl _) (by omega) (by rw [hget, h1])
      rw [countBetween_self, countBetween_self] at hbj
      have hb0 : b ≠ 0 := by omega
      have h2 : ¬ input[j] = ob := fun h => hne (h.symm.trans h1)
      rw [if_pos h1, if_neg hb0]
      simp only []
      rw [hcast]
      apply ih (j + 1) (b - 1) f qc (by omega) (by omega) hq'
      · have e1 := hstep ob i (by omega)
        have e2 := hstep cb i (by omega)
        rw [if_neg h2] at e1
        rw [if_pos h1] at e2
        omega
      · intro k hk1 hk2 hkc
        have e1 := hstep ob k (by omega)
        have e2 := hstep cb k (by omega)
        rw [if_neg h2] at e1
        rw [if_pos h1] at e2
        have := hk k (by omega) hk2 hkc
        omega
    · by_cases h2 : input[j] = ob
      · rw [if_neg h1, if_pos h2]
        simp only []
        rw [hcast]
        apply ih (j + 1) (b + 1) f qc (by omega) (by omega) hq'
        · have e1 := hstep ob i (by omega)
          have e2 := hstep cb i (by omega)
          rw [if_pos h2] at e1
          rw [if_neg h1] at e2
          omega
        · intro k hk1 hk2 hkc
          have e1 := hstep ob k (by omega)
          have e2 := hstep cb k (by omega)
          rw [if_pos h2] at e1
          rw [if_neg h1] at e2
          have := hk k (by omega) hk2 hkc
          omega
      · rw [if_neg h1, if_neg h2]
        simp only []
        rw [hcast]
        apply ih (j + 1) b f qc (by omega) (by omega) hq'
        · have e1 := hstep ob i (by omega)
          have e2 := hstep cb i (by omega)
          rw [if_neg h2] at e1
          rw [if_neg h1] at e2
          omega
        · intro k hk1 hk2 hkc
          have e1 := hstep ob k (by omega)
          have e2 := hstep cb k (by omega)
          rw [if_neg h2] at e1
          rw [if_neg h1] at e2
          have := hk k (by omega) hk2 hkc
          omega

/-- C6: for every text without quote characters and every start offset at
which an opening delimiter stands, `findClosingBracket` with
`startInsideScope = false` returns `found = true` and the offset of the closing
delimiter that balances that opening one, whenever such a closer exists. -/
theorem findClosingBracket_balanced (openBracket : Char) (input : GoString) (start i : Nat)
    (hopen : openBracket = OpenParen ∨ openBracket = OpenBrace ∨ openBracket = OpenSqBracket)
    (hq : ∀ c ∈ input, c ≠ squote ∧ c ≠ dquote)
    (hstart : input[start]? = some openBracket)
    (hbal : IsBalancingCloser openBracket (closingBracket openBracket) input start i) :
    findClosingBracket openBracket input (start : Int) false = some ((i : Int), true) := by
  obtain ⟨hlt, hi, hcnt, hleast⟩ := hbal
  have hne := closingBracket_ne_of_bracket hopen
  have hch : byteAt input (start : Int) = some openBracket := by rw [byteAt_natCast]; exact hstart
  have hilt : i < input.length := (List.getElem?_eq_some_iff.mp hi).1
  have hqk : ∀ (k : Nat) (ch : Char), input[k]? = some ch → ch ≠ squote ∧ ch ≠ dquote := by
    intro k ch h
    obtain ⟨hk, heq⟩ := List.getElem?_eq_some_iff.mp h
    exact hq ch (heq ▸ List.getElem_mem hk)
  unfold findClosingBracket
  rw [findClosingBracketLoop_succ, if_pos (by unfold len; omega),
    findClosingBracketStep_plain _ _ input _ _ _ hch (hqk _ _ hstart),
    if_neg hne, if_pos rfl]
  simp only [Bool.false_eq_true, if_false]
  have hcast : (start : Int) + 1 = ((start + 1 : Nat) : Int) := by push_cast; rfl
  rw [hcast]
  apply findClosingBracketLoop_scan _ _ input hne i hi (i - (start + 1)) (start + 1) _ _ _
    (by omega) (by omega) (fun k _ _ ch h => hqk k ch h)
  · omega
  · intro k hk1 hk2 hkc
    have := hleast k hk2 (by omega) hkc
    omega

theorem findClosingBracket_balanced_witness :
    findClosingBracket OpenParen "((hello) (world))".toList ((0 : Nat) : Int) false =
      some (((16 : Nat) : Int), true) :=
  findClosingBracket_balanced OpenParen "((hello) (world))".toList 0 16 (by decide) (by decide)
    (by decide) (by decide)

theorem trimNewLines_slice {w str : GoString} {nb la sa : Int}
    (h : trimNewLines w = some (str, nb, la, sa)) : slice w nb (len w - sa) = some str := by
  unfold trimNewLines at h
  split at h
  · cases h
  · split at h
    · cases h
    · split at h
      · cases h
      · rename_i hs
        simp only [Option.some.injEq, Prod.mk.injEq] at h
        obtain ⟨rfl, rfl, rfl, rfl⟩ := h
        exact hs

theorem slice_slice {s w str : GoString} {a b x y : Int} (h1 : slice s a b = some w)
    (h2 : slice w x y = some str) : slice s (a + x) (a + y) = some str := by
  have hl := slice_length h1
  unfold slice at h1 h2 ⊢
  split at h1
  · rename_i hc1
    split at h2
    · rename_i hc2
      simp only [Option.some.injEq] at h1 h2
      unfold len at hc1 hc2 ⊢
      rw [if_pos (by omega)]
      subst h1
      subst h2
      congr 1
      have e1 : (a + x).toNat = a.toNat + x.toNat := by omega
      have e2 : (a + y - (a + x)).toNat = (y - x).toNat := by congr 1; omega
      rw [e1, e2, List.drop_take, List.take_take, List.drop_drop]
      congr 1
      rw [hl] at hc2
      omega
    · cases h2
  · cases h1

theorem extract_span_slice {input whole content : GoString} {ob e nb la sa : Int}
    (hw : slice input ob (e + 1) = some whole)
    (ht : trimNewLines whole = some (content, nb, la, sa)) :
    slice input (ob + nb) (e - sa + 1) = some content := by
  have h := slice_slice hw (trimNewLines_slice ht)
  have hl := slice_length hw
  unfold len at h
  rw [hl] at h
  rw [← h]
  congr 1
  omega

theorem extractDefContentAt_slice {typ : DefObjectType} {input c : GoString}
    {start end0 s e l : Int} (h : extractDefContentAt typ input start end0 = some (c, s, e, l)) :
    slice input s (e + 1) = some c := by
  unfold extractDefContentAt at h
  simp only [Option.bind_eq_bind, Option.bind_eq_some, Option.pure_def, Option.some.injEq,
    Prod.mk.injEq] at h
  obtain ⟨⟨la, ob⟩, _, e1, _, e2, _, whole, hw, ⟨content, nb, x, sa⟩, ht, rfl, rfl, rfl, rfl⟩ := h
  exact extract_span_slice hw ht

theorem extractFieldDefContentAt_slice {input c : GoString} {start s e l : Int}
    (h : extractFieldDefContentAt input start = some (c, s, e, l)) :
    slice input s (e + 1) = some c := by
  unfold extractFieldDefContentAt at h
  simp only [Option.bind_eq_bind, Option.bind_eq_some, Option.pure_def, Option.some.injEq,
    Prod.mk.injEq] at h
  obtain ⟨⟨la, ob⟩, _, ce, _, e2, _, e3, _, e4, _, whole, hw, ⟨content, nb, x, sa⟩, ht,
    rfl, rfl, rfl, rfl⟩ := h
  exact extract_span_slice hw ht

/-- C1: whenever a span extractor returns (no slice fault), the returned
content equals the buffer text from the returned start through the returned end
inclusive, `input[actualStart : actualEnd+1]`; so the consistency check of
`WrapDefinition` and of `WrapFieldDefinition` never fires. -/
theorem extracted_content_is_slice (typ : DefObjectType) (d : AstDefinition)
    (ftyp : FieldDefType) (fd : AstFieldDefinition) :
    (∀ c s e l, extractDefContent typ d = some (c, s, e, l) →
      ∃ pos src, d.Position = some pos ∧ pos.Src = some src ∧
        slice src.Input s (e + 1) = some c) ∧
    (∀ c s e l, extractFieldDefContent fd = some (c, s, e, l) →
      ∃ pos src, fd.Position = some pos ∧ pos.Src = some src ∧
        slice src.Input s (e + 1) = some c) ∧
    WrapDefinition d typ ≠ Outcome.inconsistent ∧
    WrapFieldDefinition fd ftyp ≠ Outcome.inconsistent := by
  have hd : ∀ c s e l, extractDefContent typ d = some (c, s, e, l) →
      ∃ pos src, d.Position = some pos ∧ pos.Src = some src ∧
        slice src.Input s (e + 1) = some c := by
    intro c s e l h
    unfold extractDefContent at h
    split at h
    · cases h
    · rename_i pos hpos
      split at h
      · cases h
      · rename_i src hsrc
        exact ⟨pos, src, hpos, hsrc, extractDefContentAt_slice h⟩
  have hf : ∀ c s e l, extractFieldDefContent fd = some (c, s, e, l) →
      ∃ pos src, fd.Position = some pos ∧ pos.Src = some src ∧
        slice src.Input s (e + 1) = some c := by
    intro c s e l h
    unfold extractFieldDefContent at h
    split at h
    · cases h
    · rename_i pos hpos
      split at h
      · cases h
      · rename_i src hsrc
        exact ⟨pos, src, hpos, hsrc, extractFieldDefContentAt_slice h⟩
  refine ⟨hd, hf, ?_, ?_⟩
  · unfold WrapDefinition
    split
    · simp
    · rename_i c s e l hex
      obtain ⟨pos, src, hpos, hsrc, hsl⟩ := hd c s e l hex
      rw [hpos]
      simp only [hsrc, hsl]
      simp
  · unfold WrapFieldDefinition
    split
    · simp
    · rename_i c s e l hex
      obtain ⟨pos, src, hpos, hsrc, hsl⟩ := hf c s e l hex
      rw [hpos]
      simp only [hsrc, hsl]
      simp

/-- C10: `QuerySplitConfigs.FindResolverPrefix` returns the prefix of the first
group, in declared order, that has at least one compiled pattern matching the
name, and reports not-found (empty prefix, false) exactly when no pattern of
any group matches. -/
theorem FindResolverPrefix_first_matching_group {R : Type} (MatchString : R → GoString → Bool)
    (qs : QuerySplitConfigs R) (queryName : GoString) :
    (∀ (before after : QuerySplitConfigs R) (q : QuerySplitConfig R),
      qs = before ++ q :: after →
      (∀ g ∈ before, ∀ m ∈ g.compiled, MatchString m queryName = false) →
      (∃ m ∈ q.compiled, MatchString m queryName = true) →
      QuerySplitConfigs.FindResolverPrefix MatchString qs queryName = (q.ResolverPrefix, true)) ∧
    (QuerySplitConfigs.FindResolverPrefix MatchString qs queryName = ([], false) ↔
      ∀ g ∈ qs, ∀ m ∈ g.compiled, MatchString m queryName = false) := by
  constructor
  · intro before
    induction before generalizing qs with
    | nil =>
      intro after q hqs _ hm
      subst hqs
      have : q.compiled.any (fun m => MatchString m queryName) = true := by
        simpa [List.any_eq_true] using hm
      simp [QuerySplitConfigs.FindResolverPrefix, this]
    | cons g before ih =>
      intro after q hqs hb hm
      subst hqs
      have hg : g.compiled.any (fun m => MatchString m queryName) = false := by
        rw [List.any_eq_false]
        intro m hmem
        simp [hb g (List.mem_cons_self _ _) m hmem]
      simp only [List.cons_append, QuerySplitConfigs.FindResolverPrefix, hg]
      exact ih (before ++ q :: after) after q rfl
        (fun g' hg' => hb g' (List.mem_cons_of_mem _ hg')) hm
  · induction qs with
    | nil => simp [QuerySplitConfigs.FindResolverPrefix]
    | cons g qs ih =>
      by_cases hg : g.compiled.any (fun m => MatchString m queryName) = true
      · simp only [QuerySplitConfigs.FindResolverPrefix, hg, if_true]
        constructor
        · intro h; simp at h
        · intro h
          rw [List.any_eq_true] at hg
          obtain ⟨m, hm1, hm2⟩ := hg
          have := h g (List.mem_cons_self _ _) m hm1
          rw [this] at hm2
          cases hm2
      · have hg' : g.compiled.any (fun m => MatchString m queryName) = false := by
          simpa using hg
        simp only [QuerySplitConfigs.FindResolverPrefix, hg']
        rw [List.any_eq_false] at hg'
        constructor
        · intro h g' hmem m hm
          rcases List.mem_cons.mp hmem with rfl | h'
          · simpa using hg' m hm
          · exact ih.mp h g' h' m hm
        · intro h
          exact ih.mpr (fun g' hg'' => h g' (List.mem_cons_of_mem _ hg''))

theorem FindResolverPrefix_first_matching_group_witness :
    QuerySplitConfigs.FindResolverPrefix (R := GoString) (fun p n => decide (p = n))
        [⟨"racing".toList, ["race".toList], ["race".toList]⟩,
          ⟨"account".toList, ["bal".toList], ["bal".toList, "acc".toList]⟩,
          ⟨"other".toList, ["acc".toList], ["acc".toList]⟩] "acc".toList =
      ("account".toList, true) :=
  (FindResolverPrefix_first_matching_group (R := GoString) (fun p n => decide (p = n))
    [⟨"racing".toList, ["race".toList], ["race".toList]⟩,
      ⟨"account".toList, ["bal".toList], ["bal".toList, "acc".toList]⟩,
      ⟨"other".toList, ["acc".toList], ["acc".toList]⟩] "acc".toList).1
    [⟨"racing".toList, ["race".toList], ["race".toList]⟩]
    [⟨"other".toList, ["acc".toList], ["acc".toList]⟩]
    ⟨"account".toList, ["bal".toList], ["bal".toList, "acc".toList]⟩ rfl (by decide) (by decide)

/-- What `findPrevLineOffset` returns when the scan goes down from `i`. -/
theorem findPrevLineOffsetLoop_spec (input : GoString) (start : Int) :
    ∀ (fuel : Nat) (i : Int), -1 ≤ i → i < len input → i + 1 < fuel →
      ∃ p, findPrevLineOffsetLoop input start fuel i = some p ∧
        ((p = start ∧ ∀ k, 0 ≤ k → k ≤ i → byteAt input k ≠ some newline) ∨
          (0 ≤ p ∧ p ≤ i ∧ byteAt input p = some newline)) := by
  intro fuel
  induction fuel with
  | zero => intro i h1 _ h3; omega
  | succ n ih =>
    intro i h1 h2 h3
    rw [findPrevLineOffsetLoop]
    by_cases hi : i ≥ 0
    · rw [if_pos hi]
      obtain ⟨c, hc⟩ := byteAt_isSome hi h2
      rw [hc]
      simp only []
      by_cases hn : c = newline
      · rw [if_pos hn]
        exact ⟨i, rfl, Or.inr ⟨hi, le_refl _, by rw [hc, hn]⟩⟩
      · rw [if_neg hn]
        obtain ⟨p, hp, hcase⟩ := ih (i - 1) (by omega) (by omega) (by omega)
        refine ⟨p, hp, ?_⟩
        rcases hcase with ⟨h, hall⟩ | ⟨h, h', h''⟩
        · refine Or.inl ⟨h, fun k hk0 hki => ?_⟩
          by_cases hk : k = i
          · rw [hk, hc]; intro heq; exact hn (Option.some.inj heq)
          · exact hall k hk0 (by omega)
        · exact Or.inr ⟨h, by omega, h''⟩
    · rw [if_neg hi]
      exact ⟨start, rfl, Or.inl ⟨rfl, fun k hk0 hki => by omega⟩⟩

theorem findPrevLineOffset_spec (input : GoString) (start : Int) (h0 : 0 ≤ start)
    (h1 : start ≤ len input) :
    ∃ p, findPrevLineOffset input start = some p ∧
      ((p = start ∧ ∀ k, 0 ≤ k → k < start → byteAt input k ≠ some newline) ∨
        (0 ≤ p ∧ p < start ∧ byteAt input p = some newline)) := by
  unfold findPrevLineOffset
  obtain ⟨p, hp, hcase⟩ := findPrevLineOffsetLoop_spec input start (input.length + 1) (start - 1)
    (by omega) (by omega) (by unfold len at h1; push_cast; omega)
  refine ⟨p, hp, ?_⟩
  rcases hcase with ⟨h, hall⟩ | ⟨h, h', h''⟩
  · exact Or.inl ⟨h, fun k hk0 hk => hall k hk0 (by omega)⟩
  · exact Or.inr ⟨h, by omega, h''⟩

/-- What `findNextLineOffset` returns when the scan goes up from `i`. -/
theorem findNextLineOffsetLoop_spec (input : GoString) (start : Int) :
    ∀ (fuel : Nat) (i : Int), 0 ≤ i → len input - i < fuel → 0 < fuel →
      ∃ e, findNextLineOffsetLoop input start fuel i = some e ∧
        ((e = start ∧ ∀ k, i ≤ k → k < len input → byteAt input k ≠ some newline) ∨
          (i ≤ e ∧ e < len input ∧ byteAt input e = some newline ∧
            ∀ k, i ≤ k → k < e → byteAt input k ≠ some newline)) := by
  intro fuel
  induction fuel with
  | zero => intro i _ _ h3; omega
  | succ n ih =>
    intro i h1 h2 _
    rw [findNextLineOffsetLoop]
    by_cases hi : i < len input
    · rw [if_pos hi]
      obtain ⟨c, hc⟩ := byteAt_isSome h1 hi
      rw [hc]
      simp only []
      by_cases hn : c = newline
      · rw [if_pos hn]
        exact ⟨i, rfl, Or.inr ⟨le_refl _, hi, by rw [hc, hn], fun k hk1 hk2 => by omega⟩⟩
      · rw [if_neg hn]
        obtain ⟨e, he, hcase⟩ := ih (i + 1) (by omega) (by omega) (by omega)
        refine ⟨e, he, ?_⟩
        have hcur : byteAt input i ≠ some newline := by
          rw [hc]; intro heq; exact hn (Option.some.inj heq)
        rcases hcase with ⟨h, hall⟩ | ⟨h, h', h'', hall⟩
        · refine Or.inl ⟨h, fun k hk0 hki => ?_⟩
          by_cases hk : k = i
          · rw [hk]; exact hcur
          · exact hall k (by omega) hki
        · refine Or.inr ⟨by omega, h', h'', fun k hk0 hki => ?_⟩
          by_cases hk : k = i
          · rw [hk]; exact hcur
          · exact hall k (by omega) hki
    · rw [if_neg hi]
      exact ⟨start, rfl, Or.inl ⟨rfl, fun k hk0 hki => by omega⟩⟩

theorem findNextLineOffset_spec (input : GoString) (start : Int) (h0 : 0 ≤ start) :
    ∃ e, findNextLineOffset input start = some e ∧
      ((e = start ∧ ∀ k, start ≤ k → k < len input → byteAt input k ≠ some newline) ∨
        (start ≤ e ∧ e < len input ∧ byteAt input e = some newline ∧
          ∀ k, start ≤ k → k < e → byteAt input k ≠ some newline)) := by
  unfold findNextLineOffset
  exact findNextLineOffsetLoop_spec input start (input.length + 1) start h0
    (by unfold len; push_cast; omega) (by omega)

theorem tripleEndsAt_spec (input : GoString) (i : Int) (c : Char) (_h0 : 0 ≤ i)
    (h1 : i < len input) :
    ∃ t, tripleEndsAt input i c = some t ∧ (t = true → 2 ≤ i) := by
  unfold tripleEndsAt
  split
  · rename_i hc
    obtain ⟨p, hp⟩ := byteAt_isSome (s := input) (i := i - 1) (by omega) (by omega)
    obtain ⟨q, hq⟩ := byteAt_isSome (s := input) (i := i - 2) (by omega) (by omega)
    rw [hp, hq]
    simp only []
    split
    · exact ⟨_, rfl, fun _ => by omega⟩
    · exact ⟨_, rfl, fun h => by cases h⟩
  · exact ⟨_, rfl, fun h => by cases h⟩

/-- The loop of `findCommentStart` returns, and the start it reports lies in
`[0, startPos + 1]`. -/
theorem findCommentStartLoop_spec (input : GoString) (startPos : Int) (hs0 : 0 ≤ startPos)
    (hs1 : startPos ≤ len input) :
    ∀ (fuel : Nat) (i lines : Int) (ec : Bool), -1 ≤ i → i < len input → i < startPos →
      i + 1 < fuel →
      ∃ l ob, findCommentStartLoop input startPos fuel i lines ec = some (l, ob) ∧
        0 ≤ ob ∧ ob ≤ startPos + 1 := by
  intro fuel
  induction fuel with
  | zero => intro i _ _ h1 _ _ h3; omega
  | succ n ih =>
    intro i lines ec h1 h2 h3 h4
    rw [findCommentStartLoop]
    by_cases hi : i ≥ 0
    · rw [if_pos hi]
      obtain ⟨c, hc⟩ := byteAt_isSome hi h2
      rw [hc]
      simp only []
      by_cases hn : c = newline
      · rw [if_pos hn]
        exact ih _ _ _ (by omega) (by omega) (by omega) (by omega)
      · rw [if_neg hn]
        obtain ⟨t, ht, ht2⟩ := tripleEndsAt_spec input i c hi h2
        rw [ht]
        cases t
        · simp only []
          split
          · split
            · exact ⟨_, _, rfl, by omega, by omega⟩
            · exact ih _ _ _ (by omega) (by omega) (by omega) (by omega)
          · exact ih _ _ _ (by omega) (by omega) (by omega) (by omega)
        · simp only []
          have := ht2 rfl
          split
          · obtain ⟨p, hp, hcase⟩ := findPrevLineOffset_spec input i hi (by omega)
            rw [hp]
            simp only []
            refine ⟨_, _, rfl, ?_, ?_⟩
            · rcases hcase with ⟨h, _⟩ | ⟨h, _, _⟩ <;> omega
            · rcases hcase with ⟨h, _⟩ | ⟨_, h, _⟩ <;> omega
          · exact ih _ _ _ (by omega) (by omega) (by omega) (by omega)
    · rw [if_neg hi]
      obtain ⟨p, hp, hcase⟩ := findPrevLineOffset_spec input startPos hs0 hs1
      rw [hp]
      simp only []
      refine ⟨_, _, rfl, ?_, ?_⟩
      · rcases hcase with ⟨h, _⟩ | ⟨h, _, _⟩ <;> omega
      · rcases hcase with ⟨h, _⟩ | ⟨_, h, _⟩ <;> omega

/-- `findCommentStart` returns for every start offset inside the buffer; the
start it reports lies in `[0, start + 1]`, and in `[0, start]` when a newline
precedes `start`. -/
theorem findCommentStart_spec (input : GoString) (start : Int) (h0 : 0 ≤ start)
    (h1 : start ≤ len input) :
    ∃ l ob, findCommentStart input start = some (l, ob) ∧ 0 ≤ ob ∧ ob ≤ start + 1 ∧
      ((∃ k, 0 ≤ k ∧ k < start ∧ byteAt input k = some newline) → ob ≤ start) := by
  unfold findCommentStart
  obtain ⟨p, hp, hcase⟩ := findPrevLineOffset_spec input start h0 h1
  rw [hp]
  simp only []
  have hp0 : 0 ≤ p := by rcases hcase with ⟨h, _⟩ | ⟨h, _, _⟩ <;> omega
  have hp1 : p ≤ start := by rcases hcase with ⟨h, _⟩ | ⟨_, h, _⟩ <;> omega
  have hp2 : (∃ k, 0 ≤ k ∧ k < start ∧ byteAt input k = some newline) → p < start := by
    rintro ⟨k, hk0, hk1, hk2⟩
    rcases hcase with ⟨_, hall⟩ | ⟨_, h, _⟩
    · exact absurd hk2 (hall k hk0 hk1)
    · exact h
  obtain ⟨t, ht⟩ := tripleAt_isSome input hp0
  rw [ht]
  cases t
  · simp only []
    obtain ⟨l, ob, hl, hb0, hb1⟩ := findCommentStartLoop_spec input p hp0 (by omega)
      (input.length + 1) (p - 1) 1 false (by omega) (by omega) (by omega)
      (by unfold len at h1; push_cast; omega)
    exact ⟨l, ob, hl, hb0, by omega, fun h => by have := hp2 h; omega⟩
  · exact ⟨0, 0, rfl, le_refl _, by omega, fun _ => h0⟩

theorem slice_byteAt {s w : GoString} {a b : Int} (h : slice s a b = some w) {k : Int}
    (hk0 : 0 ≤ k) (hk1 : k < b - a) : byteAt w k = byteAt s (a + k) := by
  have := slice_getElem? h k.toNat (by omega)
  have e : ((k.toNat : Nat) : Int) = k := by omega
  rw [e] at this
  rw [← this]
  unfold byteAt
  rw [if_pos hk0]

theorem trimLeadingLoop_spec (w : GoString) :
    ∀ (fuel : Nat) (i : Int), 0 ≤ i → len w - i < fuel → 0 < fuel →
      (∀ k, 0 ≤ k → k < i → byteAt w k = some newline) →
      ∃ nb, trimLeadingLoop w fuel i = some nb ∧ 0 ≤ nb ∧
        (nb = 0 ∨ ∃ c, byteAt w nb = some c ∧ c ≠ newline) ∧
        (∀ k c, byteAt w k = some c → c ≠ newline → nb ≤ k) := by
  intro fuel
  induction fuel with
  | zero => intro i _ _ h _; omega
  | succ n ih =>
    intro i h0 h1 _ hall
    rw [trimLeadingLoop]
    by_cases hi : i < len w
    · rw [if_pos hi]
      obtain ⟨c, hc⟩ := byteAt_isSome h0 hi
      rw [hc]
      simp only []
      by_cases hn : c = newline
      · rw [if_pos hn]
        apply ih (i + 1) (by omega) (by omega) (by omega)
        intro k hk0 hk1
        by_cases hk : k = i
        · rw [hk, hc, hn]
        · exact hall k hk0 (by omega)
      · rw [if_neg hn]
        refine ⟨i, rfl, h0, Or.inr ⟨c, hc, hn⟩, fun k c' hk hc' => ?_⟩
        by_contra hlt
        have := hall k (byteAt_eq_some hk).1 (by omega)
        rw [hk] at this
        exact hc' (Option.some.inj this)
    · rw [if_neg hi]
      refine ⟨0, rfl, le_refl _, Or.inl rfl, fun k c' hk hc' => ?_⟩
      have hk' := byteAt_eq_some hk
      have := hall k hk'.1 (by omega)
      rw [hk] at this
      exact absurd (Option.some.inj this) hc'

theorem trimTrailingLoop_nonNewline (w : GoString) (fuel : Nat) (i la sa : Int) {c : Char}
    (hc : byteAt w i = some c) (hn : c ≠ newline) :
    trimTrailingLoop w (fuel + 1) i la sa =
      some (la, if c = space ∨ c = tab then sa + 1 else sa) := by
  rw [trimTrailingLoop, if_pos (byteAt_eq_some hc).1, hc]
  simp only []
  rw [if_neg hn]
  split <;> rfl

theorem trimTrailingLoop_newline (w : GoString) (fuel : Nat) (i la sa : Int)
    (hc : byteAt w i = some newline) :
    trimTrailingLoop w (fuel + 1) i la sa = trimTrailingLoop w fuel (i - 1) (la + 1) (sa + 1) := by
  rw [trimTrailingLoop, if_pos (byteAt_eq_some hc).1, hc]
  simp only []
  rw [if_pos trivial]

theorem trimTrailingLoop_spec (w : GoString) :
    ∀ (fuel : Nat) (i la sa : Int), -1 ≤ i → i < len w → i + 1 < fuel →
      ∃ la' sa', trimTrailingLoop w fuel i la sa = some (la', sa') ∧ sa ≤ sa' ∧
        sa' - sa ≤ i + 1 ∧
        (∀ k c, k ≤ i → byteAt w k = some c → c ≠ newline → sa' - sa ≤ i + 1 - k) := by
  intro fuel
  induction fuel with
  | zero => intro i _ _ h _ _; omega
  | succ n ih =>
    intro i la sa h0 h1 h2
    by_cases hi : i ≥ 0
    · obtain ⟨c, hc⟩ := byteAt_isSome hi h1
      by_cases hn : c = newline
      · rw [hn] at hc
        rw [trimTrailingLoop_newline w n i la sa hc]
        obtain ⟨la', sa', h, b1, b2, b3⟩ := ih (i - 1) (la + 1) (sa + 1) (by omega) (by omega)
          (by omega)
        refine ⟨la', sa', h, by omega, by omega, fun k c' hk hkc hc' => ?_⟩
        have hki : k ≠ i := by
          intro heq; rw [heq, hc] at hkc; exact hc' (Option.some.inj hkc).symm
        have := b3 k c' (by omega) hkc hc'
        omega
      · rw [trimTrailingLoop_nonNewline w n i la sa hc hn]
        refine ⟨_, _, rfl, ?_, ?_, fun k c' hk _ _ => ?_⟩ <;> split <;> omega
    · rw [trimTrailingLoop, if_neg hi]
      exact ⟨la, sa, rfl, le_refl _, by omega, fun k c' hk hkc _ => by
        have := (byteAt_eq_some hkc).1; omega⟩

/-- `trimNewLines` returns for every text, and its offsets stay inside the text. -/
theorem trimNewLines_spec (w : GoString) :
    ∃ str nb la sa, trimNewLines w = some (str, nb, la, sa) ∧ 0 ≤ nb ∧ 0 ≤ sa ∧
      nb + sa ≤ len w ∧
      trimTrailingLoop w (w.length + 1) (len w - 1) 0 0 = some (la, sa) ∧
      (∀ k c, byteAt w k = some c → c ≠ newline → nb ≤ k ∧ sa ≤ len w - k) := by
  have hl0 := len_nonneg w
  obtain ⟨nb, hnb, n0, n1, n2⟩ := trimLeadingLoop_spec w (w.length + 1) 0 (le_refl _)
    (by unfold len; push_cast; omega) (by omega) (fun k h1 h2 => by omega)
  obtain ⟨la, sa, hsa, s0, s1, s2⟩ := trimTrailingLoop_spec w (w.length + 1) (len w - 1) 0 0
    (by omega) (by omega) (by unfold len; push_cast; omega)
  have hsum : nb + sa ≤ len w := by
    rcases n1 with h | ⟨c, hc, hn⟩
    · omega
    · have h2 := s2 nb c (by have := (byteAt_eq_some hc).2.1; omega) hc hn
      omega
  obtain ⟨str, hstr⟩ := slice_isSome (s := w) (a := nb) (b := len w - sa) n0 (by omega) (by omega)
  refine ⟨str, nb, la, sa, ?_, n0, s0, hsum, hsa, fun k c hk hc => ⟨n2 k c hk hc, ?_⟩⟩
  · unfold trimNewLines
    rw [hnb]
    simp only []
    rw [hsa]
    simp only []
    rw [hstr]
  · have := s2 k c (by have := (byteAt_eq_some hk).2.1; omega) hk hc
    omega

theorem countBetween_ge_length (c : Char) (input : GoString) {a b : Nat}
    (h : input.length ≤ a) : countBetween c input a b = 0 := by
  unfold countBetween
  have : (input.take b).drop a = [] := by
    apply List.drop_eq_nil_of_le
    rw [List.length_take]; omega
  rw [this]; rfl

theorem countBetween_absent (c : Char) (input : GoString) :
    ∀ (n a b : Nat), b - a = n → (∀ k, a ≤ k → k < b → input[k]? ≠ some c) →
      countBetween c input a b = 0 := by
  intro n
  induction n with
  | zero =>
    intro a b hn _
    unfold countBetween
    have : (input.take b).drop a = [] := by
      apply List.drop_eq_nil_of_le
      rw [List.length_take]; omega
    rw [this]; rfl
  | succ n ih =>
    intro a b hn h
    by_cases hlen : a < input.length
    · have hget : input[a]? = some input[a] := List.getElem?_eq_getElem hlen
      rw [countBetween_step c input (by omega) hget, ih (a + 1) b (by omega)
        (fun k h1 h2 => h k (by omega) h2)]
      have : ¬ input[a] = c := by
        intro heq
        exact h a (le_refl _) (by omega) (by rw [hget, heq])
      rw [if_neg this]
    · exact countBetween_ge_length c input (by omega)

theorem countBetween_split (c : Char) (input : GoString) :
    ∀ (n a b e : Nat), b - a = n → a ≤ b → b ≤ e →
      countBetween c input a e = countBetween c input a b + countBetween c input b e := by
  intro n
  induction n with
  | zero =>
    intro a b e hn hab _
    have : a = b := by omega
    subst this
    rw [countBetween_self]; omega
  | succ n ih =>
    intro a b e hn hab hbe
    by_cases hlen : a < input.length
    · have hget : input[a]? = some input[a] := List.getElem?_eq_getElem hlen
      rw [countBetween_step c input (by omega : a < e) hget,
        countBetween_step c input (by omega : a < b) hget,
        ih (a + 1) b e (by omega) (by omega) hbe]
      omega
    · rw [countBetween_ge_length c input (by omega : input.length ≤ a),
        countBetween_ge_length c input (by omega : input.length ≤ a),
        countBetween_ge_length c input (by omega : input.length ≤ b)]

/-- From a raw start, across a stretch without quote characters whose first
brace is the opener at `o`, the scan for the closing brace returns the closer
`m` that balances `o`. -/
theorem findClosingBracket_from_before (ob cb : Char) (input : GoString) (hne : ob ≠ cb)
    (start o m : Nat) (hso : start ≤ o)
    (hfirst : ∀ k, k < o → start ≤ k → input[k]? ≠ some ob ∧ input[k]? ≠ some cb)
    (hopen : input[o]? = some ob)
    (hbal : IsBalancingCloser ob cb input o m)
    (hq : ∀ k, k ≤ m → start ≤ k → input[k]? ≠ some squote ∧ input[k]? ≠ some dquote)
    (fuel : Nat) (hfuel : m - start < fuel) (qc : Char) :
    findClosingBracketLoop ob cb input fuel (start : Int) (-1) false qc false =
      some ((m : Int), true) := by
  obtain ⟨hlt, hm, hcnt, hleast⟩ := hbal
  have hpre : ∀ c k, o < k → (c = ob ∨ c = cb) →
      countBetween c input start k =
        (if ob = c then 1 else 0) + countBetween c input (o + 1) k := by
    intro c k hk hc
    rw [countBetween_split c input (o - start) start o k (by omega) hso (by omega),
      countBetween_absent c input (o - start) start o rfl
        (fun j h1 h2 => by rcases hc with rfl | rfl
                           · exact (hfirst j h2 h1).1
                           · exact (hfirst j h2 h1).2),
      countBetween_step c input hk hopen]
    omega
  apply findClosingBracketLoop_scan ob cb input hne m hm (m - start) start (-1) fuel qc
    (by omega) (by omega)
  · intro k h1 h2 ch hch
    have := hq k h2 h1
    rw [hch] at this
    exact ⟨fun h => this.1 (by rw [h]), fun h => this.2 (by rw [h])⟩
  · rw [hpre ob m hlt (Or.inl rfl), hpre cb m hlt (Or.inr rfl), if_pos rfl, if_neg hne]
    omega
  · intro k h1 h2 hkc
    have hok : o < k := by
      by_contra hle
      rcases Nat.lt_or_ge k o with h | h
      · exact (hfirst k h h1).2 hkc
      · have : k = o := by omega
        rw [this, hopen] at hkc
        exact hne (Option.some.inj hkc)
    rw [hpre ob k hok (Or.inl rfl), hpre cb k hok (Or.inr rfl), if_pos rfl, if_neg hne]
    have := hleast k h2 hok hkc
    omega

/-- C4: for a declaration of a kind other than scalar whose text from the raw
start holds no quote characters and whose braces are balanced (the first brace
from the raw start is the opener at `o`, and `m` is the closer that balances
it), `extractDefContent` returns, its corrected end is at or after `m`, and it
is exactly `m` when that brace is the last character on its line. -/
theorem extractDefContent_end_covers_body (typ : DefObjectType) (d : AstDefinition)
    (pos : Position) (src : Source) (start o m : Nat)
    (hpos : d.Position = some pos) (hsrc : pos.Src = some src) (hstart : pos.Start = start)
    (htyp : typ ≠ DefObjectType.DefScalar) (hso : start ≤ o)
    (hfirst : ∀ k, k < o → start ≤ k →
      src.Input[k]? ≠ some OpenBrace ∧ src.Input[k]? ≠ some CloseBrace)
    (hopen : src.Input[o]? = some OpenBrace)
    (hbal : IsBalancingCloser OpenBrace CloseBrace src.Input o m)
    (hq : ∀ k, k ≤ m → start ≤ k →
      src.Input[k]? ≠ some squote ∧ src.Input[k]? ≠ some dquote) :
    ∃ c s e l, extractDefContent typ d = some (c, s, e, l) ∧ (m : Int) ≤ e ∧
      ((src.Input[m + 1]? = some newline ∨ m + 1 = src.Input.length) → e = m) := by
  have hom : o < m := hbal.1
  have hm : src.Input[m]? = some CloseBrace := hbal.2.1
  have hmlt : m < src.Input.length := (List.getElem?_eq_some_iff.mp hm).1
  have hlen : len src.Input = src.Input.length := rfl
  -- backward scan
  obtain ⟨l, ob, hcs, hob0, hob1, _⟩ := findCommentStart_spec src.Input start (by omega)
    (by rw [hlen]; omega)
  -- forward scan to the closing brace
  have hcb : findClosingBracket OpenBrace src.Input (start : Int) false = some ((m : Int), true) := by
    unfold findClosingBracket
    have : closingBracket OpenBrace = CloseBrace := by decide
    rw [this]
    exact findClosingBracket_from_before OpenBrace CloseBrace src.Input (by decide) start o m hso
      hfirst hopen hbal hq _ (by omega) _
  have hab : absorbBody typ src.Input (start : Int) pos.End = some (m : Int) := by
    unfold absorbBody
    rw [if_pos htyp, hcb]
    simp
  -- end of line
  obtain ⟨e2, he2, hcase⟩ := findNextLineOffset_spec src.Input (m : Int) (by omega)
  have hbm : byteAt src.Input (m : Int) = some CloseBrace := by rw [byteAt_natCast]; exact hm
  have he2m : (m : Int) ≤ e2 := by rcases hcase with ⟨h, _⟩ | ⟨h, _⟩ <;> omega
  have he2l : e2 < len src.Input := by
    rcases hcase with ⟨h, _⟩ | ⟨_, h, _⟩
    · rw [h, hlen]; omega
    · exact h
  obtain ⟨whole, hw⟩ := slice_isSome (s := src.Input) (a := ob) (b := e2 + 1) hob0 (by omega)
    (by omega)
  have hwl := slice_length hw
  have hwb : ∀ k : Int, ob ≤ k → k ≤ e2 → byteAt whole (k - ob) = byteAt src.Input k := by
    intro k h1 h2
    rw [slice_byteAt hw (by omega) (by omega)]
    congr 1; omega
  obtain ⟨str, nb, la, sa, htrim, _, hsa0, _, htl, _⟩ := trimNewLines_spec whole
  have hfu : whole.length + 1 = (whole.length - 1) + 1 + 1 := by
    have : 0 < whole.length := by omega
    omega
  have hlast : len whole - 1 = e2 - ob := by unfold len; omega
  -- the number of bytes trimmed at the end
  have hsa : (m : Int) ≤ e2 - sa ∧ (e2 ≤ m + 1 → e2 - sa = m) := by
    rcases hcase with ⟨h, _⟩ | ⟨_, _, hnl, hall⟩
    · -- no newline follows: the slice ends with the brace
      have hb : byteAt whole (len whole - 1) = some CloseBrace := by
        rw [hlast, hwb e2 (by omega) (le_refl _), h]; exact hbm
      rw [hfu, trimTrailingLoop_nonNewline whole _ _ 0 0 hb (by decide)] at htl
      rw [if_neg (by decide)] at htl
      simp only [Option.some.injEq, Prod.mk.injEq] at htl
      omega
    · -- the slice ends with the newline that follows the brace
      have hne : e2 ≠ m := by
        intro heq; rw [heq, hbm] at hnl; exact absurd (Option.some.inj hnl) (by decide)
      have hb : byteAt whole (len whole - 1) = some newline := by
        rw [hlast, hwb e2 (by omega) (le_refl _)]; exact hnl
      obtain ⟨c, hc⟩ := byteAt_isSome (s := src.Input) (i := e2 - 1) (by omega) (by omega)
      have hcn : c ≠ newline := by
        intro heq
        by_cases h1 : e2 - 1 = m
        · rw [h1, hbm] at hc; rw [heq] at hc; exact absurd (Option.some.inj hc) (by decide)
        · exact hall (e2 - 1) (by omega) (by omega) (by rw [hc, heq])
      have hb2 : byteAt whole (len whole - 1 - 1) = some c := by
        rw [hlast]
        have : e2 - ob - 1 = (e2 - 1) - ob := by omega
        rw [this, hwb (e2 - 1) (by omega) (by omega)]; exact hc
      rw [hfu, trimTrailingLoop_newline whole _ _ 0 0 hb,
        trimTrailingLoop_nonNewline whole _ _ _ _ hb2 hcn] at htl
      simp only [Option.some.injEq, Prod.mk.injEq] at htl
      constructor
      · have : sa ≤ 2 := by
          rw [← htl.2]; split <;> omega
        by_cases h1 : e2 - 1 = m
        · rw [h1, hbm] at hc
          have hcc : c = CloseBrace := (Option.some.inj hc).symm
          rw [hcc, if_neg (by decide)] at htl
          omega
        · omega
      · intro hle
        have h1 : e2 - 1 = m := by omega
        rw [h1, hbm] at hc
        have hcc : c = CloseBrace := (Option.some.inj hc).symm
        rw [hcc, if_neg (by decide)] at htl
        omega
  refine ⟨str, ob + nb, e2 - sa, l, ?_, hsa.1, fun hlastline => hsa.2 ?_⟩
  · unfold extractDefContent
    rw [hpos]
    simp only [hsrc, hstart]
    unfold extractDefContentAt
    simp only [Option.bind_eq_bind, Option.pure_def, hcs, hab, he2, hw, htrim, Option.some_bind]
  · rcases hlastline with h | h
    · rcases hcase with ⟨h', _⟩ | ⟨_, _, _, hall⟩
      · omega
      · by_contra hgt
        have := hall (m + 1) (by omega) (by omega)
        apply this
        have e : ((m : Int) + 1) = ((m + 1 : Nat) : Int) := by push_cast; rfl
        rw [e, byteAt_natCast]; exact h
    · rw [hlen] at he2l; omega

theorem extractDefContent_end_covers_body_witness :
    ∃ c s e l,
      extractDefContent DefObjectType.DefTypeObject
          (definitionAt "type A \x7b\n  a: Int\n\x7d\n\ntype B \x7b\n\x7d" 5 6 1) = some (c, s, e, l) ∧
        ((18 : Nat) : Int) ≤ e ∧
        (((sourceOf "type A \x7b\n  a: Int\n\x7d\n\ntype B \x7b\n\x7d").Input[18 + 1]? = some newline ∨
            18 + 1 = (sourceOf "type A \x7b\n  a: Int\n\x7d\n\ntype B \x7b\n\x7d").Input.length) →
          e = (18 : Nat)) :=
  extractDefContent_end_covers_body DefObjectType.DefTypeObject
    (definitionAt "type A \x7b\n  a: Int\n\x7d\n\ntype B \x7b\n\x7d" 5 6 1)
    ⟨5, 6, 1, some (sourceOf "type A \x7b\n  a: Int\n\x7d\n\ntype B \x7b\n\x7d")⟩
    (sourceOf "type A \x7b\n  a: Int\n\x7d\n\ntype B \x7b\n\x7d") 5 7 18 rfl rfl rfl (by decide) (by decide)
    (by decide) (by decide) (by decide) (by decide)

theorem extracted_content_is_slice_witness :
    ∃ pos src,
      (fieldAt "type Query \x7b\n  a: Int\n\x7d" 15 16 2).Position = some pos ∧ pos.Src = some src ∧
        slice src.Input 13 (20 + 1) = some "  a: Int".toList :=
  (extracted_content_is_slice DefObjectType.DefQueryObject
    (definitionAt "type Query \x7b\n  a: Int\n\x7d" 5 10 1) FieldDefType.DefQueryField
    (fieldAt "type Query \x7b\n  a: Int\n\x7d" 15 16 2)).2.1 "  a: Int".toList 13 20 1 (by decide)

/-- C2, as stated, fails: a field on the first line of its buffer gets an
actual start one byte after its raw start; a raw end that reaches past the
field's line is not covered (the raw end is never consulted); and a raw start
that holds a newline byte is trimmed away. -/
theorem extractFieldDefContent_not_widening :
    (extractFieldDefContent (fieldAt "type Query \x7b a: Int \x7d" 13 14 1) =
        some (":".toList, 14, 14, 1) ∧ ¬ ((14 : Int) ≤ 13)) ∧
    (extractFieldDefContent (fieldAt "type Query \x7b\n  a: Int\n  b: Int\n\x7d" 15 24 2) =
        some ("  a: Int".toList, 13, 20, 1) ∧ ¬ ((20 : Int) ≥ 24)) ∧
    (extractFieldDefContent (fieldAt "x\n\n  a\n" 2 2 3) =
        some ("  a".toList, 3, 5, 0) ∧ ¬ ((3 : Int) ≤ 2)) := by
  decide

/-- C2, amended: for a field whose raw start lies inside its buffer, holds a
byte other than a newline and is preceded by a newline, whenever
`extractFieldDefContent` returns, the actual start is at most the raw start;
and the returned span does not depend on the raw end. -/
theorem extractFieldDefContent_start_le (fd : AstFieldDefinition) (pos : Position) (src : Source)
    (hpos : fd.Position = some pos) (hsrc : pos.Src = some src)
    (h0 : 0 ≤ pos.Start) (h1 : pos.Start < len src.Input)
    (hnl : ∃ k, 0 ≤ k ∧ k < pos.Start ∧ byteAt src.Input k = some newline)
    (hcur : byteAt src.Input pos.Start ≠ some newline)
    (c : GoString) (s e l : Int) (h : extractFieldDefContent fd = some (c, s, e, l)) :
    s ≤ pos.Start ∧
      ∀ stop : Int, extractFieldDefContent
        { fd with Position := some { pos with End := stop } } = some (c, s, e, l) := by
  unfold extractFieldDefContent at h
  rw [hpos] at h
  simp only [hsrc] at h
  refine ⟨?_, fun stop => ?_⟩
  · unfold extractFieldDefContentAt at h
    simp only [Option.bind_eq_bind, Option.bind_eq_some, Option.pure_def, Option.some.injEq,
      Prod.mk.injEq] at h
    obtain ⟨⟨la, ob⟩, hcs, ce, _, e2, _, e3, _, e4, _, whole, hw, ⟨content, nb, x, sa⟩, ht,
      _, rfl, _, _⟩ := h
    obtain ⟨l', ob', hcs', _, _, hle⟩ := findCommentStart_spec src.Input pos.Start h0 (by omega)
    rw [hcs] at hcs'
    simp only [Option.some.injEq, Prod.mk.injEq] at hcs'
    obtain ⟨_, rfl⟩ := hcs'
    have hob := hle hnl
    obtain ⟨str', nb', la', sa', ht', _, hsa, hsum, _, hk⟩ := trimNewLines_spec whole
    rw [ht] at ht'
    simp only [Option.some.injEq, Prod.mk.injEq] at ht'
    obtain ⟨_, rfl, _, rfl⟩ := ht'
    have hwl := slice_length hw
    simp only []
    by_cases hin : pos.Start - ob < e4 + 1 - ob
    · obtain ⟨ch, hch⟩ := byteAt_isSome h0 h1
      have hb : byteAt whole (pos.Start - ob) = some ch := by
        rw [slice_byteAt hw (by omega) hin, ← hch]; congr 1; omega
      have := (hk _ ch hb (fun heq => hcur (by rw [hch, heq]))).1
      omega
    · unfold len at hsum; omega
  · unfold extractFieldDefContent
    simp only [hsrc]
    exact h

theorem extractFieldDefContent_start_le_witness :
    (13 : Int) ≤ 15 ∧
      ∀ stop : Int, extractFieldDefContent
        { fieldAt "type Query \x7b\n  a: Int\n\x7d" 15 16 2 with
          Position := some
            { (⟨15, 16, 2, some (sourceOf "type Query \x7b\n  a: Int\n\x7d")⟩ : Position) with
              End := stop } } = some ("  a: Int".toList, 13, 20, 1) :=
  extractFieldDefContent_start_le (fieldAt "type Query \x7b\n  a: Int\n\x7d" 15 16 2)
    ⟨15, 16, 2, some (sourceOf "type Query \x7b\n  a: Int\n\x7d")⟩
    (sourceOf "type Query \x7b\n  a: Int\n\x7d") rfl rfl (by decide) (by decide)
    ⟨12, by decide, by decide, by decide⟩ (by decide) "  a: Int".toList 13 20 1 (by decide)

/-- C3, on the code: a declaration whose doc comment opens on the first line
of the buffer gets a content that starts right after the opening delimiter, at
offset 3, not at the start of the line that holds it. -/
theorem extractDefContent_first_line_comment :
    extractDefContent DefObjectType.DefTypeObject
        (definitionAt "\"\"\"doc\"\"\"\ntype A \x7b\n  a: Int\n\x7d\n" 15 16 2) =
      some ("doc\"\"\"\ntype A \x7b\n  a: Int\n\x7d".toList, 3, 28, 1) := by
  decide

/-- C5, on the code: a field on line 2 with no doc comment gets an actual
position that starts on line 2 (offset 13) but carries `Line = 1`; with a doc
comment on the line above, the same computation gives the line of the actual
start (offset 13, line 2). -/
theorem WrapFieldDefinition_line_off_by_one :
    (lineOf "type Query \x7b\n  a: Int\n\x7d".toList 15 = 2 ∧
      WrapFieldDefinition (fieldAt "type Query \x7b\n  a: Int\n\x7d" 15 16 2)
          FieldDefType.DefQueryField =
        Outcome.ok
          { FieldDefinition := fieldAt "type Query \x7b\n  a: Int\n\x7d" 15 16 2,
            typ := FieldDefType.DefQueryField,
            Content := "  a: Int".toList,
            ActualPosition := { Start := 13, End := 20, Line := 1, Src := none } } ∧
      lineOf "type Query \x7b\n  a: Int\n\x7d".toList 13 = 2) ∧
    (lineOf "type Query \x7b\n  \"\"\"doc\"\"\"\n  a: Int\n\x7d".toList 27 = 3 ∧
      WrapFieldDefinition
          (fieldAt "type Query \x7b\n  \"\"\"doc\"\"\"\n  a: Int\n\x7d" 27 28 3)
          FieldDefType.DefQueryField =
        Outcome.ok
          { FieldDefinition :=
              fieldAt "type Query \x7b\n  \"\"\"doc\"\"\"\n  a: Int\n\x7d" 27 28 3,
            typ := FieldDefType.DefQueryField,
            Content := "  \"\"\"doc\"\"\"\n  a: Int".toList,
            ActualPosition := { Start := 13, End := 32, Line := 2, Src := none } } ∧
      lineOf "type Query \x7b\n  \"\"\"doc\"\"\"\n  a: Int\n\x7d".toList 13 = 2) := by
  decide

theorem tripleStartsAt_isSome (input : GoString) (i : Int) (c : Char) (h0 : 0 ≤ i) :
    ∃ t, tripleStartsAt input i c = some t ∧ (t = true → i + 2 < len input) := by
  unfold tripleStartsAt
  split
  · rename_i hc
    obtain ⟨p, hp⟩ := byteAt_isSome (s := input) (i := i + 1) (by omega) (by omega)
    obtain ⟨q, hq⟩ := byteAt_isSome (s := input) (i := i + 2) (by omega) (by omega)
    rw [hp, hq]
    simp only []
    split
    · exact ⟨_, rfl, fun _ => hc.2⟩
    · exact ⟨_, rfl, fun h => by cases h⟩
  · exact ⟨_, rfl, fun h => by cases h⟩

/-- The fuel of `findCommentEnd` is never exhausted: it returns for every
start offset that is not negative. -/
theorem findCommentEndLoop_isSome (input : GoString) (orig : Int) :
    ∀ (fuel : Nat) (i : Int) (ec : Bool), 0 ≤ i → len input - i < fuel → 0 < fuel →
      ∃ e, findCommentEndLoop input orig fuel i ec = some e := by
  intro fuel
  induction fuel with
  | zero => intro i _ _ _ h; omega
  | succ n ih =>
    intro i ec h0 h1 _
    rw [findCommentEndLoop]
    by_cases hi : i < len input
    · rw [if_pos hi]
      obtain ⟨c, hc⟩ := byteAt_isSome h0 hi
      obtain ⟨t, ht, ht2⟩ := tripleStartsAt_isSome input i c h0
      rw [hc]
      simp only []
      rw [ht]
      cases t
      · simp only []
        split
        · split
          · exact ⟨_, rfl⟩
          · exact ih _ _ (by omega) (by omega) (by omega)
        · exact ih _ _ (by omega) (by omega) (by omega)
      · simp only []
        have := ht2 rfl
        split
        · exact ⟨_, rfl⟩
        · exact ih _ _ (by omega) (by omega) (by omega)
    · rw [if_neg hi]
      exact ⟨_, rfl⟩

theorem findCommentEnd_isSome (input : GoString) (startPos : Int) (h0 : 0 ≤ startPos) :
    ∃ e, findCommentEnd input startPos = some e := by
  unfold findCommentEnd
  exact findCommentEndLoop_isSome input startPos _ _ _ h0 (by unfold len; push_cast; omega)
    (by omega)

/-- The fuel of `findNextOpenBracket` is never exhausted: it returns for every
start offset that is not negative. -/
theorem findNextOpenBracketLoop_isSome (bracket : Char) (input : GoString) (start : Int)
    (multiLine : Bool) :
    ∀ (fuel : Nat) (i : Int), 0 ≤ i → len input - i < fuel → 0 < fuel →
      ∃ r, findNextOpenBracketLoop bracket input start multiLine fuel i = some r := by
  intro fuel
  induction fuel with
  | zero => intro i _ _ h; omega
  | succ n ih =>
    intro i h0 h1 _
    rw [findNextOpenBracketLoop]
    by_cases hi : i < len input
    · rw [if_pos hi]
      obtain ⟨c, hc⟩ := byteAt_isSome h0 hi
      rw [hc]
      simp only []
      split
      · exact ⟨_, rfl⟩
      · split
        · exact ⟨_, rfl⟩
        · exact ih _ (by omega) (by omega) (by omega)
    · rw [if_neg hi]
      exact ⟨_, rfl⟩

theorem findNextOpenBracket_isSome (bracket : Char) (input : GoString) (start : Int)
    (multiLine : Bool) (h0 : 0 ≤ start) :
    ∃ r, findNextOpenBracket bracket input start multiLine = some r := by
  unfold findNextOpenBracket
  exact findNextOpenBracketLoop_isSome bracket input start multiLine _ _ h0
    (by unfold len; push_cast; omega) (by omega)

/-- The fuel of `findLeftOverDirectives` is never exhausted: it returns for
every start offset that is not negative. -/
theorem findLeftOverDirectivesLoop_isSome (input : GoString) (start : Int) (hs : 0 ≤ start) :
    ∀ (fuel : Nat) (i spaces : Int), start ≤ i - spaces → 0 ≤ spaces →
      len input - i < fuel → 0 < fuel →
      ∃ r, findLeftOverDirectivesLoop input start fuel i spaces = some r := by
  intro fuel
  induction fuel with
  | zero => intro i _ _ _ _ h; omega
  | succ n ih =>
    intro i spaces h0 hsp h1 _
    rw [findLeftOverDirectivesLoop]
    by_cases hi : i < len input
    · rw [if_pos hi]
      obtain ⟨c, hc⟩ := byteAt_isSome (s := input) (i := i) (by omega) hi
      rw [hc]
      simp only []
      split
      · exact ih _ _ (by omega) (by omega) (by omega) (by omega)
      · split
        · obtain ⟨w, hw⟩ := slice_isSome (s := input) (a := start) (b := i - spaces) hs h0
            (by omega)
          rw [hw]
          exact ⟨_, rfl⟩
        · obtain ⟨j, hj, hcase⟩ := findNextLineOffset_spec input i (by omega)
          rw [hj]
          simp only []
          have hij : i ≤ j ∧ j < len input := by
            rcases hcase with ⟨h, _⟩ | ⟨h, h', _⟩ <;> omega
          exact ih _ _ (by omega) (by omega) (by omega) (by omega)
    · rw [if_neg hi]
      exact ⟨_, rfl⟩

theorem findLeftOverDirectives_isSome (input : GoString) (start : Int) (h0 : 0 ≤ start) :
    ∃ r, findLeftOverDirectives input start = some r := by
  unfold findLeftOverDirectives
  exact findLeftOverDirectivesLoop_isSome input start h0 _ _ _ (by omega) (le_refl _)
    (by unfold len; push_cast; omega) (by omega)

/-- C11: `TypeSplitConfigs.FindResolverPrefix` returns the prefix of the first
listed entry whose `Name` equals the type name, and reports not-found (empty
prefix, false) exactly when no entry has that name. -/
theorem TypeSplitConfigs_FindResolverPrefix_first_entry (ts : TypeSplitConfigs)
    (typeName : GoString) :
    (∀ (before after : TypeSplitConfigs) (t : TypeSplitConfig),
      ts = before ++ t :: after → (∀ u ∈ before, u.Name ≠ typeName) → t.Name = typeName →
      TypeSplitConfigs.FindResolverPrefix ts typeName = (t.ResolverPrefix, true)) ∧
    (TypeSplitConfigs.FindResolverPrefix ts typeName = ([], false) ↔
      ∀ u ∈ ts, u.Name ≠ typeName) := by
  constructor
  · intro before
    induction before generalizing ts with
    | nil =>
      intro after t hts _ ht
      subst hts
      simp [TypeSplitConfigs.FindResolverPrefix, ht]
    | cons u before ih =>
      intro after t hts hb ht
      subst hts
      have hu : u.Name ≠ typeName := hb u (List.mem_cons_self _ _)
      simp only [List.cons_append, TypeSplitConfigs.FindResolverPrefix, if_neg hu]
      exact ih (before ++ t :: after) after t rfl
        (fun v hv => hb v (List.mem_cons_of_mem _ hv)) ht
  · induction ts with
    | nil => simp [TypeSplitConfigs.FindResolverPrefix]
    | cons u ts ih =>
      by_cases hu : u.Name = typeName
      · simp only [TypeSplitConfigs.FindResolverPrefix, if_pos hu]
        constructor
        · intro h; simp at h
        · intro h; exact absurd hu (h u (List.mem_cons_self _ _))
      · simp only [TypeSplitConfigs.FindResolverPrefix, if_neg hu]
        constructor
        · intro h v hv
          rcases List.mem_cons.mp hv with rfl | hv'
          · exact hu
          · exact ih.mp h v hv'
        · intro h
          exact ih.mpr (fun v hv => h v (List.mem_cons_of_mem _ hv))

theorem TypeSplitConfigs_FindResolverPrefix_first_entry_witness :
    TypeSplitConfigs.FindResolverPrefix
        [⟨"Race".toList, "race".toList⟩, ⟨"RacingRace".toList, "racing_race".toList⟩,
          ⟨"RacingRace".toList, "other".toList⟩] "RacingRace".toList =
      ("racing_race".toList, true) :=
  (TypeSplitConfigs_FindResolverPrefix_first_entry
    [⟨"Race".toList, "race".toList⟩, ⟨"RacingRace".toList, "racing_race".toList⟩,
      ⟨"RacingRace".toList, "other".toList⟩] "RacingRace".toList).1
    [⟨"Race".toList, "race".toList⟩] [⟨"RacingRace".toList, "other".toList⟩]
    ⟨"RacingRace".toList, "racing_race".toList⟩ rfl (by decide) rfl

theorem compilePatterns_spec {R : Type} (trim : GoString → GoString)
    (Compile : GoString → Option R) :
    ∀ (ms : List GoString) (q : QuerySplitConfig R),
      ((compilePatterns trim Compile q ms).2 ≠ none ↔
        ∃ m ∈ ms, trim m = [] ∨ Compile (caseInsensitiveFlag ++ m) = none) ∧
      ((compilePatterns trim Compile q ms).2 = none →
        (compilePatterns trim Compile q ms).1.ResolverPrefix = q.ResolverPrefix ∧
        (compilePatterns trim Compile q ms).1.Matches = q.Matches ∧
        (compilePatterns trim Compile q ms).1.compiled.map some =
          q.compiled.map some ++ ms.map (fun m => Compile (caseInsensitiveFlag ++ m))) := by
  intro ms
  induction ms with
  | nil => intro q; simp [compilePatterns]
  | cons m ms ih =>
    intro q
    by_cases ht : trim m = []
    · simp [compilePatterns, ht]
    · cases hc : Compile (caseInsensitiveFlag ++ m) with
      | none => simp [compilePatterns, ht, hc]
      | some cmp =>
        have h := ih { q with compiled := q.compiled ++ [cmp] }
        simp only [compilePatterns, ht, if_false, hc]
        refine ⟨?_, ?_⟩
        · rw [h.1]
          simp [ht, hc]
        · intro he
          obtain ⟨h1, h2, h3⟩ := h.2 he
          refine ⟨h1, h2, ?_⟩
          rw [h3]
          simp [hc]

theorem compileGroups_spec {R : Type} (trim : GoString → GoString)
    (Compile : GoString → Option R) :
    ∀ (qs : List (QuerySplitConfig R)),
      ((compileGroups trim Compile qs).2 ≠ none ↔
        ∃ g ∈ qs, g.Matches = [] ∨
          ∃ m ∈ g.Matches, trim m = [] ∨ Compile (caseInsensitiveFlag ++ m) = none) ∧
      ((compileGroups trim Compile qs).2 = none →
        List.Forall₂
          (fun g g' => g'.ResolverPrefix = g.ResolverPrefix ∧ g'.Matches = g.Matches ∧
            g'.compiled.map some =
              g.compiled.map some ++ g.Matches.map (fun m => Compile (caseInsensitiveFlag ++ m)))
          qs (compileGroups trim Compile qs).1) := by
  intro qs
  induction qs with
  | nil => simp [compileGroups]
  | cons q qs ih =>
    by_cases hq : q.Matches.length = 0
    · have hq' : q.Matches = [] := List.length_eq_zero.mp hq
      simp only [compileGroups, hq, if_true]
      refine ⟨?_, fun h => by simp at h⟩
      simp only [ne_eq, reduceCtorEq, not_false_eq_true, true_iff]
      exact ⟨q, List.mem_cons_self _ _, Or.inl hq'⟩
    · have hq' : q.Matches ≠ [] := fun h => hq (by rw [h]; rfl)
      have hp := compilePatterns_spec trim Compile q.Matches q
      simp only [compileGroups, hq, if_false]
      cases hres : compilePatterns trim Compile q q.Matches with
      | mk q1 e1 =>
        rw [hres] at hp
        cases e1 with
        | some e =>
          simp only []
          refine ⟨?_, fun h => by simp at h⟩
          simp only [ne_eq, reduceCtorEq, not_false_eq_true, true_iff]
          obtain ⟨m, hm, hbad⟩ := hp.1.mp (by simp)
          exact ⟨q, List.mem_cons_self _ _, Or.inr ⟨m, hm, hbad⟩⟩
        | none =>
          simp only []
          cases hrest : compileGroups trim Compile qs with
          | mk qs1 e2 =>
            rw [hrest] at ih
            simp only []
            have hgood : ¬ ∃ m ∈ q.Matches,
                trim m = [] ∨ Compile (caseInsensitiveFlag ++ m) = none := by
              intro h
              exact (hp.1.mpr h) rfl
            refine ⟨?_, ?_⟩
            · rw [ih.1]
              constructor
              · rintro ⟨g, hg, hb⟩
                exact ⟨g, List.mem_cons_of_mem _ hg, hb⟩
              · rintro ⟨g, hg, hb⟩
                rcases List.mem_cons.mp hg with rfl | hg'
                · rcases hb with hb | hb
                  · exact absurd hb hq'
                  · exact absurd hb hgood
                · exact ⟨g, hg', hb⟩
            · intro he
              exact List.Forall₂.cons (hp.2 rfl) (ih.2 he)

/-- C12: `compileMatches`, run on a freshly loaded configuration (no group
holds a compiled pattern yet), returns an error exactly when some query group
has no patterns, or some pattern is empty once trimmed, or some pattern does
not compile; when it succeeds every group keeps its prefix and patterns and
holds exactly the compiled patterns of its listed patterns, in the listed
order. -/
theorem compileMatches_error_iff {R : Type} (trim : GoString → GoString)
    (Compile : GoString → Option R) (c : SplitterConfig R)
    (hfresh : ∀ g ∈ c.QueryConfig, g.compiled = []) :
    ((c.compileMatches trim Compile).2 ≠ none ↔
      ∃ g ∈ c.QueryConfig, g.Matches = [] ∨
        ∃ m ∈ g.Matches, trim m = [] ∨ Compile (caseInsensitiveFlag ++ m) = none) ∧
    ((c.compileMatches trim Compile).2 = none →
      (c.compileMatches trim Compile).1.TypeConfig = c.TypeConfig ∧
      List.Forall₂
        (fun g g' => g'.ResolverPrefix = g.ResolverPrefix ∧ g'.Matches = g.Matches ∧
          g'.compiled.map some = g.Matches.map (fun m => Compile (caseInsensitiveFlag ++ m)))
        c.QueryConfig (c.compileMatches trim Compile).1.QueryConfig) := by
  have h := compileGroups_spec trim Compile c.QueryConfig
  unfold SplitterConfig.compileMatches
  cases hres : compileGroups trim Compile c.QueryConfig with
  | mk qs e =>
    rw [hres] at h
    simp only []
    refine ⟨h.1, fun he => ⟨trivial, ?_⟩⟩
    have key : ∀ (l l' : List (QuerySplitConfig R)), (∀ g ∈ l, g.compiled = []) →
        List.Forall₂
          (fun g g' => g'.ResolverPrefix = g.ResolverPrefix ∧ g'.Matches = g.Matches ∧
            g'.compiled.map some =
              g.compiled.map some ++ g.Matches.map (fun m => Compile (caseInsensitiveFlag ++ m)))
          l l' →
        List.Forall₂
          (fun g g' => g'.ResolverPrefix = g.ResolverPrefix ∧ g'.Matches = g.Matches ∧
            g'.compiled.map some = g.Matches.map (fun m => Compile (caseInsensitiveFlag ++ m)))
          l l' := by
      intro l l' hf hall
      induction hall with
      | nil => exact List.Forall₂.nil
      | @cons g g' l l' hgg _ ih =>
        refine List.Forall₂.cons ?_ (ih (fun x hx => hf x (List.mem_cons_of_mem _ hx)))
        obtain ⟨h1, h2, h3⟩ := hgg
        refine ⟨h1, h2, ?_⟩
        rw [h3, hf g (List.mem_cons_self _ _)]
        simp
    exact key _ _ hfresh (h.2 he)

theorem compileMatches_error_iff_witness :
    ((SplitterConfig.compileMatches (R := GoString) TrimSpace
        (fun p => if p = "(?i)(".toList then none else some p)
        ⟨[⟨"racing".toList, ["race.*".toList, " ".toList], []⟩], []⟩).2 ≠ none ↔
      ∃ g ∈ [(⟨"racing".toList, ["race.*".toList, " ".toList], []⟩ : QuerySplitConfig GoString)],
        g.Matches = [] ∨
          ∃ m ∈ g.Matches, TrimSpace m = [] ∨
            (fun p => if p = "(?i)(".toList then none else some p) (caseInsensitiveFlag ++ m) =
              none) :=
  (compileMatches_error_iff (R := GoString) TrimSpace
    (fun p => if p = "(?i)(".toList then none else some p)
    ⟨[⟨"racing".toList, ["race.*".toList, " ".toList], []⟩], []⟩ (by decide)).1

theorem leadingNewlines_cons_ne {c : Char} (h : c ≠ newline) (s : GoString) :
    leadingNewlines (c :: s) = 0 := by
  simp [leadingNewlines, h]

theorem leadingNewlines_cons_newline (s : GoString) :
    leadingNewlines (newline :: s) = leadingNewlines s + 1 := by
  simp [leadingNewlines]

theorem NoTripleNewline_iff (s : GoString) :
    NoTripleNewline s ↔ ¬ [newline, newline, newline] <:+: s := by
  induction s with
  | nil => simp [NoTripleNewline]
  | cons c rest ih =>
    simp only [NoTripleNewline]
    rw [ih]
    constructor
    · rintro ⟨h1, h2⟩ hin
      rw [List.infix_cons_iff] at hin
      rcases hin with hpre | hin
      · obtain ⟨t, ht⟩ := hpre
        simp only [List.cons_append, List.nil_append, List.cons.injEq] at ht
        obtain ⟨rfl, rfl⟩ := ht
        simp [leadingNewlines] at h1
      · exact h2 hin
    · intro h
      refine ⟨?_, fun hin => h (List.infix_cons hin)⟩
      by_contra hgt
      apply h
      rw [List.infix_cons_iff]
      left
      by_cases hc : c = newline
      · subst hc
        match rest, hgt with
        | a :: b :: rest', hgt =>
          by_cases ha : a = newline
          · subst ha
            by_cases hb : b = newline
            · subst hb
              exact ⟨rest', rfl⟩
            · simp [leadingNewlines, hb] at hgt
          · simp [leadingNewlines, ha] at hgt
        | [a], hgt =>
          by_cases ha : a = newline <;> simp [leadingNewlines, ha] at hgt
        | [], hgt => simp [leadingNewlines] at hgt
      · simp [leadingNewlines, hc] at hgt

/-! ### `removeExtraLines`: the pass of `manyLinesRegex` -/

theorem leadingNewlines_flushRun_append {c : Char} (hc : c ≠ newline) (run : Nat)
    (s : GoString) : leadingNewlines (flushRun run ++ c :: s) ≤ 2 := by
  unfold flushRun
  split
  · simp [leadingNewlines, hc]
  · rename_i h
    have : run = 0 ∨ run = 1 := by omega
    rcases this with rfl | rfl <;> simp [leadingNewlines, hc]

theorem NoTripleNewline_flushRun_append {c : Char} (hc : c ≠ newline) (run : Nat)
    {s : GoString} (hs : NoTripleNewline s) : NoTripleNewline (flushRun run ++ c :: s) := by
  have hcs : NoTripleNewline (c :: s) := ⟨by simp [leadingNewlines, hc], hs⟩
  unfold flushRun
  split
  · exact ⟨by simp [leadingNewlines, hc], by simp [leadingNewlines, hc], hcs⟩
  · rename_i h
    have : run = 0 ∨ run = 1 := by omega
    rcases this with rfl | rfl
    · exact hcs
    · exact ⟨by simp [leadingNewlines, hc], hcs⟩

theorem NoTripleNewline_replaceManyLinesGo :
    ∀ (s : GoString) (run : Nat), NoTripleNewline (replaceManyLinesGo run s) := by
  intro s
  induction s with
  | nil =>
    intro run
    simp only [replaceManyLinesGo, flushRun]
    split
    · simp [NoTripleNewline, leadingNewlines]
    · rename_i h
      have : run = 0 ∨ run = 1 := by omega
      rcases this with rfl | rfl <;> simp [NoTripleNewline, leadingNewlines]
  | cons c rest ih =>
    intro run
    simp only [replaceManyLinesGo]
    split
    · exact ih _
    · rename_i hc
      exact NoTripleNewline_flushRun_append hc run (ih 0)

/-! ### `removeExtraLines`: the pass of `startLineRegex` -/

theorem NoTripleNewline_dropWhile (p : Char → Bool) :
    ∀ (s : GoString), NoTripleNewline s → NoTripleNewline (s.dropWhile p) := by
  intro s
  induction s with
  | nil => intro h; exact h
  | cons c rest ih =>
    intro h
    simp only [List.dropWhile]
    split
    · exact ih h.2
    · exact h

theorem head?_replaceStartLine (s : GoString) : (replaceStartLine s).head? ≠ some newline := by
  unfold replaceStartLine
  induction s with
  | nil => simp
  | cons c rest ih =>
    simp only [List.dropWhile]
    split
    · exact ih
    · rename_i h
      simp only [List.head?_cons, ne_eq, Option.some.injEq]
      intro hc
      simp [hc] at h

/-! ### `removeExtraLines`: the pass of `linesToClosureRegex` -/

theorem leadingNewlines_replaceLinesToClosureGo :
    ∀ (s : GoString) (m : ClosureMode),
      leadingNewlines (replaceLinesToClosureGo m s) ≤ leadingNewlines s := by
  intro s
  induction s with
  | nil => intro m; cases m <;> simp [replaceLinesToClosureGo]
  | cons c rest ih =>
    intro m
    cases m with
    | outside =>
      simp only [replaceLinesToClosureGo]
      split
      · rename_i h
        rw [h.1, leadingNewlines_cons_newline, leadingNewlines_cons_newline]
        have := ih .newlines
        omega
      · by_cases hc : c = newline
        · rw [hc, leadingNewlines_cons_newline, leadingNewlines_cons_newline]
          have := ih .outside
          omega
        · rw [leadingNewlines_cons_ne hc, leadingNewlines_cons_ne hc]
    | newlines =>
      simp only [replaceLinesToClosureGo]
      split
      · rename_i hc
        rw [hc, leadingNewlines_cons_newline]
        have := ih .newlines
        omega
      · rename_i hc
        split <;> rw [leadingNewlines_cons_ne hc] <;> omega
    | group =>
      simp only [replaceLinesToClosureGo]
      by_cases hc : c = newline
      · have hb : ¬ c = rbrace := by rw [hc]; decide
        rw [if_neg hb, hc, leadingNewlines_cons_newline, leadingNewlines_cons_newline]
        have := ih .group
        omega
      · split <;> rw [leadingNewlines_cons_ne hc] <;> omega

theorem NoTripleNewline_cons_of_le {c : Char} {s s' : GoString}
    (h : NoTripleNewline (c :: s)) (hle : leadingNewlines s' ≤ leadingNewlines s)
    (hs' : NoTripleNewline s') : NoTripleNewline (c :: s') := by
  refine ⟨?_, hs'⟩
  have h1 := h.1
  by_cases hc : c = newline
  · rw [hc, leadingNewlines_cons_newline] at h1 ⊢
    omega
  · rw [leadingNewlines_cons_ne hc]
    omega

theorem NoTripleNewline_replaceLinesToClosureGo :
    ∀ (s : GoString) (m : ClosureMode), NoTripleNewline s →
      NoTripleNewline (replaceLinesToClosureGo m s) := by
  intro s
  induction s with
  | nil => intro m _; cases m <;> simp [replaceLinesToClosureGo, NoTripleNewline]
  | cons c rest ih =>
    intro m h
    have hrec : ∀ m', NoTripleNewline (c :: replaceLinesToClosureGo m' rest) := fun m' =>
      NoTripleNewline_cons_of_le h (leadingNewlines_replaceLinesToClosureGo rest m') (ih m' h.2)
    cases m with
    | outside =>
      simp only [replaceLinesToClosureGo]
      split
      · rename_i hc
        have := hrec .newlines
        rw [hc.1] at this
        exact this
      · exact hrec _
    | newlines =>
      simp only [replaceLinesToClosureGo]
      split
      · exact ih _ h.2
      · split <;> exact hrec _
    | group =>
      simp only [replaceLinesToClosureGo]
      split <;> exact hrec _

theorem head?_replaceLinesToClosure (s : GoString) :
    (replaceLinesToClosure s).head? = s.head? := by
  unfold replaceLinesToClosure
  cases s with
  | nil => simp [replaceLinesToClosureGo]
  | cons c rest =>
    simp only [replaceLinesToClosureGo]
    split
    · rename_i h; simp [h.1]
    · simp

/-! ### `removeExtraLines`: the pass of `endLineRegex` -/

theorem replaceEndLine_prefix (s : GoString) : replaceEndLine s <+: s := by
  unfold replaceEndLine
  split
  · rename_i hlast
    have hsplit : s = (s.reverse.dropWhile (fun c => c = newline)).reverse ++
        (s.reverse.takeWhile (fun c => c = newline)).reverse := by
      rw [← List.reverse_append, List.takeWhile_append_dropWhile, List.reverse_reverse]
    have htw : ∃ t, s.reverse.takeWhile (fun c => decide (c = newline)) = newline :: t := by
      have hrev : s.reverse.head? = some newline := by rw [List.head?_reverse]; exact hlast
      cases hr : s.reverse with
      | nil => rw [hr] at hrev; simp at hrev
      | cons a l =>
        rw [hr] at hrev
        simp only [List.head?_cons, Option.some.injEq] at hrev
        subst hrev
        exact ⟨l.takeWhile (fun c => decide (c = newline)), by simp [List.takeWhile]⟩
    obtain ⟨t, ht⟩ := htw
    have hall : ∀ x ∈ (s.reverse.takeWhile (fun c => decide (c = newline))).reverse,
        x = newline := by
      intro x hx
      rw [List.mem_reverse] at hx
      simpa using List.mem_takeWhile_imp hx
    have hform : (s.reverse.takeWhile (fun c => decide (c = newline))).reverse =
        newline :: t := by
      rw [ht]
      have hl := List.eq_replicate_of_mem (a := newline)
        (l := (newline :: t)) (by
          intro x hx
          have : x ∈ s.reverse.takeWhile (fun c => decide (c = newline)) := by rw [ht]; exact hx
          simpa using List.mem_takeWhile_imp this)
      have hr : (newline :: t).reverse = List.replicate (newline :: t).length newline := by
        rw [hl]; simp
      rw [hr, ← hl]
    refine ⟨t, ?_⟩
    conv_rhs => rw [hsplit, hform]
    simp
  · exact List.prefix_refl _

/-- C15: for every text, the result of `removeExtraLines` contains no three
consecutive newline characters (no run of two or more blank lines) and does
not begin with a newline. -/
theorem removeExtraLines_no_blank_run (t : GoString) :
    ¬ [newline, newline, newline] <:+: removeExtraLines t ∧
      (removeExtraLines t).head? ≠ some newline := by
  have h3 : NoTripleNewline (replaceLinesToClosure (replaceStartLine (replaceManyLines t))) :=
    NoTripleNewline_replaceLinesToClosureGo _ _
      (NoTripleNewline_dropWhile _ _ (NoTripleNewline_replaceManyLinesGo t 0))
  have hpre := replaceEndLine_prefix
    (replaceLinesToClosure (replaceStartLine (replaceManyLines t)))
  constructor
  · intro hin
    exact (NoTripleNewline_iff _).mp h3 (hin.trans hpre.isInfix)
  · intro hhead
    unfold removeExtraLines at hhead
    obtain ⟨u, hu⟩ := hpre
    have : (replaceLinesToClosure (replaceStartLine (replaceManyLines t))).head? =
        some newline := by
      rw [← hu]
      cases hr : replaceEndLine (replaceLinesToClosure (replaceStartLine (replaceManyLines t))) with
      | nil => rw [hr] at hhead; simp at hhead
      | cons a l => rw [hr] at hhead; simpa using hhead
    rw [head?_replaceLinesToClosure] at this
    exact head?_replaceStartLine _ this

theorem getLast?_flushRun (run : Nat) :
    (flushRun run).getLast? = some newline ↔ 1 ≤ run := by
  unfold flushRun
  split
  · simp; omega
  · rename_i h
    have : run = 0 ∨ run = 1 := by omega
    rcases this with rfl | rfl <;> simp

theorem getLast?_replaceManyLinesGo :
    ∀ (s : GoString) (run : Nat),
      (replaceManyLinesGo run s).getLast? = some newline ↔
        (if s = [] then 1 ≤ run else s.getLast? = some newline) := by
  intro s
  induction s with
  | nil => intro run; simp [replaceManyLinesGo, getLast?_flushRun]
  | cons c rest ih =>
    intro run
    simp only [replaceManyLinesGo, reduceCtorEq, if_false]
    by_cases hc : c = newline
    · rw [if_pos hc, ih, List.getLast?_cons]
      cases hr : rest with
      | nil => simp [hc]
      | cons a l =>
        simp only [reduceCtorEq, if_false]
        have : (a :: l).getLast? ≠ none := by simp
        cases hl : (a :: l).getLast? with
        | none => exact absurd hl this
        | some x => simp
    · rw [if_neg hc, List.getLast?_append]
      have hne : (c :: replaceManyLinesGo 0 rest).getLast? ≠ none := by simp
      cases hl : (c :: replaceManyLinesGo 0 rest).getLast? with
      | none => exact absurd hl hne
      | some x =>
        show some x = some newline ↔ _
        rw [← hl, List.getLast?_cons, List.getLast?_cons]
        have h0 := ih 0
        cases hr : rest with
        | nil => simp [replaceManyLinesGo, flushRun, hc]
        | cons a l =>
          rw [hr] at h0
          simp only [reduceCtorEq, if_false] at h0
          have h1 : (a :: l).getLast? ≠ none := by simp
          cases hl1 : (a :: l).getLast? with
          | none => exact absurd hl1 h1
          | some y =>
            rw [hl1] at h0
            cases hl2 : (replaceManyLinesGo 0 (a :: l)).getLast? with
            | none =>
              rw [hl2] at h0
              simp only [Option.getD_none, Option.getD_some, Option.some.injEq]
              constructor
              · intro h; exact absurd h hc
              · intro h; exact absurd (h0.mpr (by rw [h])) (by simp)
            | some z =>
              rw [hl2] at h0
              simpa using h0

theorem exists_ne_newline_replaceManyLinesGo :
    ∀ (s : GoString) (run : Nat),
      (∃ c ∈ replaceManyLinesGo run s, c ≠ newline) ↔ ∃ c ∈ s, c ≠ newline := by
  intro s
  induction s with
  | nil =>
    intro run
    simp only [replaceManyLinesGo, flushRun, List.not_mem_nil, false_and, exists_false, iff_false]
    split <;> simp
  | cons c rest ih =>
    intro run
    simp only [replaceManyLinesGo]
    by_cases hc : c = newline
    · rw [if_pos hc, ih]
      simp [hc]
    · rw [if_neg hc]
      constructor
      · intro _; exact ⟨c, List.mem_cons_self _ _, hc⟩
      · intro _; exact ⟨c, by simp, hc⟩

theorem getLast?_replaceStartLine (s : GoString) :
    (replaceStartLine s).getLast? = some newline ↔
      (s.getLast? = some newline ∧ ∃ c ∈ s, c ≠ newline) := by
  unfold replaceStartLine
  induction s with
  | nil => simp
  | cons c rest ih =>
    simp only [List.dropWhile]
    by_cases hc : c = newline
    · simp only [hc, decide_True]
      rw [ih]
      constructor
      · rintro ⟨h1, x, hx, hxn⟩
        refine ⟨?_, x, List.mem_cons_of_mem _ hx, hxn⟩
        rw [List.getLast?_cons, h1]; rfl
      · rintro ⟨h1, x, hx, hxn⟩
        rcases List.mem_cons.mp hx with rfl | hx'
        · exact absurd rfl hxn
        · refine ⟨?_, x, hx', hxn⟩
          rw [List.getLast?_cons] at h1
          cases hl : rest.getLast? with
          | none =>
            have := List.getLast?_eq_none_iff.mp hl
            rw [this] at hx'
            simp at hx'
          | some y => rw [hl] at h1; simpa using h1
    · simp only [hc, decide_False]
      constructor
      · intro h; exact ⟨h, c, List.mem_cons_self _ _, hc⟩
      · intro h; exact h.1

theorem closureAhead_cons_space {c : Char} (hc : isRegexSpace c = true) (s : GoString) :
    closureAhead (c :: s) = closureAhead s := by
  simp [closureAhead, List.dropWhile, hc]

theorem closureAhead_cons_other {c : Char} (hc : isRegexSpace c = false) (s : GoString) :
    closureAhead (c :: s) = decide (c = rbrace) := by
  simp [closureAhead, List.dropWhile, hc]

theorem closureAhead_ne_nil {s : GoString} (h : closureAhead s = true) : s ≠ [] := by
  intro hs
  rw [hs] at h
  simp [closureAhead] at h

/-- Inside a match the scan of `linesToClosureRegex` reaches the closing brace,
so the last byte of the text is kept. -/
theorem getLast?_replaceLinesToClosureGo :
    ∀ (s : GoString) (m : ClosureMode), (m ≠ .outside → closureAhead s = true) →
      (replaceLinesToClosureGo m s).getLast? = s.getLast? := by
  intro s
  induction s with
  | nil => intro m _; cases m <;> simp [replaceLinesToClosureGo]
  | cons c rest ih =>
    intro m hm
    have hkeep : ∀ m', (m' ≠ .outside → closureAhead rest = true) →
        (c :: replaceLinesToClosureGo m' rest).getLast? = (c :: rest).getLast? := by
      intro m' h'
      rw [List.getLast?_cons, List.getLast?_cons, ih m' h']
    have hin : c ≠ rbrace → closureAhead (c :: rest) = true → closureAhead rest = true := by
      intro hb ha
      by_cases hs : isRegexSpace c = true
      · rw [closureAhead_cons_space hs] at ha; exact ha
      · rw [closureAhead_cons_other (by simpa using hs)] at ha
        simp [hb] at ha
    cases m with
    | outside =>
      simp only [replaceLinesToClosureGo]
      split
      · rename_i h
        have := hkeep .newlines (fun _ => h.2.2)
        rw [h.1] at this ⊢
        exact this
      · exact hkeep .outside (fun h => absurd rfl h)
    | newlines =>
      have ha := hm (by decide)
      simp only [replaceLinesToClosureGo]
      split
      · rename_i hc
        have har := hin (by rw [hc]; decide) ha
        rw [ih .newlines (fun _ => har), List.getLast?_cons]
        have hne := closureAhead_ne_nil har
        cases hl : rest.getLast? with
        | none => exact absurd (List.getLast?_eq_none_iff.mp hl) hne
        | some y => rfl
      · split
        · exact hkeep .outside (fun h => absurd rfl h)
        · rename_i hb
          exact hkeep .group (fun _ => hin hb ha)
    | group =>
      have ha := hm (by decide)
      simp only [replaceLinesToClosureGo]
      split
      · exact hkeep .outside (fun h => absurd rfl h)
      · rename_i hb
        exact hkeep .group (fun _ => hin hb ha)

theorem replaceEndLine_of_newline {s : GoString} (h : s.getLast? = some newline) :
    EndsWithOneNewline (replaceEndLine s) := by
  unfold replaceEndLine
  rw [if_pos h]
  refine ⟨_, rfl, ?_⟩
  rw [List.getLast?_reverse]
  generalize s.reverse = r
  induction r with
  | nil => simp
  | cons a l ih =>
    simp only [List.dropWhile]
    split
    · exact ih
    · rename_i ha
      simp only [List.head?_cons, ne_eq, Option.some.injEq]
      intro hc
      simp [hc] at ha

theorem EndsWithOneNewline.getLast? {s : GoString} (h : EndsWithOneNewline s) :
    s.getLast? = some newline := by
  obtain ⟨p, rfl, _⟩ := h
  simp

theorem getLast?_replaceEndLine (s : GoString) :
    (replaceEndLine s).getLast? = some newline ↔ s.getLast? = some newline := by
  constructor
  · intro h
    by_contra hs
    unfold replaceEndLine at h
    rw [if_neg hs] at h
    exact hs h
  · intro h
    exact (replaceEndLine_of_newline h).getLast?

/-- C14, as stated, fails: a text that does not end with a newline keeps its
last byte, and a text made of newlines only becomes empty. -/
theorem removeExtraLines_no_trailing_newline :
    removeExtraLines "type A \x7b\x7d".toList = "type A \x7b\x7d".toList ∧
      ¬ EndsWithOneNewline (removeExtraLines "type A \x7b\x7d".toList) ∧
      removeExtraLines "\n\n\n".toList = [] := by
  refine ⟨by decide, ?_, by decide⟩
  intro h
  have := h.getLast?
  revert this
  decide

/-- C14, amended: the result of `removeExtraLines` ends with a newline exactly
when the text ends with a newline and holds a character other than a newline,
and it then ends with exactly one trailing newline. -/
theorem removeExtraLines_trailing_newline (t : GoString) :
    ((removeExtraLines t).getLast? = some newline ↔
      (t.getLast? = some newline ∧ ∃ c ∈ t, c ≠ newline)) ∧
    ((removeExtraLines t).getLast? = some newline → EndsWithOneNewline (removeExtraLines t)) := by
  unfold removeExtraLines
  constructor
  · rw [getLast?_replaceEndLine]
    unfold replaceLinesToClosure
    rw [getLast?_replaceLinesToClosureGo _ _ (fun h => absurd rfl h), getLast?_replaceStartLine]
    unfold replaceManyLines
    rw [getLast?_replaceManyLinesGo, exists_ne_newline_replaceManyLinesGo]
    by_cases ht : t = []
    · simp [ht]
    · simp [ht]
  · intro h
    rw [getLast?_replaceEndLine] at h
    exact replaceEndLine_of_newline h

/-! ### `removeExtraLines`: the texts each pass leaves as they are -/

theorem replaceManyLinesGo_fixed :
    ∀ (s : GoString) (run : Nat), run + leadingNewlines s ≤ 2 → NoTripleNewline s →
      replaceManyLinesGo run s = List.replicate run newline ++ s := by
  intro s
  induction s with
  | nil =>
    intro run hrun _
    simp only [replaceManyLinesGo, flushRun, leadingNewlines, List.append_nil]
    split
    · have : run = 2 := by simp only [leadingNewlines] at hrun; omega
      rw [this]; rfl
    · rfl
  | cons c rest ih =>
    intro run hrun h
    simp only [replaceManyLinesGo]
    by_cases hc : c = newline
    · rw [if_pos hc, hc]
      rw [hc, leadingNewlines_cons_newline] at hrun
      rw [ih (run + 1) (by omega) h.2, List.replicate_succ', List.append_assoc]
      rfl
    · rw [if_neg hc]
      have hr : 0 + leadingNewlines rest ≤ 2 := by
        cases rest with
        | nil => simp [leadingNewlines]
        | cons a l => have := h.2.1; omega
      rw [ih 0 hr h.2]
      rw [leadingNewlines_cons_ne hc] at hrun
      simp only [flushRun, List.replicate_zero, List.nil_append]
      split
      · have : run = 2 := by omega
        rw [this]; rfl
      · rfl

theorem replaceStartLine_fixed {s : GoString} (h : s.head? ≠ some newline) :
    replaceStartLine s = s := by
  unfold replaceStartLine
  cases s with
  | nil => rfl
  | cons c rest =>
    have hc : c ≠ newline := by
      intro hc; rw [hc] at h; simp at h
    simp [List.dropWhile, hc]

theorem replaceLinesToClosureGo_fixed :
    ∀ (s : GoString), NoClosureMatch s → replaceLinesToClosureGo .outside s = s := by
  intro s
  induction s with
  | nil => intro _; rfl
  | cons c rest ih =>
    intro h
    simp only [replaceLinesToClosureGo]
    rw [if_neg h.1, ih h.2]

theorem replaceEndLine_fixed {s : GoString} (h : EndsWithOneNewline s) :
    replaceEndLine s = s := by
  obtain ⟨p, rfl, hp⟩ := h
  unfold replaceEndLine
  rw [if_pos (by simp)]
  congr 1
  rw [List.reverse_append, List.reverse_singleton, List.singleton_append]
  simp only [List.dropWhile, decide_True]
  have : (p.reverse).dropWhile (fun c => decide (c = newline)) = p.reverse := by
    cases hr : p.reverse with
    | nil => rfl
    | cons a l =>
      have ha : a ≠ newline := by
        intro ha
        apply hp
        rw [← List.reverse_reverse p, hr, ha]
        simp
      simp [List.dropWhile, ha]
  rw [this, List.reverse_reverse]

theorem replaceEndLine_idem (s : GoString) :
    replaceEndLine (replaceEndLine s) = replaceEndLine s := by
  by_cases h : s.getLast? = some newline
  · exact replaceEndLine_fixed (replaceEndLine_of_newline h)
  · have : replaceEndLine s = s := by unfold replaceEndLine; rw [if_neg h]
    rw [this, this]

/-! ### `removeExtraLines`: white-space-only lines and the matches of
`linesToClosureRegex` -/

theorem isBlankByte_ne_newline {c : Char} (h : isBlankByte c = true) : c ≠ newline := by
  intro hc
  rw [hc] at h
  revert h
  decide

theorem isBlankByte_of_space {c : Char} (hs : isRegexSpace c = true) (hc : c ≠ newline) :
    isBlankByte c = true := by
  simp [isBlankByte, hs, hc]

theorem isBlankByte_false_of_ne {c : Char} (hs : isRegexSpace c = false) :
    isBlankByte c = false := by
  simp [isBlankByte, hs]

theorem NoWhitespaceOnlyLine_suffix :
    ∀ (p s : GoString), NoWhitespaceOnlyLine (p ++ s) → NoWhitespaceOnlyLine s := by
  intro p
  induction p with
  | nil => intro s h; exact h
  | cons a l ih => intro s h; exact ih s h.2

theorem NoWhitespaceOnlyLine_dropWhile (p : Char → Bool) (s : GoString)
    (h : NoWhitespaceOnlyLine s) : NoWhitespaceOnlyLine (s.dropWhile p) := by
  have := List.takeWhile_append_dropWhile p s
  rw [← this] at h
  exact NoWhitespaceOnlyLine_suffix _ _ h

theorem head?_replaceManyLinesGo_pos :
    ∀ (s : GoString) (run : Nat), 1 ≤ run →
      (replaceManyLinesGo run s).head? = some newline := by
  intro s
  induction s with
  | nil =>
    intro run h
    simp only [replaceManyLinesGo, flushRun]
    split
    · rfl
    · have : run = 1 := by omega
      rw [this]; rfl
  | cons c rest ih =>
    intro run h
    simp only [replaceManyLinesGo]
    split
    · exact ih _ (by omega)
    · simp only [flushRun]
      split
      · rfl
      · have : run = 1 := by omega
        rw [this]; rfl

theorem dropWhile_blank_replaceManyLinesGo :
    ∀ (s : GoString),
      ((replaceManyLinesGo 0 s).dropWhile isBlankByte).head? = some newline ↔
        (s.dropWhile isBlankByte).head? = some newline := by
  intro s
  induction s with
  | nil => simp [replaceManyLinesGo, flushRun]
  | cons c rest ih =>
    simp only [replaceManyLinesGo]
    by_cases hc : c = newline
    · rw [if_pos hc]
      have h1 := head?_replaceManyLinesGo_pos rest 1 (le_refl _)
      have hb : isBlankByte newline = false := by decide
      cases hg : replaceManyLinesGo (0 + 1) rest with
      | nil => rw [hg] at h1; simp at h1
      | cons a l =>
        rw [hg] at h1
        simp only [List.head?_cons, Option.some.injEq] at h1
        rw [h1, hc]
        simp [List.dropWhile, hb]
    · rw [if_neg hc]
      simp only [flushRun, List.replicate_zero, List.nil_append]
      have : ¬ (0 ≥ 2) := by omega
      rw [if_neg this, List.nil_append]
      by_cases hb : isBlankByte c = true
      · simp only [List.dropWhile, hb]
        exact ih
      · simp [List.dropWhile, hb]

theorem blankLineAhead_replaceManyLinesGo (s : GoString) :
    blankLineAhead (replaceManyLinesGo 0 s) = blankLineAhead s := by
  cases s with
  | nil => rfl
  | cons c rest =>
    simp only [replaceManyLinesGo]
    by_cases hc : c = newline
    · rw [if_pos hc]
      have h1 := head?_replaceManyLinesGo_pos rest 1 (le_refl _)
      cases hg : replaceManyLinesGo (0 + 1) rest with
      | nil => rw [hg] at h1; simp at h1
      | cons a l =>
        rw [hg] at h1
        simp only [List.head?_cons, Option.some.injEq] at h1
        have hb : isBlankByte newline = false := by decide
        simp [blankLineAhead, h1, hc, hb]
    · rw [if_neg hc]
      have : ¬ (0 ≥ 2) := by omega
      simp only [flushRun, if_neg this, List.replicate_zero, List.nil_append, blankLineAhead]
      have := dropWhile_blank_replaceManyLinesGo rest
      by_cases hb : isBlankByte c = true
      · simp only [hb, Bool.true_and]
        exact decide_eq_decide.mpr this
      · simp [hb]

theorem blankLineAhead_newline (s : GoString) : blankLineAhead (newline :: s) = false := by
  have hb : isBlankByte newline = false := by decide
  simp [blankLineAhead, hb]

theorem NoWhitespaceOnlyLine_flushRun_append (run : Nat) (x : GoString)
    (hx : NoWhitespaceOnlyLine x) (hrun : 1 ≤ run → blankLineAhead x = false) :
    NoWhitespaceOnlyLine (flushRun run ++ x) := by
  unfold flushRun
  split
  · exact ⟨fun _ => blankLineAhead_newline _, fun _ => hrun (by omega), hx⟩
  · have : run = 0 ∨ run = 1 := by omega
    rcases this with rfl | rfl
    · exact hx
    · exact ⟨fun _ => hrun (le_refl _), hx⟩

theorem NoWhitespaceOnlyLine_replaceManyLinesGo :
    ∀ (s : GoString) (run : Nat), NoWhitespaceOnlyLine s →
      (1 ≤ run → blankLineAhead s = false) →
      NoWhitespaceOnlyLine (replaceManyLinesGo run s) := by
  intro s
  induction s with
  | nil =>
    intro run _ _
    simp only [replaceManyLinesGo]
    have := NoWhitespaceOnlyLine_flushRun_append run [] trivial (fun _ => rfl)
    simpa using this
  | cons c rest ih =>
    intro run h hrun
    simp only [replaceManyLinesGo]
    by_cases hc : c = newline
    · rw [if_pos hc]
      exact ih _ h.2 (fun _ => h.1 hc)
    · rw [if_neg hc]
      apply NoWhitespaceOnlyLine_flushRun_append
      · exact ⟨fun h' => absurd h' hc, ih 0 h.2 (fun h0 => absurd h0 (by omega))⟩
      · intro h1
        have := blankLineAhead_replaceManyLinesGo (c :: rest)
        simp only [replaceManyLinesGo, if_neg hc, flushRun] at this
        have h2 : ¬ (0 ≥ 2) := by omega
        rw [if_neg h2] at this
        simp only [List.replicate_zero, List.nil_append] at this
        rw [this]
        exact hrun h1

theorem closureAhead_append {a : GoString} (b : GoString) (h : closureAhead a = true) :
    closureAhead (a ++ b) = true := by
  induction a with
  | nil => simp [closureAhead] at h
  | cons c rest ih =>
    by_cases hs : isRegexSpace c = true
    · rw [closureAhead_cons_space hs] at h
      rw [List.cons_append, closureAhead_cons_space hs]
      exact ih h
    · have hs' : isRegexSpace c = false := by simpa using hs
      rw [closureAhead_cons_other hs'] at h
      rw [List.cons_append, closureAhead_cons_other hs']
      exact h

theorem NoClosureMatch_prefix :
    ∀ (a b : GoString), NoClosureMatch (a ++ b) → NoClosureMatch a := by
  intro a
  induction a with
  | nil => intro _ _; trivial
  | cons c rest ih =>
    intro b h
    refine ⟨?_, ih b h.2⟩
    rintro ⟨h1, h2, h3⟩
    apply h.1
    refine ⟨h1, ?_, closureAhead_append b h3⟩
    cases rest with
    | nil => simp at h2
    | cons a l => simpa using h2

theorem closureAhead_replaceLinesToClosureGo :
    ∀ (s : GoString), closureAhead (replaceLinesToClosureGo .outside s) = true →
      closureAhead s = true := by
  intro s
  induction s with
  | nil => intro h; exact h
  | cons c rest ih =>
    intro h
    simp only [replaceLinesToClosureGo] at h
    split at h
    · rename_i hm
      have hn : isRegexSpace newline = true := by decide
      rw [hm.1, closureAhead_cons_space hn]
      exact hm.2.2
    · by_cases hs : isRegexSpace c = true
      · rw [closureAhead_cons_space hs] at h ⊢
        exact ih h
      · have hs' : isRegexSpace c = false := by simpa using hs
        rw [closureAhead_cons_other hs'] at h ⊢
        exact h

/-- On a text without a white-space-only line the group of a match of
`linesToClosureRegex` holds no newline, so no match starts in the result of
the pass. -/
theorem NoClosureMatch_replaceLinesToClosureGo :
    ∀ (s : GoString) (m : ClosureMode), NoWhitespaceOnlyLine s →
      (m = .newlines → closureAhead s = true ∧ blankLineAhead s = false) →
      (m = .group → closureAhead s = true ∧
        (s.dropWhile isBlankByte).head? ≠ some newline) →
      NoClosureMatch (replaceLinesToClosureGo m s) ∧
        (m ≠ .outside → (replaceLinesToClosureGo m s).head? ≠ some newline) := by
  intro s
  induction s with
  | nil => intro m _ _ _; cases m <;> simp [replaceLinesToClosureGo, NoClosureMatch]
  | cons c rest ih =>
    intro m h hn hg
    have hout := ih .outside h.2 (fun h' => by cases h') (fun h' => by cases h')
    have hbrace : c = rbrace →
        NoClosureMatch (c :: replaceLinesToClosureGo .outside rest) ∧
          (c :: replaceLinesToClosureGo .outside rest).head? ≠ some newline := by
      intro hb
      have hcn : c ≠ newline := by rw [hb]; decide
      exact ⟨⟨fun hm => hcn hm.1, hout.1⟩, by simpa using hcn⟩
    have hgroup : c ≠ rbrace → closureAhead (c :: rest) = true →
        ((c :: rest).dropWhile isBlankByte).head? ≠ some newline →
        NoClosureMatch (c :: replaceLinesToClosureGo .group rest) ∧
          (c :: replaceLinesToClosureGo .group rest).head? ≠ some newline := by
      intro hb ha hj
      have hs : isRegexSpace c = true := by
        by_contra hs
        rw [closureAhead_cons_other (by simpa using hs)] at ha
        simp [hb] at ha
      have hcn : c ≠ newline := by
        intro hc
        apply hj
        have hbn : isBlankByte newline = false := by decide
        rw [hc]
        simp [List.dropWhile, hbn]
      have hbl := isBlankByte_of_space hs hcn
      rw [closureAhead_cons_space hs] at ha
      simp only [List.dropWhile, hbl] at hj
      have := ih .group h.2 (fun h' => by cases h') (fun _ => ⟨ha, hj⟩)
      exact ⟨⟨fun hm => hcn hm.1, this.1⟩, by simpa using hcn⟩
    cases m with
    | outside =>
      refine ⟨?_, fun h' => absurd rfl h'⟩
      simp only [replaceLinesToClosureGo]
      split
      · rename_i hm
        have := ih .newlines h.2 (fun _ => ⟨hm.2.2, h.1 hm.1⟩) (fun h' => by cases h')
        refine ⟨?_, this.1⟩
        rintro ⟨_, h2, _⟩
        exact this.2 (by decide) h2
      · rename_i hm
        refine ⟨?_, hout.1⟩
        rintro ⟨h1, h2, h3⟩
        apply hm
        refine ⟨h1, ?_, closureAhead_replaceLinesToClosureGo rest h3⟩
        have := head?_replaceLinesToClosure rest
        unfold replaceLinesToClosure at this
        rw [← this]
        exact h2
    | newlines =>
      obtain ⟨ha, hbl⟩ := hn rfl
      have hall : NoClosureMatch (replaceLinesToClosureGo .newlines (c :: rest)) ∧
          (replaceLinesToClosureGo .newlines (c :: rest)).head? ≠ some newline := by
        simp only [replaceLinesToClosureGo]
        split
        · rename_i hc
          have hsp : isRegexSpace c = true := by rw [hc]; decide
          rw [closureAhead_cons_space hsp] at ha
          exact
            let r := ih .newlines h.2 (fun _ => ⟨ha, h.1 hc⟩) (fun h' => by cases h')
            ⟨r.1, r.2 (by decide)⟩
        · rename_i hc
          split
          · rename_i hb; exact hbrace hb
          · rename_i hb
            apply hgroup hb ha
            have hs : isRegexSpace c = true := by
              by_contra hs
              rw [closureAhead_cons_other (by simpa using hs)] at ha
              simp [hb] at ha
            have hblc := isBlankByte_of_space hs hc
            simp only [blankLineAhead, hblc, Bool.true_and, decide_eq_false_iff_not] at hbl
            simp only [List.dropWhile, hblc]
            exact hbl
      exact ⟨hall.1, fun _ => hall.2⟩
    | group =>
      obtain ⟨ha, hj⟩ := hg rfl
      have hall : NoClosureMatch (replaceLinesToClosureGo .group (c :: rest)) ∧
          (replaceLinesToClosureGo .group (c :: rest)).head? ≠ some newline := by
        simp only [replaceLinesToClosureGo]
        split
        · rename_i hb; exact hbrace hb
        · rename_i hb; exact hgroup hb ha hj
      exact ⟨hall.1, fun _ => hall.2⟩

theorem removeExtraLines_replaceEndLine_fixed (v : GoString) (h3 : NoTripleNewline v)
    (hm : NoClosureMatch v) (hhead : v.head? ≠ some newline) :
    removeExtraLines (replaceEndLine v) = replaceEndLine v := by
  obtain ⟨u, hu⟩ := replaceEndLine_prefix v
  have hidem := replaceEndLine_idem v
  generalize replaceEndLine v = w at hu hidem ⊢
  have w3 : NoTripleNewline w := by
    rw [NoTripleNewline_iff] at h3 ⊢
    intro hin
    exact h3 (hin.trans ⟨[], u, by simpa using hu⟩)
  have wm : NoClosureMatch w := NoClosureMatch_prefix w u (by rw [hu]; exact hm)
  have whead : w.head? ≠ some newline := by
    cases w with
    | nil => simp
    | cons a l =>
      rw [← hu] at hhead
      simpa using hhead
  have wl : 0 + leadingNewlines w ≤ 2 := by
    cases w with
    | nil => simp [leadingNewlines]
    | cons a l => have := w3.1; omega
  have e1 : replaceManyLines w = w := by
    unfold replaceManyLines
    rw [replaceManyLinesGo_fixed w 0 wl w3]
    rfl
  have e2 : replaceStartLine w = w := replaceStartLine_fixed whead
  have e3 : replaceLinesToClosure w = w := replaceLinesToClosureGo_fixed w wm
  unfold removeExtraLines
  rw [e1, e2, e3, hidem]

/-- C13, as stated, fails: on a text where a white-space-only line stands
between two runs of blank lines before a closing brace, the second
normalisation removes a newline the first one left. -/
theorem removeExtraLines_not_idempotent :
    removeExtraLines "a\n\n  \n\n  \x7d\n".toList = "a\n  \n\n  \x7d\n".toList ∧
      removeExtraLines (removeExtraLines "a\n\n  \n\n  \x7d\n".toList) =
        "a\n  \n  \x7d\n".toList ∧
      removeExtraLines (removeExtraLines "a\n\n  \n\n  \x7d\n".toList) ≠
        removeExtraLines "a\n\n  \n\n  \x7d\n".toList := by
  decide

/-- C13, amended: on a text without a white-space-only line (no newline that
one or more tabs, form feeds, carriage returns or spaces and then a newline
follow), blank-line normalisation is idempotent:
`removeExtraLines (removeExtraLines t) = removeExtraLines t`. -/
theorem removeExtraLines_idempotent (t : GoString) (h : NoWhitespaceOnlyLine t) :
    removeExtraLines (removeExtraLines t) = removeExtraLines t := by
  have h1 : NoWhitespaceOnlyLine (replaceStartLine (replaceManyLines t)) :=
    NoWhitespaceOnlyLine_dropWhile _ _
      (NoWhitespaceOnlyLine_replaceManyLinesGo t 0 h (fun h0 => absurd h0 (by omega)))
  have h3 : NoTripleNewline (replaceLinesToClosure (replaceStartLine (replaceManyLines t))) :=
    NoTripleNewline_replaceLinesToClosureGo _ _
      (NoTripleNewline_dropWhile _ _ (NoTripleNewline_replaceManyLinesGo t 0))
  have hm : NoClosureMatch (replaceLinesToClosure (replaceStartLine (replaceManyLines t))) :=
    (NoClosureMatch_replaceLinesToClosureGo _ .outside h1
      (fun h' => by cases h') (fun h' => by cases h')).1
  have hhead : (replaceLinesToClosure (replaceStartLine (replaceManyLines t))).head? ≠
      some newline := by
    rw [head?_replaceLinesToClosure]
    exact head?_replaceStartLine _
  exact removeExtraLines_replaceEndLine_fixed _ h3 hm hhead

/-- C13, amended, at a declaration with runs of blank lines before its closing
brace. -/
theorem removeExtraLines_idempotent_witness :
    NoWhitespaceOnlyLine "\n\n\ntype A \x7b\n\n\n  a: Int\n\n\n\x7d\n\n\n".toList ∧
      removeExtraLines (removeExtraLines
          "\n\n\ntype A \x7b\n\n\n  a: Int\n\n\n\x7d\n\n\n".toList) =
        removeExtraLines "\n\n\ntype A \x7b\n\n\n  a: Int\n\n\n\x7d\n\n\n".toList :=
  ⟨by decide, removeExtraLines_idempotent _ (by decide)⟩

/-! ### The sample plugins -/

/-- The wrappers of `pluginQT` are the ones `WrapFieldDefinition` and
`WrapDefinition` make of its nodes. -/
theorem pluginQT_wrapped :
    WrapFieldDefinitionAt pluginQT 2 .DefObjectField =
      (match pluginQT.fieldDefinitions[0]? with | some c => .ok c | none => .fault) ∧
    WrapFieldDefinitionAt pluginQT 0 .DefQueryField =
      (match pluginQT.fieldDefinitions[1]? with | some c => .ok c | none => .fault) ∧
    WrapFieldDefinitionAt pluginQT 1 .DefQueryField =
      (match pluginQT.fieldDefinitions[2]? with | some c => .ok c | none => .fault) ∧
    WrapDefinitionAt pluginQT 1 .DefTypeObject =
      (match pluginQT.definitions[0]? with
        | some c => .ok { c with Fields := [] } | none => .fault) ∧
    WrapDefinitionAt pluginQT 0 .DefQueryObject =
      (match pluginQT.definitions[1]? with
        | some c => .ok { c with Fields := [] } | none => .fault) := by
  refine ⟨by decide, by decide, by decide, by decide, by decide⟩

/-- The wrappers of `pluginBlank` are the ones `WrapFieldDefinition` and
`WrapDefinition` make of its nodes. -/
theorem pluginBlank_wrapped :
    WrapFieldDefinitionAt pluginBlank 0 .DefQueryField =
      (match pluginBlank.fieldDefinitions[0]? with | some c => .ok c | none => .fault) ∧
    WrapFieldDefinitionAt pluginBlank 1 .DefQueryField =
      (match pluginBlank.fieldDefinitions[1]? with | some c => .ok c | none => .fault) ∧
    WrapDefinitionAt pluginBlank 0 .DefQueryObject =
      (match pluginBlank.definitions[0]? with
        | some c => .ok { c with Fields := [] } | none => .fault) := by
  refine ⟨by decide, by decide, by decide⟩

/-- The wrappers of `pluginQM` are the ones `WrapFieldDefinition` and
`WrapDefinition` make of its nodes. -/
theorem pluginQM_wrapped :
    WrapFieldDefinitionAt pluginQM 0 .DefQueryField =
      (match pluginQM.fieldDefinitions[0]? with | some c => .ok c | none => .fault) ∧
    WrapFieldDefinitionAt pluginQM 1 .DefMutationField =
      (match pluginQM.fieldDefinitions[1]? with | some c => .ok c | none => .fault) ∧
    WrapDefinitionAt pluginQM 0 .DefQueryObject =
      (match pluginQM.definitions[0]? with
        | some c => .ok { c with Fields := [] } | none => .fault) ∧
    WrapDefinitionAt pluginQM 1 .DefMutationObject =
      (match pluginQM.definitions[1]? with
        | some c => .ok { c with Fields := [] } | none => .fault) := by
  refine ⟨by decide, by decide, by decide, by decide⟩

/-- The wrappers of `pluginABC` are the ones `WrapFieldDefinition` and
`WrapDefinition` make of its nodes, and its states before and after the move
are the results of the statements of `mutateObjectTypes` and of `moveType`. -/
theorem pluginABC_wrapped :
    WrapFieldDefinitionAt pluginABC 0 .DefObjectField =
      (match pluginABC.fieldDefinitions[0]? with | some c => .ok c | none => .fault) ∧
    WrapFieldDefinitionAt pluginABC 1 .DefObjectField =
      (match pluginABC.fieldDefinitions[1]? with | some c => .ok c | none => .fault) ∧
    WrapFieldDefinitionAt pluginABC 2 .DefObjectField =
      (match pluginABC.fieldDefinitions[2]? with | some c => .ok c | none => .fault) ∧
    WrapDefinitionAt pluginABC 0 .DefTypeObject =
      (match pluginABC.definitions[0]? with
        | some c => .ok { c with Fields := [] } | none => .fault) ∧
    WrapDefinitionAt pluginABC 1 .DefTypeObject =
      (match pluginABC.definitions[1]? with
        | some c => .ok { c with Fields := [] } | none => .fault) ∧
    WrapDefinitionAt pluginABC 2 .DefTypeObject =
      (match pluginABC.definitions[2]? with
        | some c => .ok { c with Fields := [] } | none => .fault) ∧
    addTypeToNewSource [] pluginABC "b.graphql".toList 1 = some pluginABCReady ∧
    pluginABCMoved = some pluginABCAfter := by
  refine ⟨by decide, by decide, by decide, by decide, by decide, by decide, by decide, by decide⟩

/-- The sample plugins that stand before a move are the results of the
statements of `mutateQueryTypes` that hand the field over. -/
theorem sample_plugins_ready :
    addFieldToNewSource [] pluginQT "q.schema.graphql".toList .SourceQueryExtended 1 =
      some pluginQTReady ∧
    addFieldToNewSource [] pluginBlank "q.schema.graphql".toList .SourceQueryExtended 0 =
      some pluginBlankReady ∧
    addFieldToNewSource [] pluginQM "q.schema.graphql".toList .SourceQueryExtended 0 =
      some pluginQMReady ∧
    pluginQMFirst.bind (fun r =>
      addFieldToNewSource [] r.1 "m.schema.graphql".toList .SourceMutationExtended 1) =
      some pluginQMNext := by
  refine ⟨by decide, by decide, by decide, by decide⟩

/-- The sample plugins that stand after a move are the results of the calls of
`moveQueryField`. -/
theorem sample_plugins_moved :
    pluginQTMoved = some (pluginQTAfter, false, none) ∧
    pluginBlankMoved = some (pluginBlankAfter, false, none) ∧
    pluginQMSecond = some (pluginQMAfter, true, none) := by
  refine ⟨by decide, by decide, by decide⟩

/-- C16: `moveQueryField` shifts the fields that follow the moved field and no
declaration. In the buffer `type Query {a, b}` followed by `type T {x}`, moving
`a` cuts 9 bytes and one line at offset 13; field `x` of `T`, which started at
45 on line 7, starts at 36 on line 6 afterwards, while the declaration `T`,
which started after offset 13 too, keeps its raw start 39, its line 6 and its
actual span 34 to 52 in a buffer that is 45 bytes long. -/
theorem moveQueryField_keeps_following_declaration :
    pluginQTMoved.map (fun r => r.2) = some (false, none) ∧
    pluginQTMoved.map (fun r => (r.1.astSources[0]?).map (fun b => b.Input)) =
      some (some "type Query \x7b\n  b: Int\n\x7d\n\ntype T \x7b\n  x: Int\n\x7d\n".toList) ∧
    FieldDefinitionPos pluginQT 0 = some { Start := 45, End := 46, Line := 7, Src := some 0 } ∧
    pluginQTMoved.map (fun r => FieldDefinitionPos r.1 0) =
      some (some { Start := 36, End := 37, Line := 6, Src := some 0 }) ∧
    pluginQTMoved.map (fun r => (r.1.fieldDefinitions[0]?).map (fun c => c.ActualPosition)) =
      some (some { Start := 34, End := 41, Line := 5, Src := none }) ∧
    pluginQTMoved.map (fun r => DefinitionPos r.1 0) =
      some (some { Start := 39, End := 40, Line := 6, Src := some 0 }) ∧
    pluginQTMoved.map (fun r => (r.1.definitions[0]?).map (fun c => c.ActualPosition)) =
      some (some { Start := 34, End := 52, Line := 4, Src := none }) := by
  refine ⟨by decide, by decide, by decide, by decide, by decide, by decide, by decide⟩

/-- C18: when the buffer dropped held fields of two root operation types, only
the type of the first field recorded gets a main buffer. In the buffer
`type Query {a}` followed by `type Mutation {m}`, with `a` routed to
`q.schema.graphql` and `m` to `m.schema.graphql`, the first move returns false,
the second returns true and drops the buffer; `q.schema.graphql` is marked
`isMainQuery`, and `m.schema.graphql`, the only buffer that holds a field of
`Mutation`, is not. -/
theorem moveQueryField_no_main_buffer_for_second_kind :
    pluginQMFirst.map (fun r => r.2) = some (false, none) ∧
    pluginQMSecond.map (fun r => r.2) = some (true, none) ∧
    pluginQMSecond.map (fun r => r.1.genCfgSources) = some [] ∧
    pluginQMSecond.map (fun r => r.1.newSources) =
      some [("q.schema.graphql".toList, 1), ("m.schema.graphql".toList, 2)] ∧
    pluginQMSecond.map (fun r => r.1.sourceCells[1]?) =
      some (some { Source := 1, typ := .SourceQueryExtended, Fields := [0], Types := [],
                   isMainQuery := true }) ∧
    pluginQMSecond.map (fun r => r.1.sourceCells[2]?) =
      some (some { Source := 2, typ := .SourceMutationExtended, Fields := [1], Types := [],
                   isMainQuery := false }) ∧
    pluginQMSecond.map (fun r => (r.1.fieldDefinitions[1]?).map (fun c => c.typ)) =
      some (some .DefMutationField) := by
  refine ⟨by decide, by decide, by decide, by decide, by decide, by decide, by decide⟩

/-- C20, as stated, fails: with two blank lines between fields `a` and `b`,
moving `a` cuts the buffer from the start of the line of `a` up to the start of
the line of `b`. The text before the cut, `type Query {` and its newline, is
followed at once by the content of `b`: no blank line remains. -/
theorem moveQueryField_leaves_no_blank_line :
    pluginBlankMoved.map (fun r => r.2) = some (false, none) ∧
    pluginBlankMoved.map (fun r => (r.1.astSources[0]?).map (fun b => b.Input)) =
      some (some ("type Query \x7b\n".toList ++ "  b: Int".toList ++ "\n\x7d\n".toList)) ∧
    (pluginBlank.fieldDefinitions[0]?).map (fun c => c.ActualPosition.Start) = some 13 ∧
    pluginBlankMoved.map (fun r => (r.1.fieldDefinitions[1]?).map
        (fun c => (c.Content, c.ActualPosition.Start, c.ActualPosition.End))) =
      some (some ("  b: Int".toList, 13, 20)) := by
  refine ⟨by decide, by decide, by decide, by decide⟩

/-- C17, as stated, fails: the content of the declaration `Query` is the text of
the buffer at its actual span before field `a` is moved out of it, and is not
afterwards; the declaration still records the text and the span it had with
the field in it. -/
theorem moveQueryField_breaks_parent_content :
    decide (DefinitionContentHolds pluginQTReady 1) = true ∧
    pluginQTMoved.map (fun r => decide (DefinitionContentHolds r.1 1)) = some false ∧
    pluginQTMoved.map (fun r => definitionSpanText r.1 1) =
      some (some "uery \x7b\n  b: Int\n\x7d\n\ntype T ".toList) ∧
    pluginQTMoved.map (fun r => (r.1.definitions[1]?).map (fun c => c.Content)) =
      some (some "uery \x7b\n  a: Int\n  b: Int\n\x7d".toList) := by
  refine ⟨by decide, by decide, by decide, by decide⟩

/-! ### The moves: what `shiftOffset` changes -/

theorem shiftOffsetField_eq {s s' : TypesSplitterPlugin} {d : Nat} {o l : Int}
    (h : shiftOffsetField s d o l = some s') :
    ∃ c node p, s.fieldDefinitions[d]? = some c ∧ s.astFields[c.FieldDefinition]? = some node ∧
      node.Position = some p ∧
      s' = { s with
        astFields := s.astFields.set c.FieldDefinition
          { node with Position := some (shiftPosition p o l) }
        fieldDefinitions := s.fieldDefinitions.set d (shiftFieldCell o l c) } := by
  unfold shiftOffsetField at h
  cases hc : s.fieldDefinitions[d]? with
  | none => rw [hc] at h; cases h
  | some c =>
    rw [hc] at h
    simp only at h
    cases hn : s.astFields[c.FieldDefinition]? with
    | none => rw [hn] at h; cases h
    | some node =>
      rw [hn] at h
      simp only at h
      cases hp : node.Position with
      | none => rw [hp] at h; cases h
      | some p =>
        rw [hp] at h
        simp only [Option.some.injEq] at h
        exact ⟨c, node, p, rfl, hn, hp, h.symm⟩

/-- What a run of `FieldDefinitions.ShiftOffset` leaves as it is: everything but
the field nodes and the field wrappers; of a field wrapper everything but the
numbers of its actual position, of a field node everything but the numbers of
its position. -/
theorem FieldDefinitionsShiftOffset_frame (o l : Int) :
    ∀ (ds : List Nat) (s s' : TypesSplitterPlugin),
      FieldDefinitionsShiftOffset o l s ds = some s' →
      s' = { s with astFields := s'.astFields, fieldDefinitions := s'.fieldDefinitions } ∧
      (∀ g : Nat, (s'.fieldDefinitions[g]?).map
          (fun (c : FieldDefinitionCell) => (c.FieldDefinition, c.typ, c.Content, c.ActualPosition.Src)) =
        (s.fieldDefinitions[g]?).map
          (fun (c : FieldDefinitionCell) => (c.FieldDefinition, c.typ, c.Content, c.ActualPosition.Src))) ∧
      (∀ q : Nat, (s'.astFields[q]?).map (fun (n : AstFieldNode) => (n.Name, n.Position.map (fun p => p.Src))) =
        (s.astFields[q]?).map (fun (n : AstFieldNode) => (n.Name, n.Position.map (fun p => p.Src)))) := by
  intro ds
  induction ds with
  | nil =>
    intro s s' h
    simp only [FieldDefinitionsShiftOffset, Option.some.injEq] at h
    subst h
    exact ⟨rfl, fun _ => rfl, fun _ => rfl⟩
  | cons d ds ih =>
    intro s s' h
    simp only [FieldDefinitionsShiftOffset] at h
    cases h1 : shiftOffsetField s d o l with
    | none => rw [h1] at h; cases h
    | some s1 =>
      rw [h1] at h
      obtain ⟨c, node, p, hc, hn, hp, rfl⟩ := shiftOffsetField_eq h1
      obtain ⟨e1, e2, e3⟩ := ih _ _ h
      refine ⟨?_, ?_, ?_⟩
      · rw [e1]
      · intro g
        rw [e2 g]
        simp only [List.getElem?_set]
        split
        · rename_i hg
          subst hg
          split
          · rw [hc]; rfl
          · rename_i hlt
            rw [List.getElem?_eq_none (by omega)]
        · rfl
      · intro q
        rw [e3 q]
        simp only [List.getElem?_set]
        split
        · rename_i hq
          subst hq
          split
          · rw [hn]
            simp [hp, shiftPosition]
          · rename_i hlt
            rw [List.getElem?_eq_none (by omega)]
        · rfl

/-- A field wrapper that is not in the list keeps its actual position. -/
theorem FieldDefinitionsShiftOffset_not_mem (o l : Int) (g : Nat) :
    ∀ (ds : List Nat) (s s' : TypesSplitterPlugin),
      FieldDefinitionsShiftOffset o l s ds = some s' → g ∉ ds →
      s'.fieldDefinitions[g]? = s.fieldDefinitions[g]? := by
  intro ds
  induction ds with
  | nil =>
    intro s s' h _
    simp only [FieldDefinitionsShiftOffset, Option.some.injEq] at h
    rw [h]
  | cons d ds ih =>
    intro s s' h hg
    simp only [FieldDefinitionsShiftOffset] at h
    cases h1 : shiftOffsetField s d o l with
    | none => rw [h1] at h; cases h
    | some s1 =>
      rw [h1] at h
      obtain ⟨c, node, p, hc, hn, hp, rfl⟩ := shiftOffsetField_eq h1
      rw [ih _ _ h (fun hm => hg (List.mem_cons_of_mem _ hm))]
      have hne : d ≠ g := fun e => hg (e ▸ List.mem_cons_self _ _)
      simp [List.getElem?_set, hne]

/-- A field wrapper that is in the list once is shifted once. -/
theorem FieldDefinitionsShiftOffset_mem (o l : Int) (g : Nat) :
    ∀ (ds : List Nat) (s s' : TypesSplitterPlugin),
      FieldDefinitionsShiftOffset o l s ds = some s' → ds.Nodup → g ∈ ds →
      s'.fieldDefinitions[g]? = (s.fieldDefinitions[g]?).map (shiftFieldCell o l) := by
  intro ds
  induction ds with
  | nil => intro s s' _ _ hg; cases hg
  | cons d ds ih =>
    intro s s' h hnd hg
    simp only [FieldDefinitionsShiftOffset] at h
    cases h1 : shiftOffsetField s d o l with
    | none => rw [h1] at h; cases h
    | some s1 =>
      rw [h1] at h
      obtain ⟨c, node, p, hc, hn, hp, rfl⟩ := shiftOffsetField_eq h1
      rw [List.nodup_cons] at hnd
      by_cases hgd : g = d
      · subst hgd
        rw [FieldDefinitionsShiftOffset_not_mem o l g ds _ _ h hnd.1]
        have hlt : g < s.fieldDefinitions.length := by
          by_contra hlt
          rw [List.getElem?_eq_none (by omega)] at hc
          cases hc
        simp [List.getElem?_set, hlt, hc]
      · have hg' : g ∈ ds := by
          rcases List.mem_cons.mp hg with e | e
          · exact absurd e hgd
          · exact e
        rw [ih _ _ h hnd.2 hg']
        have hne : d ≠ g := fun e => hgd e.symm
        simp [List.getElem?_set, hne]

/-! ### The moves: the entities that follow -/

theorem fieldStartKey_eq {s : TypesSplitterPlugin} {g : Nat} {p : PositionRef}
    (h : FieldDefinitionPos s g = some p) : fieldStartKey s g = p.Start := by
  simp [fieldStartKey, h]

theorem definitionStartKey_eq {s : TypesSplitterPlugin} {g : Nat} {p : PositionRef}
    (h : DefinitionPos s g = some p) : definitionStartKey s g = p.Start := by
  simp [definitionStartKey, h]

/-- When `FieldDefinitions.PosAfter` returns, it returns the wrappers of the
list whose raw start is greater than the offset. -/
theorem FieldDefinitionsPosAfter_eq (s : TypesSplitterPlugin) (off : Int) :
    ∀ (l r : List Nat), FieldDefinitionsPosAfter s off l = some r →
      r = l.filter (fun g => decide (fieldStartKey s g > off)) := by
  intro l
  induction l with
  | nil =>
    intro r h
    simp only [FieldDefinitionsPosAfter, Option.some.injEq] at h
    rw [← h]; rfl
  | cons d ds ih =>
    intro r h
    simp only [FieldDefinitionsPosAfter] at h
    cases hp : FieldDefinitionPos s d with
    | none => rw [hp] at h; cases h
    | some p =>
      rw [hp] at h
      simp only at h
      cases hr : FieldDefinitionsPosAfter s off ds with
      | none => rw [hr] at h; cases h
      | some rest =>
        rw [hr] at h
        simp only [Option.some.injEq] at h
        rw [← h, List.filter_cons, fieldStartKey_eq hp, ← ih rest hr]
        by_cases hgt : p.Start > off <;> simp [hgt]

/-- When `Definitions.PosAfter` returns, it returns the wrappers of the list
whose raw start is greater than the offset. -/
theorem DefinitionsPosAfter_eq (s : TypesSplitterPlugin) (off : Int) :
    ∀ (l r : List Nat), DefinitionsPosAfter s off l = some r →
      r = l.filter (fun g => decide (definitionStartKey s g > off)) := by
  intro l
  induction l with
  | nil =>
    intro r h
    simp only [DefinitionsPosAfter, Option.some.injEq] at h
    rw [← h]; rfl
  | cons d ds ih =>
    intro r h
    simp only [DefinitionsPosAfter] at h
    cases hp : DefinitionPos s d with
    | none => rw [hp] at h; cases h
    | some p =>
      rw [hp] at h
      simp only at h
      cases hr : DefinitionsPosAfter s off ds with
      | none => rw [hr] at h; cases h
      | some rest =>
        rw [hr] at h
        simp only [Option.some.injEq] at h
        rw [← h, List.filter_cons, definitionStartKey_eq hp, ← ih rest hr]
        by_cases hgt : p.Start > off <;> simp [hgt]

theorem sortByStart_perm (key : Nat → Int) (l : List Nat) : (sortByStart key l).Perm l :=
  List.perm_insertionSort _ l

theorem mem_sortByStart {key : Nat → Int} {l : List Nat} {g : Nat} :
    g ∈ sortByStart key l ↔ g ∈ l :=
  (sortByStart_perm key l).mem_iff

theorem nodup_sortByStart {key : Nat → Int} {l : List Nat} :
    (sortByStart key l).Nodup ↔ l.Nodup :=
  (sortByStart_perm key l).nodup_iff

/-! ### `moveQueryField`: the steps of a call that returns -/

/-- A call of the loop of `moveQueryField` that returns, on a list that holds
the node of the field to move, went through the body at that node: the field
was cut out of its buffer and the check for an emptied buffer ran. -/
theorem moveQueryFieldLoop_found {s : TypesSplitterPlugin} {f : Nat}
    {cell : FieldDefinitionCell} {target : AstFieldNode} {pos : PositionRef}
    (hcell : s.fieldDefinitions[f]? = some cell)
    (htarget : s.astFields[cell.FieldDefinition]? = some target)
    (hname : ¬ "__".toList <+: target.Name) (hpos : target.Position = some pos) :
    ∀ (l : List Nat) (R : TypesSplitterPlugin × Bool × Option MoveError),
      cell.FieldDefinition ∈ l → moveQueryFieldLoop s f l = some R →
      ∃ cfgSrc src s1, pos.Src = some cfgSrc ∧ s.astSources[cfgSrc]? = some src ∧
        exciseQueryField s f cfgSrc = some s1 ∧ dropEmptySource s1 src.Name = some R := by
  have hfp : FieldDefinitionPos s f = some pos := by
    simp [FieldDefinitionPos, hcell, htarget, hpos]
  intro l
  induction l with
  | nil => intro R hmem _; cases hmem
  | cons q rest ih =>
    intro R hmem h
    simp only [moveQueryFieldLoop] at h
    cases hq : s.astFields[q]? with
    | none => rw [hq] at h; cases h
    | some cfgQField =>
      rw [hq] at h
      simp only [hcell, hfp] at h
      by_cases hqt : q = cell.FieldDefinition
      · subst hqt
        rw [htarget] at hq
        simp only [Option.some.injEq] at hq
        subst hq
        have hskip : ¬ ("__".toList <+: target.Name ∨ target.Position = none) := by
          rintro (h1 | h1)
          · exact hname h1
          · rw [hpos] at h1; cases h1
        rw [if_neg hskip, if_pos rfl] at h
        cases hs : pos.Src with
        | none => rw [hs] at h; cases h
        | some cfgSrc =>
          rw [hs] at h
          simp only at h
          cases hb : s.astSources[cfgSrc]? with
          | none => rw [hb] at h; cases h
          | some src =>
            rw [hb] at h
            simp only at h
            cases he : exciseQueryField s f cfgSrc with
            | none => rw [he] at h; cases h
            | some s1 =>
              rw [he] at h
              exact ⟨cfgSrc, src, s1, rfl, hb, he, h⟩
      · have hmem' : cell.FieldDefinition ∈ rest := by
          rcases List.mem_cons.mp hmem with e | e
          · exact absurd e.symm hqt
          · exact e
        rw [if_neg hqt] at h
        simp only [ite_self] at h
        exact ih R hmem' h

/-- The steps of a call of `exciseQueryField` that returns. -/
theorem exciseQueryField_eq {s s' : TypesSplitterPlugin} {f a : Nat}
    (h : exciseQueryField s f a = some s') :
    ∃ src moved fields input offset offsetLine s2 moved2 node p,
      s.astSources[a]? = some src ∧ s.fieldDefinitions[f]? = some moved ∧
      FieldDefinitionsPosAfter s moved.ActualPosition.End
        ((s.sourcesFields.lookup src.Name).getD []) = some fields ∧
      cutField s src.Input moved.ActualPosition (sortByStart (fieldStartKey s) fields) =
        some (input, offset, offsetLine) ∧
      FieldDefinitionsShiftOffset offset offsetLine
        { s with astSources := s.astSources.set a { src with Input := input } }
        (sortByStart (fieldStartKey s) fields) = some s2 ∧
      s2.fieldDefinitions[f]? = some moved2 ∧
      s2.astFields[moved2.FieldDefinition]? = some node ∧ node.Position = some p ∧
      s' = { s2 with
        astFields := s2.astFields.set moved2.FieldDefinition
          { node with Position := some { p with Src := moved2.ActualPosition.Src } } } := by
  unfold exciseQueryField at h
  cases hsrc : s.astSources[a]? with
  | none => rw [hsrc] at h; cases h
  | some src =>
    cases hm : s.fieldDefinitions[f]? with
    | none => rw [hsrc, hm] at h; cases h
    | some moved =>
      rw [hsrc, hm] at h
      simp only at h
      cases hf : FieldDefinitionsPosAfter s moved.ActualPosition.End
          ((s.sourcesFields.lookup src.Name).getD []) with
      | none => rw [hf] at h; cases h
      | some fields =>
        rw [hf] at h
        simp only at h
        cases hcut : cutField s src.Input moved.ActualPosition
            (sortByStart (fieldStartKey s) fields) with
        | none => rw [hcut] at h; cases h
        | some cut =>
          obtain ⟨input, offset, offsetLine⟩ := cut
          rw [hcut] at h
          simp only at h
          cases hsh : FieldDefinitionsShiftOffset offset offsetLine
              { s with astSources := s.astSources.set a { src with Input := input } }
              (sortByStart (fieldStartKey s) fields) with
          | none => rw [hsh] at h; cases h
          | some s2 =>
            rw [hsh] at h
            simp only at h
            cases hm2 : s2.fieldDefinitions[f]? with
            | none => rw [hm2] at h; cases h
            | some moved2 =>
              rw [hm2] at h
              simp only at h
              cases hn : s2.astFields[moved2.FieldDefinition]? with
              | none => rw [hn] at h; cases h
              | some node =>
                rw [hn] at h
                simp only at h
                cases hp : node.Position with
                | none => rw [hp] at h; cases h
                | some p =>
                  rw [hp] at h
                  simp only [Option.some.injEq] at h
                  exact ⟨src, moved, fields, input, offset, offsetLine, s2, moved2, node, p,
                    rfl, rfl, hf, hcut, hsh, hm2, hn, hp, h.symm⟩

/-! ### `moveQueryField`: the check for an emptied buffer -/

theorem stillReferenced_true (s : TypesSplitterPlugin) (name : GoString) :
    ∀ (l : List Nat), stillReferenced s name l = some true →
      ∃ g ∈ l, fieldSourceName s g = some name := by
  intro l
  induction l with
  | nil => intro h; simp [stillReferenced] at h
  | cons d ds ih =>
    intro h
    simp only [stillReferenced] at h
    cases hn : fieldSourceName s d with
    | none => rw [hn] at h; cases h
    | some n =>
      rw [hn] at h
      simp only at h
      by_cases he : n = name
      · exact ⟨d, List.mem_cons_self _ _, by rw [hn, he]⟩
      · rw [if_neg he] at h
        obtain ⟨g, hg, hgn⟩ := ih h
        exact ⟨g, List.mem_cons_of_mem _ hg, hgn⟩

theorem stillReferenced_false (s : TypesSplitterPlugin) (name : GoString) :
    ∀ (l : List Nat), stillReferenced s name l = some false →
      ∀ g ∈ l, fieldSourceName s g ≠ some name := by
  intro l
  induction l with
  | nil => intro _ g hg; cases hg
  | cons d ds ih =>
    intro h g hg
    simp only [stillReferenced] at h
    cases hn : fieldSourceName s d with
    | none => rw [hn] at h; cases h
    | some n =>
      rw [hn] at h
      simp only at h
      by_cases he : n = name
      · rw [if_pos he] at h; cases h
      · rw [if_neg he] at h
        rcases List.mem_cons.mp hg with e | e
        · rw [e, hn]
          intro h'
          exact he (Option.some.inj h')
        · exact ih h g e

/-- The loop that takes the buffer out of `genCfg.Sources` erases the first
buffer of that name. -/
theorem removeSource_eq (s : TypesSplitterPlugin) (name : GoString) :
    ∀ (l kept : List Nat), removeSource s name l = some kept →
      kept = l.eraseP
        (fun a => decide ((s.astSources[a]?).map (fun (b : Source) => b.Name) = some name)) := by
  intro l
  induction l with
  | nil =>
    intro kept h
    simp only [removeSource, Option.some.injEq] at h
    rw [← h]; rfl
  | cons a rest ih =>
    intro kept h
    simp only [removeSource] at h
    cases hs : s.astSources[a]? with
    | none => rw [hs] at h; cases h
    | some src =>
      rw [hs] at h
      simp only at h
      by_cases he : src.Name = name
      · rw [if_pos he] at h
        simp only [Option.some.injEq] at h
        rw [← h, List.eraseP_cons_of_pos]
        simp [hs, he]
      · rw [if_neg he] at h
        cases hr : removeSource s name rest with
        | none => rw [hr] at h; cases h
        | some l' =>
          rw [hr] at h
          simp only [Option.some.injEq] at h
          rw [← h, List.eraseP_cons_of_neg, ← ih l' hr]
          simp [hs, he]

/-- The two ways `dropEmptySource` returns: a field still points to the buffer
and nothing changes, or none does and the buffer leaves `genCfg.Sources`. -/
theorem dropEmptySource_eq {s s' : TypesSplitterPlugin} {name : GoString} {r : Bool}
    {e : Option MoveError} (h : dropEmptySource s name = some (s', r, e)) :
    (stillReferenced s name ((s.sourcesFields.lookup name).getD []) = some true ∧
      s' = s ∧ r = false ∧ e = none) ∨
    (stillReferenced s name ((s.sourcesFields.lookup name).getD []) = some false ∧
      removeSource s name s.genCfgSources = some s'.genCfgSources ∧
      s'.astSources = s.astSources ∧ s'.astFields = s.astFields ∧
      s'.fieldDefinitions = s.fieldDefinitions ∧ (e = none → r = true)) := by
  unfold dropEmptySource at h
  simp only at h
  cases hst : stillReferenced s name ((s.sourcesFields.lookup name).getD []) with
  | none => rw [hst] at h; cases h
  | some b =>
    rw [hst] at h
    cases b with
    | true =>
      simp only [Option.some.injEq, Prod.mk.injEq] at h
      exact Or.inl ⟨rfl, h.1.symm, h.2.1.symm, h.2.2.symm⟩
    | false =>
      right
      simp only at h
      cases hk : removeSource s name s.genCfgSources with
      | none => rw [hk] at h; cases h
      | some kept =>
        rw [hk] at h
        simp only at h
        cases hh : ((s.sourcesFields.lookup name).getD []).head? with
        | none => rw [hh] at h; cases h
        | some firstField =>
          rw [hh] at h
          simp only at h
          split at h
          · rename_i first firstPos firstName h1 h2 h3
            split at h
            · cases h
            · rename_i w hw
              split at h
              · cases h
              · rename_i wcell hwc
                split at h
                · simp only [Option.some.injEq, Prod.mk.injEq] at h
                  obtain ⟨rfl, rfl, rfl⟩ := h
                  exact ⟨rfl, rfl, rfl, rfl, rfl, fun h' => by cases h'⟩
                · rename_i root hroot
                  split at h
                  · cases h
                  · rename_i s3 hs3
                    simp only [Option.some.injEq, Prod.mk.injEq] at h
                    obtain ⟨rfl, rfl, rfl⟩ := h
                    unfold setRootSource at hs3
                    split at hs3
                    · cases hs3
                    · split at hs3
                      · cases hs3
                      · split at hs3
                        · cases hs3
                        · simp only [Option.some.injEq] at hs3
                          subst hs3
                          exact ⟨rfl, rfl, rfl, rfl, rfl, fun _ => rfl⟩
          · cases h

/-! ### `moveQueryField`: what the cut leaves as it is -/

/-- What `exciseQueryField` leaves as it is. -/
theorem exciseQueryField_frame {s s' : TypesSplitterPlugin} {f a : Nat}
    (h : exciseQueryField s f a = some s') :
    s'.genCfgSources = s.genCfgSources ∧ s'.sourceCells = s.sourceCells ∧
      s'.sourcesFields = s.sourcesFields ∧ s'.newSources = s.newSources ∧
      s'.definitions = s.definitions ∧ s'.astDefinitions = s.astDefinitions ∧
      (∀ b : Nat, (s'.astSources[b]?).map (fun (x : Source) => x.Name) =
        (s.astSources[b]?).map (fun (x : Source) => x.Name)) := by
  obtain ⟨src, moved, fields, input, offset, offsetLine, s2, moved2, node, p,
    hsrc, hm, hf, hcut, hsh, hm2, hn, hp, rfl⟩ := exciseQueryField_eq h
  obtain ⟨e1, _, _⟩ := FieldDefinitionsShiftOffset_frame _ _ _ _ _ hsh
  rw [e1]
  refine ⟨rfl, rfl, rfl, rfl, rfl, rfl, ?_⟩
  intro b
  simp only [List.getElem?_set]
  split
  · rename_i hb
    subst hb
    split
    · rw [hsrc]; rfl
    · rename_i hlt
      rw [List.getElem?_eq_none (by omega)]
  · rfl

/-- C19: when `moveQueryField` reaches the field to move and returns without an
error, it returns true exactly when no field recorded for the buffer has,
after the move, a raw position that names the buffer; it then has erased the
buffer from `genCfg.Sources`. When it returns false, `genCfg.Sources` is as
before and so is every wrapper of a buffer, its `isMainQuery` included. -/
theorem moveQueryField_drops_iff_unreferenced (s s' : TypesSplitterPlugin) (d f : Nat)
    (r : Bool) (defNode : AstDefinitionNode) (cell : FieldDefinitionCell)
    (target : AstFieldNode) (pos : PositionRef) (cfgSrc : Nat) (src : Source)
    (hdef : s.astDefinitions[d]? = some defNode)
    (hcell : s.fieldDefinitions[f]? = some cell)
    (hmem : cell.FieldDefinition ∈ defNode.Fields)
    (htarget : s.astFields[cell.FieldDefinition]? = some target)
    (hname : ¬ "__".toList <+: target.Name)
    (hpos : target.Position = some pos)
    (hsrc : pos.Src = some cfgSrc)
    (hbuf : s.astSources[cfgSrc]? = some src)
    (hrun : moveQueryField s (some d) f = some (s', r, none)) :
    (r = true ↔ ∀ g ∈ (s.sourcesFields.lookup src.Name).getD [],
        fieldSourceName s' g ≠ some src.Name) ∧
    (r = true → s'.genCfgSources = s.genCfgSources.eraseP
        (fun a => decide ((s.astSources[a]?).map (fun (b : Source) => b.Name) =
          some src.Name))) ∧
    (r = false → s'.genCfgSources = s.genCfgSources ∧ s'.sourceCells = s.sourceCells) := by
  simp only [moveQueryField, hdef] at hrun
  obtain ⟨cfgSrc', src', s1, hs', hb', hex, hdrop⟩ :=
    moveQueryFieldLoop_found hcell htarget hname hpos _ _ hmem hrun
  rw [hsrc] at hs'
  simp only [Option.some.injEq] at hs'
  subst hs'
  rw [hbuf] at hb'
  simp only [Option.some.injEq] at hb'
  subst hb'
  obtain ⟨f1, f2, f3, _, _, _, f7⟩ := exciseQueryField_frame hex
  rcases dropEmptySource_eq hdrop with ⟨hst, rfl, rfl, _⟩ | ⟨hst, hrem, e1, e2, e3, hr⟩
  · rw [f3] at hst
    obtain ⟨g, hg, hgn⟩ := stillReferenced_true _ _ _ hst
    refine ⟨⟨fun h => absurd h (by decide), fun h => absurd hgn (h g hg)⟩,
      fun h => absurd h (by decide), fun _ => ⟨f1, f2⟩⟩
  · have hr' := hr rfl
    subst hr'
    rw [f3] at hst
    have hno := stillReferenced_false _ _ _ hst
    have hsame : ∀ g, fieldSourceName s' g = fieldSourceName s1 g := by
      intro g
      simp only [fieldSourceName, FieldDefinitionPos, e1, e2, e3]
    refine ⟨⟨fun _ g hg => ?_, fun _ => rfl⟩, fun _ => ?_, fun h => absurd h (by decide)⟩
    · rw [hsame]; exact hno g hg
    · have := removeSource_eq _ _ _ _ hrem
      rw [this, f1]
      congr 1
      funext a
      rw [f7 a]

/-- C19 at the second move of `pluginQM`, which drops the buffer. -/
theorem moveQueryField_drops_iff_unreferenced_witness :
    (true = true ↔ ∀ g ∈ (pluginQMNext.sourcesFields.lookup "schema.graphql".toList).getD [],
        fieldSourceName pluginQMAfter g ≠ some "schema.graphql".toList) ∧
    (true = true → pluginQMAfter.genCfgSources = pluginQMNext.genCfgSources.eraseP
        (fun a => decide ((pluginQMNext.astSources[a]?).map (fun (b : Source) => b.Name) =
          some "schema.graphql".toList))) ∧
    (true = false → pluginQMAfter.genCfgSources = pluginQMNext.genCfgSources ∧
      pluginQMAfter.sourceCells = pluginQMNext.sourceCells) :=
  moveQueryField_drops_iff_unreferenced pluginQMNext pluginQMAfter 1 1 true
    { Kind := "OBJECT".toList, Name := "Mutation".toList, Fields := [1],
      Position := some { Start := 30, End := 38, Line := 5, Src := some 0 } }
    { FieldDefinition := 1, typ := .DefMutationField, Content := "  m: Int".toList,
      ActualPosition := { Start := 13, End := 20, Line := 1, Src := some 2 } }
    { Name := "m".toList, Position := some { Start := 15, End := 16, Line := 2, Src := some 0 } }
    { Start := 15, End := 16, Line := 2, Src := some 0 } 0
    { Name := "schema.graphql".toList, Input := "type Query \x7b\n  m: Int\n\x7d\n".toList }
    (by decide) (by decide) (by decide) (by decide) (by decide) (by decide) (by decide)
    (by decide) (by decide)

/-! ### `moveQueryField`: the bytes cut when a field follows -/

theorem exciseToNext_eq {input : GoString} {start next : Int} {r : GoString × Int × Int}
    (h : exciseToNext input start next = some r) :
    ∃ removed before after, slice input start next = some removed ∧
      slice input 0 start = some before ∧ slice input next (len input) = some after ∧
      r = (before ++ after, next - start, countLines removed) := by
  unfold exciseToNext at h
  cases h1 : slice input start next with
  | none => rw [h1] at h; cases h
  | some removed =>
    rw [h1] at h
    simp only at h
    cases h2 : slice input 0 start with
    | none => rw [h2] at h; cases h
    | some before =>
      cases h3 : slice input next (len input) with
      | none => rw [h2, h3] at h; cases h
      | some after =>
        rw [h2, h3] at h
        simp only [Option.some.injEq] at h
        exact ⟨removed, before, after, rfl, rfl, rfl, h.symm⟩

/-- What `dropEmptySource` leaves as it is, however it returns. -/
theorem dropEmptySource_frame {s t : TypesSplitterPlugin} {name : GoString} {r : Bool}
    {e : Option MoveError} (ht : dropEmptySource s name = some (t, r, e)) :
    t.astSources = s.astSources ∧ t.fieldDefinitions = s.fieldDefinitions ∧
      t.definitions = s.definitions ∧ t.astFields = s.astFields := by
  unfold dropEmptySource at ht
  simp only at ht
  split at ht
  · cases ht
  · simp only [Option.some.injEq, Prod.mk.injEq] at ht
    rw [← ht.1]
    exact ⟨rfl, rfl, rfl, rfl⟩
  · split at ht
    · cases ht
    · split at ht
      · cases ht
      · split at ht
        · split at ht
          · cases ht
          · split at ht
            · cases ht
            · split at ht
              · simp only [Option.some.injEq, Prod.mk.injEq] at ht
                rw [← ht.1]
                exact ⟨rfl, rfl, rfl, rfl⟩
              · split at ht
                · cases ht
                · rename_i s3 hs3
                  simp only [Option.some.injEq, Prod.mk.injEq] at ht
                  rw [← ht.1]
                  unfold setRootSource at hs3
                  split at hs3
                  · cases hs3
                  · split at hs3
                    · cases hs3
                    · split at hs3
                      · cases hs3
                      · simp only [Option.some.injEq] at hs3
                        subst hs3
                        exact ⟨rfl, rfl, rfl, rfl⟩
        · cases ht

/-- The steps of `moveQueryField` up to the check for an emptied buffer, in a
call that reaches the field to move and returns, when a field follows the
moved one: the text of the buffer is cut from the actual start of the moved
field to the actual start of the first field that follows, and the fields that
follow are shifted by the bytes and the lines cut. -/
theorem moveQueryField_steps {s s' : TypesSplitterPlugin} {d f : Nat} {r : Bool}
    {e : Option MoveError} {defNode : AstDefinitionNode} {cell : FieldDefinitionCell}
    {target : AstFieldNode} {pos : PositionRef} {cfgSrc : Nat} {src : Source}
    {fields : List Nat} {next : Nat} {nextCell : FieldDefinitionCell}
    (hdef : s.astDefinitions[d]? = some defNode)
    (hcell : s.fieldDefinitions[f]? = some cell)
    (hmem : cell.FieldDefinition ∈ defNode.Fields)
    (htarget : s.astFields[cell.FieldDefinition]? = some target)
    (hname : ¬ "__".toList <+: target.Name)
    (hpos : target.Position = some pos)
    (hsrc : pos.Src = some cfgSrc)
    (hbuf : s.astSources[cfgSrc]? = some src)
    (hfields : FieldDefinitionsPosAfter s cell.ActualPosition.End
      ((s.sourcesFields.lookup src.Name).getD []) = some fields)
    (hnext : (sortByStart (fieldStartKey s) fields).head? = some next)
    (hnextCell : s.fieldDefinitions[next]? = some nextCell)
    (hrun : moveQueryField s (some d) f = some (s', r, e)) :
    ∃ removed before after s2,
      slice src.Input cell.ActualPosition.Start nextCell.ActualPosition.Start = some removed ∧
      slice src.Input 0 cell.ActualPosition.Start = some before ∧
      slice src.Input nextCell.ActualPosition.Start (len src.Input) = some after ∧
      FieldDefinitionsShiftOffset (nextCell.ActualPosition.Start - cell.ActualPosition.Start)
        (countLines removed)
        { s with astSources := s.astSources.set cfgSrc { src with Input := before ++ after } }
        (sortByStart (fieldStartKey s) fields) = some s2 ∧
      s'.astSources = s.astSources.set cfgSrc { src with Input := before ++ after } ∧
      s'.fieldDefinitions = s2.fieldDefinitions ∧
      s'.definitions = s.definitions ∧
      (∀ q : Nat, (s'.astFields[q]?).map (fun (n : AstFieldNode) => n.Position.map (fun p => p.Src)) =
        if q = cell.FieldDefinition then
          (s2.fieldDefinitions[f]?).map (fun c => some c.ActualPosition.Src)
        else (s.astFields[q]?).map (fun (n : AstFieldNode) => n.Position.map (fun p => p.Src))) := by
  simp only [moveQueryField, hdef] at hrun
  obtain ⟨cfgSrc', src', s1, hs', hb', hex, hdrop⟩ :=
    moveQueryFieldLoop_found hcell htarget hname hpos _ _ hmem hrun
  rw [hsrc] at hs'
  simp only [Option.some.injEq] at hs'
  subst hs'
  rw [hbuf] at hb'
  simp only [Option.some.injEq] at hb'
  subst hb'
  obtain ⟨src', moved, fields', input, offset, offsetLine, s2, moved2, node, p,
    hsrc', hm, hf, hcut, hsh, hm2, hn, hp, rfl⟩ := exciseQueryField_eq hex
  rw [hbuf] at hsrc'
  simp only [Option.some.injEq] at hsrc'
  subst hsrc'
  rw [hcell] at hm
  simp only [Option.some.injEq] at hm
  subst hm
  rw [hfields] at hf
  simp only [Option.some.injEq] at hf
  subst hf
  simp only [cutField, hnext, hnextCell] at hcut
  obtain ⟨removed, before, after, h1, h2, h3, hr⟩ := exciseToNext_eq hcut
  simp only [Prod.mk.injEq] at hr
  obtain ⟨rfl, rfl, rfl⟩ := hr
  obtain ⟨e1, e2, e3⟩ := FieldDefinitionsShiftOffset_frame _ _ _ _ _ hsh
  obtain ⟨a1, a2, a3, a4⟩ := dropEmptySource_frame hdrop
  have hcellFD : moved2.FieldDefinition = cell.FieldDefinition := by
    have := e2 f
    rw [hm2, hcell] at this
    simp only [Option.map_some', Option.some.injEq, Prod.mk.injEq] at this
    exact this.1
  refine ⟨removed, before, after, s2, h1, h2, h3, hsh, ?_, a2, ?_, ?_⟩
  · rw [a1, e1]
  · rw [a3, e1]
  · intro q
    rw [a4, hcellFD]
    simp only [List.getElem?_set]
    by_cases hq : q = cell.FieldDefinition
    · subst hq
      rw [if_pos rfl, if_pos rfl]
      rw [hcellFD] at hn
      have hlt : cell.FieldDefinition < s2.astFields.length := by
        by_contra hlt
        rw [List.getElem?_eq_none (by omega)] at hn
        cases hn
      rw [if_pos hlt, hm2]
      rfl
    · rw [if_neg (fun h' => hq h'.symm), if_neg hq]
      have := e3 q
      simp only [Option.map_map] at this ⊢
      have h4 := congrArg (Option.map Prod.snd) this
      simpa [Option.map_map, Function.comp] using h4

theorem nodup_fields_after {s : TypesSplitterPlugin} {off : Int} {l fields : List Nat}
    (h : FieldDefinitionsPosAfter s off l = some fields) (hnd : l.Nodup) :
    (sortByStart (fieldStartKey s) fields).Nodup := by
  rw [nodup_sortByStart, FieldDefinitionsPosAfter_eq s off l fields h]
  exact hnd.filter _

theorem getElem?_set_self_of_some {α : Type} {l : List α} {i : Nat} {a b : α}
    (h : l[i]? = some a) : (l.set i b)[i]? = some b := by
  have hlt : i < l.length := by
    by_contra hlt
    rw [List.getElem?_eq_none (by omega)] at h
    cases h
  simp [List.getElem?_set, hlt]

/-- C20, amended: when a field follows the moved one among the fields recorded
for the buffer, each recorded once, `moveQueryField` cuts the buffer from the
actual start of the moved field to the actual start of the first field that
follows, blank lines between them included. The buffer becomes the text before
the moved field followed at once by the text from the next field on, and the
next field, its content unchanged, now starts where the moved field started:
no blank line remains between them. -/
theorem moveQueryField_cuts_to_next_field (s s' : TypesSplitterPlugin) (d f : Nat) (r : Bool)
    (e : Option MoveError) (defNode : AstDefinitionNode) (cell : FieldDefinitionCell)
    (target : AstFieldNode) (pos : PositionRef) (cfgSrc : Nat) (src : Source)
    (fields : List Nat) (next : Nat) (nextCell : FieldDefinitionCell)
    (hdef : s.astDefinitions[d]? = some defNode)
    (hcell : s.fieldDefinitions[f]? = some cell)
    (hmem : cell.FieldDefinition ∈ defNode.Fields)
    (htarget : s.astFields[cell.FieldDefinition]? = some target)
    (hname : ¬ "__".toList <+: target.Name)
    (hpos : target.Position = some pos)
    (hsrc : pos.Src = some cfgSrc)
    (hbuf : s.astSources[cfgSrc]? = some src)
    (hfields : FieldDefinitionsPosAfter s cell.ActualPosition.End
      ((s.sourcesFields.lookup src.Name).getD []) = some fields)
    (hnext : (sortByStart (fieldStartKey s) fields).head? = some next)
    (hnextCell : s.fieldDefinitions[next]? = some nextCell)
    (hnodup : ((s.sourcesFields.lookup src.Name).getD []).Nodup)
    (hrun : moveQueryField s (some d) f = some (s', r, e)) :
    ∃ before after,
      slice src.Input 0 cell.ActualPosition.Start = some before ∧
      slice src.Input nextCell.ActualPosition.Start (len src.Input) = some after ∧
      (s'.astSources[cfgSrc]?).map (fun (b : Source) => b.Input) = some (before ++ after) ∧
      (s'.fieldDefinitions[next]?).map
          (fun (c : FieldDefinitionCell) => (c.Content, c.ActualPosition.Start)) =
        some (nextCell.Content, cell.ActualPosition.Start) := by
  obtain ⟨removed, before, after, s2, h1, h2, h3, hsh, a1, a2, _, _⟩ :=
    moveQueryField_steps hdef hcell hmem htarget hname hpos hsrc hbuf hfields hnext hnextCell hrun
  refine ⟨before, after, h2, h3, ?_, ?_⟩
  · rw [a1, getElem?_set_self_of_some hbuf]
    rfl
  · have hmemNext : next ∈ sortByStart (fieldStartKey s) fields := List.mem_of_mem_head? hnext
    rw [a2, FieldDefinitionsShiftOffset_mem _ _ next _ _ _ hsh (nodup_fields_after hfields hnodup)
      hmemNext]
    simp only [hnextCell, Option.map_some', shiftFieldCell, shiftPosition, Option.some.injEq,
      Prod.mk.injEq, true_and]
    omega

/-- C20, amended, at the buffer with two blank lines between `a` and `b`. -/
theorem moveQueryField_cuts_to_next_field_witness :
    ∃ before after,
      slice "type Query \x7b\n  a: Int\n\n\n  b: Int\n\x7d\n".toList 0 13 = some before ∧
      slice "type Query \x7b\n  a: Int\n\n\n  b: Int\n\x7d\n".toList 24
        (len "type Query \x7b\n  a: Int\n\n\n  b: Int\n\x7d\n".toList) = some after ∧
      (pluginBlankAfter.astSources[0]?).map (fun (b : Source) => b.Input) =
        some (before ++ after) ∧
      (pluginBlankAfter.fieldDefinitions[1]?).map
          (fun (c : FieldDefinitionCell) => (c.Content, c.ActualPosition.Start)) =
        some ("  b: Int".toList, 13) :=
  moveQueryField_cuts_to_next_field pluginBlankReady pluginBlankAfter 0 0 false none
    { Kind := "OBJECT".toList, Name := "Query".toList, Fields := [0, 1],
      Position := some { Start := 5, End := 10, Line := 1, Src := some 0 } }
    { FieldDefinition := 0, typ := .DefQueryField, Content := "  a: Int".toList,
      ActualPosition := { Start := 13, End := 20, Line := 1, Src := some 1 } }
    { Name := "a".toList, Position := some { Start := 15, End := 16, Line := 2, Src := some 0 } }
    { Start := 15, End := 16, Line := 2, Src := some 0 } 0
    { Name := "schema.graphql".toList,
      Input := "type Query \x7b\n  a: Int\n\n\n  b: Int\n\x7d\n".toList }
    [1] 1
    { FieldDefinition := 1, typ := .DefQueryField, Content := "  b: Int".toList,
      ActualPosition := { Start := 24, End := 31, Line := 2, Src := none } }
    (by decide) (by decide) (by decide) (by decide) (by decide) (by decide) (by decide)
    (by decide) (by decide) (by decide) (by decide) (by decide) (by decide)

/-! ### The moves: the text outside the bytes cut -/

theorem slice_eq_some_iff {s w : GoString} {a b : Int} :
    slice s a b = some w ↔
      (0 ≤ a ∧ a ≤ b ∧ b ≤ len s) ∧ w = (s.drop a.toNat).take (b - a).toNat := by
  unfold slice
  constructor
  · intro h
    split at h
    · rename_i hb
      simp only [Option.some.injEq] at h
      exact ⟨hb, h.symm⟩
    · cases h
  · rintro ⟨hb, rfl⟩
    rw [if_pos hb]

/-- A span that ends before the cut reads the same text after the cut. -/
theorem slice_cut_before {input before after : GoString} {P Q a b : Int}
    (h2 : slice input 0 P = some before) (_h3 : slice input Q (len input) = some after)
    (hab : 0 ≤ a ∧ a ≤ b ∧ b ≤ len input) (hb : b ≤ P) :
    slice (before ++ after) a b = slice input a b := by
  obtain ⟨⟨hP0, _, hPl⟩, rfl⟩ := slice_eq_some_iff.mp h2
  have hlen : (List.take (P - 0).toNat (List.drop (0 : Int).toNat input)).length = P.toNat := by
    simp only [Int.toNat_zero, List.drop_zero, sub_zero, List.length_take]
    unfold len at hPl
    omega
  unfold slice
  have hl : len (List.take (P - 0).toNat (List.drop (0 : Int).toNat input) ++ after) ≥ b := by
    unfold len
    rw [List.length_append, hlen]
    omega
  rw [if_pos ⟨hab.1, hab.2.1, hl⟩, if_pos hab]
  congr 1
  simp only [Int.toNat_zero, List.drop_zero, sub_zero]
  apply List.ext_getElem?
  intro i
  simp only [List.getElem?_take, List.getElem?_drop]
  by_cases hi : i < (b - a).toNat
  · rw [if_pos hi, if_pos hi]
    rw [List.getElem?_append_left]
    · rw [List.getElem?_take, if_pos (by omega)]
    · rw [List.length_take]
      unfold len at hPl hab
      omega
  · rw [if_neg hi, if_neg hi]

/-- A span that starts at or after the end of the cut reads the same text after
the cut, at offsets moved back by the number of bytes cut. -/
theorem slice_cut_after {input before after : GoString} {P Q a b : Int}
    (h2 : slice input 0 P = some before) (h3 : slice input Q (len input) = some after)
    (hPQ : P ≤ Q) (hab : 0 ≤ a ∧ a ≤ b ∧ b ≤ len input) (ha : Q ≤ a) :
    slice (before ++ after) (a - (Q - P)) (b - (Q - P)) = slice input a b := by
  obtain ⟨⟨hP0, _, hPl⟩, rfl⟩ := slice_eq_some_iff.mp h2
  obtain ⟨⟨hQ0, hQl, _⟩, rfl⟩ := slice_eq_some_iff.mp h3
  unfold len at hPl hQl hab
  have hlenB : (List.take (P - 0).toNat (List.drop (0 : Int).toNat input)).length = P.toNat := by
    simp only [Int.toNat_zero, List.drop_zero, sub_zero, List.length_take]
    omega
  have hlenA : (List.take ((input.length : Int) - Q).toNat (List.drop Q.toNat input)).length =
      input.length - Q.toNat := by
    rw [List.length_take, List.length_drop]
    omega
  unfold slice
  have hl : b - (Q - P) ≤
      len (List.take (P - 0).toNat (List.drop (0 : Int).toNat input) ++
        List.take (len input - Q).toNat (List.drop Q.toNat input)) := by
    unfold len
    rw [List.length_append, hlenB, hlenA]
    omega
  rw [if_pos ⟨by omega, by omega, hl⟩, if_pos (by unfold len; exact hab)]
  congr 1
  apply List.ext_getElem?
  intro i
  simp only [List.getElem?_take, List.getElem?_drop]
  have e1 : (b - (Q - P) - (a - (Q - P))).toNat = (b - a).toNat := by congr 1; omega
  rw [e1]
  by_cases hi : i < (b - a).toNat
  · rw [if_pos hi, if_pos hi]
    rw [List.getElem?_append_right (by rw [hlenB]; omega), hlenB]
    unfold len
    rw [List.getElem?_take, if_pos (by omega), List.getElem?_drop]
    congr 1
    omega
  · rw [if_neg hi, if_neg hi]

/-! ### `moveQueryField`: the content of the other fields -/

theorem mem_fields_after {s : TypesSplitterPlugin} {off : Int} {l fields : List Nat}
    (h : FieldDefinitionsPosAfter s off l = some fields) (g : Nat) :
    g ∈ sortByStart (fieldStartKey s) fields ↔ g ∈ l ∧ fieldStartKey s g > off := by
  rw [mem_sortByStart, FieldDefinitionsPosAfter_eq s off l fields h, List.mem_filter]
  simp

theorem FieldContentHolds_iff {s : TypesSplitterPlugin} {g : Nat} :
    FieldContentHolds s g ↔
      ∃ c n p a src, s.fieldDefinitions[g]? = some c ∧
        s.astFields[c.FieldDefinition]? = some n ∧ n.Position = some p ∧ p.Src = some a ∧
        s.astSources[a]? = some src ∧
        slice src.Input c.ActualPosition.Start (c.ActualPosition.End + 1) = some c.Content := by
  unfold FieldContentHolds fieldSpanText FieldDefinitionPos
  constructor
  · intro h
    cases hc : s.fieldDefinitions[g]? with
    | none => rw [hc] at h; exact absurd h (by simp)
    | some c =>
      rw [hc] at h
      simp only at h
      cases hn : s.astFields[c.FieldDefinition]? with
      | none => rw [hn] at h; simp at h
      | some n =>
        rw [hn] at h
        simp only at h
        cases hp : n.Position with
        | none => rw [hp] at h; simp at h
        | some p =>
          rw [hp] at h
          simp only at h
          cases ha : p.Src with
          | none => rw [ha] at h; simp at h
          | some a =>
            rw [ha] at h
            simp only at h
            cases hs : s.astSources[a]? with
            | none => rw [hs] at h; simp at h
            | some src =>
              rw [hs] at h
              exact ⟨c, n, p, a, src, rfl, hn, hp, ha, hs, h⟩
  · rintro ⟨c, n, p, a, src, hc, hn, hp, ha, hs, h⟩
    simp only [hc, hn, hp, ha, hs]
    exact h

/-- The content of a field other than the moved one that lies outside the bytes
cut, in the buffer of the moved field, is still the text of the buffer at its
actual span after `moveQueryField`, when a field follows the moved one. -/
theorem moveQueryField_field_content {s s' : TypesSplitterPlugin} {d f : Nat} {r : Bool}
    {e : Option MoveError} {defNode : AstDefinitionNode} {cell : FieldDefinitionCell}
    {target : AstFieldNode} {pos : PositionRef} {cfgSrc : Nat} {src : Source}
    {fields : List Nat} {next : Nat} {nextCell : FieldDefinitionCell}
    (hdef : s.astDefinitions[d]? = some defNode)
    (hcell : s.fieldDefinitions[f]? = some cell)
    (hmem : cell.FieldDefinition ∈ defNode.Fields)
    (htarget : s.astFields[cell.FieldDefinition]? = some target)
    (hname : ¬ "__".toList <+: target.Name)
    (hpos : target.Position = some pos)
    (hsrc : pos.Src = some cfgSrc)
    (hbuf : s.astSources[cfgSrc]? = some src)
    (hfields : FieldDefinitionsPosAfter s cell.ActualPosition.End
      ((s.sourcesFields.lookup src.Name).getD []) = some fields)
    (hnext : (sortByStart (fieldStartKey s) fields).head? = some next)
    (hnextCell : s.fieldDefinitions[next]? = some nextCell)
    (hnodup : ((s.sourcesFields.lookup src.Name).getD []).Nodup)
    (hrun : moveQueryField s (some d) f = some (s', r, e))
    (g : Nat) (gcell : FieldDefinitionCell)
    (hg : s.fieldDefinitions[g]? = some gcell)
    (hother : gcell.FieldDefinition ≠ cell.FieldDefinition)
    (hsame : (FieldDefinitionPos s g).bind (fun p => p.Src) = some cfgSrc)
    (hhold : FieldContentHolds s g)
    (hout : (g ∈ (s.sourcesFields.lookup src.Name).getD [] ∧
          fieldStartKey s g > cell.ActualPosition.End ∧
          nextCell.ActualPosition.Start ≤ gcell.ActualPosition.Start) ∨
        (¬ (g ∈ (s.sourcesFields.lookup src.Name).getD [] ∧
            fieldStartKey s g > cell.ActualPosition.End) ∧
          gcell.ActualPosition.End < cell.ActualPosition.Start)) :
    FieldContentHolds s' g := by
  obtain ⟨removed, before, after, s2, h1, h2, h3, hsh, a1, a2, _, a4⟩ :=
    moveQueryField_steps hdef hcell hmem htarget hname hpos hsrc hbuf hfields hnext hnextCell hrun
  obtain ⟨c, n, p, a, src', hc, hn, hp, ha, hs, htext⟩ := FieldContentHolds_iff.mp hhold
  rw [hg] at hc
  simp only [Option.some.injEq] at hc
  subst hc
  have hfp : FieldDefinitionPos s g = some p := by
    simp [FieldDefinitionPos, hg, hn, hp]
  rw [hfp] at hsame
  simp only [Option.some_bind, ha, Option.some.injEq] at hsame
  subst hsame
  rw [hbuf] at hs
  simp only [Option.some.injEq] at hs
  subst hs
  obtain ⟨hb1, _⟩ := slice_eq_some_iff.mp htext
  obtain ⟨hb2, _⟩ := slice_eq_some_iff.mp h1
  -- the node of the field still names the buffer
  have hnode' : ∃ n' p', s'.astFields[gcell.FieldDefinition]? = some n' ∧
      n'.Position = some p' ∧ p'.Src = some a := by
    have := a4 gcell.FieldDefinition
    rw [if_neg hother, hn] at this
    cases hn' : s'.astFields[gcell.FieldDefinition]? with
    | none => rw [hn'] at this; simp at this
    | some n' =>
      rw [hn'] at this
      simp only [Option.map_some', Option.some.injEq, hp] at this
      cases hp' : n'.Position with
      | none => rw [hp'] at this; simp at this
      | some p' =>
        rw [hp'] at this
        simp only [Option.map_some', Option.some.injEq] at this
        exact ⟨n', p', rfl, hp', by rw [this, ha]⟩
  obtain ⟨n', p', hn', hp', ha'⟩ := hnode'
  have hsrc' : s'.astSources[a]? = some { src with Input := before ++ after } := by
    rw [a1, getElem?_set_self_of_some hbuf]
  rw [FieldContentHolds_iff]
  rcases hout with ⟨hin, hgt, hge⟩ | ⟨hnin, hlt⟩
  · have hmemg : g ∈ sortByStart (fieldStartKey s) fields :=
      (mem_fields_after hfields g).mpr ⟨hin, hgt⟩
    have hcell' : s'.fieldDefinitions[g]? = some (shiftFieldCell
        (nextCell.ActualPosition.Start - cell.ActualPosition.Start) (countLines removed) gcell) := by
      rw [a2, FieldDefinitionsShiftOffset_mem _ _ g _ _ _ hsh
        (nodup_fields_after hfields hnodup) hmemg]
      simp only [hg, Option.map_some']
    refine ⟨_, n', p', a, _, hcell', hn', hp', ha', hsrc', ?_⟩
    simp only [shiftFieldCell, shiftPosition]
    rw [← htext]
    have := slice_cut_after (a := gcell.ActualPosition.Start)
      (b := gcell.ActualPosition.End + 1) h2 h3 hb2.2.1 hb1 hge
    rw [← this]
    congr 1
    omega
  · have hnmem : g ∉ sortByStart (fieldStartKey s) fields := fun hm =>
      hnin ((mem_fields_after hfields g).mp hm)
    have hcell' : s'.fieldDefinitions[g]? = some gcell := by
      rw [a2, FieldDefinitionsShiftOffset_not_mem _ _ g _ _ _ hsh hnmem]
      exact hg
    refine ⟨_, n', p', a, _, hcell', hn', hp', ha', hsrc', ?_⟩
    rw [← htext]
    exact slice_cut_before h2 h3 hb1 (by omega)

/-! ### `moveType`: what the shifts change -/

theorem shiftOffsetDefinition_eq {s s' : TypesSplitterPlugin} {d : Nat} {o l : Int}
    (h : shiftOffsetDefinition s d o l = some s') :
    ∃ c node p, s.definitions[d]? = some c ∧ s.astDefinitions[c.Definition]? = some node ∧
      node.Position = some p ∧
      s' = { s with
        astDefinitions := s.astDefinitions.set c.Definition
          { node with Position := some (shiftPosition p o l) }
        definitions := s.definitions.set d (shiftDefinitionCell o l c) } := by
  unfold shiftOffsetDefinition at h
  cases hc : s.definitions[d]? with
  | none => rw [hc] at h; cases h
  | some c =>
    rw [hc] at h
    simp only at h
    cases hn : s.astDefinitions[c.Definition]? with
    | none => rw [hn] at h; cases h
    | some node =>
      rw [hn] at h
      simp only at h
      cases hp : node.Position with
      | none => rw [hp] at h; cases h
      | some p =>
        rw [hp] at h
        simp only [Option.some.injEq] at h
        exact ⟨c, node, p, rfl, hn, hp, h.symm⟩

/-- What the loop of `moveType` over the declarations that follow leaves as it
is: the buffers and the records of the plugin; of a wrapper everything but the
numbers of its actual position, of a node everything but the numbers of its
position. -/
theorem shiftTypes_frame (o l : Int) :
    ∀ (ds : List Nat) (s s' : TypesSplitterPlugin),
      shiftTypes o l s ds = some s' →
      s' = { s with astFields := s'.astFields, fieldDefinitions := s'.fieldDefinitions,
                    astDefinitions := s'.astDefinitions, definitions := s'.definitions } ∧
      (∀ h : Nat, (s'.definitions[h]?).map
          (fun (c : DefinitionCell) => (c.Definition, c.typ, c.Content, c.Fields,
            c.ActualPosition.Src)) =
        (s.definitions[h]?).map
          (fun (c : DefinitionCell) => (c.Definition, c.typ, c.Content, c.Fields,
            c.ActualPosition.Src))) ∧
      (∀ q : Nat, (s'.astDefinitions[q]?).map
          (fun (n : AstDefinitionNode) => (n.Name, n.Position.map (fun p => p.Src))) =
        (s.astDefinitions[q]?).map
          (fun (n : AstDefinitionNode) => (n.Name, n.Position.map (fun p => p.Src)))) ∧
      (∀ g : Nat, (s'.fieldDefinitions[g]?).map
          (fun (c : FieldDefinitionCell) => (c.FieldDefinition, c.typ, c.Content,
            c.ActualPosition.Src)) =
        (s.fieldDefinitions[g]?).map
          (fun (c : FieldDefinitionCell) => (c.FieldDefinition, c.typ, c.Content,
            c.ActualPosition.Src))) ∧
      (∀ q : Nat, (s'.astFields[q]?).map
          (fun (n : AstFieldNode) => (n.Name, n.Position.map (fun p => p.Src))) =
        (s.astFields[q]?).map
          (fun (n : AstFieldNode) => (n.Name, n.Position.map (fun p => p.Src)))) := by
  intro ds
  induction ds with
  | nil =>
    intro s s' h
    simp only [shiftTypes, Option.some.injEq] at h
    subst h
    exact ⟨rfl, fun _ => rfl, fun _ => rfl, fun _ => rfl, fun _ => rfl⟩
  | cons d ds ih =>
    intro s s' h
    simp only [shiftTypes] at h
    cases h1 : shiftOffsetDefinition s d o l with
    | none => rw [h1] at h; cases h
    | some s1 =>
      rw [h1] at h
      simp only at h
      obtain ⟨c, node, p, hc, hn, hp, rfl⟩ := shiftOffsetDefinition_eq h1
      split at h
      · cases h
      · rename_i c1 hc1
        split at h
        · cases h
        · rename_i s2 hs2
          obtain ⟨f1, f2, f3⟩ := FieldDefinitionsShiftOffset_frame _ _ _ _ _ hs2
          obtain ⟨e1, e2, e3, e4, e5⟩ := ih _ _ h
          refine ⟨?_, ?_, ?_, ?_, ?_⟩
          · rw [e1, f1]
          · intro g
            rw [e2 g, f1]
            simp only [List.getElem?_set]
            split
            · rename_i hg
              subst hg
              split
              · rw [hc]; rfl
              · rename_i hlt
                rw [List.getElem?_eq_none (by omega)]
            · rfl
          · intro q
            rw [e3 q, f1]
            simp only [List.getElem?_set]
            split
            · rename_i hq
              subst hq
              split
              · rw [hn]
                simp [hp, shiftPosition]
              · rename_i hlt
                rw [List.getElem?_eq_none (by omega)]
            · rfl
          · intro g
            rw [e4 g, f2 g]
          · intro q
            rw [e5 q, f3 q]

/-- A declaration wrapper that is not in the list keeps its actual position. -/
theorem shiftTypes_not_mem (o l : Int) (g : Nat) :
    ∀ (ds : List Nat) (s s' : TypesSplitterPlugin),
      shiftTypes o l s ds = some s' → g ∉ ds →
      s'.definitions[g]? = s.definitions[g]? := by
  intro ds
  induction ds with
  | nil =>
    intro s s' h _
    simp only [shiftTypes, Option.some.injEq] at h
    rw [h]
  | cons d ds ih =>
    intro s s' h hg
    simp only [shiftTypes] at h
    cases h1 : shiftOffsetDefinition s d o l with
    | none => rw [h1] at h; cases h
    | some s1 =>
      rw [h1] at h
      simp only at h
      obtain ⟨c, node, p, hc, hn, hp, rfl⟩ := shiftOffsetDefinition_eq h1
      split at h
      · cases h
      · split at h
        · cases h
        · rename_i s2 hs2
          obtain ⟨f1, _, _⟩ := FieldDefinitionsShiftOffset_frame _ _ _ _ _ hs2
          rw [ih _ _ h (fun hm => hg (List.mem_cons_of_mem _ hm)), f1]
          have hne : d ≠ g := fun e => hg (e ▸ List.mem_cons_self _ _)
          simp [List.getElem?_set, hne]

/-- A declaration wrapper that is in the list once is shifted once. -/
theorem shiftTypes_mem (o l : Int) (g : Nat) :
    ∀ (ds : List Nat) (s s' : TypesSplitterPlugin),
      shiftTypes o l s ds = some s' → ds.Nodup → g ∈ ds →
      s'.definitions[g]? = (s.definitions[g]?).map (shiftDefinitionCell o l) := by
  intro ds
  induction ds with
  | nil => intro s s' _ _ hg; cases hg
  | cons d ds ih =>
    intro s s' h hnd hg
    simp only [shiftTypes] at h
    cases h1 : shiftOffsetDefinition s d o l with
    | none => rw [h1] at h; cases h
    | some s1 =>
      rw [h1] at h
      simp only at h
      obtain ⟨c, node, p, hc, hn, hp, rfl⟩ := shiftOffsetDefinition_eq h1
      split at h
      · cases h
      · split at h
        · cases h
        · rename_i s2 hs2
          obtain ⟨f1, _, _⟩ := FieldDefinitionsShiftOffset_frame _ _ _ _ _ hs2
          rw [List.nodup_cons] at hnd
          by_cases hgd : g = d
          · subst hgd
            rw [shiftTypes_not_mem o l g ds _ _ h hnd.1, f1]
            have hlt : g < s.definitions.length := by
              by_contra hlt
              rw [List.getElem?_eq_none (by omega)] at hc
              cases hc
            simp [List.getElem?_set, hlt, hc]
          · have hg' : g ∈ ds := by
              rcases List.mem_cons.mp hg with e | e
              · exact absurd e hgd
              · exact e
            rw [ih _ _ h hnd.2 hg', f1]
            have hne : d ≠ g := fun e => hgd e.symm
            simp [List.getElem?_set, hne]

/-! ### `moveType`: the fields of the declarations that follow -/

theorem fieldsOfTypes_congr {s t : TypesSplitterPlugin}
    (h : ∀ d : Nat, (t.definitions[d]?).map (fun (c : DefinitionCell) => c.Fields) =
      (s.definitions[d]?).map (fun (c : DefinitionCell) => c.Fields)) :
    ∀ ds : List Nat, fieldsOfTypes t ds = fieldsOfTypes s ds := by
  intro ds
  induction ds with
  | nil => rfl
  | cons d ds ih =>
    simp only [fieldsOfTypes, ih]
    congr 1
    have := h d
    cases ht : t.definitions[d]? with
    | none =>
      rw [ht] at this
      cases hs : s.definitions[d]? with
      | none => rfl
      | some c => rw [hs] at this; simp at this
    | some c =>
      rw [ht] at this
      cases hs : s.definitions[d]? with
      | none => rw [hs] at this; simp at this
      | some c' =>
        rw [hs] at this
        simpa using this

/-- A field wrapper that belongs to none of the declarations of the list keeps
its actual position. -/
theorem shiftTypes_field_not_mem (o l : Int) (g : Nat) :
    ∀ (ds : List Nat) (s s' : TypesSplitterPlugin),
      shiftTypes o l s ds = some s' → g ∉ fieldsOfTypes s ds →
      s'.fieldDefinitions[g]? = s.fieldDefinitions[g]? := by
  intro ds
  induction ds with
  | nil =>
    intro s s' h _
    simp only [shiftTypes, Option.some.injEq] at h
    rw [h]
  | cons d ds ih =>
    intro s s' h hg
    simp only [shiftTypes] at h
    cases h1 : shiftOffsetDefinition s d o l with
    | none => rw [h1] at h; cases h
    | some s1 =>
      rw [h1] at h
      simp only at h
      obtain ⟨c, node, p, hc, hn, hp, rfl⟩ := shiftOffsetDefinition_eq h1
      split at h
      · cases h
      · rename_i c1 hc1
        split at h
        · cases h
        · rename_i s2 hs2
          obtain ⟨f1, _, _⟩ := FieldDefinitionsShiftOffset_frame _ _ _ _ _ hs2
          simp only [getElem?_set_self_of_some hc, Option.some.injEq] at hc1
          subst hc1
          simp only [fieldsOfTypes, hc, List.mem_append, not_or] at hg
          have hcongr : ∀ ds' : List Nat, fieldsOfTypes s2 ds' = fieldsOfTypes s ds' := by
            apply fieldsOfTypes_congr
            intro d'
            rw [f1]
            simp only [List.getElem?_set]
            split
            · rename_i hd
              subst hd
              split
              · rw [hc]; rfl
              · rename_i hlt
                rw [List.getElem?_eq_none (by omega)]
            · rfl
          rw [ih _ _ h (by rw [hcongr]; exact hg.2)]
          rw [FieldDefinitionsShiftOffset_not_mem _ _ g _ _ _ hs2 hg.1]

/-- A field wrapper that belongs once to the declarations of the list is
shifted once. -/
theorem shiftTypes_field_mem (o l : Int) (g : Nat) :
    ∀ (ds : List Nat) (s s' : TypesSplitterPlugin),
      shiftTypes o l s ds = some s' → (fieldsOfTypes s ds).Nodup → g ∈ fieldsOfTypes s ds →
      s'.fieldDefinitions[g]? = (s.fieldDefinitions[g]?).map (shiftFieldCell o l) := by
  intro ds
  induction ds with
  | nil => intro s s' _ _ hg; cases hg
  | cons d ds ih =>
    intro s s' h hnd hg
    simp only [shiftTypes] at h
    cases h1 : shiftOffsetDefinition s d o l with
    | none => rw [h1] at h; cases h
    | some s1 =>
      rw [h1] at h
      simp only at h
      obtain ⟨c, node, p, hc, hn, hp, rfl⟩ := shiftOffsetDefinition_eq h1
      split at h
      · cases h
      · rename_i c1 hc1
        split at h
        · cases h
        · rename_i s2 hs2
          obtain ⟨f1, _, _⟩ := FieldDefinitionsShiftOffset_frame _ _ _ _ _ hs2
          simp only [getElem?_set_self_of_some hc, Option.some.injEq] at hc1
          subst hc1
          simp only [fieldsOfTypes, hc] at hg hnd
          have hcongr : ∀ ds' : List Nat, fieldsOfTypes s2 ds' = fieldsOfTypes s ds' := by
            apply fieldsOfTypes_congr
            intro d'
            rw [f1]
            simp only [List.getElem?_set]
            split
            · rename_i hd
              subst hd
              split
              · rw [hc]; rfl
              · rename_i hlt
                rw [List.getElem?_eq_none (by omega)]
            · rfl
          rw [List.nodup_append] at hnd
          obtain ⟨hnd1, hnd2, hdis⟩ := hnd
          rcases List.mem_append.mp hg with hg1 | hg2
          · have hg2 : g ∉ fieldsOfTypes s ds := fun hm => hdis hg1 hm
            rw [shiftTypes_field_not_mem o l g ds _ _ h (by rw [hcongr]; exact hg2)]
            have hsh := FieldDefinitionsShiftOffset_mem _ _ g _ _ _ hs2 hnd1 hg1
            exact hsh
          · have hg1 : g ∉ (shiftDefinitionCell o l c).Fields := fun hm => hdis hm hg2
            rw [ih _ _ h (by rw [hcongr]; exact hnd2) (by rw [hcongr]; exact hg2)]
            rw [FieldDefinitionsShiftOffset_not_mem _ _ g _ _ _ hs2 hg1]

/-- What the loop of `moveType` that gives the fields of the moved declaration
their new buffer leaves as it is: everything but the field nodes, and the field
nodes that no wrapper of the list wraps. -/
theorem setFieldSources_frame (src : Option Nat) :
    ∀ (l : List Nat) (s s' : TypesSplitterPlugin), setFieldSources src s l = some s' →
      s' = { s with astFields := s'.astFields } ∧
      ∀ q : Nat, (∀ m ∈ l, ∀ mc, s.fieldDefinitions[m]? = some mc → mc.FieldDefinition ≠ q) →
        s'.astFields[q]? = s.astFields[q]? := by
  intro l
  induction l with
  | nil =>
    intro s s' h
    simp only [setFieldSources, Option.some.injEq] at h
    subst h
    exact ⟨rfl, fun _ _ => rfl⟩
  | cons m rest ih =>
    intro s s' h
    simp only [setFieldSources] at h
    cases hc : s.fieldDefinitions[m]? with
    | none => rw [hc] at h; cases h
    | some c =>
      rw [hc] at h
      simp only at h
      cases hn : s.astFields[c.FieldDefinition]? with
      | none => rw [hn] at h; cases h
      | some node =>
        rw [hn] at h
        simp only at h
        cases hp : node.Position with
        | none => rw [hp] at h; cases h
        | some p =>
          rw [hp] at h
          simp only at h
          obtain ⟨e1, e2⟩ := ih _ _ h
          refine ⟨by rw [e1], ?_⟩
          intro q hq
          rw [e2 q (fun m' hm' mc hmc => hq m' (List.mem_cons_of_mem _ hm') mc hmc)]
          have hne : c.FieldDefinition ≠ q := hq m (List.mem_cons_self _ _) c hc
          simp [List.getElem?_set, hne]

/-! ### `moveType`: the steps of a call that returns -/

/-- A call of the loop of `moveType` that returns, on a list that holds the
declaration to move, went through the body. -/
theorem moveTypeLoop_found {s s' : TypesSplitterPlugin} {t : Nat} :
    ∀ (l : List Nat), t ∈ l → moveTypeLoop s t l = some s' →
      ∃ pos cfgSrc, DefinitionPos s t = some pos ∧ pos.Src = some cfgSrc ∧
        exciseType s t cfgSrc = some s' := by
  intro l
  induction l with
  | nil => intro hmem _; cases hmem
  | cons c rest ih =>
    intro hmem h
    simp only [moveTypeLoop] at h
    cases hn : definitionName s c with
    | none => rw [hn] at h; cases h
    | some n =>
      cases hm : definitionName s t with
      | none => rw [hn, hm] at h; cases h
      | some m =>
        rw [hn, hm] at h
        simp only at h
        by_cases he : n = m
        · rw [if_pos he] at h
          cases hp : DefinitionPos s t with
          | none => rw [hp] at h; cases h
          | some pos =>
            rw [hp] at h
            simp only at h
            cases hs : pos.Src with
            | none => rw [hs] at h; cases h
            | some cfgSrc =>
              rw [hs] at h
              exact ⟨pos, cfgSrc, rfl, hs, h⟩
        · rw [if_neg he] at h
          have hct : t ∈ rest := by
            rcases List.mem_cons.mp hmem with e | e
            · subst e
              rw [hn] at hm
              exact absurd (Option.some.inj hm) he
            · exact e
          exact ih hct h

/-- The steps of a call of `exciseType` that returns. -/
theorem exciseType_eq {s s' : TypesSplitterPlugin} {t a : Nat}
    (h : exciseType s t a = some s') :
    ∃ src moved types input offset offsetLine s2 moved2 node p,
      s.astSources[a]? = some src ∧ s.definitions[t]? = some moved ∧
      DefinitionsPosAfter s moved.ActualPosition.End
        ((s.sourcesDefs.lookup src.Name).getD []) = some types ∧
      cutType s src.Input moved.ActualPosition (sortByStart (definitionStartKey s) types) =
        some (input, offset, offsetLine) ∧
      shiftTypes offset offsetLine
        { s with astSources := s.astSources.set a { src with Input := input } }
        (sortByStart (definitionStartKey s) types) = some s2 ∧
      s2.definitions[t]? = some moved2 ∧
      s2.astDefinitions[moved2.Definition]? = some node ∧ node.Position = some p ∧
      setFieldSources moved2.ActualPosition.Src
        { s2 with
          astDefinitions := s2.astDefinitions.set moved2.Definition
            { node with Position := some { p with Src := moved2.ActualPosition.Src } } }
        moved2.Fields = some s' := by
  unfold exciseType at h
  cases hsrc : s.astSources[a]? with
  | none => rw [hsrc] at h; cases h
  | some src =>
    cases hm : s.definitions[t]? with
    | none => rw [hsrc, hm] at h; cases h
    | some moved =>
      rw [hsrc, hm] at h
      simp only at h
      cases hf : DefinitionsPosAfter s moved.ActualPosition.End
          ((s.sourcesDefs.lookup src.Name).getD []) with
      | none => rw [hf] at h; cases h
      | some types =>
        rw [hf] at h
        simp only at h
        cases hcut : cutType s src.Input moved.ActualPosition
            (sortByStart (definitionStartKey s) types) with
        | none => rw [hcut] at h; cases h
        | some cut =>
          obtain ⟨input, offset, offsetLine⟩ := cut
          rw [hcut] at h
          simp only at h
          cases hsh : shiftTypes offset offsetLine
              { s with astSources := s.astSources.set a { src with Input := input } }
              (sortByStart (definitionStartKey s) types) with
          | none => rw [hsh] at h; cases h
          | some s2 =>
            rw [hsh] at h
            simp only at h
            cases hm2 : s2.definitions[t]? with
            | none => rw [hm2] at h; cases h
            | some moved2 =>
              rw [hm2] at h
              simp only at h
              cases hn : s2.astDefinitions[moved2.Definition]? with
              | none => rw [hn] at h; cases h
              | some node =>
                rw [hn] at h
                simp only at h
                cases hp : node.Position with
                | none => rw [hp] at h; cases h
                | some p =>
                  rw [hp] at h
                  simp only at h
                  exact ⟨src, moved, types, input, offset, offsetLine, s2, moved2, node, p,
                    rfl, rfl, hf, hcut, hsh, hm2, hn, hp, h⟩

theorem DefinitionContentHolds_iff {s : TypesSplitterPlugin} {g : Nat} :
    DefinitionContentHolds s g ↔
      ∃ c n p a src, s.definitions[g]? = some c ∧
        s.astDefinitions[c.Definition]? = some n ∧ n.Position = some p ∧ p.Src = some a ∧
        s.astSources[a]? = some src ∧
        slice src.Input c.ActualPosition.Start (c.ActualPosition.End + 1) = some c.Content := by
  unfold DefinitionContentHolds definitionSpanText DefinitionPos
  constructor
  · intro h
    cases hc : s.definitions[g]? with
    | none => rw [hc] at h; exact absurd h (by simp)
    | some c =>
      rw [hc] at h
      simp only at h
      cases hn : s.astDefinitions[c.Definition]? with
      | none => rw [hn] at h; simp at h
      | some n =>
        rw [hn] at h
        simp only at h
        cases hp : n.Position with
        | none => rw [hp] at h; simp at h
        | some p =>
          rw [hp] at h
          simp only at h
          cases ha : p.Src with
          | none => rw [ha] at h; simp at h
          | some a =>
            rw [ha] at h
            simp only at h
            cases hs : s.astSources[a]? with
            | none => rw [hs] at h; simp at h
            | some src =>
              rw [hs] at h
              exact ⟨c, n, p, a, src, rfl, hn, hp, ha, hs, h⟩
  · rintro ⟨c, n, p, a, src, hc, hn, hp, ha, hs, h⟩
    simp only [hc, hn, hp, ha, hs]
    exact h

theorem mem_types_after {s : TypesSplitterPlugin} {off : Int} {l types : List Nat}
    (h : DefinitionsPosAfter s off l = some types) (g : Nat) :
    g ∈ sortByStart (definitionStartKey s) types ↔ g ∈ l ∧ definitionStartKey s g > off := by
  rw [mem_sortByStart, DefinitionsPosAfter_eq s off l types h, List.mem_filter]
  simp

theorem nodup_types_after {s : TypesSplitterPlugin} {off : Int} {l types : List Nat}
    (h : DefinitionsPosAfter s off l = some types) (hnd : l.Nodup) :
    (sortByStart (definitionStartKey s) types).Nodup := by
  rw [nodup_sortByStart, DefinitionsPosAfter_eq s off l types h]
  exact hnd.filter _

/-- The steps of `moveType`, in a call on a buffer that holds the declaration
to move and that returns, when a declaration follows the moved one: the text of
the buffer is cut from the actual start of the moved declaration to the actual
start of the first declaration that follows, and the declarations that follow
are shifted with their fields by the bytes and the lines cut. -/
theorem moveType_steps {s s' : TypesSplitterPlugin} {w t : Nat} {wcell : SourceCell}
    {tcell : DefinitionCell} {tnode : AstDefinitionNode} {pos : PositionRef} {cfgSrc : Nat}
    {src : Source} {types : List Nat} {next : Nat} {nextCell : DefinitionCell}
    (hw : s.sourceCells[w]? = some wcell)
    (hmem : t ∈ wcell.Types)
    (hcell : s.definitions[t]? = some tcell)
    (hnode : s.astDefinitions[tcell.Definition]? = some tnode)
    (hpos : tnode.Position = some pos)
    (hsrc : pos.Src = some cfgSrc)
    (hbuf : s.astSources[cfgSrc]? = some src)
    (htypes : DefinitionsPosAfter s tcell.ActualPosition.End
      ((s.sourcesDefs.lookup src.Name).getD []) = some types)
    (hnext : (sortByStart (definitionStartKey s) types).head? = some next)
    (hnextCell : s.definitions[next]? = some nextCell)
    (hrun : moveType s (some w) t = some s') :
    ∃ removed before after s2,
      slice src.Input tcell.ActualPosition.Start nextCell.ActualPosition.Start = some removed ∧
      slice src.Input 0 tcell.ActualPosition.Start = some before ∧
      slice src.Input nextCell.ActualPosition.Start (len src.Input) = some after ∧
      shiftTypes (nextCell.ActualPosition.Start - tcell.ActualPosition.Start)
        (countLines removed)
        { s with astSources := s.astSources.set cfgSrc { src with Input := before ++ after } }
        (sortByStart (definitionStartKey s) types) = some s2 ∧
      s'.astSources = s.astSources.set cfgSrc { src with Input := before ++ after } ∧
      s'.fieldDefinitions = s2.fieldDefinitions ∧
      s'.definitions = s2.definitions ∧
      (∀ q : Nat, q ≠ tcell.Definition →
        (s'.astDefinitions[q]?).map
            (fun (n : AstDefinitionNode) => n.Position.map (fun p => p.Src)) =
          (s.astDefinitions[q]?).map
            (fun (n : AstDefinitionNode) => n.Position.map (fun p => p.Src))) ∧
      (∀ q : Nat,
        (∀ m ∈ tcell.Fields, ∀ mc, s.fieldDefinitions[m]? = some mc → mc.FieldDefinition ≠ q) →
        (s'.astFields[q]?).map (fun (n : AstFieldNode) => n.Position.map (fun p => p.Src)) =
          (s.astFields[q]?).map (fun (n : AstFieldNode) => n.Position.map (fun p => p.Src))) := by
  simp only [moveType, hw] at hrun
  obtain ⟨pos', cfgSrc', hp', hs', hex⟩ := moveTypeLoop_found _ hmem hrun
  have hdp : DefinitionPos s t = some pos := by
    simp [DefinitionPos, hcell, hnode, hpos]
  rw [hdp] at hp'
  simp only [Option.some.injEq] at hp'
  subst hp'
  rw [hsrc] at hs'
  simp only [Option.some.injEq] at hs'
  subst hs'
  obtain ⟨src', moved, types', input, offset, offsetLine, s2, moved2, node, p,
    hsrc', hm, hf, hcut, hsh, hm2, hn, hp, hset⟩ := exciseType_eq hex
  rw [hbuf] at hsrc'
  simp only [Option.some.injEq] at hsrc'
  subst hsrc'
  rw [hcell] at hm
  simp only [Option.some.injEq] at hm
  subst hm
  rw [htypes] at hf
  simp only [Option.some.injEq] at hf
  subst hf
  simp only [cutType, hnext, hnextCell] at hcut
  obtain ⟨removed, before, after, h1, h2, h3, hr⟩ := exciseToNext_eq hcut
  simp only [Prod.mk.injEq] at hr
  obtain ⟨rfl, rfl, rfl⟩ := hr
  obtain ⟨e1, e2, e3, e4, e5⟩ := shiftTypes_frame _ _ _ _ _ hsh
  obtain ⟨g1, g2⟩ := setFieldSources_frame _ _ _ _ hset
  have hmoved2 : moved2.Definition = tcell.Definition ∧ moved2.Fields = tcell.Fields := by
    have := e2 t
    rw [hm2, hcell] at this
    simp only [Option.map_some', Option.some.injEq, Prod.mk.injEq] at this
    exact ⟨this.1, this.2.2.2.1⟩
  refine ⟨removed, before, after, s2, h1, h2, h3, hsh, ?_, ?_, ?_, ?_, ?_⟩
  · rw [g1, e1]
  · rw [g1]
  · rw [g1]
  · intro q hq
    rw [g1]
    simp only
    rw [hmoved2.1, List.getElem?_set, if_neg (fun h' => hq h'.symm)]
    have h4 := congrArg (Option.map Prod.snd) (e3 q)
    simpa [Option.map_map, Function.comp] using h4
  · intro q hq
    have hq' : ∀ m ∈ moved2.Fields, ∀ mc,
        s2.fieldDefinitions[m]? = some mc → mc.FieldDefinition ≠ q := by
      intro m hm' mc hmc
      rw [hmoved2.2] at hm'
      have h5 := e4 m
      rw [hmc] at h5
      cases hsm : s.fieldDefinitions[m]? with
      | none =>
        have hsm' : s.fieldDefinitions[m]? = none := hsm
        simp [hsm'] at h5
      | some mc0 =>
        have hsm' : s.fieldDefinitions[m]? = some mc0 := hsm
        simp only [hsm', Option.map_some', Option.some.injEq, Prod.mk.injEq] at h5
        rw [h5.1]
        exact hq m hm' mc0 hsm
    rw [g2 q hq']
    have h4 := congrArg (Option.map Prod.snd) (e5 q)
    simpa [Option.map_map, Function.comp] using h4

/-! ### `moveType`: the content of the other declarations and of their fields -/

/-- The content of a declaration other than the moved one that lies outside the
bytes cut, in the buffer of the moved declaration, is still the text of the
buffer at its actual span after `moveType`, when a declaration follows the
moved one. -/
theorem moveType_definition_content {s s' : TypesSplitterPlugin} {w t : Nat}
    {wcell : SourceCell} {tcell : DefinitionCell} {tnode : AstDefinitionNode}
    {pos : PositionRef} {cfgSrc : Nat} {src : Source} {types : List Nat} {next : Nat}
    {nextCell : DefinitionCell}
    (hw : s.sourceCells[w]? = some wcell)
    (hmem : t ∈ wcell.Types)
    (hcell : s.definitions[t]? = some tcell)
    (hnode : s.astDefinitions[tcell.Definition]? = some tnode)
    (hpos : tnode.Position = some pos)
    (hsrc : pos.Src = some cfgSrc)
    (hbuf : s.astSources[cfgSrc]? = some src)
    (htypes : DefinitionsPosAfter s tcell.ActualPosition.End
      ((s.sourcesDefs.lookup src.Name).getD []) = some types)
    (hnext : (sortByStart (definitionStartKey s) types).head? = some next)
    (hnextCell : s.definitions[next]? = some nextCell)
    (hnodup : ((s.sourcesDefs.lookup src.Name).getD []).Nodup)
    (hrun : moveType s (some w) t = some s')
    (g : Nat) (gcell : DefinitionCell)
    (hg : s.definitions[g]? = some gcell)
    (hother : gcell.Definition ≠ tcell.Definition)
    (hsame : (DefinitionPos s g).bind (fun p => p.Src) = some cfgSrc)
    (hhold : DefinitionContentHolds s g)
    (hout : (g ∈ (s.sourcesDefs.lookup src.Name).getD [] ∧
          definitionStartKey s g > tcell.ActualPosition.End ∧
          nextCell.ActualPosition.Start ≤ gcell.ActualPosition.Start) ∨
        (¬ (g ∈ (s.sourcesDefs.lookup src.Name).getD [] ∧
            definitionStartKey s g > tcell.ActualPosition.End) ∧
          gcell.ActualPosition.End < tcell.ActualPosition.Start)) :
    DefinitionContentHolds s' g := by
  obtain ⟨removed, before, after, s2, h1, h2, h3, hsh, a1, _, a3, a4, _⟩ :=
    moveType_steps hw hmem hcell hnode hpos hsrc hbuf htypes hnext hnextCell hrun
  obtain ⟨c, n, p, a, src', hc, hn, hp, ha, hs, htext⟩ := DefinitionContentHolds_iff.mp hhold
  rw [hg] at hc
  simp only [Option.some.injEq] at hc
  subst hc
  have hfp : DefinitionPos s g = some p := by
    simp [DefinitionPos, hg, hn, hp]
  rw [hfp] at hsame
  simp only [Option.some_bind, ha, Option.some.injEq] at hsame
  subst hsame
  rw [hbuf] at hs
  simp only [Option.some.injEq] at hs
  subst hs
  obtain ⟨hb1, _⟩ := slice_eq_some_iff.mp htext
  obtain ⟨hb2, _⟩ := slice_eq_some_iff.mp h1
  have hnode' : ∃ n' p', s'.astDefinitions[gcell.Definition]? = some n' ∧
      n'.Position = some p' ∧ p'.Src = some a := by
    have := a4 gcell.Definition hother
    rw [hn] at this
    cases hn' : s'.astDefinitions[gcell.Definition]? with
    | none => rw [hn'] at this; simp at this
    | some n' =>
      rw [hn'] at this
      simp only [Option.map_some', Option.some.injEq, hp] at this
      cases hp' : n'.Position with
      | none => rw [hp'] at this; simp at this
      | some p' =>
        rw [hp'] at this
        simp only [Option.map_some', Option.some.injEq] at this
        exact ⟨n', p', rfl, hp', by rw [this, ha]⟩
  obtain ⟨n', p', hn', hp', ha'⟩ := hnode'
  have hsrc' : s'.astSources[a]? = some { src with Input := before ++ after } := by
    rw [a1, getElem?_set_self_of_some hbuf]
  rw [DefinitionContentHolds_iff]
  rcases hout with ⟨hin, hgt, hge⟩ | ⟨hnin, hlt⟩
  · have hmemg : g ∈ sortByStart (definitionStartKey s) types :=
      (mem_types_after htypes g).mpr ⟨hin, hgt⟩
    have hcell' : s'.definitions[g]? = some (shiftDefinitionCell
        (nextCell.ActualPosition.Start - tcell.ActualPosition.Start) (countLines removed)
        gcell) := by
      rw [a3, shiftTypes_mem _ _ g _ _ _ hsh (nodup_types_after htypes hnodup) hmemg]
      simp only [hg, Option.map_some']
    refine ⟨_, n', p', a, _, hcell', hn', hp', ha', hsrc', ?_⟩
    simp only [shiftDefinitionCell, shiftPosition]
    rw [← htext]
    have := slice_cut_after (a := gcell.ActualPosition.Start)
      (b := gcell.ActualPosition.End + 1) h2 h3 hb2.2.1 hb1 hge
    rw [← this]
    congr 1
    omega
  · have hnmem : g ∉ sortByStart (definitionStartKey s) types := fun hm =>
      hnin ((mem_types_after htypes g).mp hm)
    have hcell' : s'.definitions[g]? = some gcell := by
      rw [a3, shiftTypes_not_mem _ _ g _ _ _ hsh hnmem]
      exact hg
    refine ⟨_, n', p', a, _, hcell', hn', hp', ha', hsrc', ?_⟩
    rw [← htext]
    exact slice_cut_before h2 h3 hb1 (by omega)

/-- The content of a field of a declaration other than the moved one that lies
outside the bytes cut, in the buffer of the moved declaration, is still the
text of the buffer at its actual span after `moveType`, when a declaration
follows the moved one. -/
theorem moveType_field_content {s s' : TypesSplitterPlugin} {w t : Nat}
    {wcell : SourceCell} {tcell : DefinitionCell} {tnode : AstDefinitionNode}
    {pos : PositionRef} {cfgSrc : Nat} {src : Source} {types : List Nat} {next : Nat}
    {nextCell : DefinitionCell}
    (hw : s.sourceCells[w]? = some wcell)
    (hmem : t ∈ wcell.Types)
    (hcell : s.definitions[t]? = some tcell)
    (hnode : s.astDefinitions[tcell.Definition]? = some tnode)
    (hpos : tnode.Position = some pos)
    (hsrc : pos.Src = some cfgSrc)
    (hbuf : s.astSources[cfgSrc]? = some src)
    (htypes : DefinitionsPosAfter s tcell.ActualPosition.End
      ((s.sourcesDefs.lookup src.Name).getD []) = some types)
    (hnext : (sortByStart (definitionStartKey s) types).head? = some next)
    (hnextCell : s.definitions[next]? = some nextCell)
    (hnodup : (fieldsOfTypes s (sortByStart (definitionStartKey s) types)).Nodup)
    (hrun : moveType s (some w) t = some s')
    (g : Nat) (gcell : FieldDefinitionCell)
    (hg : s.fieldDefinitions[g]? = some gcell)
    (hother : ∀ m ∈ tcell.Fields,
      (s.fieldDefinitions[m]?).map (fun (c : FieldDefinitionCell) => c.FieldDefinition) ≠
        some gcell.FieldDefinition)
    (hsame : (FieldDefinitionPos s g).bind (fun p => p.Src) = some cfgSrc)
    (hhold : FieldContentHolds s g)
    (hout : (g ∈ fieldsOfTypes s (sortByStart (definitionStartKey s) types) ∧
          nextCell.ActualPosition.Start ≤ gcell.ActualPosition.Start) ∨
        (g ∉ fieldsOfTypes s (sortByStart (definitionStartKey s) types) ∧
          gcell.ActualPosition.End < tcell.ActualPosition.Start)) :
    FieldContentHolds s' g := by
  obtain ⟨removed, before, after, s2, h1, h2, h3, hsh, a1, a2, _, _, a5⟩ :=
    moveType_steps hw hmem hcell hnode hpos hsrc hbuf htypes hnext hnextCell hrun
  obtain ⟨c, n, p, a, src', hc, hn, hp, ha, hs, htext⟩ := FieldContentHolds_iff.mp hhold
  rw [hg] at hc
  simp only [Option.some.injEq] at hc
  subst hc
  have hfp : FieldDefinitionPos s g = some p := by
    simp [FieldDefinitionPos, hg, hn, hp]
  rw [hfp] at hsame
  simp only [Option.some_bind, ha, Option.some.injEq] at hsame
  subst hsame
  rw [hbuf] at hs
  simp only [Option.some.injEq] at hs
  subst hs
  obtain ⟨hb1, _⟩ := slice_eq_some_iff.mp htext
  obtain ⟨hb2, _⟩ := slice_eq_some_iff.mp h1
  have hnode' : ∃ n' p', s'.astFields[gcell.FieldDefinition]? = some n' ∧
      n'.Position = some p' ∧ p'.Src = some a := by
    have := a5 gcell.FieldDefinition (fun m hm mc hmc h' => hother m hm (by rw [hmc, ← h']; rfl))
    rw [hn] at this
    cases hn' : s'.astFields[gcell.FieldDefinition]? with
    | none => rw [hn'] at this; simp at this
    | some n' =>
      rw [hn'] at this
      simp only [Option.map_some', Option.some.injEq, hp] at this
      cases hp' : n'.Position with
      | none => rw [hp'] at this; simp at this
      | some p' =>
        rw [hp'] at this
        simp only [Option.map_some', Option.some.injEq] at this
        exact ⟨n', p', rfl, hp', by rw [this, ha]⟩
  obtain ⟨n', p', hn', hp', ha'⟩ := hnode'
  have hsrc' : s'.astSources[a]? = some { src with Input := before ++ after } := by
    rw [a1, getElem?_set_self_of_some hbuf]
  have hcongr : ∀ ds : List Nat,
      fieldsOfTypes
        { s with astSources := s.astSources.set a { src with Input := before ++ after } } ds =
      fieldsOfTypes s ds := fieldsOfTypes_congr (fun _ => rfl)
  rw [FieldContentHolds_iff]
  rcases hout with ⟨hin, hge⟩ | ⟨hnin, hlt⟩
  · have hcell' : s'.fieldDefinitions[g]? = some (shiftFieldCell
        (nextCell.ActualPosition.Start - tcell.ActualPosition.Start) (countLines removed)
        gcell) := by
      rw [a2, shiftTypes_field_mem _ _ g _ _ _ hsh (by rw [hcongr]; exact hnodup)
        (by rw [hcongr]; exact hin)]
      simp only [hg, Option.map_some']
    refine ⟨_, n', p', a, _, hcell', hn', hp', ha', hsrc', ?_⟩
    simp only [shiftFieldCell, shiftPosition]
    rw [← htext]
    have := slice_cut_after (a := gcell.ActualPosition.Start)
      (b := gcell.ActualPosition.End + 1) h2 h3 hb2.2.1 hb1 hge
    rw [← this]
    congr 1
    omega
  · have hcell' : s'.fieldDefinitions[g]? = some gcell := by
      rw [a2, shiftTypes_field_not_mem _ _ g _ _ _ hsh (by rw [hcongr]; exact hnin)]
      exact hg
    refine ⟨_, n', p', a, _, hcell', hn', hp', ha', hsrc', ?_⟩
    rw [← htext]
    exact slice_cut_before h2 h3 hb1 (by omega)

/-- C17, amended: when an entity follows the moved one among the entities
recorded for the buffer, each recorded once, every other entity of the buffer
that lies outside the bytes cut keeps the invariant: if its content is the text
of the buffer at its actual span before the move, it is after the move. An
entity lies outside the bytes cut when it is shifted and its actual start is at
or after the actual start of the first entity that follows, or when it is not
shifted and its actual end is before the actual start of the moved entity. The
entities are the fields for `moveQueryField`, the declarations and the fields
of the declarations that follow for `moveType`; the declaration that holds a
moved field, and with `moveQueryField` the declarations that follow it, are
left out. -/
theorem moves_keep_content_outside_cut :
    (∀ (s s' : TypesSplitterPlugin) (d f : Nat) (r : Bool) (e : Option MoveError)
        (defNode : AstDefinitionNode) (cell : FieldDefinitionCell) (target : AstFieldNode)
        (pos : PositionRef) (cfgSrc : Nat) (src : Source) (fields : List Nat) (next : Nat)
        (nextCell : FieldDefinitionCell) (g : Nat) (gcell : FieldDefinitionCell),
      s.astDefinitions[d]? = some defNode →
      s.fieldDefinitions[f]? = some cell →
      cell.FieldDefinition ∈ defNode.Fields →
      s.astFields[cell.FieldDefinition]? = some target →
      ¬ "__".toList <+: target.Name →
      target.Position = some pos →
      pos.Src = some cfgSrc →
      s.astSources[cfgSrc]? = some src →
      FieldDefinitionsPosAfter s cell.ActualPosition.End
        ((s.sourcesFields.lookup src.Name).getD []) = some fields →
      (sortByStart (fieldStartKey s) fields).head? = some next →
      s.fieldDefinitions[next]? = some nextCell →
      ((s.sourcesFields.lookup src.Name).getD []).Nodup →
      moveQueryField s (some d) f = some (s', r, e) →
      s.fieldDefinitions[g]? = some gcell →
      gcell.FieldDefinition ≠ cell.FieldDefinition →
      (FieldDefinitionPos s g).bind (fun p => p.Src) = some cfgSrc →
      FieldContentHolds s g →
      ((g ∈ (s.sourcesFields.lookup src.Name).getD [] ∧
          fieldStartKey s g > cell.ActualPosition.End ∧
          nextCell.ActualPosition.Start ≤ gcell.ActualPosition.Start) ∨
        (¬ (g ∈ (s.sourcesFields.lookup src.Name).getD [] ∧
            fieldStartKey s g > cell.ActualPosition.End) ∧
          gcell.ActualPosition.End < cell.ActualPosition.Start)) →
      FieldContentHolds s' g) ∧
    (∀ (s s' : TypesSplitterPlugin) (w t : Nat) (wcell : SourceCell) (tcell : DefinitionCell)
        (tnode : AstDefinitionNode) (pos : PositionRef) (cfgSrc : Nat) (src : Source)
        (types : List Nat) (next : Nat) (nextCell : DefinitionCell) (g : Nat)
        (gcell : DefinitionCell),
      s.sourceCells[w]? = some wcell →
      t ∈ wcell.Types →
      s.definitions[t]? = some tcell →
      s.astDefinitions[tcell.Definition]? = some tnode →
      tnode.Position = some pos →
      pos.Src = some cfgSrc →
      s.astSources[cfgSrc]? = some src →
      DefinitionsPosAfter s tcell.ActualPosition.End
        ((s.sourcesDefs.lookup src.Name).getD []) = some types →
      (sortByStart (definitionStartKey s) types).head? = some next →
      s.definitions[next]? = some nextCell →
      ((s.sourcesDefs.lookup src.Name).getD []).Nodup →
      moveType s (some w) t = some s' →
      s.definitions[g]? = some gcell →
      gcell.Definition ≠ tcell.Definition →
      (DefinitionPos s g).bind (fun p => p.Src) = some cfgSrc →
      DefinitionContentHolds s g →
      ((g ∈ (s.sourcesDefs.lookup src.Name).getD [] ∧
          definitionStartKey s g > tcell.ActualPosition.End ∧
          nextCell.ActualPosition.Start ≤ gcell.ActualPosition.Start) ∨
        (¬ (g ∈ (s.sourcesDefs.lookup src.Name).getD [] ∧
            definitionStartKey s g > tcell.ActualPosition.End) ∧
          gcell.ActualPosition.End < tcell.ActualPosition.Start)) →
      DefinitionContentHolds s' g) ∧
    (∀ (s s' : TypesSplitterPlugin) (w t : Nat) (wcell : SourceCell) (tcell : DefinitionCell)
        (tnode : AstDefinitionNode) (pos : PositionRef) (cfgSrc : Nat) (src : Source)
        (types : List Nat) (next : Nat) (nextCell : DefinitionCell) (g : Nat)
        (gcell : FieldDefinitionCell),
      s.sourceCells[w]? = some wcell →
      t ∈ wcell.Types →
      s.definitions[t]? = some tcell →
      s.astDefinitions[tcell.Definition]? = some tnode →
      tnode.Position = some pos →
      pos.Src = some cfgSrc →
      s.astSources[cfgSrc]? = some src →
      DefinitionsPosAfter s tcell.ActualPosition.End
        ((s.sourcesDefs.lookup src.Name).getD []) = some types →
      (sortByStart (definitionStartKey s) types).head? = some next →
      s.definitions[next]? = some nextCell →
      (fieldsOfTypes s (sortByStart (definitionStartKey s) types)).Nodup →
      moveType s (some w) t = some s' →
      s.fieldDefinitions[g]? = some gcell →
      (∀ m ∈ tcell.Fields,
        (s.fieldDefinitions[m]?).map (fun (c : FieldDefinitionCell) => c.FieldDefinition) ≠
          some gcell.FieldDefinition) →
      (FieldDefinitionPos s g).bind (fun p => p.Src) = some cfgSrc →
      FieldContentHolds s g →
      ((g ∈ fieldsOfTypes s (sortByStart (definitionStartKey s) types) ∧
          nextCell.ActualPosition.Start ≤ gcell.ActualPosition.Start) ∨
        (g ∉ fieldsOfTypes s (sortByStart (definitionStartKey s) types) ∧
          gcell.ActualPosition.End < tcell.ActualPosition.Start)) →
      FieldContentHolds s' g) := by
  refine ⟨?_, ?_, ?_⟩
  · intro s s' d f r e defNode cell target pos cfgSrc src fields next nextCell g gcell
      h1 h2 h3 h4 h5 h6 h7 h8 h9 h10 h11 h12 h13 h14 h15 h16 h17 h18
    exact moveQueryField_field_content h1 h2 h3 h4 h5 h6 h7 h8 h9 h10 h11 h12 h13 g gcell
      h14 h15 h16 h17 h18
  · intro s s' w t wcell tcell tnode pos cfgSrc src types next nextCell g gcell
      h1 h2 h3 h4 h5 h6 h7 h8 h9 h10 h11 h12 h13 h14 h15 h16 h17
    exact moveType_definition_content h1 h2 h3 h4 h5 h6 h7 h8 h9 h10 h11 h12 g gcell
      h13 h14 h15 h16 h17
  · intro s s' w t wcell tcell tnode pos cfgSrc src types next nextCell g gcell
      h1 h2 h3 h4 h5 h6 h7 h8 h9 h10 h11 h12 h13 h14 h15 h16 h17
    exact moveType_field_content h1 h2 h3 h4 h5 h6 h7 h8 h9 h10 h11 h12 g gcell
      h13 h14 h15 h16 h17

/-- C17, amended, at field `x` of `pluginQT` when field `a` is moved, and at
declaration `C` and its field `z` of `pluginABC` when declaration `B` is
moved. -/
theorem moves_keep_content_outside_cut_witness :
    FieldContentHolds pluginQTAfter 0 ∧ DefinitionContentHolds pluginABCAfter 2 ∧
      FieldContentHolds pluginABCAfter 2 :=
  ⟨moves_keep_content_outside_cut.1 pluginQTReady pluginQTAfter 0 1 false none
      { Kind := "OBJECT".toList, Name := "Query".toList, Fields := [0, 1],
        Position := some { Start := 5, End := 10, Line := 1, Src := some 0 } }
      { FieldDefinition := 0, typ := .DefQueryField, Content := "  a: Int".toList,
        ActualPosition := { Start := 13, End := 20, Line := 1, Src := some 1 } }
      { Name := "a".toList,
        Position := some { Start := 15, End := 16, Line := 2, Src := some 0 } }
      { Start := 15, End := 16, Line := 2, Src := some 0 } 0
      { Name := "schema.graphql".toList,
        Input := "type Query \x7b\n  a: Int\n  b: Int\n\x7d\n\ntype T \x7b\n  x: Int\n\x7d\n".toList }
      [0, 2] 2
      { FieldDefinition := 1, typ := .DefQueryField, Content := "  b: Int".toList,
        ActualPosition := { Start := 22, End := 29, Line := 2, Src := none } }
      0
      { FieldDefinition := 2, typ := .DefObjectField, Content := "  x: Int".toList,
        ActualPosition := { Start := 43, End := 50, Line := 6, Src := none } }
      (by decide) (by decide) (by decide) (by decide) (by decide) (by decide) (by decide)
      (by decide) (by decide) (by decide) (by decide) (by decide) (by decide) (by decide)
      (by decide) (by decide) (by decide) (by decide),
    moves_keep_content_outside_cut.2.1 pluginABCReady pluginABCAfter 0 1
      { Source := 0, typ := .OriginalSource, Fields := [], Types := [0, 1, 2],
        isMainQuery := false }
      { Definition := 1, typ := .DefTypeObject, Content := "type B \x7b\n  y: Int\n\x7d".toList,
        Fields := [1], ActualPosition := { Start := 21, End := 39, Line := 3, Src := some 1 } }
      { Kind := "OBJECT".toList, Name := "B".toList, Fields := [1],
        Position := some { Start := 26, End := 27, Line := 5, Src := some 0 } }
      { Start := 26, End := 27, Line := 5, Src := some 0 } 0
      { Name := "schema.graphql".toList,
        Input := ("type A \x7b\n  x: Int\n\x7d\n\ntype B \x7b\n  y: Int\n\x7d\n\n" ++
          "type C \x7b\n  z: Int\n\x7d\n").toList }
      [2] 2
      { Definition := 2, typ := .DefTypeObject, Content := "type C \x7b\n  z: Int\n\x7d".toList,
        Fields := [2], ActualPosition := { Start := 42, End := 60, Line := 7, Src := none } }
      2
      { Definition := 2, typ := .DefTypeObject, Content := "type C \x7b\n  z: Int\n\x7d".toList,
        Fields := [2], ActualPosition := { Start := 42, End := 60, Line := 7, Src := none } }
      (by decide) (by decide) (by decide) (by decide) (by decide) (by decide) (by decide)
      (by decide) (by decide) (by decide) (by decide) (by decide) (by decide) (by decide)
      (by decide) (by decide) (by decide),
    moves_keep_content_outside_cut.2.2 pluginABCReady pluginABCAfter 0 1
      { Source := 0, typ := .OriginalSource, Fields := [], Types := [0, 1, 2],
        isMainQuery := false }
      { Definition := 1, typ := .DefTypeObject, Content := "type B \x7b\n  y: Int\n\x7d".toList,
        Fields := [1], ActualPosition := { Start := 21, End := 39, Line := 3, Src := some 1 } }
      { Kind := "OBJECT".toList, Name := "B".toList, Fields := [1],
        Position := some { Start := 26, End := 27, Line := 5, Src := some 0 } }
      { Start := 26, End := 27, Line := 5, Src := some 0 } 0
      { Name := "schema.graphql".toList,
        Input := ("type A \x7b\n  x: Int\n\x7d\n\ntype B \x7b\n  y: Int\n\x7d\n\n" ++
          "type C \x7b\n  z: Int\n\x7d\n").toList }
      [2] 2
      { Definition := 2, typ := .DefTypeObject, Content := "type C \x7b\n  z: Int\n\x7d".toList,
        Fields := [2], ActualPosition := { Start := 42, End := 60, Line := 7, Src := none } }
      2
      { FieldDefinition := 2, typ := .DefObjectField, Content := "  z: Int".toList,
        ActualPosition := { Start := 51, End := 58, Line := 9, Src := none } }
      (by decide) (by decide) (by decide) (by decide) (by decide) (by decide) (by decide)
      (by decide) (by decide) (by decide) (by decide) (by decide) (by decide) (by decide)
      (by decide) (by decide) (by decide)⟩

/-! ### Claims on scalars and on the scope flag of the bracket scanner -/

/-- C27: for a declaration extracted with kind `DefScalar`, `extractDefContent`
absorbs no brace body: the actual end it returns is not beyond any newline at or
after the raw end, and it is not beyond the raw end when no newline follows. -/
theorem extractDefContent_scalar_end (d : AstDefinition) (pos : Position) (src : Source)
    (c : GoString) (s e l : Int)
    (hpos : d.Position = some pos) (hsrc : pos.Src = some src) (h0 : 0 ≤ pos.End)
    (h : extractDefContent DefObjectType.DefScalar d = some (c, s, e, l)) :
    (∀ n, pos.End ≤ n → byteAt src.Input n = some newline → e ≤ n) ∧
    ((∀ k, pos.End ≤ k → k < len src.Input → byteAt src.Input k ≠ some newline) →
      e ≤ pos.End) := by
  simp only [extractDefContent, hpos, hsrc, extractDefContentAt, absorbBody] at h
  obtain ⟨e2, he2, hspec⟩ := findNextLineOffset_spec src.Input pos.End h0
  cases hcs : findCommentStart src.Input pos.Start with
  | none => simp [hcs] at h
  | some r =>
    obtain ⟨la, ob⟩ := r
    simp only [hcs, ne_eq, not_true_eq_false, if_false, Option.bind_eq_bind, Option.some_bind,
      Option.pure_def, he2] at h
    cases hw : slice src.Input ob (e2 + 1) with
    | none => simp [hw] at h
    | some whole =>
      simp only [hw, Option.some_bind] at h
      obtain ⟨str, nb, la', sa, ht, hnb, hsa, _, _, _⟩ := trimNewLines_spec whole
      simp only [ht, Option.some_bind, Option.some.injEq, Prod.mk.injEq] at h
      obtain ⟨_, _, he, _⟩ := h
      constructor
      · intro n hn hnl
        rcases hspec with ⟨heq, hno⟩ | ⟨hle, hlt, hnl2, hfirst⟩
        · have hlt : n < len src.Input := by
            by_contra hge
            unfold byteAt at hnl
            split at hnl
            · have := List.getElem?_eq_none (l := src.Input) (n := n.toNat)
                (by unfold len at hge; omega)
              rw [this] at hnl
              cases hnl
            · cases hnl
          exact absurd hnl (hno n hn hlt)
        · by_contra hgt
          have : n < e2 := by omega
          exact hfirst n hn this hnl
      · intro hno
        rcases hspec with ⟨heq, _⟩ | ⟨hle, hlt, hnl2, _⟩
        · omega
        · exact absurd hnl2 (hno e2 hle hlt)

/-- C27 at the declaration `scalar Date` between two object types. -/
theorem extractDefContent_scalar_end_witness :
    (∀ n, (32 : Int) ≤ n →
      byteAt "type Z \x7b\n  z: Int\n\x7d\n\nscalar Date\n\ntype A \x7b\n  a: Int\n\x7d\n".toList n =
        some newline →
      (31 : Int) ≤ n) ∧
    ((∀ k, (32 : Int) ≤ k →
        k < len "type Z \x7b\n  z: Int\n\x7d\n\nscalar Date\n\ntype A \x7b\n  a: Int\n\x7d\n".toList →
        byteAt "type Z \x7b\n  z: Int\n\x7d\n\nscalar Date\n\ntype A \x7b\n  a: Int\n\x7d\n".toList k ≠
          some newline) →
      (31 : Int) ≤ 32) :=
  extractDefContent_scalar_end
    (definitionAt "type Z \x7b\n  z: Int\n\x7d\n\nscalar Date\n\ntype A \x7b\n  a: Int\n\x7d\n" 28 32 5)
    { Start := 28, End := 32, Line := 5,
      Src := some (sourceOf "type Z \x7b\n  z: Int\n\x7d\n\nscalar Date\n\ntype A \x7b\n  a: Int\n\x7d\n") }
    (sourceOf "type Z \x7b\n  z: Int\n\x7d\n\nscalar Date\n\ntype A \x7b\n  a: Int\n\x7d\n")
    "scalar Date".toList 21 31 2 rfl rfl (by decide) (by decide)

/-- C28: at an offset `s` where the opening delimiter stands, scanning from `s`
from outside the scope and scanning from `s + 1` from inside the scope return
the same offset and the same flag, and both return. -/
theorem findClosingBracket_inside_eq (openBracket : Char) (input : GoString) (s : Nat)
    (hopen : openBracket = OpenParen ∨ openBracket = OpenBrace ∨ openBracket = OpenSqBracket)
    (hs : input[s]? = some openBracket) :
    findClosingBracket openBracket input (s : Int) false =
        findClosingBracket openBracket input ((s : Int) + 1) true ∧
      ∃ r, findClosingBracket openBracket input (s : Int) false = some r := by
  have hlt : s < input.length := by
    by_contra hlt
    rw [List.getElem?_eq_none (by omega)] at hs
    cases hs
  have hb : byteAt input (s : Int) = some openBracket := by
    rw [byteAt_natCast]; exact hs
  have hq : openBracket ≠ squote ∧ openBracket ≠ dquote := by
    rcases hopen with h | h | h <;> subst h <;> decide
  have hne : openBracket ≠ closingBracket openBracket := by
    rcases hopen with h | h | h <;> subst h <;> decide
  have hstep := findClosingBracketStep_plain openBracket (closingBracket openBracket) input
    (s : Int) (-1) dquote hb hq
  rw [if_neg hne, if_pos rfl] at hstep
  obtain ⟨r, hr⟩ := findClosingBracketLoop_isSome openBracket (closingBracket openBracket) input
    input.length ((s : Int) + 1) 0 false dquote false (by omega) (fun h => by cases h)
    (by unfold len; omega) (by omega)
  have h1 : findClosingBracket openBracket input (s : Int) false = some r := by
    unfold findClosingBracket
    rw [findClosingBracketLoop_succ, if_pos (by unfold len; omega)]
    simp only [Bool.false_eq_true, if_false, hstep]
    simpa using hr
  have h2 : findClosingBracket openBracket input ((s : Int) + 1) true = some r := by
    unfold findClosingBracket
    simp only [if_true]
    exact findClosingBracketLoop_fuel_succ _ _ _ _ _ _ _ _ _ _ hr
  exact ⟨by rw [h1, h2], r, h1⟩

/-- C28 at the brace of `type A {a: [Int]}`. -/
theorem findClosingBracket_inside_eq_witness :
    findClosingBracket OpenBrace "type A \x7b\n  a: [Int]\n\x7d\n".toList ((7 : Nat) : Int) false =
        findClosingBracket OpenBrace "type A \x7b\n  a: [Int]\n\x7d\n".toList
          (((7 : Nat) : Int) + 1) true ∧
      ∃ r, findClosingBracket OpenBrace "type A \x7b\n  a: [Int]\n\x7d\n".toList
        ((7 : Nat) : Int) false = some r :=
  findClosingBracket_inside_eq OpenBrace "type A \x7b\n  a: [Int]\n\x7d\n".toList 7
    (Or.inr (Or.inl rfl)) (by decide)

/-! ### The forward scans of a field -/

theorem findCommentEndLoop_ge (input : GoString) (orig : Int) :
    ∀ (fuel : Nat) (i : Int) (ec : Bool) (e : Int), orig ≤ i →
      findCommentEndLoop input orig fuel i ec = some e → orig ≤ e := by
  intro fuel
  induction fuel with
  | zero => intro i ec e _ h; simp [findCommentEndLoop] at h
  | succ n ih =>
    intro i ec e hi h
    rw [findCommentEndLoop] at h
    split at h
    · split at h
      · exact absurd h (by simp)
      · split at h
        · exact absurd h (by simp)
        · split at h
          · simp only [Option.some.injEq] at h; omega
          · exact ih _ _ _ (by omega) h
        · split at h
          · split at h
            · simp only [Option.some.injEq] at h; omega
            · exact ih _ _ _ (by omega) h
          · exact ih _ _ _ (by omega) h
    · simp only [Option.some.injEq] at h; omega

theorem findCommentEnd_ge {input : GoString} {startPos e : Int}
    (h : findCommentEnd input startPos = some e) : startPos ≤ e :=
  findCommentEndLoop_ge input startPos _ _ _ _ (le_refl _) h

theorem findNextLineOffset_eq (input : GoString) (s n : Nat) (h : FirstNewlineFrom input s n) :
    findNextLineOffset input (s : Int) = some (n : Int) := by
  obtain ⟨hsn, hnl, hfirst⟩ := h
  have hnlt : n < input.length := (List.getElem?_eq_some_iff.mp hnl).1
  obtain ⟨e, he, hcase⟩ := findNextLineOffset_spec input (s : Int) (by omega)
  rw [he]
  congr 1
  rcases hcase with ⟨_, hall⟩ | ⟨h1, h2, h3, hall⟩
  · exact absurd (by rw [byteAt_natCast]; exact hnl)
      (hall (n : Int) (by omega) (by unfold len; omega))
  · by_contra hne
    rcases lt_or_gt_of_ne hne with hlt | hgt
    · obtain ⟨h0, _, h5⟩ := byteAt_eq_some h3
      have := hfirst e.toNat (by omega) (by omega)
      exact this h5
    · exact hall (n : Int) (by omega) hgt (by rw [byteAt_natCast]; exact hnl)

theorem findNextOpenBracketLoop_found (bracket : Char) (input : GoString) (start : Int)
    (hb : bracket ≠ newline) (p : Nat) (hp : input[p]? = some bracket) :
    ∀ (fuel i : Nat), i ≤ p → p - i < fuel →
      (∀ k, k < p → i ≤ k → input[k]? ≠ some newline ∧ input[k]? ≠ some bracket) →
      findNextOpenBracketLoop bracket input start false fuel (i : Int) = some ((p : Int), true) := by
  have hplt : p < input.length := (List.getElem?_eq_some_iff.mp hp).1
  intro fuel
  induction fuel with
  | zero => intro i _ h; omega
  | succ n ih =>
    intro i hip hf hall
    rw [findNextOpenBracketLoop, if_pos (by unfold len; omega)]
    by_cases hi : i = p
    · rw [hi, byteAt_natCast, hp]
      simp [hb]
    · obtain ⟨c, hc⟩ : ∃ c, input[i]? = some c :=
        ⟨_, List.getElem?_eq_getElem (by omega)⟩
      have h1 := hall i (by omega) (le_refl _)
      rw [hc] at h1
      rw [byteAt_natCast, hc]
      simp only []
      rw [if_neg (by intro h; exact h1.1 (by rw [h.1])), if_neg (by intro h; exact h1.2 (by rw [h]))]
      have := ih (i + 1) (by omega) (by omega) (fun k hk1 hk2 => hall k hk1 (by omega))
      rw [← this]; push_cast; rfl

theorem absorbArguments_eq (input : GoString) (e1 p m : Nat) (he1p : e1 ≤ p)
    (hfirst : ∀ k, k < p → e1 ≤ k →
      input[k]? ≠ some newline ∧ input[k]? ≠ some OpenParen ∧ input[k]? ≠ some CloseParen)
    (hopen : input[p]? = some OpenParen)
    (hbal : IsBalancingCloser OpenParen CloseParen input p m)
    (hq : ∀ k, k ≤ m → e1 ≤ k → input[k]? ≠ some squote ∧ input[k]? ≠ some dquote) :
    absorbArguments input (e1 : Int) = some (m : Int) := by
  have hplt : p < input.length := (List.getElem?_eq_some_iff.mp hopen).1
  have hom : p < m := hbal.1
  have hnb : findNextOpenBracket OpenParen input (e1 : Int) false = some ((p : Int), true) := by
    unfold findNextOpenBracket
    exact findNextOpenBracketLoop_found OpenParen input _ (by decide) p hopen _ e1 he1p (by omega)
      (fun k hk1 hk2 => ⟨(hfirst k hk1 hk2).1, (hfirst k hk1 hk2).2.1⟩)
  have hcb : findClosingBracket OpenParen input (e1 : Int) false = some ((m : Int), true) := by
    unfold findClosingBracket
    have : closingBracket OpenParen = CloseParen := by decide
    rw [this]
    have hmlt : m < input.length := (List.getElem?_eq_some_iff.mp hbal.2.1).1
    exact findClosingBracket_from_before OpenParen CloseParen input (by decide) e1 p m he1p
      (fun k hk1 hk2 => (hfirst k hk1 hk2).2) hopen hbal hq _ (by omega) _
  unfold absorbArguments
  rw [hnb]
  simp only [if_true]
  rw [hcb]
  simp

theorem findLeftOverDirectivesLoop_result (input : GoString) (start : Int) :
    ∀ (fuel : Nat) (i spaces : Int) (d : GoString) (ne : Int),
      findLeftOverDirectivesLoop input start fuel i spaces = some (d, ne) →
      (d = [] ∧ ne = start) ∨ slice input start (ne + 1) = some d := by
  intro fuel
  induction fuel with
  | zero => intro i spaces d ne h; simp [findLeftOverDirectivesLoop] at h
  | succ n ih =>
    intro i spaces d ne h
    rw [findLeftOverDirectivesLoop] at h
    split at h
    · split at h
      · exact absurd h (by simp)
      · split at h
        · exact ih _ _ _ _ h
        · split at h
          · split at h
            · exact absurd h (by simp)
            · rename_i s hs
              simp only [Option.some.injEq, Prod.mk.injEq] at h
              right
              rw [← h.1, ← h.2, ← hs]
              congr 1; omega
          · split at h
            · exact absurd h (by simp)
            · exact ih _ _ _ _ h
    · simp only [Option.some.injEq, Prod.mk.injEq] at h
      exact Or.inl ⟨h.1.symm, h.2.symm⟩

theorem mem_dropWhile_of_false {p : Char → Bool} {c : Char} (hc : p c = false) :
    ∀ (l : List Char), c ∈ l → c ∈ l.dropWhile p := by
  intro l
  induction l with
  | nil => intro h; exact h
  | cons x xs ih =>
    intro h
    by_cases hx : p x = true
    · rw [List.dropWhile_cons_of_pos hx]
      rcases List.mem_cons.mp h with h1 | h1
      · rw [h1] at hc; rw [hc] at hx; exact absurd hx (by simp)
      · exact ih h1
    · rw [List.dropWhile_cons_of_neg hx]; exact h

theorem TrimSpace_ne_nil {s : GoString} {c : Char} (hm : c ∈ s) (hc : isSpaceByte c = false) :
    TrimSpace s ≠ [] := by
  unfold TrimSpace
  have h1 := mem_dropWhile_of_false hc s hm
  have h2 := mem_dropWhile_of_false hc _ (List.mem_reverse.mpr h1)
  intro h
  have := List.mem_reverse.mpr h2
  rw [h] at this
  exact absurd this (List.not_mem_nil _)

theorem TrimSpace_ne_nil_mem {s : GoString} (h : TrimSpace s ≠ []) :
    ∃ c, c ∈ s ∧ isSpaceByte c = false := by
  by_contra hno
  apply h
  have hall : ∀ x ∈ s, isSpaceByte x = true := by
    intro x hx
    by_contra hx2
    exact hno ⟨x, hx, by simpa using hx2⟩
  unfold TrimSpace
  have : s.dropWhile isSpaceByte = [] := List.dropWhile_eq_nil_iff.mpr hall
  rw [this]; rfl

theorem absorbDirectives_result {input : GoString} {n e4 : Int}
    (h : absorbDirectives input n = some e4) :
    e4 = n ∨ (e4 + 1 ≤ len input ∧
      ∃ a c, n ≤ a ∧ a ≤ e4 ∧ byteAt input a = some c ∧ c ≠ newline ∧ c ≠ space ∧ c ≠ tab) := by
  unfold absorbDirectives at h
  split at h
  · exact absurd h (by simp)
  · rename_i d ne hd
    simp only [Option.some.injEq] at h
    by_cases ht : TrimSpace d ≠ []
    · rw [if_pos ht] at h
      right
      rcases findLeftOverDirectivesLoop_result input n _ _ _ _ _ hd with ⟨h1, _⟩ | hs
      · rw [h1] at ht; exact absurd rfl ht
      · obtain ⟨c, hcm, hcs⟩ := TrimSpace_ne_nil_mem ht
        obtain ⟨k, hk⟩ := List.mem_iff_getElem?.mp hcm
        have hkl : k < d.length := (List.getElem?_eq_some_iff.mp hk).1
        have hdl := slice_length hs
        have hb := slice_getElem? hs k (by omega)
        rw [hk] at hb
        have hbounds := (slice_eq_some_iff.mp hs).1
        subst h
        refine ⟨hbounds.2.2, n + k, c, by omega, by omega, hb.symm, ?_, ?_, ?_⟩
        · intro he; rw [he] at hcs; exact absurd hcs (by decide)
        · intro he; rw [he] at hcs; exact absurd hcs (by decide)
        · intro he; rw [he] at hcs; exact absurd hcs (by decide)
    · rw [if_neg ht] at h
      exact Or.inl h.symm

theorem trimTrailingLoop_nonblank (w : GoString) :
    ∀ (fuel : Nat) (i la sa : Int), -1 ≤ i → i < len w → i + 1 < fuel →
      ∃ la' sa', trimTrailingLoop w fuel i la sa = some (la', sa') ∧
        (∀ k c, k ≤ i → byteAt w k = some c → c ≠ newline → c ≠ space → c ≠ tab →
          sa' - sa ≤ i - k) := by
  intro fuel
  induction fuel with
  | zero => intro i _ _ h1 _ h3; omega
  | succ n ih =>
    intro i la sa h1 h2 h3
    by_cases hi : i ≥ 0
    · obtain ⟨c, hc⟩ := byteAt_isSome (s := w) hi h2
      by_cases hn : c = newline
      · rw [hn] at hc
        rw [trimTrailingLoop_newline w n i la sa hc]
        obtain ⟨la', sa', he, hall⟩ := ih (i - 1) (la + 1) (sa + 1) (by omega) (by omega) (by omega)
        refine ⟨la', sa', he, fun k c' hk hck hc1 hc2 hc3 => ?_⟩
        have hki : k ≠ i := by
          intro heq; rw [heq, hc] at hck; exact hc1 (Option.some.inj hck).symm
        have := hall k c' (by omega) hck hc1 hc2 hc3
        omega
      · rw [trimTrailingLoop_nonNewline w n i la sa hc hn]
        refine ⟨_, _, rfl, fun k c' hk hck hc1 hc2 hc3 => ?_⟩
        by_cases hki : k = i
        · rw [hki, hc] at hck
          have : c = c' := Option.some.inj hck
          rw [this, if_neg (by intro h; rcases h with h | h; exact hc2 h; exact hc3 h)]
          omega
        · split <;> omega
    · rw [trimTrailingLoop]
      rw [if_neg hi]
      exact ⟨_, _, rfl, fun k c' hk hck _ _ _ => by
        have := (byteAt_eq_some hck).1
        omega⟩

/-! ### Claims on the argument list and the directive lines of a field -/

/-- The number of bytes `trimNewLines` removes at the end of a slice that ends
with the newline at `n`, when the byte before it is not a newline: one, or two
when that byte is a space or a tab. -/
theorem trim_after_line (input whole : GoString) (ob : Int) (n : Nat) (la sa : Int) (c : Char)
    (hob0 : 0 ≤ ob) (hobn : ob < n)
    (hw : slice input ob ((n : Int) + 1) = some whole)
    (hnl : input[n]? = some newline) (hc : input[n - 1]? = some c) (hcn : c ≠ newline)
    (htl : trimTrailingLoop whole (whole.length + 1) (len whole - 1) 0 0 = some (la, sa)) :
    sa = if c = space ∨ c = tab then 2 else 1 := by
  have hwl := slice_length hw
  have hfu : whole.length + 1 = (whole.length - 1) + 1 + 1 := by
    have : 0 < whole.length := by omega
    omega
  have hlast : len whole - 1 = n - ob := by unfold len; omega
  have hb : byteAt whole (len whole - 1) = some newline := by
    rw [hlast, slice_byteAt hw (by omega) (by omega)]
    have : ob + ((n : Int) - ob) = (n : Int) := by omega
    rw [this, byteAt_natCast]; exact hnl
  have hb2 : byteAt whole (len whole - 1 - 1) = some c := by
    rw [hlast, slice_byteAt hw (by omega) (by omega)]
    have : ob + ((n : Int) - ob - 1) = ((n - 1 : Nat) : Int) := by omega
    rw [this, byteAt_natCast]; exact hc
  rw [hfu, trimTrailingLoop_newline whole _ _ 0 0 hb,
    trimTrailingLoop_nonNewline whole _ _ _ _ hb2 hcn] at htl
  simp only [Option.some.injEq, Prod.mk.injEq] at htl
  rw [← htl.2]
  split <;> rfl

/-- C29, as stated, fails: the field `a(x: Int): Int` is followed by a space
before the end of its line, and the span stops at offset 28, one byte short of
the end of the line (the space stands at 29, the newline at 30). -/
theorem extractFieldDefContent_stops_before_line_end :
    extractFieldDefContent (fieldAt "type Query \x7b\n  a(x: Int): Int \n  b: Int\n\x7d\n" 15 16 2) =
        some ("  a(x: Int): Int".toList, 13, 28, 1) ∧
      "type Query \x7b\n  a(x: Int): Int \n  b: Int\n\x7d\n".toList[29]? = some space ∧
      "type Query \x7b\n  a(x: Int): Int \n  b: Int\n\x7d\n".toList[30]? = some newline := by
  decide

/-- C29, amended: let the scan for a leading comment end at `ce`. When the
first parenthesis from `ce + 1` on stands at `p` before any newline, `m` is the
closing parenthesis that balances it, the text from `ce + 1` through `m` holds
no quote character, and `n` holds the first newline at or after `m`, then
`extractFieldDefContent` returns, and its corrected end is at or after `m` and
reaches the last byte of the line, or stops at the byte before it when the
line ends with a space or a tab. -/
theorem extractFieldDefContent_covers_arguments (fd : AstFieldDefinition) (pos : Position)
    (src : Source) (la ob ce : Int) (e1 p m n : Nat)
    (hpos : fd.Position = some pos) (hsrc : pos.Src = some src)
    (h0 : 0 ≤ pos.Start) (h1 : pos.Start ≤ len src.Input)
    (hcs : findCommentStart src.Input pos.Start = some (la, ob))
    (hce : findCommentEnd src.Input ob = some ce) (he1 : ce + 1 = (e1 : Int))
    (he1p : e1 ≤ p)
    (hfirst : ∀ k, k < p → e1 ≤ k →
      src.Input[k]? ≠ some newline ∧ src.Input[k]? ≠ some OpenParen ∧
        src.Input[k]? ≠ some CloseParen)
    (hopen : src.Input[p]? = some OpenParen)
    (hbal : IsBalancingCloser OpenParen CloseParen src.Input p m)
    (hq : ∀ k, k ≤ m → e1 ≤ k →
      src.Input[k]? ≠ some squote ∧ src.Input[k]? ≠ some dquote)
    (hn : FirstNewlineFrom src.Input m n) :
    ∃ c s e l, extractFieldDefContent fd = some (c, s, e, l) ∧ (m : Int) ≤ e ∧
      ((n : Int) - 1 ≤ e ∨
        (e = (n : Int) - 2 ∧ (src.Input[n - 1]? = some space ∨ src.Input[n - 1]? = some tab))) := by
  obtain ⟨hmn, hnl, hnf⟩ := hn
  have hpm : p < m := hbal.1
  have hm : src.Input[m]? = some CloseParen := hbal.2.1
  have hnlt : n < src.Input.length := (List.getElem?_eq_some_iff.mp hnl).1
  have hlen : len src.Input = src.Input.length := rfl
  have hmn2 : m < n := by
    rcases Nat.lt_or_ge m n with h | h
    · exact h
    · have : m = n := by omega
      rw [this, hnl] at hm
      exact absurd (Option.some.inj hm) (by decide)
  obtain ⟨l', ob', hcs', hob0, _, _⟩ := findCommentStart_spec src.Input pos.Start h0 h1
  rw [hcs] at hcs'
  simp only [Option.some.injEq, Prod.mk.injEq] at hcs'
  rw [← hcs'.2] at hob0
  have hobce := findCommentEnd_ge hce
  have hab : absorbArguments src.Input (ce + 1) = some (m : Int) := by
    rw [he1]; exact absorbArguments_eq src.Input e1 p m he1p hfirst hopen hbal hq
  have hnx : findNextLineOffset src.Input (m : Int) = some (n : Int) :=
    findNextLineOffset_eq src.Input m n ⟨hmn, hnl, hnf⟩
  obtain ⟨⟨d, ne⟩, hd⟩ := findLeftOverDirectives_isSome src.Input (n : Int) (by omega)
  have had : ∃ e4, absorbDirectives src.Input (n : Int) = some e4 := by
    unfold absorbDirectives; rw [hd]; exact ⟨_, rfl⟩
  obtain ⟨e4, he4⟩ := had
  have hres := absorbDirectives_result he4
  have he4b : (n : Int) ≤ e4 ∧ e4 + 1 ≤ len src.Input := by
    rcases hres with h | ⟨h, a, c, ha1, ha2, _⟩
    · rw [h, hlen]; omega
    · omega
  obtain ⟨whole, hw⟩ := slice_isSome (s := src.Input) (a := ob) (b := e4 + 1) hob0 (by omega)
    he4b.2
  obtain ⟨str, nb, la2, sa, htrim, _, hsa0, _, htl, _⟩ := trimNewLines_spec whole
  have hex : extractFieldDefContent fd = some (str, ob + nb, e4 - sa, la - nb) := by
    unfold extractFieldDefContent
    rw [hpos]
    simp only [hsrc]
    unfold extractFieldDefContentAt
    simp only [Option.bind_eq_bind, Option.pure_def, hcs, hce, hab, hnx, he4, hw, htrim,
      Option.some_bind]
  refine ⟨str, ob + nb, e4 - sa, la - nb, hex, ?_⟩
  rcases hres with h | ⟨_, a, c, ha1, ha2, hac, hc1, hc2, hc3⟩
  · -- no directive line follows: the slice ends with the newline of the line
    subst h
    obtain ⟨c, hc⟩ : ∃ c, src.Input[n - 1]? = some c :=
      ⟨_, List.getElem?_eq_getElem (by omega)⟩
    have hcn : c ≠ newline := by
      intro heq
      exact hnf (n - 1) (by omega) (by omega) (by rw [hc, heq])
    have hsa := trim_after_line src.Input whole ob n la2 sa c hob0 (by omega) hw hnl hc hcn htl
    by_cases hbl : c = space ∨ c = tab
    · rw [if_pos hbl] at hsa
      have hne : n - 1 ≠ m := by
        intro heq
        rw [heq, hm] at hc
        have : c = CloseParen := (Option.some.inj hc).symm
        rw [this] at hbl
        exact absurd hbl (by decide)
      refine ⟨by omega, Or.inr ⟨by omega, ?_⟩⟩
      rcases hbl with h | h
      · exact Or.inl (by rw [hc, h])
      · exact Or.inr (by rw [hc, h])
    · rw [if_neg hbl] at hsa
      exact ⟨by omega, Or.inl (by omega)⟩
  · -- directive lines follow: the span ends at or after the newline
    have hwl := slice_length hw
    obtain ⟨la3, sa3, htl3, hall⟩ := trimTrailingLoop_nonblank whole (whole.length + 1)
      (len whole - 1) 0 0 (by unfold len; omega) (by omega) (by unfold len; omega)
    rw [htl] at htl3
    simp only [Option.some.injEq, Prod.mk.injEq] at htl3
    have hbw : byteAt whole (a - ob) = some c := by
      rw [slice_byteAt hw (by omega) (by omega)]
      have : ob + (a - ob) = a := by omega
      rw [this]; exact hac
    have := hall (a - ob) c (by unfold len; omega) hbw hc1 hc2 hc3
    rw [← htl3.2] at this
    have hlw : len whole = e4 + 1 - ob := by unfold len; omega
    exact ⟨by omega, Or.inl (by omega)⟩

theorem extractFieldDefContent_covers_arguments_witness :
    ∃ c s e l,
      extractFieldDefContent
          (fieldAt "type Query \x7b\n  a(\n    x: Int\n  ): Int\n  b: Int\n\x7d\n" 15 16 2) =
          some (c, s, e, l) ∧
        ((31 : Nat) : Int) ≤ e ∧
        (((37 : Nat) : Int) - 1 ≤ e ∨
          (e = ((37 : Nat) : Int) - 2 ∧
            ((sourceOf "type Query \x7b\n  a(\n    x: Int\n  ): Int\n  b: Int\n\x7d\n").Input[37 - 1]? =
                some space ∨
              (sourceOf "type Query \x7b\n  a(\n    x: Int\n  ): Int\n  b: Int\n\x7d\n").Input[37 - 1]? =
                some tab))) :=
  extractFieldDefContent_covers_arguments
    (fieldAt "type Query \x7b\n  a(\n    x: Int\n  ): Int\n  b: Int\n\x7d\n" 15 16 2)
    ⟨15, 16, 2, some (sourceOf "type Query \x7b\n  a(\n    x: Int\n  ): Int\n  b: Int\n\x7d\n")⟩
    (sourceOf "type Query \x7b\n  a(\n    x: Int\n  ): Int\n  b: Int\n\x7d\n") 1 13 13 14 16 31 37
    rfl rfl (by decide) (by decide) (by decide) (by decide) (by decide) (by decide) (by decide)
    (by decide) (by decide) (by decide) (by decide)

theorem findLeftOverDirectivesLoop_skip (input : GoString) (start : Int) :
    ∀ (cnt fuel i : Nat) (spaces : Int), BlankBetween input i (i + cnt) →
      findLeftOverDirectivesLoop input start (fuel + cnt) (i : Int) spaces =
        findLeftOverDirectivesLoop input start fuel ((i + cnt : Nat) : Int) (spaces + cnt) := by
  intro cnt
  induction cnt with
  | zero => intro fuel i spaces _; simp
  | succ n ih =>
    intro fuel i spaces hb
    have hi := hb i (by omega) (le_refl _)
    obtain ⟨c, hc⟩ : ∃ c, input[i]? = some c := by
      rcases hi with h | h | h <;> exact ⟨_, h⟩
    have hilt : i < input.length := (List.getElem?_eq_some_iff.mp hc).1
    have hcb : c = space ∨ c = newline ∨ c = tab := by
      rw [hc] at hi
      rcases hi with h | h | h
      · exact Or.inl (Option.some.inj h)
      · exact Or.inr (Or.inl (Option.some.inj h))
      · exact Or.inr (Or.inr (Option.some.inj h))
    have hf : fuel + (n + 1) = (fuel + n) + 1 := by omega
    rw [hf, findLeftOverDirectivesLoop, if_pos (by unfold len; omega), byteAt_natCast, hc]
    simp only []
    rw [if_pos hcb]
    have := ih fuel (i + 1) (spaces + 1) (fun k hk1 hk2 => hb k (by omega) (by omega))
    have e1 : ((i : Int) + 1) = ((i + 1 : Nat) : Int) := by push_cast; rfl
    rw [e1, this]
    congr 1
    · congr 1; omega
    · push_cast; omega

theorem findLeftOverDirectivesLoop_at (input : GoString) (start : Int) (fuel a nl : Nat)
    (spaces : Int) (ha : input[a]? = some (Char.ofNat 64)) (hnl : FirstNewlineFrom input a nl) :
    findLeftOverDirectivesLoop input start (fuel + 1) (a : Int) spaces =
      findLeftOverDirectivesLoop input start fuel ((nl + 1 : Nat) : Int) 0 := by
  have halt : a < input.length := (List.getElem?_eq_some_iff.mp ha).1
  rw [findLeftOverDirectivesLoop, if_pos (by unfold len; omega), byteAt_natCast, ha]
  simp only []
  rw [if_neg (by decide), if_neg (by decide), findNextLineOffset_eq input a nl hnl]
  simp only []
  congr 1

theorem findLeftOverDirectivesLoop_stop (input : GoString) (start : Int) (fuel j : Nat)
    (spaces : Int) (c : Char) (hj : input[j]? = some c)
    (h1 : c ≠ space) (h2 : c ≠ newline) (h3 : c ≠ tab) (h4 : c ≠ Char.ofNat 64) :
    findLeftOverDirectivesLoop input start (fuel + 1) (j : Int) spaces =
      (slice input start ((j : Int) - spaces)).map (fun s => (s, (j : Int) - spaces - 1)) := by
  have hjlt : j < input.length := (List.getElem?_eq_some_iff.mp hj).1
  rw [findLeftOverDirectivesLoop, if_pos (by unfold len; omega), byteAt_natCast, hj]
  simp only []
  rw [if_neg (by intro h; rcases h with h | h | h; exact h1 h; exact h2 h; exact h3 h), if_pos h4]
  cases slice input start ((j : Int) - spaces) <;> rfl

/-- On a run of directive lines that ends with the newline at `m`,
`findLeftOverDirectives` returns the text up to and including that newline,
and `m` as the new end. -/
theorem findLeftOverDirectivesLoop_run (input : GoString) (start : Int) :
    ∀ (i m : Nat), DirectiveLines input i m → ∀ (fuel : Nat) (spaces : Int),
      input.length - i < fuel →
      findLeftOverDirectivesLoop input start fuel (i : Int) spaces =
        (slice input start ((m : Int) + 1)).map (fun s => (s, (m : Int))) := by
  intro i m h
  induction h with
  | last i a m j c hia hb ha hnl hmj hb2 hj h1 h2 h3 h4 =>
    intro fuel spaces hf
    have halt : a < input.length := (List.getElem?_eq_some_iff.mp ha).1
    have hjlt : j < input.length := (List.getElem?_eq_some_iff.mp hj).1
    have ham : a ≤ m := hnl.1
    obtain ⟨r, hr⟩ : ∃ r, fuel = (((r + 1) + (j - (m + 1))) + 1) + (a - i) :=
      ⟨fuel - (a - i) - 1 - (j - (m + 1)) - 1, by omega⟩
    have e1 : i + (a - i) = a := by omega
    have e2 : m + 1 + (j - (m + 1)) = j := by omega
    rw [hr, findLeftOverDirectivesLoop_skip input start (a - i) _ i spaces (by rw [e1]; exact hb),
      e1, findLeftOverDirectivesLoop_at input start _ a m _ ha hnl,
      findLeftOverDirectivesLoop_skip input start (j - (m + 1)) _ (m + 1) 0
        (by rw [e2]; exact hb2),
      e2, findLeftOverDirectivesLoop_stop input start r j _ c hj h1 h2 h3 h4]
    have e3 : (j : Int) - (0 + ((j - (m + 1) : Nat) : Int)) = (m : Int) + 1 := by omega
    rw [e3]
    congr 1
    funext s
    congr 1
    omega
  | more i a nl m hia hb ha hnl _ ih =>
    intro fuel spaces hf
    have halt : a < input.length := (List.getElem?_eq_some_iff.mp ha).1
    have hnlt : nl < input.length := (List.getElem?_eq_some_iff.mp hnl.2.1).1
    have ham : a ≤ nl := hnl.1
    obtain ⟨r, hr⟩ : ∃ r, fuel = (r + 1) + (a - i) := ⟨fuel - (a - i) - 1, by omega⟩
    have e1 : i + (a - i) = a := by omega
    rw [hr, findLeftOverDirectivesLoop_skip input start (a - i) _ i spaces (by rw [e1]; exact hb),
      e1, findLeftOverDirectivesLoop_at input start _ a nl _ ha hnl]
    exact ih r 0 (by omega)

theorem DirectiveLines_at {input : GoString} {i m : Nat} (h : DirectiveLines input i m) :
    i < m ∧ input[m]? = some newline ∧
      (∃ c, input[m - 1]? = some c ∧ c ≠ newline) ∧
      ∃ a, i ≤ a ∧ a < m ∧ input[a]? = some (Char.ofNat 64) := by
  induction h with
  | last i a m j c hia hb ha hnl hmj hb2 hj h1 h2 h3 h4 =>
    obtain ⟨ham, hm, hfirst⟩ := hnl
    have hne : a ≠ m := by
      intro heq; rw [heq, hm] at ha; exact absurd (Option.some.inj ha) (by decide)
    have hmlt : m < input.length := (List.getElem?_eq_some_iff.mp hm).1
    refine ⟨by omega, hm, ⟨input[m - 1], List.getElem?_eq_getElem (by omega), ?_⟩,
      a, hia, by omega, ha⟩
    intro heq
    exact hfirst (m - 1) (by omega) (by omega) (by rw [List.getElem?_eq_getElem (by omega), heq])
  | more i a nl m hia hb ha hnl _ ih =>
    obtain ⟨h1, h2, h3, b, hb1, hb2, hb3⟩ := ih
    exact ⟨by have := hnl.1; omega, h2, h3, b, by have := hnl.1; omega, hb2, hb3⟩

theorem absorbArguments_ge {input : GoString} {e1 e2 : Int}
    (h : absorbArguments input e1 = some e2) : e1 ≤ e2 := by
  unfold absorbArguments at h
  split at h
  · exact absurd h (by simp)
  · split at h
    · split at h
      · exact absurd h (by simp)
      · rename_i newEnd ok hcb
        simp only [Option.some.injEq] at h
        cases ok
        · simp at h; omega
        · simp at h
          have := ((findClosingBracketLoop_post _ _ _ _ _ _ _ _ _ _ _ hcb).2 rfl).1
          omega
    · simp only [Option.some.injEq] at h; omega

/-- C30, as stated, fails: the directive line `    @deprecated ` ends with a
space (at offset 37, before the newline at 38), and the span stops at offset
36: the last character of the directive line is left out. -/
theorem extractFieldDefContent_stops_before_directive_end :
    extractFieldDefContent
        (fieldAt "type Query \x7b\n  a: Int\n    @deprecated \n  b: Int\n\x7d\n" 15 16 2) =
        some ("  a: Int\n    @deprecated".toList, 13, 36, 1) ∧
      "type Query \x7b\n  a: Int\n    @deprecated \n  b: Int\n\x7d\n".toList[37]? = some space ∧
      "type Query \x7b\n  a: Int\n    @deprecated \n  b: Int\n\x7d\n".toList[38]? = some newline := by
  decide

/-- C30, amended: let the field's own line, as `extractFieldDefContent` finds
it (after the leading comment and the argument list), end with the newline at
`n`. When the text from `n` on holds one or more lines whose first non-blank
byte is `@`, the last of them ending with the newline at `m`, and then a first
non-blank byte that is not `@`, then `extractFieldDefContent` returns, and its
corrected end is `m - 1`, the last byte of the last directive line, or `m - 2`
when that byte is a space or a tab. -/
theorem extractFieldDefContent_covers_directives (fd : AstFieldDefinition) (pos : Position)
    (src : Source) (la ob ce end2 : Int) (n m : Nat)
    (hpos : fd.Position = some pos) (hsrc : pos.Src = some src)
    (h0 : 0 ≤ pos.Start) (h1 : pos.Start ≤ len src.Input)
    (hcs : findCommentStart src.Input pos.Start = some (la, ob))
    (hce : findCommentEnd src.Input ob = some ce)
    (hab : absorbArguments src.Input (ce + 1) = some end2)
    (hnx : findNextLineOffset src.Input end2 = some (n : Int))
    (hrun : DirectiveLines src.Input n m) :
    ∃ c s e l, extractFieldDefContent fd = some (c, s, e, l) ∧
      ((e = (m : Int) - 1 ∧ src.Input[m - 1]? ≠ some space ∧ src.Input[m - 1]? ≠ some tab) ∨
        (e = (m : Int) - 2 ∧ (src.Input[m - 1]? = some space ∨ src.Input[m - 1]? = some tab))) := by
  obtain ⟨hnm, hm, ⟨c, hc, hcn⟩, a, hna, ham, ha⟩ := DirectiveLines_at hrun
  have hmlt : m < src.Input.length := (List.getElem?_eq_some_iff.mp hm).1
  have hlen : len src.Input = src.Input.length := rfl
  obtain ⟨l', ob', hcs', hob0, _, _⟩ := findCommentStart_spec src.Input pos.Start h0 h1
  rw [hcs] at hcs'
  simp only [Option.some.injEq, Prod.mk.injEq] at hcs'
  rw [← hcs'.2] at hob0
  have hobn : ob ≤ n := by
    have h2 := findCommentEnd_ge hce
    have h3 := absorbArguments_ge hab
    obtain ⟨e, he, hcase⟩ := findNextLineOffset_spec src.Input end2 (by omega)
    rw [hnx] at he
    simp only [Option.some.injEq] at he
    rcases hcase with ⟨h, _⟩ | ⟨h, _⟩ <;> omega
  obtain ⟨dirs, hdirs⟩ := slice_isSome (s := src.Input) (a := (n : Int)) (b := (m : Int) + 1)
    (by omega) (by omega) (by omega)
  have hfl : findLeftOverDirectives src.Input (n : Int) = some (dirs, (m : Int)) := by
    unfold findLeftOverDirectives
    rw [findLeftOverDirectivesLoop_run src.Input (n : Int) n m hrun _ 0 (by omega), hdirs]
    rfl
  have hmem : Char.ofNat 64 ∈ dirs := by
    have := slice_getElem? hdirs (a - n) (by omega)
    have e : (n : Int) + ((a - n : Nat) : Int) = (a : Int) := by omega
    rw [e, byteAt_natCast, ha] at this
    exact List.mem_iff_getElem?.mpr ⟨_, this⟩
  have he4 : absorbDirectives src.Input (n : Int) = some (m : Int) := by
    unfold absorbDirectives
    rw [hfl]
    simp only []
    rw [if_pos (TrimSpace_ne_nil hmem (by decide))]
  obtain ⟨whole, hw⟩ := slice_isSome (s := src.Input) (a := ob) (b := (m : Int) + 1) hob0
    (by omega) (by omega)
  obtain ⟨str, nb, la2, sa, htrim, _, hsa0, _, htl, _⟩ := trimNewLines_spec whole
  have hex : extractFieldDefContent fd = some (str, ob + nb, (m : Int) - sa, la - nb) := by
    unfold extractFieldDefContent
    rw [hpos]
    simp only [hsrc]
    unfold extractFieldDefContentAt
    simp only [Option.bind_eq_bind, Option.pure_def, hcs, hce, hab, hnx, he4, hw, htrim,
      Option.some_bind]
  refine ⟨str, ob + nb, (m : Int) - sa, la - nb, hex, ?_⟩
  have hsa := trim_after_line src.Input whole ob m la2 sa c hob0 (by omega) hw hm hc hcn htl
  by_cases hbl : c = space ∨ c = tab
  · rw [if_pos hbl] at hsa
    right
    refine ⟨by omega, ?_⟩
    rcases hbl with h | h
    · exact Or.inl (by rw [hc, h])
    · exact Or.inr (by rw [hc, h])
  · rw [if_neg hbl] at hsa
    left
    refine ⟨by omega, ?_, ?_⟩
    · rw [hc]; intro h; exact hbl (Or.inl (Option.some.inj h))
    · rw [hc]; intro h; exact hbl (Or.inr (Option.some.inj h))

theorem extractFieldDefContent_covers_directives_witness :
    ∃ c s e l,
      extractFieldDefContent
          (fieldAt "type Query \x7b\n  a: Int\n    @deprecated\n    @auth(x: 1)\n  b: Int\n\x7d\n" 15 16 2) =
          some (c, s, e, l) ∧
        ((e = ((53 : Nat) : Int) - 1 ∧
            (sourceOf "type Query \x7b\n  a: Int\n    @deprecated\n    @auth(x: 1)\n  b: Int\n\x7d\n").Input[53 - 1]? ≠
              some space ∧
            (sourceOf "type Query \x7b\n  a: Int\n    @deprecated\n    @auth(x: 1)\n  b: Int\n\x7d\n").Input[53 - 1]? ≠
              some tab) ∨
          (e = ((53 : Nat) : Int) - 2 ∧
            ((sourceOf "type Query \x7b\n  a: Int\n    @deprecated\n    @auth(x: 1)\n  b: Int\n\x7d\n").Input[53 - 1]? =
                some space ∨
              (sourceOf "type Query \x7b\n  a: Int\n    @deprecated\n    @auth(x: 1)\n  b: Int\n\x7d\n").Input[53 - 1]? =
                some tab))) :=
  extractFieldDefContent_covers_directives
    (fieldAt "type Query \x7b\n  a: Int\n    @deprecated\n    @auth(x: 1)\n  b: Int\n\x7d\n" 15 16 2)
    ⟨15, 16, 2,
      some (sourceOf "type Query \x7b\n  a: Int\n    @deprecated\n    @auth(x: 1)\n  b: Int\n\x7d\n")⟩
    (sourceOf "type Query \x7b\n  a: Int\n    @deprecated\n    @auth(x: 1)\n  b: Int\n\x7d\n")
    1 13 13 14 21 53 rfl rfl (by decide) (by decide) (by decide) (by decide) (by decide)
    (by decide)
    (DirectiveLines.more 21 26 37 53 (by decide) (by decide) (by decide) (by decide)
      (DirectiveLines.last 38 42 53 56 'b' (by decide) (by decide) (by decide) (by decide)
        (by decide) (by decide) (by decide) (by decide) (by decide) (by decide) (by decide)))

/-! ### `MutateConfig`: what becomes of `genCfg.Sources` -/

theorem wrapSourceFields_sources (typ : DefObjectType) (fieldTyp : FieldDefType) :
    ∀ (l : List Nat) (s s' : TypesSplitterPlugin) (r : List Nat),
      wrapSourceFields typ fieldTyp s l = some (s', r) →
      s'.genCfgSources = s.genCfgSources := by
  intro l
  induction l with
  | nil =>
    intro s s' r h
    simp only [wrapSourceFields, Option.some.injEq, Prod.mk.injEq] at h
    rw [← h.1]
  | cons f rest ih =>
    intro s s' r h
    rw [wrapSourceFields] at h
    split at h
    · cases h
    · split at h
      · exact ih _ _ _ h
      · split at h
        · split at h
          · cases h
          · rename_i h1
            simp only [Option.some.injEq, Prod.mk.injEq] at h
            rw [← h.1]
            have := ih _ _ _ h1
            exact this
        · cases h

theorem getSourceDefsLoop_sources (src : Nat) (fieldTyp : FieldDefType) :
    ∀ (l : List (Option Nat)) (s s' : TypesSplitterPlugin) (typ : DefObjectType)
      (defs fields : List Nat),
      getSourceDefsLoop src fieldTyp s typ l = some (s', defs, fields) →
      s'.genCfgSources = s.genCfgSources := by
  intro l
  induction l with
  | nil =>
    intro s s' typ defs fields h
    simp only [getSourceDefsLoop, Option.some.injEq, Prod.mk.injEq] at h
    rw [← h.1]
  | cons d rest ih =>
    intro s s' typ defs fields h
    cases d with
    | none =>
      rw [getSourceDefsLoop] at h
      exact ih _ _ _ _ _ h
    | some d =>
      rw [getSourceDefsLoop] at h
      split at h
      · cases h
      · split at h
        · exact ih _ _ _ _ _ h
        · split at h
          · exact ih _ _ _ _ _ h
          · split at h
            · exact ih _ _ _ _ _ h
            · simp only at h
              split at h
              · split at h
                · cases h
                · rename_i hw
                  split at h
                  · cases h
                  · split at h
                    · cases h
                    · rename_i hrec
                      simp only [Option.some.injEq, Prod.mk.injEq] at h
                      rw [← h.1]
                      have e1 := ih _ _ _ _ _ hrec
                      have e2 := wrapSourceFields_sources _ _ _ _ _ _ hw
                      simp only at e1 e2
                      rw [e1, e2]
              · cases h

theorem getSourceDefs_sources {s s' : TypesSplitterPlugin} {src : Nat}
    {srcDefs : List (Option Nat)} {typ : DefObjectType} {defs fields : List Nat}
    (h : getSourceDefs s src srcDefs typ = some (s', defs, fields)) :
    s'.genCfgSources = s.genCfgSources := by
  unfold getSourceDefs at h
  split at h
  · cases h
  · exact getSourceDefsLoop_sources _ _ _ _ _ _ _ _ h

theorem initSource_sources {types : List Nat} {s s' : TypesSplitterPlugin} {cfgSource : Nat}
    (h : initSource types s cfgSource = some s') : s'.genCfgSources = s.genCfgSources := by
  unfold initSource at h
  split at h
  · cases h
  · simp only at h
    split at h
    · cases h
    · rename_i h1
      split at h
      · cases h
      · split at h
        · cases h
        · rename_i h2
          split at h
          · cases h
          · rename_i h3
            split at h
            · cases h
            · rename_i h4
              simp only [Option.some.injEq] at h
              rw [← h]
              have e1 := getSourceDefs_sources h1
              have e2 := getSourceDefs_sources h2
              have e3 := getSourceDefs_sources h3
              have e4 := getSourceDefs_sources h4
              simp only [recordSourceDefs] at e2 e3 e4 ⊢
              rw [e4, e3, e2, e1]

theorem initSourcesLoop_sources (mapToList : Nat → List Nat) :
    ∀ (l : List Nat) (s s' : TypesSplitterPlugin),
      initSourcesLoop mapToList s l = some s' → s'.genCfgSources = s.genCfgSources := by
  intro l
  induction l with
  | nil =>
    intro s s' h
    simp only [initSourcesLoop, Option.some.injEq] at h
    rw [← h]
  | cons a rest ih =>
    intro s s' h
    rw [initSourcesLoop] at h
    split at h
    · cases h
    · rename_i h1
      rw [ih _ _ h, initSource_sources h1]

theorem init_sources {mapToList : Nat → List Nat} {s s' : TypesSplitterPlugin}
    (h : init mapToList s = some s') : s'.genCfgSources = s.genCfgSources := by
  unfold init initSources at h
  have := initSourcesLoop_sources _ _ _ _ h
  exact this

theorem addFieldToNewSource_sources {generated : GoString} {s s' : TypesSplitterPlugin}
    {name : GoString} {typ : SourceType} {field : Nat}
    (h : addFieldToNewSource generated s name typ field = some s') :
    s'.genCfgSources = s.genCfgSources := by
  unfold addFieldToNewSource at h
  cases hl : s.newSources.lookup name <;> rw [hl] at h <;> simp only at h <;>
    split at h <;> first
      | (simp only [Option.some.injEq] at h; rw [← h])
      | cases h

theorem addTypeToNewSource_sources {generated : GoString} {s s' : TypesSplitterPlugin}
    {name : GoString} {definition : Nat}
    (h : addTypeToNewSource generated s name definition = some s') :
    s'.genCfgSources = s.genCfgSources := by
  unfold addTypeToNewSource at h
  cases hl : s.newSources.lookup name <;> rw [hl] at h <;> simp only at h <;>
    split at h <;> first
      | (simp only [Option.some.injEq] at h; rw [← h])
      | cases h

theorem dropEmptySource_sources {s s' : TypesSplitterPlugin} {name : GoString} {r : Bool}
    {e : Option MoveError} (h : dropEmptySource s name = some (s', r, e)) :
    s'.genCfgSources.Sublist s.genCfgSources := by
  rcases dropEmptySource_eq h with ⟨_, hs, _, _⟩ | ⟨_, hrem, _⟩
  · rw [hs]
  · rw [removeSource_eq _ _ _ _ hrem]
    exact List.eraseP_sublist _

theorem moveQueryFieldLoop_sources (f : Nat) :
    ∀ (l : List Nat) (s s' : TypesSplitterPlugin) (r : Bool) (e : Option MoveError),
      moveQueryFieldLoop s f l = some (s', r, e) →
      s'.genCfgSources.Sublist s.genCfgSources := by
  intro l
  induction l with
  | nil =>
    intro s s' r e h
    simp only [moveQueryFieldLoop, Option.some.injEq, Prod.mk.injEq] at h
    rw [← h.1]
  | cons q rest ih =>
    intro s s' r e h
    rw [moveQueryFieldLoop] at h
    split at h
    · cases h
    · split at h
      · exact ih _ _ _ _ h
      · split at h
        · cases h
        · split at h
          · cases h
          · split at h
            · split at h
              · cases h
              · split at h
                · cases h
                · split at h
                  · cases h
                  · rename_i hex
                    have := dropEmptySource_sources h
                    rw [(exciseQueryField_frame hex).1] at this
                    exact this
            · exact ih _ _ _ _ h

theorem moveQueryField_sources {s s' : TypesSplitterPlugin} {d : Option Nat} {f : Nat}
    {r : Bool} {e : Option MoveError} (h : moveQueryField s d f = some (s', r, e)) :
    s'.genCfgSources.Sublist s.genCfgSources := by
  unfold moveQueryField at h
  split at h
  · cases h
  · split at h
    · cases h
    · exact moveQueryFieldLoop_sources _ _ _ _ _ _ h

theorem exciseType_sources {s s' : TypesSplitterPlugin} {t a : Nat}
    (h : exciseType s t a = some s') : s'.genCfgSources = s.genCfgSources := by
  obtain ⟨src, moved, types, input, offset, offsetLine, s2, moved2, node, p, _, _, _, _, hsh, _,
    _, _, hset⟩ := exciseType_eq h
  have h1 := congrArg TypesSplitterPlugin.genCfgSources (shiftTypes_frame _ _ _ _ _ hsh).1
  have h2 := congrArg TypesSplitterPlugin.genCfgSources (setFieldSources_frame _ _ _ _ hset).1
  simp only at h1 h2
  rw [h2, h1]

theorem moveTypeLoop_sources (t : Nat) :
    ∀ (l : List Nat) (s s' : TypesSplitterPlugin),
      moveTypeLoop s t l = some s' → s'.genCfgSources = s.genCfgSources := by
  intro l
  induction l with
  | nil =>
    intro s s' h
    simp only [moveTypeLoop, Option.some.injEq] at h
    rw [← h]
  | cons c rest ih =>
    intro s s' h
    rw [moveTypeLoop] at h
    split at h
    · split at h
      · split at h
        · cases h
        · split at h
          · cases h
          · exact exciseType_sources h
      · exact ih _ _ h
    · cases h

theorem moveType_sources {s s' : TypesSplitterPlugin} {w : Option Nat} {t : Nat}
    (h : moveType s w t = some s') : s'.genCfgSources = s.genCfgSources := by
  unfold moveType at h
  split at h
  · cases h
  · split at h
    · cases h
    · exact moveTypeLoop_sources _ _ _ _ h

theorem mutateQueryField_sources {R : Type} {rt : Runtime R} {cfg : SplitterConfig R}
    {s s' : TypesSplitterPlugin} {sourceName : GoString} {field : Nat} {e : Option MutateError}
    (h : mutateQueryField rt cfg s sourceName field = some (s', e)) :
    s'.genCfgSources.Sublist s.genCfgSources := by
  unfold mutateQueryField at h
  split at h
  · cases h
  · split at h
    · cases h
    · split at h
      · simp only [Option.some.injEq, Prod.mk.injEq] at h; rw [← h.1]
      · split at h
        · simp only [Option.some.injEq, Prod.mk.injEq] at h; rw [← h.1]
        · simp only at h
          split at h
          · simp only [Option.some.injEq, Prod.mk.injEq] at h; rw [← h.1]
          · split at h
            · simp only [Option.some.injEq, Prod.mk.injEq] at h; rw [← h.1]
            · split at h
              · cases h
              · rename_i hadd
                split at h
                · cases h
                · rename_i hmv
                  simp only [Option.some.injEq, Prod.mk.injEq] at h
                  rw [← h.1, ← addFieldToNewSource_sources hadd]
                  exact moveQueryField_sources hmv
                · rename_i hmv
                  simp only [Option.some.injEq, Prod.mk.injEq] at h
                  rw [← h.1, ← addFieldToNewSource_sources hadd]
                  exact moveQueryField_sources hmv

theorem mutateQueryFields_sources {R : Type} (rt : Runtime R) (cfg : SplitterConfig R)
    (sourceName : GoString) :
    ∀ (l : List Nat) (s s' : TypesSplitterPlugin) (e : Option MutateError),
      mutateQueryFields rt cfg sourceName s l = some (s', e) →
      s'.genCfgSources.Sublist s.genCfgSources := by
  intro l
  induction l with
  | nil =>
    intro s s' e h
    simp only [mutateQueryFields, Option.some.injEq, Prod.mk.injEq] at h
    rw [← h.1]
  | cons f rest ih =>
    intro s s' e h
    rw [mutateQueryFields] at h
    split at h
    · cases h
    · rename_i h1
      simp only [Option.some.injEq, Prod.mk.injEq] at h
      rw [← h.1]
      exact mutateQueryField_sources h1
    · rename_i h1
      exact (ih _ _ _ h).trans (mutateQueryField_sources h1)

theorem mutateQueryTypesLoop_sources {R : Type} (rt : Runtime R) (cfg : SplitterConfig R) :
    ∀ (l : List GoString) (s s' : TypesSplitterPlugin) (e : Option MutateError),
      mutateQueryTypesLoop rt cfg s l = some (s', e) →
      s'.genCfgSources.Sublist s.genCfgSources := by
  intro l
  induction l with
  | nil =>
    intro s s' e h
    simp only [mutateQueryTypesLoop, Option.some.injEq, Prod.mk.injEq] at h
    rw [← h.1]
  | cons k rest ih =>
    intro s s' e h
    rw [mutateQueryTypesLoop] at h
    split at h
    · exact ih _ _ _ h
    · split at h
      · cases h
      · rename_i h1
        simp only [Option.some.injEq, Prod.mk.injEq] at h
        rw [← h.1]
        exact mutateQueryFields_sources _ _ _ _ _ _ _ h1
      · rename_i h1
        exact (ih _ _ _ h).trans (mutateQueryFields_sources _ _ _ _ _ _ _ h1)

theorem mutateObjectType_sources {R : Type} {rt : Runtime R} {cfg : SplitterConfig R}
    {s s' : TypesSplitterPlugin} {sourceName : GoString} {definition : Nat}
    {e : Option MutateError}
    (h : mutateObjectType rt cfg s sourceName definition = some (s', e)) :
    s'.genCfgSources = s.genCfgSources := by
  unfold mutateObjectType at h
  split at h
  · split at h
    · simp only [Option.some.injEq, Prod.mk.injEq] at h; rw [← h.1]
    · split at h
      · simp only [Option.some.injEq, Prod.mk.injEq] at h; rw [← h.1]
      · simp only at h
        split at h
        · simp only [Option.some.injEq, Prod.mk.injEq] at h; rw [← h.1]
        · split at h
          · simp only [Option.some.injEq, Prod.mk.injEq] at h; rw [← h.1]
          · split at h
            · cases h
            · rename_i hadd
              split at h
              · cases h
              · rename_i hmv
                simp only [Option.some.injEq, Prod.mk.injEq] at h
                rw [← h.1, moveType_sources hmv, addTypeToNewSource_sources hadd]
  · cases h

theorem mutateObjectTypesOf_sources {R : Type} (rt : Runtime R) (cfg : SplitterConfig R)
    (sourceName : GoString) :
    ∀ (l : List Nat) (s s' : TypesSplitterPlugin) (e : Option MutateError),
      mutateObjectTypesOf rt cfg sourceName s l = some (s', e) →
      s'.genCfgSources = s.genCfgSources := by
  intro l
  induction l with
  | nil =>
    intro s s' e h
    simp only [mutateObjectTypesOf, Option.some.injEq, Prod.mk.injEq] at h
    rw [← h.1]
  | cons f rest ih =>
    intro s s' e h
    rw [mutateObjectTypesOf] at h
    split at h
    · cases h
    · rename_i h1
      simp only [Option.some.injEq, Prod.mk.injEq] at h
      rw [← h.1]
      exact mutateObjectType_sources h1
    · rename_i h1
      rw [ih _ _ _ h, mutateObjectType_sources h1]

theorem mutateObjectTypesLoop_sources {R : Type} (rt : Runtime R) (cfg : SplitterConfig R) :
    ∀ (l : List GoString) (s s' : TypesSplitterPlugin) (e : Option MutateError),
      mutateObjectTypesLoop rt cfg s l = some (s', e) →
      s'.genCfgSources = s.genCfgSources := by
  intro l
  induction l with
  | nil =>
    intro s s' e h
    simp only [mutateObjectTypesLoop, Option.some.injEq, Prod.mk.injEq] at h
    rw [← h.1]
  | cons k rest ih =>
    intro s s' e h
    rw [mutateObjectTypesLoop] at h
    split at h
    · exact ih _ _ _ h
    · split at h
      · cases h
      · rename_i h1
        simp only [Option.some.injEq, Prod.mk.injEq] at h
        rw [← h.1]
        exact mutateObjectTypesOf_sources _ _ _ _ _ _ _ h1
      · rename_i h1
        rw [ih _ _ _ h, mutateObjectTypesOf_sources _ _ _ _ _ _ _ h1]

theorem mutatePasses_sources {R : Type} {rt : Runtime R} {cfg : SplitterConfig R}
    {s s' : TypesSplitterPlugin} {e : Option MutateError}
    (h : mutatePasses rt cfg s = some (s', e)) :
    s'.genCfgSources.Sublist s.genCfgSources := by
  unfold mutatePasses at h
  have hq : ∀ (t : TypesSplitterPlugin) (e1 : Option MutateError),
      (if cfg.QueryConfig.length > 0 then mutateQueryTypes rt cfg s else some (s, none)) =
        some (t, e1) → t.genCfgSources.Sublist s.genCfgSources := by
    intro t e1 h1
    split at h1
    · exact mutateQueryTypesLoop_sources _ _ _ _ _ _ h1
    · simp only [Option.some.injEq, Prod.mk.injEq] at h1; rw [← h1.1]
  split at h
  · cases h
  · rename_i h1
    simp only [Option.some.injEq, Prod.mk.injEq] at h
    rw [← h.1]
    exact hq _ _ h1
  · rename_i h1
    split at h
    · rw [mutateObjectTypesLoop_sources _ _ _ _ _ _ h]
      exact hq _ _ h1
    · simp only [Option.some.injEq, Prod.mk.injEq] at h
      rw [← h.1]
      exact hq _ _ h1

theorem sourceNameKey_set_input (s : TypesSplitterPlugin) (a : Nat) (buffer : Source)
    (text : GoString) (hb : s.astSources[a]? = some buffer) (b : Nat) :
    sourceNameKey { s with astSources := s.astSources.set a { buffer with Input := text } } b =
      sourceNameKey s b := by
  unfold sourceNameKey
  simp only
  by_cases hab : a = b
  · subst hab
    rw [getElem?_set_self_of_some hb, hb]
  · rw [List.getElem?_set_ne hab]

theorem GenerateInput_frame {render : Renderer} {s s' : TypesSplitterPlugin} {w : Nat}
    {e : Option MutateError} (h : GenerateInput render s w = some (s', e)) :
    s'.genCfgSources = s.genCfgSources ∧ s'.sourceCells = s.sourceCells ∧
      s'.newSources = s.newSources ∧
      ∀ a : Nat, sourceNameKey s' a = sourceNameKey s a := by
  unfold GenerateInput at h
  split at h
  · cases h
  · split at h
    · simp only [Option.some.injEq, Prod.mk.injEq] at h
      rw [← h.1]; exact ⟨rfl, rfl, rfl, fun _ => rfl⟩
    · split at h
      · simp only [Option.some.injEq, Prod.mk.injEq] at h
        rw [← h.1]; exact ⟨rfl, rfl, rfl, fun _ => rfl⟩
      · split at h
        · cases h
        · rename_i cell _ _ _ buffer hb
          simp only [Option.some.injEq, Prod.mk.injEq] at h
          rw [← h.1]
          exact ⟨rfl, rfl, rfl, fun a => sourceNameKey_set_input s _ buffer _ hb a⟩

theorem appendNewSources_eq (render : Renderer) :
    ∀ (ws : List Nat) (s s' : TypesSplitterPlugin),
      appendNewSources render s ws = some (s', none) →
      s'.genCfgSources =
          s.genCfgSources ++ ws.filterMap (fun w => (s.sourceCells[w]?).map (fun c => c.Source)) ∧
        s'.sourceCells = s.sourceCells ∧ s'.newSources = s.newSources ∧
        ∀ a : Nat, sourceNameKey s' a = sourceNameKey s a := by
  intro ws
  induction ws with
  | nil =>
    intro s s' h
    simp only [appendNewSources, Option.some.injEq, Prod.mk.injEq, and_true] at h
    rw [← h]
    simp
  | cons w rest ih =>
    intro s s' h
    rw [appendNewSources] at h
    split at h
    · cases h
    · cases h
    · rename_i s1 hg
      obtain ⟨g1, g2, g3, g4⟩ := GenerateInput_frame hg
      split at h
      · cases h
      · rename_i cell hc
        split at h
        · cases h
        · rename_i buffer hb
          obtain ⟨i1, i2, i3, i4⟩ := ih _ _ h
          simp only at i1 i2 i3
          rw [g2] at hc i2
          rw [g3] at i3
          refine ⟨?_, i2, i3, fun a => ?_⟩
          · rw [i1, g1, g2]
            simp only [List.filterMap_cons, hc, Option.map_some', List.append_assoc,
              List.singleton_append]
          · rw [i4 a, ← g4 a]
            exact sourceNameKey_set_input s1 _ buffer _ hb a

theorem stringLt_asymm : ∀ (a b : GoString), stringLt a b = true → stringLt b a = false := by
  intro a
  induction a with
  | nil =>
    intro b _
    cases b <;> rfl
  | cons x xs ih =>
    intro b h
    cases b with
    | nil => simp [stringLt] at h
    | cons y ys =>
      simp only [stringLt, Bool.or_eq_true, decide_eq_true_eq, Bool.and_eq_true] at h
      simp only [stringLt, Bool.or_eq_false_iff, decide_eq_false_iff_not, Bool.and_eq_false_imp,
        decide_eq_true_eq]
      rcases h with h | ⟨h1, h2⟩
      · refine ⟨by omega, fun heq => ?_⟩
        rw [heq] at h; omega
      · refine ⟨by rw [h1]; omega, fun _ => ih _ h2⟩

theorem stringLt_cotrans : ∀ (c a b : GoString), stringLt c a = true →
    stringLt b a = true ∨ stringLt c b = true := by
  intro c
  induction c with
  | nil =>
    intro a b h
    cases a with
    | nil => simp [stringLt] at h
    | cons x xs =>
      cases b with
      | nil => left; rfl
      | cons y ys => right; rfl
  | cons z zs ih =>
    intro a b h
    cases a with
    | nil => simp [stringLt] at h
    | cons x xs =>
      cases b with
      | nil => left; rfl
      | cons y ys =>
        simp only [stringLt, Bool.or_eq_true, decide_eq_true_eq, Bool.and_eq_true] at h ⊢
        rcases h with h | ⟨h1, h2⟩
        · by_cases hyx : y.toNat < x.toNat
          · exact Or.inl (Or.inl hyx)
          · exact Or.inr (Or.inl (by omega))
        · subst h1
          by_cases hyz : y.toNat < z.toNat
          · exact Or.inl (Or.inl hyz)
          · by_cases hzy : z.toNat < y.toNat
            · exact Or.inr (Or.inl hzy)
            · have hyz2 : y = z := Char.ext (UInt32.ext (show y.val.toNat = z.val.toNat by
                have e1 : y.toNat = y.val.toNat := rfl
                have e2 : z.toNat = z.val.toNat := rfl
                omega))
              subst hyz2
              rcases ih _ ys h2 with h3 | h3
              · exact Or.inl (Or.inr ⟨rfl, h3⟩)
              · exact Or.inr (Or.inr ⟨rfl, h3⟩)

theorem sortByName_sorted (s : TypesSplitterPlugin) (l : List Nat) :
    (sortByName s l).Sorted
      (fun a b => stringLt (sourceNameKey s b) (sourceNameKey s a) = false) := by
  haveI : IsTotal Nat (fun a b => stringLt (sourceNameKey s b) (sourceNameKey s a) = false) :=
    ⟨fun a b => by
      by_cases h : stringLt (sourceNameKey s b) (sourceNameKey s a) = true
      · exact Or.inr (stringLt_asymm _ _ h)
      · exact Or.inl (by simpa using h)⟩
  haveI : IsTrans Nat (fun a b => stringLt (sourceNameKey s b) (sourceNameKey s a) = false) :=
    ⟨fun a b c hab hbc => by
      by_contra hca
      have hca' : stringLt (sourceNameKey s c) (sourceNameKey s a) = true := by simpa using hca
      rcases stringLt_cotrans _ _ (sourceNameKey s b) hca' with h | h
      · rw [hab] at h; cases h
      · rw [hbc] at h; cases h⟩
  exact List.sorted_insertionSort _ l

theorem sortByName_perm (s : TypesSplitterPlugin) (l : List Nat) : (sortByName s l).Perm l :=
  List.perm_insertionSort _ l

/-- The run of `MutateConfig` on `parsedQT`: the buffers it returns. -/
theorem MutateConfig_parsedQT :
    outputBuffers (MutateConfig (sampleRuntime [0, 1]) routeQueryA parsedQT) =
      some [("q.schema.graphql".toList, "extend type Query \x7b\n  a: Int\n\x7d\n".toList),
        ("schema.graphql".toList,
          "type Query \x7b\n  b: Int\n\x7d\n\ntype T \x7b\n  x: Int\n\x7d\n".toList)] := by
  decide

/-! ### Claims on `getSourceDefs`, `initSources` and the passes of `MutateConfig` -/

/-- The sample plugins are what `initSources` makes of their parse. -/
theorem sample_plugins_initialised :
    initSources (fun _ => [0, 1])
        (parsed pluginQT.astSources pluginQT.astFields pluginQT.astDefinitions [0] (some 0)
          none none) = some pluginQT ∧
      initSources (fun _ => [0])
        (parsed pluginBlank.astSources pluginBlank.astFields pluginBlank.astDefinitions [0]
          (some 0) none none) = some pluginBlank ∧
      initSources (fun _ => [1, 0])
        (parsed pluginQM.astSources pluginQM.astFields pluginQM.astDefinitions [0] (some 0)
          (some 1) none) = some pluginQM ∧
      initSources (fun _ => [0, 1, 2])
        (parsed pluginABC.astSources pluginABC.astFields pluginABC.astDefinitions [0] none
          none none) = some pluginABC := by
  decide

/-- C26, as stated, fails: in the buffer of `parsedQIA` the declaration
`type A` (declaration 2, of kind `OBJECT`) is tagged `DefInputObject` when
`getSourceDefs` processes it after `input I` (declaration 1), and
`DefTypeObject` when it processes it before. -/
theorem getSourceDefs_tag_depends_on_order :
    (getSourceDefs wrappedQIA 0 [some 1, some 2] .DefTypeObject).map
        (fun r => r.2.1.map (fun d => (r.1.definitions[d]?).map (fun c => (c.Definition, c.typ)))) =
      some [some (1, .DefInputObject), some (2, .DefInputObject)] ∧
    (getSourceDefs wrappedQIA 0 [some 2, some 1] .DefTypeObject).map
        (fun r => r.2.1.map (fun d => (r.1.definitions[d]?).map (fun c => (c.Definition, c.typ)))) =
      some [some (2, .DefTypeObject), some (1, .DefInputObject)] ∧
    (wrappedQIA.astDefinitions[2]?).map (fun n => (n.Kind, n.Name)) =
      some ("OBJECT".toList, "A".toList) := by
  decide

/-- C22, as stated, fails: with the routing of type `A` to the prefix `a`, the
run that enumerates the type map as `Query, I, A` leaves the one buffer as it
was, and the run that enumerates it as `Query, A, I` moves `type A` to the new
buffer `a.graphql`. -/
theorem MutateConfig_depends_on_map_order :
    (outputBuffers (MutateConfig (sampleRuntime [0, 1, 2]) routeA parsedQIA)) =
      some [("schema.graphql".toList,
        ("type Query \x7b\n  q: Int\n\x7d\n\ninput I \x7b\n  x: Int\n\x7d\n\n" ++
          "type A \x7b\n  y: Int\n\x7d\n").toList)] ∧
    (outputBuffers (MutateConfig (sampleRuntime [0, 2, 1]) routeA parsedQIA)).map
        (fun l => l.map (fun b => b.1)) =
      some ["a.graphql".toList, "schema.graphql".toList] ∧
    (outputBuffers (MutateConfig (sampleRuntime [0, 2, 1]) routeA parsedQIA)).map
        (fun l => l.lookup "schema.graphql".toList) =
      some (some "type Query \x7b\n  q: Int\n\x7d\n\ninput I \x7b\n  x: Int\n\x7d\n".toList) := by
  decide

/-- C23, as stated, fails: in the buffer of `pluginQM` the field `m` of
`Mutation` is the field that follows the field `a` of `Query`, and moving `a`
cuts the bytes from 13 up to 41, the start of `m`: the content of `a`, the
closing brace of `Query` and the header of `Mutation`. -/
theorem moveQueryField_cuts_into_next_declaration :
    (pluginQMReady.astSources[0]?).map (fun b => b.Input) =
      some "type Query \x7b\n  a: Int\n\x7d\n\ntype Mutation \x7b\n  m: Int\n\x7d\n".toList ∧
    (pluginQMReady.fieldDefinitions[0]?).map
        (fun c => (c.ActualPosition.Start, c.ActualPosition.End)) = some (13, 20) ∧
    FieldDefinitionsPosAfter pluginQMReady 20 [0, 1] = some [1] ∧
    (pluginQMReady.fieldDefinitions[1]?).map (fun c => c.ActualPosition.Start) = some 41 ∧
    slice "type Query \x7b\n  a: Int\n\x7d\n\ntype Mutation \x7b\n  m: Int\n\x7d\n".toList 13 41 =
      some "  a: Int\n\x7d\n\ntype Mutation \x7b\n".toList ∧
    (pluginQMFirst.bind (fun r => r.1.astSources[0]?)).map (fun b => b.Input) =
      some "type Query \x7b\n  m: Int\n\x7d\n".toList := by
  decide

/-- C24, as stated, fails: the buffer of `pluginEQ` holds `enum E` and
`type Query` with the one field `a`. Moving `a` drops the buffer from
`genCfg.Sources` while `E` is still recorded for it and still points to it,
and the run of `MutateConfig` returns the new buffer only. -/
theorem moveQueryField_drops_buffer_with_enum :
    pluginEQMoved.map (fun r => (r.2.1, r.2.2, r.1.genCfgSources)) = some (true, none, []) ∧
    pluginEQMoved.map (fun r => r.1.sourcesDefs.lookup "schema.graphql".toList) =
      some (some [0, 1]) ∧
    pluginEQMoved.bind (fun r => (r.1.definitions[0]?).map (fun c => c.Definition)) = some 0 ∧
    pluginEQMoved.bind (fun r => (r.1.astDefinitions[0]?).map
        (fun n => (n.Kind, n.Name, n.Position.map (fun p => p.Src)))) =
      some ("ENUM".toList, "E".toList, some (some 0)) ∧
    pluginEQMoved.bind (fun r => r.1.astSources[0]?) =
      some { Name := "schema.graphql".toList,
             Input := "enum E \x7b\n  X\n\x7d\n\ntype Query \x7b\n\x7d\n".toList } ∧
    (outputBuffers (MutateConfig (sampleRuntime [0, 1]) routeQueryA parsedEQ)).map
        (fun l => l.map (fun b => b.1)) = some ["q.schema.graphql".toList] := by
  decide

/-- C25, as stated, fails: the buffer `schema.graphql` of `parsedTQ` declares
`type T` and `type Query` with the field `a`, and `T` gets its one field from
an extension in the second buffer. The first field recorded for
`schema.graphql` is that object field. When `a` is moved the buffer is
dropped, and `mutateQueryTypes` returns the error `unknown field type` when
the second buffer has the name of the new one, and panics otherwise. -/
theorem mutateQueryTypes_returns_unknown_field_type :
    (init (fun _ => [0, 1]) (parsedTQ "q.schema.graphql")).bind
        (fun s => ((s.sourcesFields.lookup "schema.graphql".toList).bind (fun l => l.head?)).bind
          (fun f => (s.fieldDefinitions[f]?).map (fun c => c.typ))) =
      some .DefObjectField ∧
    ((init (fun _ => [0, 1]) (parsedTQ "q.schema.graphql")).bind
        (fun s => mutateQueryTypes (sampleRuntime [0, 1]) routeQueryA s)).map (fun r => r.2) =
      some (some (.move (.unknownFieldType .DefObjectField))) ∧
    (init (fun _ => [0, 1]) (parsedTQ "other.graphql")).bind
        (fun s => mutateQueryTypes (sampleRuntime [0, 1]) routeQueryA s) = none ∧
    (init (fun _ => [0, 1]) (parsedTQ "other.graphql")).isSome = true := by
  decide

/-! ### Claims on `trimNewLines` and on what `removeExtraLines` deletes -/

theorem trimNewLines_eq {w str : GoString} {nb la sa : Int}
    (h : trimNewLines w = some (str, nb, la, sa)) :
    trimLeadingLoop w (w.length + 1) 0 = some nb ∧
      trimTrailingLoop w (w.length + 1) (len w - 1) 0 0 = some (la, sa) ∧
      slice w nb (len w - sa) = some str := by
  unfold trimNewLines at h
  split at h
  · cases h
  · rename_i lb hlb
    split at h
    · cases h
    · rename_i la' sa' hts
      split at h
      · cases h
      · rename_i s hs
        simp only [Option.some.injEq, Prod.mk.injEq] at h
        obtain ⟨h1, h2, h3, h4⟩ := h
        subst h1 h2 h3 h4
        exact ⟨hlb, hts, hs⟩

/-- What the first loop of `trimNewLines` leaves in `linesBefore`: the offset
of the first byte that is not a newline, or zero when there is none. -/
theorem trimLeadingLoop_first (w : GoString) :
    ∀ (fuel : Nat) (i : Int), 0 ≤ i → len w - i < fuel → 0 < fuel →
      (∀ k, 0 ≤ k → k < i → byteAt w k = some newline) →
      ∃ nb, trimLeadingLoop w fuel i = some nb ∧
        ((nb = 0 ∧ ∀ k, 0 ≤ k → k < len w → byteAt w k = some newline) ∨
          (i ≤ nb ∧ nb < len w ∧ (∃ c, byteAt w nb = some c ∧ c ≠ newline) ∧
            ∀ k, 0 ≤ k → k < nb → byteAt w k = some newline)) := by
  intro fuel
  induction fuel with
  | zero => intro i _ _ h; omega
  | succ n ih =>
    intro i h0 h1 _ hall
    rw [trimLeadingLoop]
    by_cases hi : i < len w
    · rw [if_pos hi]
      obtain ⟨c, hc⟩ := byteAt_isSome h0 hi
      rw [hc]
      simp only []
      by_cases hn : c = newline
      · rw [if_pos hn]
        refine ih (i + 1) (by omega) (by omega) (by omega) (fun k hk0 hk1 => ?_) |>.imp ?_
        · by_cases hki : k = i
          · rw [hki, hc, hn]
          · exact hall k hk0 (by omega)
        · rintro nb ⟨h, hcase⟩
          refine ⟨h, ?_⟩
          rcases hcase with h | ⟨h2, h3⟩
          · exact Or.inl h
          · exact Or.inr ⟨by omega, h3⟩
      · rw [if_neg hn]
        exact ⟨i, rfl, Or.inr ⟨le_refl _, hi, ⟨c, hc, hn⟩, hall⟩⟩
    · rw [if_neg hi]
      exact ⟨0, rfl, Or.inl ⟨rfl, fun k hk0 hk1 => hall k hk0 (by omega)⟩⟩

/-- What the second loop of `trimNewLines` adds to `spacesAfter` on its way
down from `i`: every byte when all are newlines; otherwise the newlines above
the first byte `j` that is not one, and one more when that byte is a space or
a tab. -/
theorem trimTrailingLoop_last (w : GoString) :
    ∀ (fuel : Nat) (i la sa : Int), -1 ≤ i → i < len w → i + 1 < fuel →
      ∃ la' sa', trimTrailingLoop w fuel i la sa = some (la', sa') ∧
        (((∀ k, 0 ≤ k → k ≤ i → byteAt w k = some newline) ∧ sa' = sa + i + 1) ∨
          ∃ j c, 0 ≤ j ∧ j ≤ i ∧ byteAt w j = some c ∧ c ≠ newline ∧
            (∀ k, j < k → k ≤ i → byteAt w k = some newline) ∧
            sa' = sa + (i - j) + (if c = space ∨ c = tab then 1 else 0)) := by
  intro fuel
  induction fuel with
  | zero => intro i _ _ h1 _ h3; omega
  | succ n ih =>
    intro i la sa h1 h2 h3
    by_cases hi : i ≥ 0
    · obtain ⟨c, hc⟩ := byteAt_isSome (s := w) hi h2
      by_cases hn : c = newline
      · rw [hn] at hc
        rw [trimTrailingLoop_newline w n i la sa hc]
        obtain ⟨la', sa', he, hcase⟩ := ih (i - 1) (la + 1) (sa + 1) (by omega) (by omega)
          (by omega)
        refine ⟨la', sa', he, ?_⟩
        rcases hcase with ⟨hall, hsa⟩ | ⟨j, c', hj0, hji, hjc, hcn, hall, hsa⟩
        · refine Or.inl ⟨fun k hk0 hk1 => ?_, by omega⟩
          by_cases hki : k = i
          · rw [hki]; exact hc
          · exact hall k hk0 (by omega)
        · refine Or.inr ⟨j, c', hj0, by omega, hjc, hcn, fun k hk0 hk1 => ?_, by omega⟩
          by_cases hki : k = i
          · rw [hki]; exact hc
          · exact hall k hk0 (by omega)
      · rw [trimTrailingLoop_nonNewline w n i la sa hc hn]
        refine ⟨_, _, rfl, Or.inr ⟨i, c, hi, le_refl _, hc, hn, fun k hk0 hk1 => by omega, ?_⟩⟩
        split <;> omega
    · rw [trimTrailingLoop, if_neg hi]
      exact ⟨_, _, rfl, Or.inl ⟨fun k hk0 hk1 => by omega, by omega⟩⟩

/-- C31, as stated, fails: the text `a`, newline, space, newline loses its last
two bytes, and what `trimNewLines` returns ends with a newline. -/
theorem trimNewLines_ends_with_newline :
    trimNewLines "a\n \n".toList = some ("a\n".toList, 0, 1, 2) ∧
      "a\n".toList.getLast? = some newline := by
  decide

/-- C31, amended: for every text `trimNewLines` returns, the string returned
is `input[linesBefore : len(input)-spacesAfter]`, and it does not begin with a
newline. It ends with a newline exactly when the last byte of the text that is
not a newline is a space or a tab at some offset `j`, the byte before it is a
newline, and a byte that is not a newline stands before `j`. -/
theorem trimNewLines_result (input : GoString) :
    ∃ str nb la sa, trimNewLines input = some (str, nb, la, sa) ∧
      slice input nb (len input - sa) = some str ∧
      str.head? ≠ some newline ∧
      (str.getLast? = some newline ↔
        ∃ j k : Int, 0 ≤ k ∧ k < j ∧ (∃ c, byteAt input k = some c ∧ c ≠ newline) ∧
          (byteAt input j = some space ∨ byteAt input j = some tab) ∧
          byteAt input (j - 1) = some newline ∧
          ∀ i, j < i → i < len input → byteAt input i = some newline) := by
  obtain ⟨str, nb, la, sa, htrim, hnb0, hsa0, hsum, _, _⟩ := trimNewLines_spec input
  obtain ⟨hlead, htrail, hslice⟩ := trimNewLines_eq htrim
  have hl0 := len_nonneg input
  have hlen := slice_length hslice
  -- the first byte that is not a newline
  obtain ⟨nb', hnb', hfirst⟩ := trimLeadingLoop_first input (input.length + 1) 0 (le_refl _)
    (by unfold len; push_cast; omega) (by omega) (fun k h1 h2 => by omega)
  rw [hlead] at hnb'
  simp only [Option.some.injEq] at hnb'
  subst hnb'
  -- the last byte that is not a newline
  obtain ⟨la', sa', hts, hlast⟩ := trimTrailingLoop_last input (input.length + 1) (len input - 1)
    0 0 (by omega) (by omega) (by unfold len; push_cast; omega)
  rw [htrail] at hts
  simp only [Option.some.injEq, Prod.mk.injEq] at hts
  obtain ⟨_, hsa'⟩ := hts
  subst hsa'
  have hhead : str ≠ [] → str.head? = byteAt input nb := by
    intro hne
    have hpos : 0 < str.length := List.length_pos.mpr hne
    rw [List.head?_eq_getElem?, slice_getElem? hslice 0 (by omega)]
    simp
  have hgl : str ≠ [] → str.getLast? = byteAt input (len input - sa - 1) := by
    intro hne
    have hpos : 0 < str.length := List.length_pos.mpr hne
    rw [List.getLast?_eq_getElem?, slice_getElem? hslice (str.length - 1) (by omega)]
    congr 1
    omega
  refine ⟨str, nb, la, sa, htrim, hslice, ?_, ?_⟩
  · -- the head
    intro hh
    have hne : str ≠ [] := by intro h; rw [h] at hh; cases hh
    rw [hhead hne] at hh
    have hpos : 0 < str.length := List.length_pos.mpr hne
    rcases hfirst with ⟨_, hall⟩ | ⟨_, _, ⟨c, hc, hcn⟩, _⟩
    · -- every byte is a newline: nothing is left
      rcases hlast with ⟨_, hsa⟩ | ⟨j, c, hj0, hj1, hjc, hcn, _⟩
      · omega
      · rw [hall j hj0 (by omega)] at hjc
        exact hcn (Option.some.inj hjc).symm
    · rw [hc] at hh
      exact hcn (Option.some.inj hh)
  · constructor
    · intro hg
      have hne : str ≠ [] := by intro h; rw [h] at hg; cases hg
      have hpos : 0 < str.length := List.length_pos.mpr hne
      rw [hgl hne] at hg
      rcases hlast with ⟨_, hsa⟩ | ⟨j, c, hj0, hj1, hjc, hcn, hall, hsa⟩
      · omega
      · by_cases hbl : c = space ∨ c = tab
        · rw [if_pos hbl] at hsa
          have hj : len input - sa = j := by omega
          rcases hfirst with ⟨_, hall'⟩ | ⟨_, hnl, ⟨c', hc', hcn'⟩, _⟩
          · rw [hall' j hj0 (by omega)] at hjc
            exact absurd (Option.some.inj hjc).symm hcn
          · refine ⟨j, nb, hnb0, by omega, ⟨c', hc', hcn'⟩, ?_, by rw [← hj]; exact hg,
              fun i hi1 hi2 => hall i hi1 (by omega)⟩
            rcases hbl with h | h
            · exact Or.inl (by rw [hjc, h])
            · exact Or.inr (by rw [hjc, h])
        · rw [if_neg hbl] at hsa
          have hj : len input - sa - 1 = j := by omega
          rw [hj, hjc] at hg
          exact absurd (Option.some.inj hg) hcn
    · rintro ⟨j, k, hk0, hkj, ⟨ck, hck, hckn⟩, hjb, hjp, hafter⟩
      have hjlt : j < len input := by
        rcases hjb with h | h <;> exact (byteAt_eq_some h).2.1
      rcases hlast with ⟨hall, _⟩ | ⟨j', c, hj0, hj1, hjc, hcn, hall, hsa⟩
      · rw [hall k hk0 (by omega)] at hck
        exact absurd (Option.some.inj hck).symm hckn
      · have hjj : j' = j := by
          by_contra hne
          rcases lt_or_gt_of_ne hne with hlt | hgt
          · have := hall j hlt (by omega)
            rcases hjb with h | h <;> rw [h] at this <;>
              exact absurd (Option.some.inj this) (by decide)
          · have := hafter j' hgt (by omega)
            rw [hjc] at this
            exact hcn (Option.some.inj this)
        subst hjj
        have hbl : c = space ∨ c = tab := by
          rcases hjb with h | h
          · rw [hjc] at h; exact Or.inl (Option.some.inj h)
          · rw [hjc] at h; exact Or.inr (Option.some.inj h)
        rw [if_pos hbl] at hsa
        have hnbk : nb ≤ k := by
          rcases hfirst with ⟨_, hall'⟩ | ⟨_, _, _, hbefore⟩
          · omega
          · by_contra hlt
            rw [hbefore k hk0 (by omega)] at hck
            exact hckn (Option.some.inj hck).symm
        have hne : str ≠ [] := by
          intro h
          rw [h] at hlen
          simp at hlen
          omega
        rw [hgl hne]
        have : len input - sa - 1 = j' - 1 := by omega
        rw [this]
        exact hjp

theorem filter_flushRun (run : Nat) :
    (flushRun run).filter (fun c => decide (c ≠ newline)) = [] := by
  unfold flushRun
  split
  · simp
  · rw [List.filter_eq_nil_iff]
    intro c hc
    rw [List.eq_of_mem_replicate hc]
    simp

theorem filter_replaceManyLinesGo :
    ∀ (s : GoString) (run : Nat),
      (replaceManyLinesGo run s).filter (fun c => decide (c ≠ newline)) =
        s.filter (fun c => decide (c ≠ newline)) := by
  intro s
  induction s with
  | nil =>
    intro run
    rw [replaceManyLinesGo, filter_flushRun]
    rfl
  | cons c rest ih =>
    intro run
    rw [replaceManyLinesGo]
    by_cases hc : c = newline
    · rw [if_pos hc, ih, hc]
      simp
    · rw [if_neg hc, List.filter_append, filter_flushRun, List.nil_append,
        List.filter_cons, List.filter_cons, ih]

theorem filter_dropWhile_newline :
    ∀ (s : GoString),
      (s.dropWhile (fun c => decide (c = newline))).filter (fun c => decide (c ≠ newline)) =
        s.filter (fun c => decide (c ≠ newline)) := by
  intro s
  induction s with
  | nil => rfl
  | cons c rest ih =>
    by_cases hc : c = newline
    · rw [List.dropWhile_cons_of_pos (by simpa using hc), ih, hc]
      simp
    · rw [List.dropWhile_cons_of_neg (by simpa using hc)]

theorem filter_replaceLinesToClosureGo :
    ∀ (s : GoString) (mode : ClosureMode),
      (replaceLinesToClosureGo mode s).filter (fun c => decide (c ≠ newline)) =
        s.filter (fun c => decide (c ≠ newline)) := by
  intro s
  induction s with
  | nil =>
    intro mode
    cases mode <;> rfl
  | cons c rest ih =>
    intro mode
    cases mode with
    | outside =>
      rw [replaceLinesToClosureGo]
      split
      · rename_i h
        rw [List.filter_cons, List.filter_cons, ih, h.1]
      · rw [List.filter_cons, List.filter_cons, ih]
    | newlines =>
      rw [replaceLinesToClosureGo]
      split
      · rename_i h
        rw [ih, h]
        simp
      · split
        · rw [List.filter_cons, List.filter_cons, ih]
        · rw [List.filter_cons, List.filter_cons, ih]
    | group =>
      rw [replaceLinesToClosureGo]
      split
      · rw [List.filter_cons, List.filter_cons, ih]
      · rw [List.filter_cons, List.filter_cons, ih]

theorem filter_replaceEndLine (s : GoString) :
    (replaceEndLine s).filter (fun c => decide (c ≠ newline)) =
      s.filter (fun c => decide (c ≠ newline)) := by
  unfold replaceEndLine
  split
  · rw [List.filter_append, List.filter_reverse, filter_dropWhile_newline, List.filter_reverse,
      List.reverse_reverse]
    simp
  · rfl

/-- C32: `removeExtraLines` deletes newline characters only: the result
without its newlines is the text without its newlines. -/
theorem removeExtraLines_deletes_newlines_only (str : GoString) :
    (removeExtraLines str).filter (fun c => decide (c ≠ newline)) =
      str.filter (fun c => decide (c ≠ newline)) := by
  unfold removeExtraLines replaceLinesToClosure replaceStartLine replaceManyLines
  rw [filter_replaceEndLine, filter_replaceLinesToClosureGo, filter_dropWhile_newline,
    filter_replaceManyLinesGo]

/-! ### `MutateConfig`: which buffers of `genCfg.Sources` are dropped -/

theorem eraseP_comm {α : Type} (p q : α → Bool) (hpq : ∀ a, p a = true → q a = true → False) :
    ∀ l : List α, (l.eraseP p).eraseP q = (l.eraseP q).eraseP p := by
  intro l
  induction l with
  | nil => rfl
  | cons a rest ih =>
    by_cases hp : p a = true
    · have hq : ¬ q a = true := fun hq => hpq a hp hq
      rw [List.eraseP_cons_of_pos hp, List.eraseP_cons_of_neg hq, List.eraseP_cons_of_pos hp]
    · by_cases hq : q a = true
      · rw [List.eraseP_cons_of_neg hp, List.eraseP_cons_of_pos hq, List.eraseP_cons_of_pos hq]
      · rw [List.eraseP_cons_of_neg hp, List.eraseP_cons_of_neg hq, List.eraseP_cons_of_neg hq,
          List.eraseP_cons_of_neg hp, ih]

theorem withoutDropped_nil (key : Nat → GoString) (l : List Nat) :
    withoutDropped key [] l = l := rfl

theorem withoutDropped_cons (key : Nat → GoString) (n : GoString) (names : List GoString)
    (l : List Nat) :
    withoutDropped key (n :: names) l =
      withoutDropped key names (l.eraseP (fun a => decide (key a = n))) := rfl

theorem withoutDropped_append (key : Nat → GoString) (d1 d2 : List GoString) (l : List Nat) :
    withoutDropped key (d1 ++ d2) l = withoutDropped key d2 (withoutDropped key d1 l) := by
  unfold withoutDropped
  rw [List.foldl_append]

theorem withoutDropped_perm (key : Nat → GoString) {d1 d2 : List GoString} (hp : d1.Perm d2) :
    d1.Nodup → ∀ l, withoutDropped key d1 l = withoutDropped key d2 l := by
  induction hp with
  | nil => intro _ l; rfl
  | cons x _ ih =>
    intro hn l
    rw [withoutDropped_cons, withoutDropped_cons]
    exact ih (List.nodup_cons.mp hn).2 _
  | swap x y d =>
    intro hn l
    rw [withoutDropped_cons, withoutDropped_cons, withoutDropped_cons, withoutDropped_cons]
    have hxy : y ≠ x := by
      intro e
      have := (List.nodup_cons.mp hn).1
      rw [e] at this
      exact this (List.mem_cons_self _ _)
    rw [eraseP_comm]
    intro a h1 h2
    simp only [decide_eq_true_eq] at h1 h2
    first | exact hxy (h2.symm.trans h1) | exact hxy (h1.symm.trans h2)
  | trans h12 _ ih1 ih2 =>
    intro hn l
    rw [ih1 hn l, ih2 (h12.nodup_iff.mp hn) l]

theorem eraseP_key_congr (key1 key2 : Nat → GoString) (n : GoString) :
    ∀ l : List Nat, (∀ a ∈ l, key1 a = key2 a) →
      l.eraseP (fun a => decide (key1 a = n)) = l.eraseP (fun a => decide (key2 a = n)) := by
  intro l
  induction l with
  | nil => intro _; rfl
  | cons a rest ih =>
    intro h
    have ha := h a (List.mem_cons_self _ _)
    have hr := ih (fun b hb => h b (List.mem_cons_of_mem _ hb))
    simp only [List.eraseP_cons, ha, hr]

theorem withoutDropped_congr (key1 key2 : Nat → GoString) :
    ∀ (names : List GoString) (l : List Nat), (∀ a ∈ l, key1 a = key2 a) →
      withoutDropped key1 names l = withoutDropped key2 names l := by
  intro names
  induction names with
  | nil => intro l _; rfl
  | cons n rest ih =>
    intro l h
    rw [withoutDropped_cons, withoutDropped_cons, eraseP_key_congr key1 key2 n l h]
    exact ih _ (fun a ha => h a (List.mem_of_mem_eraseP ha))

theorem mem_withoutDropped (key : Nat → GoString) (a : Nat) :
    ∀ (names : List GoString) (l : List Nat), a ∈ l → key a ∉ names →
      a ∈ withoutDropped key names l := by
  intro names
  induction names with
  | nil => intro l h _; exact h
  | cons n rest ih =>
    intro l h hk
    rw [withoutDropped_cons]
    refine ih _ ?_ (fun hm => hk (List.mem_cons_of_mem _ hm))
    rw [List.mem_eraseP_of_neg]
    · exact h
    · simp only [decide_eq_true_eq]
      intro e
      exact hk (e ▸ List.mem_cons_self _ _)

theorem NamesKept_refl (s : TypesSplitterPlugin) : NamesKept s s := fun _ _ h => h

theorem NamesKept_trans {s t u : TypesSplitterPlugin} (h1 : NamesKept s t) (h2 : NamesKept t u) :
    NamesKept s u := fun a n h => h2 a n (h1 a n h)

theorem NamesKept_of_eq {s t : TypesSplitterPlugin}
    (h : ∀ b : Nat, (t.astSources[b]?).map (fun (x : Source) => x.Name) =
      (s.astSources[b]?).map (fun (x : Source) => x.Name)) : NamesKept s t := by
  intro a n ha
  rw [h a]; exact ha

theorem SourcesFrame_refl (s : TypesSplitterPlugin) : SourcesFrame s s :=
  ⟨rfl, rfl, NamesKept_refl s⟩

theorem SourcesFrame_trans {s t u : TypesSplitterPlugin} (h1 : SourcesFrame s t)
    (h2 : SourcesFrame t u) : SourcesFrame s u :=
  ⟨h2.1.trans h1.1, h2.2.1.trans h1.2.1, NamesKept_trans h1.2.2 h2.2.2⟩

theorem SourcesDropped_of_frame {s t : TypesSplitterPlugin} (h : SourcesFrame s t) :
    SourcesDropped s t [] := by
  unfold SourcesDropped
  refine ⟨List.nodup_nil, (fun n hn => by cases hn), ?_, h.2.2, fun key _ => ?_⟩
  · rw [h.2.1]; simp
  · rw [withoutDropped_nil]; exact h.1

theorem SourcesDropped_trans {s t u : TypesSplitterPlugin} {d1 d2 : List GoString}
    (h1 : SourcesDropped s t d1) (h2 : SourcesDropped t u d2) :
    SourcesDropped s u (d1 ++ d2) := by
  unfold SourcesDropped at h1 h2 ⊢
  obtain ⟨n1, m1, k1, a1, g1⟩ := h1
  obtain ⟨n2, m2, k2, a2, g2⟩ := h2
  have hin : ∀ n ∈ d2, n ∈ s.sourcesFields.map (fun e => e.1) ∧ n ∉ d1 := by
    intro n hn
    have := m2 n hn
    rw [k1, List.mem_filter] at this
    exact ⟨this.1, by simpa using this.2⟩
  refine ⟨?_, ?_, ?_, NamesKept_trans a1 a2, ?_⟩
  · rw [List.nodup_append]
    refine ⟨n1, n2, ?_⟩
    intro x hx1 hx2
    exact (hin x hx2).2 hx1
  · intro n hn
    rcases List.mem_append.mp hn with h | h
    · exact m1 n h
    · exact (hin n h).1
  · rw [k2, k1, List.filter_filter]
    congr 1
    funext n
    simp only [List.mem_append, not_or, Bool.decide_and, Bool.and_comm]
  · intro key hkey
    rw [withoutDropped_append, g2 key hkey]
    congr 1
    apply g1
    intro a n ha
    exact hkey a n (a2 a n ha)

theorem SourcesDropped_frame_left {s t u : TypesSplitterPlugin} {d : List GoString}
    (h1 : SourcesFrame s t) (h2 : SourcesDropped t u d) : SourcesDropped s u d := by
  have := SourcesDropped_trans (SourcesDropped_of_frame h1) h2
  simpa using this

theorem SourcesDropped_frame_right {s t u : TypesSplitterPlugin} {d : List GoString}
    (h1 : SourcesDropped s t d) (h2 : SourcesFrame t u) : SourcesDropped s u d := by
  have := SourcesDropped_trans h1 (SourcesDropped_of_frame h2)
  simpa using this

theorem removeSource_key (s : TypesSplitterPlugin) (name : GoString) (key : Nat → GoString)
    (hkey : ∀ (a : Nat) (n : GoString),
      (s.astSources[a]?).map (fun (b : Source) => b.Name) = some n → key a = n) :
    ∀ (l kept : List Nat), removeSource s name l = some kept →
      kept = l.eraseP (fun a => decide (key a = name)) := by
  intro l
  induction l with
  | nil =>
    intro kept h
    simp only [removeSource, Option.some.injEq] at h
    rw [← h]; rfl
  | cons a rest ih =>
    intro kept h
    simp only [removeSource] at h
    cases hs : s.astSources[a]? with
    | none => rw [hs] at h; cases h
    | some src =>
      have hk : key a = src.Name := hkey a src.Name (by rw [hs]; rfl)
      rw [hs] at h
      simp only at h
      by_cases he : src.Name = name
      · rw [if_pos he] at h
        simp only [Option.some.injEq] at h
        rw [← h, List.eraseP_cons_of_pos]
        simp [hk, he]
      · rw [if_neg he] at h
        cases hr : removeSource s name rest with
        | none => rw [hr] at h; cases h
        | some l' =>
          rw [hr] at h
          simp only [Option.some.injEq] at h
          rw [← h, List.eraseP_cons_of_neg, ← ih l' hr]
          simp [hk, he]

theorem mem_keys_of_lookup {α : Type} (name : GoString) :
    ∀ (m : List (GoString × α)) (v : α), m.lookup name = some v →
      name ∈ m.map (fun e => e.1) := by
  intro m
  induction m with
  | nil => intro v h; cases h
  | cons e rest ih =>
    intro v h
    obtain ⟨k, w⟩ := e
    by_cases hk : name = k
    · subst hk
      exact List.mem_cons_self _ _
    · rw [List.lookup_cons] at h
      have : (name == k) = false := by simpa using hk
      rw [this] at h
      exact List.mem_cons_of_mem _ (ih v h)

theorem keys_filter_ne (m : List (GoString × List Nat)) (name : GoString) :
    (m.filter (fun e => decide (e.1 ≠ name))).map (fun e => e.1) =
      (m.map (fun e => e.1)).filter (fun n => decide (n ∉ [name])) := by
  induction m with
  | nil => rfl
  | cons e rest ih =>
    by_cases h : e.1 = name
    · rw [List.filter_cons_of_neg (by simpa using h), List.map_cons,
        List.filter_cons_of_neg (by simpa using h)]
      exact ih
    · rw [List.filter_cons_of_pos (by simpa using h), List.map_cons, List.map_cons,
        List.filter_cons_of_pos (by simpa using h), ih]

/-- The two ways `dropEmptySource` returns without an error: nothing changes,
or the buffer leaves `genCfg.Sources` and its record leaves `sourcesFields`. -/
theorem dropEmptySource_record {s t : TypesSplitterPlugin} {name : GoString} {r : Bool}
    (h : dropEmptySource s name = some (t, r, none)) :
    t = s ∨
    (removeSource s name s.genCfgSources = some t.genCfgSources ∧
      t.astSources = s.astSources ∧
      t.sourcesFields = s.sourcesFields.filter (fun e => decide (e.1 ≠ name)) ∧
      name ∈ s.sourcesFields.map (fun e => e.1)) := by
  unfold dropEmptySource at h
  simp only at h
  cases hst : stillReferenced s name ((s.sourcesFields.lookup name).getD []) with
  | none => rw [hst] at h; cases h
  | some b =>
    rw [hst] at h
    cases b with
    | true =>
      simp only [Option.some.injEq, Prod.mk.injEq] at h
      exact Or.inl h.1.symm
    | false =>
      right
      simp only at h
      cases hk : removeSource s name s.genCfgSources with
      | none => rw [hk] at h; cases h
      | some kept =>
        rw [hk] at h
        simp only at h
        cases hh : ((s.sourcesFields.lookup name).getD []).head? with
        | none => rw [hh] at h; cases h
        | some firstField =>
          have hmem : name ∈ s.sourcesFields.map (fun e => e.1) := by
            cases hl : s.sourcesFields.lookup name with
            | none => rw [hl] at hh; cases hh
            | some v => exact mem_keys_of_lookup name _ v hl
          rw [hh] at h
          simp only at h
          split at h
          · rename_i first firstPos firstName h1 h2 h3
            split at h
            · cases h
            · rename_i w hw
              split at h
              · cases h
              · rename_i wcell hwc
                split at h
                · simp only [Option.some.injEq, Prod.mk.injEq] at h
                  exact absurd h.2.2 (by simp)
                · rename_i root hroot
                  split at h
                  · cases h
                  · rename_i s3 hs3
                    simp only [Option.some.injEq, Prod.mk.injEq] at h
                    obtain ⟨rfl, _, _⟩ := h
                    unfold setRootSource at hs3
                    split at hs3
                    · cases hs3
                    · split at hs3
                      · cases hs3
                      · split at hs3
                        · cases hs3
                        · simp only [Option.some.injEq] at hs3
                          subst hs3
                          exact ⟨rfl, rfl, rfl, hmem⟩
          · cases h

theorem dropEmptySource_dropped {s t : TypesSplitterPlugin} {name : GoString} {r : Bool}
    (h : dropEmptySource s name = some (t, r, none)) : ∃ names, SourcesDropped s t names := by
  rcases dropEmptySource_record h with rfl | ⟨hrem, hast, hrec, hmem⟩
  · exact ⟨[], SourcesDropped_of_frame (SourcesFrame_refl _)⟩
  · refine ⟨[name], List.nodup_singleton _, ?_, ?_, ?_, ?_⟩
    · intro n hn
      rw [List.mem_singleton] at hn
      rw [hn]; exact hmem
    · rw [hrec]; exact keys_filter_ne _ _
    · intro a n ha
      rw [hast]; exact ha
    · intro key hkey
      rw [hast] at hkey
      exact removeSource_key s name key hkey _ _ hrem

theorem exciseQueryField_sourcesFrame {s t : TypesSplitterPlugin} {f a : Nat}
    (h : exciseQueryField s f a = some t) : SourcesFrame s t := by
  obtain ⟨e1, _, e3, _, _, _, e7⟩ := exciseQueryField_frame h
  exact ⟨e1, e3, NamesKept_of_eq e7⟩

theorem moveQueryFieldLoop_dropped (f : Nat) :
    ∀ (l : List Nat) (s t : TypesSplitterPlugin) (r : Bool),
      moveQueryFieldLoop s f l = some (t, r, none) → ∃ names, SourcesDropped s t names := by
  intro l
  induction l with
  | nil =>
    intro s t r h
    simp only [moveQueryFieldLoop, Option.some.injEq, Prod.mk.injEq] at h
    rw [← h.1]
    exact ⟨[], SourcesDropped_of_frame (SourcesFrame_refl _)⟩
  | cons q rest ih =>
    intro s t r h
    rw [moveQueryFieldLoop] at h
    split at h
    · cases h
    · split at h
      · exact ih _ _ _ h
      · split at h
        · cases h
        · split at h
          · cases h
          · split at h
            · split at h
              · cases h
              · split at h
                · cases h
                · split at h
                  · cases h
                  · rename_i hex
                    obtain ⟨names, hd⟩ := dropEmptySource_dropped h
                    exact ⟨names, SourcesDropped_frame_left (exciseQueryField_sourcesFrame hex) hd⟩
            · exact ih _ _ _ h

theorem moveQueryField_dropped {s t : TypesSplitterPlugin} {d : Option Nat} {f : Nat}
    {r : Bool} (h : moveQueryField s d f = some (t, r, none)) :
    ∃ names, SourcesDropped s t names := by
  unfold moveQueryField at h
  split at h
  · cases h
  · split at h
    · cases h
    · exact moveQueryFieldLoop_dropped _ _ _ _ _ h

theorem NamesKept_append (s : TypesSplitterPlugin) (x : Source) (a : Nat) (n : GoString)
    (h : (s.astSources[a]?).map (fun (b : Source) => b.Name) = some n) :
    ((s.astSources ++ [x])[a]?).map (fun (b : Source) => b.Name) = some n := by
  have hlt : a < s.astSources.length := by
    by_contra hge
    rw [List.getElem?_eq_none (by omega)] at h
    cases h
  rw [List.getElem?_append_left hlt]
  exact h

theorem addFieldToNewSource_sourcesFrame {generated : GoString} {s t : TypesSplitterPlugin}
    {name : GoString} {typ : SourceType} {field : Nat}
    (h : addFieldToNewSource generated s name typ field = some t) : SourcesFrame s t := by
  unfold addFieldToNewSource at h
  cases hl : s.newSources.lookup name <;> rw [hl] at h <;> simp only at h <;>
    split at h <;> first
      | (simp only [Option.some.injEq] at h
         rw [← h]
         first
           | exact ⟨rfl, rfl, fun a n ha => ha⟩
           | exact ⟨rfl, rfl, fun a n ha => NamesKept_append s _ a n ha⟩)
      | cases h

theorem addTypeToNewSource_sourcesFrame {generated : GoString} {s t : TypesSplitterPlugin}
    {name : GoString} {definition : Nat}
    (h : addTypeToNewSource generated s name definition = some t) : SourcesFrame s t := by
  unfold addTypeToNewSource at h
  cases hl : s.newSources.lookup name <;> rw [hl] at h <;> simp only at h <;>
    split at h <;> first
      | (simp only [Option.some.injEq] at h
         rw [← h]
         first
           | exact ⟨rfl, rfl, fun a n ha => ha⟩
           | exact ⟨rfl, rfl, fun a n ha => NamesKept_append s _ a n ha⟩)
      | cases h

theorem mutateQueryField_dropped {R : Type} {rt : Runtime R} {cfg : SplitterConfig R}
    {s t : TypesSplitterPlugin} {sourceName : GoString} {field : Nat}
    (h : mutateQueryField rt cfg s sourceName field = some (t, none)) :
    ∃ names, SourcesDropped s t names := by
  unfold mutateQueryField at h
  split at h
  · cases h
  · split at h
    · cases h
    · split at h
      · cases h; exact ⟨[], SourcesDropped_of_frame (SourcesFrame_refl _)⟩
      · split at h
        · cases h; exact ⟨[], SourcesDropped_of_frame (SourcesFrame_refl _)⟩
        · simp only at h
          split at h
          · cases h; exact ⟨[], SourcesDropped_of_frame (SourcesFrame_refl _)⟩
          · split at h
            · cases h
            · split at h
              · cases h
              · rename_i hadd
                split at h
                · cases h
                · cases h
                · rename_i hmv
                  cases h
                  obtain ⟨names, hd⟩ := moveQueryField_dropped hmv
                  exact ⟨names,
                    SourcesDropped_frame_left (addFieldToNewSource_sourcesFrame hadd) hd⟩

theorem mutateQueryFields_dropped {R : Type} (rt : Runtime R) (cfg : SplitterConfig R)
    (sourceName : GoString) :
    ∀ (l : List Nat) (s t : TypesSplitterPlugin),
      mutateQueryFields rt cfg sourceName s l = some (t, none) →
      ∃ names, SourcesDropped s t names := by
  intro l
  induction l with
  | nil =>
    intro s t h
    simp only [mutateQueryFields] at h
    cases h
    exact ⟨[], SourcesDropped_of_frame (SourcesFrame_refl _)⟩
  | cons f rest ih =>
    intro s t h
    rw [mutateQueryFields] at h
    split at h
    · cases h
    · cases h
    · rename_i h1
      obtain ⟨d1, hd1⟩ := mutateQueryField_dropped h1
      obtain ⟨d2, hd2⟩ := ih _ _ h
      exact ⟨d1 ++ d2, SourcesDropped_trans hd1 hd2⟩

theorem mutateQueryTypesLoop_dropped {R : Type} (rt : Runtime R) (cfg : SplitterConfig R) :
    ∀ (l : List GoString) (s t : TypesSplitterPlugin),
      mutateQueryTypesLoop rt cfg s l = some (t, none) →
      ∃ names, SourcesDropped s t names := by
  intro l
  induction l with
  | nil =>
    intro s t h
    simp only [mutateQueryTypesLoop] at h
    cases h
    exact ⟨[], SourcesDropped_of_frame (SourcesFrame_refl _)⟩
  | cons k rest ih =>
    intro s t h
    rw [mutateQueryTypesLoop] at h
    split at h
    · exact ih _ _ h
    · split at h
      · cases h
      · cases h
      · rename_i h1
        obtain ⟨d1, hd1⟩ := mutateQueryFields_dropped _ _ _ _ _ _ h1
        obtain ⟨d2, hd2⟩ := ih _ _ h
        exact ⟨d1 ++ d2, SourcesDropped_trans hd1 hd2⟩

theorem exciseType_sourcesFrame {s t : TypesSplitterPlugin} {d a : Nat}
    (h : exciseType s d a = some t) : SourcesFrame s t := by
  obtain ⟨src, moved, types, input, offset, offsetLine, s2, moved2, node, p, hsrc, _, _, _, hsh, _,
    _, _, hset⟩ := exciseType_eq h
  have h1 := (shiftTypes_frame _ _ _ _ _ hsh).1
  have h2 := (setFieldSources_frame _ _ _ _ hset).1
  have g1 := congrArg TypesSplitterPlugin.genCfgSources h1
  have g2 := congrArg TypesSplitterPlugin.genCfgSources h2
  have f1 := congrArg TypesSplitterPlugin.sourcesFields h1
  have f2 := congrArg TypesSplitterPlugin.sourcesFields h2
  have a1 := congrArg TypesSplitterPlugin.astSources h1
  have a2 := congrArg TypesSplitterPlugin.astSources h2
  simp only at g1 g2 f1 f2 a1 a2
  refine ⟨by rw [g2, g1], by rw [f2, f1], NamesKept_of_eq ?_⟩
  intro b
  rw [a2, a1]
  simp only [List.getElem?_set]
  split
  · rename_i hb
    subst hb
    split
    · rw [hsrc]; rfl
    · rename_i hlt
      rw [List.getElem?_eq_none (by omega)]
  · rfl

theorem moveTypeLoop_sourcesFrame (d : Nat) :
    ∀ (l : List Nat) (s t : TypesSplitterPlugin),
      moveTypeLoop s d l = some t → SourcesFrame s t := by
  intro l
  induction l with
  | nil =>
    intro s t h
    simp only [moveTypeLoop, Option.some.injEq] at h
    rw [← h]
    exact SourcesFrame_refl _
  | cons c rest ih =>
    intro s t h
    rw [moveTypeLoop] at h
    split at h
    · split at h
      · split at h
        · cases h
        · split at h
          · cases h
          · exact exciseType_sourcesFrame h
      · exact ih _ _ h
    · cases h

theorem moveType_sourcesFrame {s t : TypesSplitterPlugin} {w : Option Nat} {d : Nat}
    (h : moveType s w d = some t) : SourcesFrame s t := by
  unfold moveType at h
  split at h
  · cases h
  · split at h
    · cases h
    · exact moveTypeLoop_sourcesFrame _ _ _ _ h

theorem mutateObjectType_sourcesFrame {R : Type} {rt : Runtime R} {cfg : SplitterConfig R}
    {s t : TypesSplitterPlugin} {sourceName : GoString} {definition : Nat}
    {e : Option MutateError}
    (h : mutateObjectType rt cfg s sourceName definition = some (t, e)) :
    SourcesFrame s t := by
  unfold mutateObjectType at h
  split at h
  · split at h
    · cases h; exact SourcesFrame_refl _
    · split at h
      · cases h; exact SourcesFrame_refl _
      · simp only at h
        split at h
        · cases h; exact SourcesFrame_refl _
        · split at h
          · cases h; exact SourcesFrame_refl _
          · split at h
            · cases h
            · rename_i hadd
              split at h
              · cases h
              · rename_i hmv
                cases h
                exact SourcesFrame_trans (addTypeToNewSource_sourcesFrame hadd)
                  (moveType_sourcesFrame hmv)
  · cases h

theorem mutateObjectTypesOf_sourcesFrame {R : Type} (rt : Runtime R) (cfg : SplitterConfig R)
    (sourceName : GoString) :
    ∀ (l : List Nat) (s t : TypesSplitterPlugin) (e : Option MutateError),
      mutateObjectTypesOf rt cfg sourceName s l = some (t, e) → SourcesFrame s t := by
  intro l
  induction l with
  | nil =>
    intro s t e h
    simp only [mutateObjectTypesOf] at h
    cases h
    exact SourcesFrame_refl _
  | cons f rest ih =>
    intro s t e h
    rw [mutateObjectTypesOf] at h
    split at h
    · cases h
    · rename_i h1
      cases h
      exact mutateObjectType_sourcesFrame h1
    · rename_i h1
      exact SourcesFrame_trans (mutateObjectType_sourcesFrame h1) (ih _ _ _ h)

theorem mutateObjectTypesLoop_sourcesFrame {R : Type} (rt : Runtime R)
    (cfg : SplitterConfig R) :
    ∀ (l : List GoString) (s t : TypesSplitterPlugin) (e : Option MutateError),
      mutateObjectTypesLoop rt cfg s l = some (t, e) → SourcesFrame s t := by
  intro l
  induction l with
  | nil =>
    intro s t e h
    simp only [mutateObjectTypesLoop] at h
    cases h
    exact SourcesFrame_refl _
  | cons k rest ih =>
    intro s t e h
    rw [mutateObjectTypesLoop] at h
    split at h
    · exact ih _ _ _ h
    · split at h
      · cases h
      · rename_i h1
        cases h
        exact mutateObjectTypesOf_sourcesFrame _ _ _ _ _ _ _ h1
      · rename_i h1
        exact SourcesFrame_trans (mutateObjectTypesOf_sourcesFrame _ _ _ _ _ _ _ h1)
          (ih _ _ _ h)

theorem mutatePasses_dropped {R : Type} {rt : Runtime R} {cfg : SplitterConfig R}
    {s t : TypesSplitterPlugin} (h : mutatePasses rt cfg s = some (t, none)) :
    ∃ names, SourcesDropped s t names := by
  unfold mutatePasses at h
  have hq : ∀ (u : TypesSplitterPlugin),
      (if cfg.QueryConfig.length > 0 then mutateQueryTypes rt cfg s else some (s, none)) =
        some (u, none) → ∃ names, SourcesDropped s u names := by
    intro u h1
    split at h1
    · exact mutateQueryTypesLoop_dropped _ _ _ _ _ h1
    · cases h1
      exact ⟨[], SourcesDropped_of_frame (SourcesFrame_refl _)⟩
  split at h
  · cases h
  · cases h
  · rename_i h1
    obtain ⟨names, hd⟩ := hq _ h1
    split at h
    · exact ⟨names, SourcesDropped_frame_right hd
        (mutateObjectTypesLoop_sourcesFrame _ _ _ _ _ _ h)⟩
    · cases h
      exact ⟨names, hd⟩

theorem wrapSourceFields_records (typ : DefObjectType) (fieldTyp : FieldDefType) :
    ∀ (l : List Nat) (s s' : TypesSplitterPlugin) (r : List Nat),
      wrapSourceFields typ fieldTyp s l = some (s', r) →
      s'.astSources = s.astSources ∧ s'.sourcesFields = s.sourcesFields := by
  intro l
  induction l with
  | nil =>
    intro s s' r h
    simp only [wrapSourceFields, Option.some.injEq, Prod.mk.injEq] at h
    rw [← h.1]
    exact ⟨rfl, rfl⟩
  | cons f rest ih =>
    intro s s' r h
    rw [wrapSourceFields] at h
    split at h
    · cases h
    · split at h
      · exact ih _ _ _ h
      · split at h
        · split at h
          · cases h
          · rename_i h1
            simp only [Option.some.injEq, Prod.mk.injEq] at h
            rw [← h.1]
            have := ih _ _ _ h1
            exact this
        · cases h

theorem getSourceDefsLoop_records (src : Nat) (fieldTyp : FieldDefType) :
    ∀ (l : List (Option Nat)) (s s' : TypesSplitterPlugin) (typ : DefObjectType)
      (defs fields : List Nat),
      getSourceDefsLoop src fieldTyp s typ l = some (s', defs, fields) →
      s'.astSources = s.astSources ∧ s'.sourcesFields = s.sourcesFields := by
  intro l
  induction l with
  | nil =>
    intro s s' typ defs fields h
    simp only [getSourceDefsLoop, Option.some.injEq, Prod.mk.injEq] at h
    rw [← h.1]
    exact ⟨rfl, rfl⟩
  | cons d rest ih =>
    intro s s' typ defs fields h
    cases d with
    | none =>
      rw [getSourceDefsLoop] at h
      exact ih _ _ _ _ _ h
    | some d =>
      rw [getSourceDefsLoop] at h
      split at h
      · cases h
      · split at h
        · exact ih _ _ _ _ _ h
        · split at h
          · exact ih _ _ _ _ _ h
          · split at h
            · exact ih _ _ _ _ _ h
            · simp only at h
              split at h
              · split at h
                · cases h
                · rename_i hw
                  split at h
                  · cases h
                  · split at h
                    · cases h
                    · rename_i hrec
                      simp only [Option.some.injEq, Prod.mk.injEq] at h
                      rw [← h.1]
                      have e1 := ih _ _ _ _ _ hrec
                      have e2 := wrapSourceFields_records _ _ _ _ _ _ hw
                      simp only at e1 e2
                      exact ⟨e1.1.trans e2.1, e1.2.trans e2.2⟩
              · cases h

theorem getSourceDefs_records {s s' : TypesSplitterPlugin} {src : Nat}
    {srcDefs : List (Option Nat)} {typ : DefObjectType} {defs fields : List Nat}
    (h : getSourceDefs s src srcDefs typ = some (s', defs, fields)) :
    s'.astSources = s.astSources ∧ s'.sourcesFields = s.sourcesFields := by
  unfold getSourceDefs at h
  split at h
  · cases h
  · exact getSourceDefsLoop_records _ _ _ _ _ _ _ _ h

theorem mem_keys_mapSet {α : Type} (m : List (GoString × α)) (k : GoString) (v : α)
    (n : GoString) :
    n ∈ (mapSet m k v).map (fun e => e.1) ↔ n ∈ m.map (fun e => e.1) ∨ n = k := by
  unfold mapSet
  split
  · rename_i hany
    simp only [List.any_eq_true, decide_eq_true_eq] at hany
    obtain ⟨e, he, hek⟩ := hany
    simp only [List.map_map, List.mem_map, Function.comp_apply]
    constructor
    · rintro ⟨x, hx, rfl⟩
      by_cases hxk : x.1 = k
      · right; simp [hxk]
      · left; exact ⟨x, hx, by simp [hxk]⟩
    · rintro (⟨x, hx, rfl⟩ | rfl)
      · by_cases hxk : x.1 = k
        · exact ⟨x, hx, by simp [hxk]⟩
        · exact ⟨x, hx, by simp [hxk]⟩
      · exact ⟨e, he, by simp [hek]⟩
  · simp only [List.map_append, List.map_cons, List.map_nil, List.mem_append, List.mem_singleton]

/-- What `initSource` records: the buffer is in the memory, the memory of
buffers is as before, and `sourcesFields` has a record under the name of the
buffer besides the records it had. -/
theorem initSource_records {types : List Nat} {s s' : TypesSplitterPlugin} {cfgSource : Nat}
    (h : initSource types s cfgSource = some s') :
    ∃ buffer, s.astSources[cfgSource]? = some buffer ∧ s'.astSources = s.astSources ∧
      ∀ n, n ∈ s'.sourcesFields.map (fun e => e.1) ↔
        n ∈ s.sourcesFields.map (fun e => e.1) ∨ n = buffer.Name := by
  unfold initSource at h
  split at h
  · cases h
  · rename_i buffer hb
    refine ⟨buffer, hb, ?_⟩
    simp only at h
    split at h
    · cases h
    · rename_i h1
      split at h
      · cases h
      · split at h
        · cases h
        · rename_i h2
          split at h
          · cases h
          · rename_i h3
            split at h
            · cases h
            · rename_i h4
              simp only [Option.some.injEq] at h
              rw [← h]
              have e1 := getSourceDefs_records h1
              have e2 := getSourceDefs_records h2
              have e3 := getSourceDefs_records h3
              have e4 := getSourceDefs_records h4
              simp only [recordSourceDefs] at e2 e3 e4 ⊢
              refine ⟨by rw [e4.1, e3.1, e2.1, e1.1], fun n => ?_⟩
              rw [mem_keys_mapSet, e4.2, mem_keys_mapSet, e3.2, mem_keys_mapSet, e2.2,
                mem_keys_mapSet, e1.2]
              tauto

theorem initSourcesLoop_records (mapToList : Nat → List Nat) :
    ∀ (l : List Nat) (s s' : TypesSplitterPlugin),
      initSourcesLoop mapToList s l = some s' →
      s'.astSources = s.astSources ∧
        (∀ a ∈ l, ∃ buffer, s.astSources[a]? = some buffer) ∧
        ∀ n, n ∈ s'.sourcesFields.map (fun e => e.1) ↔
          n ∈ s.sourcesFields.map (fun e => e.1) ∨
            ∃ a ∈ l, ∃ buffer, s.astSources[a]? = some buffer ∧ buffer.Name = n := by
  intro l
  induction l with
  | nil =>
    intro s s' h
    simp only [initSourcesLoop, Option.some.injEq] at h
    rw [← h]
    simp
  | cons a rest ih =>
    intro s s' h
    rw [initSourcesLoop] at h
    split at h
    · cases h
    · rename_i s1 h1
      obtain ⟨buffer, hb, ha, hk⟩ := initSource_records h1
      obtain ⟨i1, i2, i3⟩ := ih _ _ h
      rw [ha] at i1 i2 i3
      refine ⟨i1, ?_, fun n => ?_⟩
      · intro x hx
        rcases List.mem_cons.mp hx with rfl | hx
        · exact ⟨buffer, hb⟩
        · exact i2 x hx
      · rw [i3 n, hk n]
        constructor
        · rintro ((h0 | rfl) | ⟨x, hx, b, hxb, rfl⟩)
          · exact Or.inl h0
          · exact Or.inr ⟨a, List.mem_cons_self _ _, buffer, hb, rfl⟩
          · exact Or.inr ⟨x, List.mem_cons_of_mem _ hx, b, hxb, rfl⟩
        · rintro (h0 | ⟨x, hx, b, hxb, rfl⟩)
          · exact Or.inl (Or.inl h0)
          · rcases List.mem_cons.mp hx with rfl | hx
            · rw [hb] at hxb
              simp only [Option.some.injEq] at hxb
              rw [hxb]
              exact Or.inl (Or.inr rfl)
            · exact Or.inr ⟨x, hx, b, hxb, rfl⟩

/-- What `init` records: every buffer of `genCfg.Sources` is in the memory, and
`sourcesFields` has a record exactly under the names of these buffers. -/
theorem init_records {mapToList : Nat → List Nat} {s s' : TypesSplitterPlugin}
    (h : init mapToList s = some s') :
    s'.astSources = s.astSources ∧
      (∀ a ∈ s.genCfgSources, ∃ buffer, s.astSources[a]? = some buffer) ∧
      ∀ n, n ∈ s'.sourcesFields.map (fun e => e.1) ↔
        ∃ a ∈ s.genCfgSources, ∃ buffer, s.astSources[a]? = some buffer ∧ buffer.Name = n := by
  unfold init initSources at h
  obtain ⟨i1, i2, i3⟩ := initSourcesLoop_records _ _ _ _ h
  simp only at i1 i2 i3
  refine ⟨i1, i2, fun n => ?_⟩
  rw [i3 n]
  simp

theorem GenerateInput_sourcesFields {render : Renderer} {s s' : TypesSplitterPlugin} {w : Nat}
    {e : Option MutateError} (h : GenerateInput render s w = some (s', e)) :
    s'.sourcesFields = s.sourcesFields := by
  unfold GenerateInput at h
  split at h
  · cases h
  · split at h
    · cases h; rfl
    · split at h
      · cases h; rfl
      · split at h
        · cases h
        · cases h; rfl

theorem appendNewSources_sourcesFields (render : Renderer) :
    ∀ (ws : List Nat) (s s' : TypesSplitterPlugin) (e : Option MutateError),
      appendNewSources render s ws = some (s', e) → s'.sourcesFields = s.sourcesFields := by
  intro ws
  induction ws with
  | nil =>
    intro s s' e h
    simp only [appendNewSources] at h
    cases h; rfl
  | cons w rest ih =>
    intro s s' e h
    rw [appendNewSources] at h
    split at h
    · cases h
    · rename_i hg
      cases h
      exact GenerateInput_sourcesFields hg
    · rename_i hg
      split at h
      · cases h
      · split at h
        · cases h
        · have := ih _ _ _ h
          simp only at this
          rw [this, GenerateInput_sourcesFields hg]

theorem sourceNameKey_of_name {s : TypesSplitterPlugin} {a : Nat} {n : GoString}
    (h : (s.astSources[a]?).map (fun (b : Source) => b.Name) = some n) :
    sourceNameKey s a = n := by
  unfold sourceNameKey
  cases hs : s.astSources[a]? with
  | none => rw [hs] at h; cases h
  | some b =>
    rw [hs] at h
    simp only [Option.map_some', Option.some.injEq] at h
    exact h

/-- C21: when `MutateConfig` returns without an error, on a runtime that
enumerates every key of `newSources` once, `genCfg.Sources` is sorted by name
in ascending bytewise order, and it holds, in some order, exactly the buffers
it held before the call without the dropped ones, followed by the buffer of
every entry of `newSources`. The dropped buffers are the first buffer of each
name that has no record in `sourcesFields` any more (`droppedNames`): every
buffer has its record after `init`, and `moveQueryField` deletes the record
of the buffer it takes out of `genCfg.Sources`. In particular a buffer whose
name still has its record is in the result. -/
theorem MutateConfig_sources_sorted {R : Type} (rt : Runtime R) (cfg : SplitterConfig R)
    (s s' : TypesSplitterPlugin)
    (hrange : ∀ keys, (rt.rangeNewSources keys).Perm keys)
    (h : MutateConfig rt cfg s = some (s', none)) :
    (s'.genCfgSources.map (sourceNameKey s')).Sorted (fun a b => stringLt b a = false) ∧
    s'.genCfgSources.Perm
      (withoutDropped (sourceNameKey s) (droppedNames s s') s.genCfgSources ++
        (newSourcesInOrder s' (s'.newSources.map (fun e => e.1))).filterMap
          (fun w => (s'.sourceCells[w]?).map (fun c => c.Source))) ∧
    ∀ a ∈ s.genCfgSources, sourceNameKey s a ∈ s'.sourcesFields.map (fun e => e.1) →
      a ∈ s'.genCfgSources := by
  unfold MutateConfig at h
  split at h
  · cases h
  · rename_i s0 hinit
    split at h
    · cases h
    · cases h
    · rename_i s1 hpass
      unfold finishConfig at h
      split at h
      · cases h
      · cases h
      · rename_i s2 happ
        simp only [Option.some.injEq, Prod.mk.injEq, and_true] at h
        obtain ⟨a1, a2, a3, a4⟩ := appendNewSources_eq _ _ _ _ happ
        have hkey : ∀ a, sourceNameKey s' a = sourceNameKey s2 a := by
          intro a; rw [← h]; rfl
        have hgen : s'.genCfgSources = sortByName s2 s2.genCfgSources := by rw [← h]
        have hcells : s'.sourceCells = s1.sourceCells := by rw [← h]; exact a2
        have hnew : s'.newSources = s1.newSources := by rw [← h]; exact a3
        have hsf2 : s2.sourcesFields = s1.sourcesFields :=
          appendNewSources_sourcesFields _ _ _ _ _ happ
        have hsf : s'.sourcesFields = s1.sourcesFields := by rw [← h]; exact hsf2
        obtain ⟨r1, r2, r3⟩ := init_records hinit
        have hg0 : s0.genCfgSources = s.genCfgSources := init_sources hinit
        obtain ⟨names, hd⟩ := mutatePasses_dropped hpass
        unfold SourcesDropped at hd
        obtain ⟨nd, md, kd, ad, gd⟩ := hd
        have hname : ∀ a ∈ s.genCfgSources, sourceNameKey s1 a = sourceNameKey s a := by
          intro a ha
          obtain ⟨buffer, hb⟩ := r2 a ha
          have h0 : (s0.astSources[a]?).map (fun (b : Source) => b.Name) = some buffer.Name := by
            rw [r1, hb]; rfl
          rw [sourceNameKey_of_name (ad a _ h0)]
          exact (sourceNameKey_of_name (by rw [hb]; rfl)).symm
        have hgen1 : s1.genCfgSources =
            withoutDropped (sourceNameKey s) names s.genCfgSources := by
          rw [gd (sourceNameKey s1) (fun a n ha => sourceNameKey_of_name ha), hg0]
          exact withoutDropped_congr _ _ _ _ hname
        have hkeys : ∀ n, n ∈ s0.sourcesFields.map (fun e => e.1) ↔
            n ∈ s.genCfgSources.map (sourceNameKey s) := by
          intro n
          rw [r3 n, List.mem_map]
          constructor
          · rintro ⟨a, ha, b, hb, rfl⟩
            exact ⟨a, ha, sourceNameKey_of_name (by rw [hb]; rfl)⟩
          · rintro ⟨a, ha, rfl⟩
            obtain ⟨b, hb⟩ := r2 a ha
            exact ⟨a, ha, b, hb, (sourceNameKey_of_name (by rw [hb]; rfl)).symm⟩
        have hperm : names.Perm (droppedNames s s') := by
          have hnd2 : (droppedNames s s').Nodup := by
            unfold droppedNames
            exact (List.nodup_dedup _).filter _
          refine (List.perm_ext_iff_of_nodup nd hnd2).mpr ?_
          intro n
          unfold droppedNames
          rw [List.mem_filter, List.mem_dedup, ← hkeys n, hsf, kd]
          simp only [List.mem_filter, decide_eq_true_eq, not_and, not_not]
          constructor
          · intro hn
            exact ⟨md n hn, fun _ => hn⟩
          · rintro ⟨h1, h2⟩
            exact h2 h1
        have hkept : s1.genCfgSources =
            withoutDropped (sourceNameKey s) (droppedNames s s') s.genCfgSources := by
          rw [hgen1]
          exact withoutDropped_perm _ hperm nd _
        have hres : s'.genCfgSources.Perm
            (withoutDropped (sourceNameKey s) (droppedNames s s') s.genCfgSources ++
              (newSourcesInOrder s' (s'.newSources.map (fun e => e.1))).filterMap
                (fun w => (s'.sourceCells[w]?).map (fun c => c.Source))) := by
          rw [hgen]
          refine (sortByName_perm s2 _).trans ?_
          rw [a1, hcells, hnew, ← hkept]
          refine List.Perm.append_left _ ?_
          refine List.Perm.filterMap _ ?_
          unfold newSourcesInOrder
          rw [hnew]
          exact List.Perm.filterMap _ (hrange _)
        refine ⟨?_, hres, ?_⟩
        · rw [hgen]
          have hs := sortByName_sorted s2 s2.genCfgSources
          unfold List.Sorted at hs ⊢
          rw [List.pairwise_map]
          refine hs.imp ?_
          intro a b hab
          rw [hkey a, hkey b]
          exact hab
        · intro a ha hrec
          refine hres.symm.subset (List.mem_append_left _ ?_)
          refine mem_withoutDropped _ _ _ _ ha ?_
          unfold droppedNames
          rw [List.mem_filter]
          intro hc
          have := hc.2
          simp only [decide_eq_true_eq] at this
          exact this hrec

/-- C21 at the run on `parsedTwoBuffers` that moves the root field `a`:
`schema.graphql` is dropped, the result is the new buffer `q.schema.graphql`
followed by `types.graphql`. -/
theorem MutateConfig_sources_sorted_witness :
    (pluginTwoBuffersConfigured.genCfgSources.map
        (sourceNameKey pluginTwoBuffersConfigured)).Sorted
        (fun a b => stringLt b a = false) ∧
    pluginTwoBuffersConfigured.genCfgSources.Perm
      (withoutDropped (sourceNameKey parsedTwoBuffers)
          (droppedNames parsedTwoBuffers pluginTwoBuffersConfigured)
          parsedTwoBuffers.genCfgSources ++
        (newSourcesInOrder pluginTwoBuffersConfigured
            (pluginTwoBuffersConfigured.newSources.map (fun e => e.1))).filterMap
          (fun w => (pluginTwoBuffersConfigured.sourceCells[w]?).map (fun c => c.Source))) ∧
    ∀ a ∈ parsedTwoBuffers.genCfgSources,
      sourceNameKey parsedTwoBuffers a ∈
          pluginTwoBuffersConfigured.sourcesFields.map (fun e => e.1) →
        a ∈ pluginTwoBuffersConfigured.genCfgSources :=
  MutateConfig_sources_sorted (sampleRuntime [0, 1]) routeQueryA parsedTwoBuffers
    pluginTwoBuffersConfigured (fun keys => List.Perm.refl keys) (by decide)

/-- The run of `MutateConfig` on `parsedTwoBuffers`: the buffers it returns,
the names it dropped and the buffers it kept. -/
theorem MutateConfig_parsedTwoBuffers :
    outputBuffers (MutateConfig (sampleRuntime [0, 1]) routeQueryA parsedTwoBuffers) =
      some [("q.schema.graphql".toList, "type Query \x7b\n  a: Int\n\x7d\n".toList),
        ("types.graphql".toList, "type T \x7b\n  x: Int\n\x7d\n".toList)] ∧
      droppedNames parsedTwoBuffers pluginTwoBuffersConfigured = ["schema.graphql".toList] ∧
      withoutDropped (sourceNameKey parsedTwoBuffers)
        (droppedNames parsedTwoBuffers pluginTwoBuffersConfigured)
        parsedTwoBuffers.genCfgSources = [1] ∧
      pluginTwoBuffersConfigured.genCfgSources = [2, 1] := by
  decide

/-- The run of `MutateConfig` on `parsedQT`: no buffer is dropped, the record
of `schema.graphql` is still there and the buffer is kept. -/
theorem MutateConfig_parsedQT_kept :
    droppedNames parsedQT pluginQTConfigured = [] ∧
      withoutDropped (sourceNameKey parsedQT) (droppedNames parsedQT pluginQTConfigured)
        parsedQT.genCfgSources = [0] ∧
      pluginQTConfigured.genCfgSources = [1, 0] := by
  decide

end TypesSplitter
